import Mathlib

/-!
# Line-ordering ILP of the transit map optimiser

A shallow embedding of `ILPOptimizer.cpp`: the model builder (`createProblem`,
`writeSameSegConstraints`, `writeDiffSegConstraints`), the decoder
(`getConfigurationFromSolution`), the expansion of relative lines
(`expandRelatives`, `expandRelativesFor`), the driver (`optimize`, `solveProblem`,
`preSolveCoinCbc`), the dump `printHumanReadable` and the triple buffer
`VariableMatrix`; of `TripOccurance::addTrip` of `EdgeTripGeom.h`; and of `addCol`,
`addRow` and the name-based `addColToRow` of `GurobiSolver.cpp`.

Pointers are natural numbers (`addr`); the MIP library is a record of columns and
rows with one-based ordinals, as in the library's interface.
-/

namespace Loom

/-! ## Data model -/

/-- Route: a transit line. `addr` is the identity of the object (the value of a
`const Route*`), `relativeTo` the address of the route it is bundled to. -/
structure Route where
  addr : Nat
  id : String
  relativeTo : Option Nat
  numCollapsedPartners : Nat
deriving DecidableEq

/-- Route occurrence on an edge: the route and the node it runs towards
(`none` for both directions). -/
structure RouteOccurrence where
  route : Route
  direction : Option Nat
deriving DecidableEq

/-- Edge of the transit graph (`graph::Edge`): endpoints are node addresses,
`trips` is the list behind `getTripsUnordered()`. -/
structure Edge where
  addr : Nat
  getFrom : Nat
  getTo : Nat
  trips : List RouteOccurrence
deriving DecidableEq

/-- Entry of `OptEdge::etgs`: an underlying edge and its direction flag. -/
structure EtgPart where
  etg : Edge
  dir : Bool
deriving DecidableEq

/-- Segment (`OptEdge`). The list `etgs` is never empty in the program (`etgs[0]`
and `etgs.front()` are read unguarded), so the reference entry is a field of its own:
`etgs = front :: rest`. `fromNode` and `toNode` are the `from` and `to` pointers. -/
structure OptEdge where
  addr : Nat
  front : EtgPart
  rest : List EtgPart
  fromNode : Nat
  toNode : Nat
deriving DecidableEq

/-- Node of the optimiser graph; `node` is the address of the underlying graph node. -/
structure OptNode where
  addr : Nat
  node : Nat
  adjListIn : List OptEdge
  adjListOut : List OptEdge
  adjList : List OptEdge
deriving DecidableEq

/-- Optimiser graph: what `g.getNodes()` iterates over. -/
structure OptGraph where
  getNodes : List OptNode

/-- All entries of a segment, the reference first. -/
def OptEdge.etgs (e : OptEdge) : List EtgPart := e.front :: e.rest

/-- Modelled from the spec: `Edge::getCardinality(bool)`, whose body is not among the
sources. `cardinality()` is the number of route occurrences, `cardinality(true)` the
number of non-relative route occurrences. -/
def Edge.getCardinality (e : Edge) (woRelatives : Bool) : Nat :=
  if woRelatives then (e.trips.filter (fun r => r.route.relativeTo.isNone)).length
  else e.trips.length

/-- Routes of the occurrences that pass the `if (r.route->relativeTo()) continue;`
guard, in trip-list order. -/
def Edge.nonRelRoutes (e : Edge) : List Route :=
  (e.trips.filter (fun r => r.route.relativeTo.isNone)).map (fun r => r.route)

/-! ## The MIP library, as far as the builder uses it -/

inductive ColKind where
  | CV | IV | BV
deriving DecidableEq

inductive RowType where
  | FR | LO | UP | DB | FX
deriving DecidableEq

/-- Column of the model. A fresh column is continuous, unnamed, with objective
coefficient zero. -/
structure Col where
  name : String
  kind : ColKind
  objCoef : Nat
deriving DecidableEq

/-- Row of the model with its type and bounds. A fresh row is free and unnamed. -/
structure Row where
  name : String
  typ : RowType
  lb : Int
  ub : Int
deriving DecidableEq

/-- Problem object (`glp_prob`): columns and rows, numbered from one. -/
structure Lp where
  cols : List Col
  rows : List Row

def Col.fresh : Col := { name := "", kind := ColKind.CV, objCoef := 0 }

def Row.fresh : Row := { name := "", typ := RowType.FR, lb := 0, ub := 0 }

/-- Apply `f` to the entry with zero-based index `n`; lists too short are unchanged. -/
def modifyAt {α : Type} (f : α → α) : Nat → List α → List α
  | _, [] => []
  | 0, x :: xs => f x :: xs
  | n + 1, x :: xs => x :: modifyAt f n xs

/-- Apply `f` to the entry with one-based ordinal `j`. The library aborts on an
ordinal out of range; here the list is left as it is. -/
def modifyOrd {α : Type} (f : α → α) (j : Nat) (l : List α) : List α :=
  if j = 0 then l else modifyAt f (j - 1) l

def glp_create_prob : Lp := { cols := [], rows := [] }

/-- Adds `n` fresh columns and returns the ordinal of the first of them. -/
def glp_add_cols (lp : Lp) (n : Nat) : Lp × Nat :=
  ({ lp with cols := lp.cols ++ List.replicate n Col.fresh }, lp.cols.length + 1)

/-- Adds `n` fresh rows and returns the ordinal of the first of them. -/
def glp_add_rows (lp : Lp) (n : Nat) : Lp × Nat :=
  ({ lp with rows := lp.rows ++ List.replicate n Row.fresh }, lp.rows.length + 1)

def glp_set_col_name (lp : Lp) (j : Nat) (name : String) : Lp :=
  { lp with cols := modifyOrd (fun c => { c with name := name }) j lp.cols }

def glp_set_col_kind (lp : Lp) (j : Nat) (kind : ColKind) : Lp :=
  { lp with cols := modifyOrd (fun c => { c with kind := kind }) j lp.cols }

def glp_set_obj_coef (lp : Lp) (j : Nat) (coef : Nat) : Lp :=
  { lp with cols := modifyOrd (fun c => { c with objCoef := coef }) j lp.cols }

def glp_set_row_name (lp : Lp) (i : Nat) (name : String) : Lp :=
  { lp with rows := modifyOrd (fun r => { r with name := name }) i lp.rows }

def glp_set_row_bnds (lp : Lp) (i : Nat) (typ : RowType) (lb ub : Int) : Lp :=
  { lp with rows := modifyOrd (fun r => { r with typ := typ, lb := lb, ub := ub }) i lp.rows }

/-- Ordinal of the first entry of `l` named `name` when counting starts at `n + 1`,
zero when there is none. -/
def findNameFrom (name : String) : Nat → List Col → Nat
  | _, [] => 0
  | n, c :: cs => if c.name = name then n + 1 else findNameFrom name (n + 1) cs

/-- Ordinal of the column named `name`, zero when there is none. -/
def glp_find_col (lp : Lp) (name : String) : Nat := findNameFrom name 0 lp.cols

/-! ## The triple buffer -/

/-- Sparse buffer of the constraint matrix: three parallel vectors. -/
structure VariableMatrix where
  rowNum : List Nat
  colNum : List Nat
  vals : List Int

def VariableMatrix.empty : VariableMatrix := { rowNum := [], colNum := [], vals := [] }

def VariableMatrix.addVar (vm : VariableMatrix) (row col : Nat) (val : Int) : VariableMatrix :=
  { rowNum := vm.rowNum ++ [row], colNum := vm.colNum ++ [col], vals := vm.vals ++ [val] }

def VariableMatrix.getNumVars (vm : VariableMatrix) : Nat := vm.vals.length

/-- One entry of the matrix: row ordinal, column ordinal, coefficient. -/
structure Entry where
  row : Nat
  col : Nat
  val : Int
deriving DecidableEq

/-- Entries of the buffer in insertion order, as `getGLPKArrs` hands them to the
bulk load (index `i` of the three arrays together). -/
def VariableMatrix.entries (vm : VariableMatrix) : List Entry :=
  List.zipWith (fun r cv => { row := r, col := cv.1, val := cv.2 }) vm.rowNum
    (List.zip vm.colNum vm.vals)

/-! ## Names -/

/-- Text of a pointer written to a stream: `0x` and the address in hexadecimal. -/
def ptrRepr (a : Nat) : String := "0x" ++ String.mk (Nat.toDigits 16 a)

/-- Parts of the program that are not among the sources and enter as parameters:
the text of a segment, adjacency and continuation queries of the graph, the
scorer, and the geometry of the node fronts over a point type `P`. -/
structure Env (P : Type) where
  getStrRepr : OptEdge → String
  getAdjacentEdge : OptEdge → OptNode → Edge
  getContinuedRoutesIn : Edge → Nat → Route → Option Nat → Edge → List Route
  getCrossingPenaltySameSeg : Nat → Int
  getCrossingPenaltyDiffSeg : Nat → Int
  getNodeFrontFor : Nat → Edge → Option Nat
  getTripPos : Nat → Edge → Nat → Bool → P
  intersects : P → P → P → P → Bool
  distBelowOne : P → P → P → P → Bool

/-- Name of an assignment column: `x_(<seg>,l=<route pointer>,p=<p>)`. -/
def getILPVarName {P : Type} (env : Env P) (seg : OptEdge) (r : Route) (p : Nat) : String :=
  "x_(" ++ env.getStrRepr seg ++ ",l=" ++ ptrRepr r.addr ++ ",p=" ++ toString p ++ ")"

/-! ## createProblem: assignment columns and uniqueness rows -/

/-- State of the builder: the problem object and the triple buffer. -/
structure Bld where
  lp : Lp
  vm : VariableMatrix

/-- Empty builder state, as `createProblem` starts with. -/
def Bld.init : Bld := { lp := glp_create_prob, vm := VariableMatrix.empty }

/-- Body of the loop `for p < k` that names and bounds the position-sum rows. -/
def nameSumRowsBody {P : Type} (env : Env P) (e : OptEdge) (rowA : Nat) (lp : Lp) (p : Nat) : Lp :=
  let lp := glp_set_row_name lp (rowA + p) ("sum(" ++ env.getStrRepr e ++ ",p=" ++ toString p ++ ")")
  glp_set_row_bnds lp (rowA + p) RowType.FX 1 1

/-- Loop `for p < k` that names and bounds the position-sum rows. -/
def nameSumRows {P : Type} (env : Env P) (e : OptEdge) (rowA k : Nat) (lp : Lp) : Lp :=
  (List.range k).foldl (nameSumRowsBody env e rowA) lp

/-- Body of the inner loop `for p < k` for one non-relative route: names the column,
makes it binary and enters it into the line-sum row and the position-sum row. The
second component of the state is the counter `i`. -/
def lineColsBody {P : Type} (env : Env P) (e : OptEdge) (r : Route) (cols rowA row : Nat)
    (st : Bld × Nat) (p : Nat) : Bld × Nat :=
  let curCol := cols + st.2
  let lp := glp_set_col_name st.1.lp curCol (getILPVarName env e r p)
  let lp := glp_set_col_kind lp curCol ColKind.BV
  let vm := st.1.vm.addVar row curCol 1
  let vm := vm.addVar (rowA + p) curCol 1
  ({ lp := lp, vm := vm }, st.2 + 1)

/-- Inner loop `for p < k` for one non-relative route. -/
def lineColsLoop {P : Type} (env : Env P) (e : OptEdge) (r : Route) (cols rowA row k : Nat)
    (st : Bld × Nat) : Bld × Nat :=
  (List.range k).foldl (lineColsBody env e r cols rowA row) st

/-- Body of `for (auto r : *etg->getTripsUnordered())`. -/
def lineStep {P : Type} (env : Env P) (e : OptEdge) (cols rowA k : Nat)
    (st : Bld × Nat) (r : RouteOccurrence) : Bld × Nat :=
  if r.route.relativeTo.isSome then st
  else
    let (lp, row) := glp_add_rows st.1.lp 1
    let lp := glp_set_row_name lp row ("sum(" ++ env.getStrRepr e ++ ",l=" ++ ptrRepr r.route.addr ++ ")")
    let lp := glp_set_row_bnds lp row RowType.FX 1 1
    lineColsLoop env e r.route cols rowA row k ({ lp := lp, vm := st.1.vm }, st.2)

/-- Body of the segment loop of `createProblem` for the segment `e`. -/
def addSegment {P : Type} (env : Env P) (b : Bld) (e : OptEdge) : Bld :=
  let etg := e.front.etg
  let newCols := etg.getCardinality true * etg.getCardinality true
  let (lp, cols) := glp_add_cols b.lp newCols
  let (lp, rowA) := glp_add_rows lp (etg.getCardinality true)
  let lp := nameSumRows env e rowA (etg.getCardinality true) lp
  (etg.trips.foldl (lineStep env e cols rowA (etg.getCardinality true))
    ({ lp := lp, vm := b.vm }, 0)).1

/-- Segments in the order the builder visits them: every node, every outgoing segment. -/
def OptGraph.segments (g : OptGraph) : List OptEdge :=
  g.getNodes.flatMap (fun n => n.adjListOut)

/-- First loop nest of `createProblem`. -/
def addSegments {P : Type} (env : Env P) (g : OptGraph) (b : Bld) : Bld :=
  g.getNodes.foldl (fun b n => n.adjListOut.foldl (addSegment env) b) b

/-! ## Line pairs, partners and position combinations -/

abbrev LinePair := Route × Route
abbrev PosCom := Nat × Nat
abbrev PosComPair := PosCom × PosCom
abbrev EdgePair := OptEdge × OptEdge

/-- Inner loop of `getLinePairs` over `toB` for a fixed `toA`; `processed` holds the
addresses inserted so far. -/
def linePairsInner (uniq : Bool) (processed : List Nat) (toA : Route)
    (trips : List RouteOccurrence) : List LinePair :=
  trips.flatMap (fun toB =>
    if uniq && processed.contains toB.route.addr then []
    else if toB.route.relativeTo.isSome then []
    else if toA.addr = toB.route.addr then []
    else if !uniq || toA.addr < toB.route.addr then [(toA, toB.route)]
    else [(toB.route, toA)])

/-- Outer loop of `getLinePairs`: the state is the set `processed` and the result so far. -/
def linePairsOuter (uniq : Bool) (trips : List RouteOccurrence) :
    List RouteOccurrence → List Nat × List LinePair → List Nat × List LinePair
  | [], st => st
  | toA :: more, st =>
    if toA.route.relativeTo.isSome then linePairsOuter uniq trips more st
    else
      let processed := toA.route.addr :: st.1
      linePairsOuter uniq trips more
        (processed, st.2 ++ linePairsInner uniq processed toA.route trips)

/-- Two-argument `getLinePairs(segment, unique)`. -/
def getLinePairsU (segment : OptEdge) (uniq : Bool) : List LinePair :=
  (linePairsOuter uniq segment.front.etg.trips segment.front.etg.trips ([], [])).2

/-- One-argument `getLinePairs(segment)`: calls the other with `unique = false`. -/
def getLinePairs (segment : OptEdge) : List LinePair := getLinePairsU segment false

/-- Modelled from the spec: `Edge::getRouteOcc(r)`, not among the sources: the
occurrence of route `r` on the edge, null when the edge does not carry it. -/
def Edge.getRouteOcc (e : Edge) (r : Route) : Option RouteOccurrence :=
  e.trips.find? (fun o => o.route.addr = r.addr)

/-- Partners of `segmentA` at `node` into which both lines of the pair continue.
`none` stands for the dereference of a null occurrence. -/
def getEdgePartners {P : Type} (env : Env P) (node : OptNode) (segmentA : OptEdge)
    (linepair : LinePair) : Option (List OptEdge) := do
  let fromEtg := env.getAdjacentEdge segmentA node
  let occA ← fromEtg.getRouteOcc linepair.1
  let occB ← fromEtg.getRouteOcc linepair.2
  let dirA := occA.direction
  let dirB := occB.direction
  some (node.adjList.filter (fun segmentB =>
    if segmentB.addr = segmentA.addr then false
    else
      let e := env.getAdjacentEdge segmentB node
      !(env.getContinuedRoutesIn e node.node linepair.1 dirA fromEtg).isEmpty &&
      !(env.getContinuedRoutesIn e node.node linepair.2 dirB fromEtg).isEmpty))

/-- Ordered pairs of partners: the first line continues into the first, the second
line into the second. -/
def getEdgePartnerPairs {P : Type} (env : Env P) (node : OptNode) (segmentA : OptEdge)
    (linepair : LinePair) : Option (List EdgePair) := do
  let fromEtg := env.getAdjacentEdge segmentA node
  let occA ← fromEtg.getRouteOcc linepair.1
  let occB ← fromEtg.getRouteOcc linepair.2
  let dirA := occA.direction
  let dirB := occB.direction
  some (node.adjList.flatMap (fun segmentB =>
    if segmentB.addr = segmentA.addr then []
    else
      let etg := env.getAdjacentEdge segmentB node
      if !(env.getContinuedRoutesIn etg node.node linepair.1 dirA fromEtg).isEmpty then
        node.adjList.flatMap (fun segmentC =>
          if segmentC.addr = segmentA.addr || segmentC.addr = segmentB.addr then []
          else
            let e := env.getAdjacentEdge segmentC node
            if !(env.getContinuedRoutesIn e node.node linepair.2 dirB fromEtg).isEmpty then
              [(segmentB, segmentC)]
            else [])
      else []))

/-- Two-segment `getPositionCombinations(a, b)`. -/
def getPositionCombinations2 (a b : OptEdge) : List PosComPair :=
  let cardA := a.front.etg.getCardinality true
  let cardB := b.front.etg.getCardinality true
  (List.range cardA).flatMap (fun posLineAinA =>
    (List.range cardA).flatMap (fun posLineBinA =>
      if posLineAinA = posLineBinA then []
      else
        (List.range cardB).flatMap (fun posLineAinB =>
          (List.range cardB).flatMap (fun posLineBinB =>
            if posLineAinB = posLineBinB then []
            else [((posLineAinA, posLineAinB), (posLineBinA, posLineBinB))]))))

/-- One-segment `getPositionCombinations(a)`. -/
def getPositionCombinations (a : OptEdge) : List PosCom :=
  let cardA := a.front.etg.getCardinality true
  (List.range cardA).flatMap (fun posLineAinA =>
    (List.range cardA).flatMap (fun posLineBinA =>
      if posLineAinA = posLineBinA then [] else [(posLineAinA, posLineBinA)]))

/-! ## The crossing predicate -/

/-- Subtraction of `size_t` values. -/
def subSz (a b : Nat) : Nat := (a % 2 ^ 64 + 2 ^ 64 - b % 2 ^ 64) % 2 ^ 64

/-- Point of position `p` of `segment` at node `n`; `none` stands for the failed
`assert(nf)`. -/
def getPos {P : Type} (env : Env P) (n : OptNode) (segment : OptEdge) (p : Nat) : Option P :=
  match segment.etgs.findSome? (fun etg => env.getNodeFrontFor n.node etg.etg) with
  | none => none
  | some nf => some (env.getTripPos nf segment.front.etg p false)

/-- Same-segment predicate `crosses(node, segmentA, segmentB, poscomb)`. -/
def crosses {P : Type} (env : Env P) (node : OptNode) (segmentA segmentB : OptEdge)
    (poscomb : PosComPair) : Option Bool := do
  let otherWayA := xor (segmentA.fromNode != node.addr) segmentA.front.dir
  let otherWayB := xor (segmentB.fromNode != node.addr) segmentB.front.dir
  let cardA := segmentA.front.etg.getCardinality true
  let cardB := segmentB.front.etg.getCardinality true
  let posAinA := if otherWayA then subSz (subSz cardA 1) poscomb.1.1 else poscomb.1.1
  let posAinB := if otherWayB then subSz (subSz cardB 1) poscomb.1.2 else poscomb.1.2
  let posBinA := if otherWayA then subSz (subSz cardA 1) poscomb.2.1 else poscomb.2.1
  let posBinB := if otherWayB then subSz (subSz cardB 1) poscomb.2.2 else poscomb.2.2
  let aInA ← getPos env node segmentA posAinA
  let bInA ← getPos env node segmentA posBinA
  let aInB ← getPos env node segmentB posAinB
  let bInB ← getPos env node segmentB posBinB
  some (env.intersects aInA aInB bInA bInB || env.distBelowOne aInA aInB bInA bInB)

/-- Search of the destination positions `(i, j)` in the different-segment predicate:
the first combination that crosses returns true. -/
def crossesDiffSearch {P : Type} (env : Env P) (node : OptNode) (segments : EdgePair)
    (otherWayB otherWayC : Bool) (cardB cardC : Nat) (aInA bInA : P) :
    List (Nat × Nat) → Option Bool
  | [] => some false
  | (i, j) :: more => do
    let posAinB := if otherWayB then subSz (subSz cardB 1) i else i
    let posBinC := if otherWayC then subSz (subSz cardC 1) j else j
    let aInB ← getPos env node segments.1 posAinB
    let bInC ← getPos env node segments.2 posBinC
    if env.intersects aInA aInB bInA bInC || env.distBelowOne aInA aInB bInA bInC then some true
    else crossesDiffSearch env node segments otherWayB otherWayC cardB cardC aInA bInA more

/-- Different-segment predicate `crosses(node, segmentA, segments, postcomb)`. -/
def crossesDiff {P : Type} (env : Env P) (node : OptNode) (segmentA : OptEdge)
    (segments : EdgePair) (postcomb : PosCom) : Option Bool := do
  let otherWayA := xor (segmentA.fromNode != node.addr) segmentA.front.dir
  let otherWayB := xor (segments.1.fromNode != node.addr) segments.1.front.dir
  let otherWayC := xor (segments.2.fromNode != node.addr) segments.2.front.dir
  let cardA := segmentA.front.etg.getCardinality true
  let cardB := segments.1.front.etg.getCardinality true
  let cardC := segments.2.front.etg.getCardinality true
  let posAinA := if otherWayA then subSz (subSz cardA 1) postcomb.1 else postcomb.1
  let posBinA := if otherWayA then subSz (subSz cardA 1) postcomb.2 else postcomb.2
  let aInA ← getPos env node segmentA posAinA
  let bInA ← getPos env node segmentA posBinA
  crossesDiffSearch env node segments otherWayB otherWayC cardB cardC aInA bInA
    ((List.range cardB).flatMap (fun i => (List.range cardC).map (fun j => (i, j))))

/-! ## Crossing constraints -/

/-- Objective coefficient of a decision column: the penalty (an `int`) times the two
factors `getNumCollapsedPartners() + 1`. The accessor is declared outside the sources;
it is taken to return `size_t`, so the product is formed in `size_t` arithmetic, and
the result is then passed on as a `double` (exact below `2 ^ 53`). -/
def decisionObjCoef (pen : Int) (collA collB : Nat) : Nat :=
  ((pen % 2 ^ 64).toNat * ((collA + 1) % 2 ^ 64) % 2 ^ 64 * ((collB + 1) % 2 ^ 64)) % 2 ^ 64

/-- Name of a same-segment decision column. -/
def sameDecName {P : Type} (env : Env P) (node : OptNode) (segmentA segmentB : OptEdge)
    (linepair : LinePair) : String :=
  "x_dec(" ++ env.getStrRepr segmentA ++ "," ++ env.getStrRepr segmentB ++ ","
    ++ ptrRepr linepair.1.addr ++ "(" ++ linepair.1.id ++ "),"
    ++ ptrRepr linepair.2.addr ++ "(" ++ linepair.2.id ++ ")," ++ ptrRepr node.addr ++ ")"

/-- Name of a same-segment crossing row. -/
def sameRowName {P : Type} (env : Env P) (node : OptNode) (segmentA segmentB : OptEdge)
    (linepair : LinePair) (poscomb : PosComPair) : String :=
  "dec_sum(" ++ env.getStrRepr segmentA ++ "," ++ env.getStrRepr segmentB ++ ","
    ++ ptrRepr linepair.1.addr ++ "," ++ ptrRepr linepair.2.addr
    ++ "pa=" ++ toString poscomb.1.1 ++ ",pb=" ++ toString poscomb.2.1
    ++ ",pa\x27=" ++ toString poscomb.1.2 ++ ",pb\x27=" ++ toString poscomb.2.2
    ++ ",n=" ++ ptrRepr node.addr ++ ")"

/-- Body of the loop over position combinations in `writeSameSegConstraints`.
`none` stands for a failed assertion. -/
def sameSegPosStep {P : Type} (env : Env P) (node : OptNode) (segmentA segmentB : OptEdge)
    (linepair : LinePair) (decisionVar : Nat) (b : Bld) (poscomb : PosComPair) : Option Bld := do
  let c ← crosses env node segmentA segmentB poscomb
  if c then
    let lineAinAatP := glp_find_col b.lp (getILPVarName env segmentA linepair.1 poscomb.1.1)
    let lineBinAatP := glp_find_col b.lp (getILPVarName env segmentA linepair.2 poscomb.2.1)
    let lineAinBatP := glp_find_col b.lp (getILPVarName env segmentB linepair.1 poscomb.1.2)
    let lineBinBatP := glp_find_col b.lp (getILPVarName env segmentB linepair.2 poscomb.2.2)
    if lineAinAatP = 0 ∨ lineAinBatP = 0 ∨ lineBinAatP = 0 ∨ lineBinBatP = 0 then none
    else
      let (lp, row) := glp_add_rows b.lp 1
      let lp := glp_set_row_name lp row (sameRowName env node segmentA segmentB linepair poscomb)
      let lp := glp_set_row_bnds lp row RowType.UP 0 3
      let vm := b.vm.addVar row lineAinAatP 1
      let vm := vm.addVar row lineBinAatP 1
      let vm := vm.addVar row lineAinBatP 1
      let vm := vm.addVar row lineBinBatP 1
      let vm := vm.addVar row decisionVar (-1)
      some { lp := lp, vm := vm }
  else some b

/-- Body of the loop over partners `segmentB` in `writeSameSegConstraints`. -/
def sameSegPartnerStep {P : Type} (env : Env P) (node : OptNode) (processed : List Nat)
    (segmentA : OptEdge) (linepair : LinePair) (b : Bld) (segmentB : OptEdge) : Option Bld :=
  if processed.contains segmentB.addr then some b
  else
    let (lp, decisionVar) := glp_add_cols b.lp 1
    let lp := glp_set_col_name lp decisionVar (sameDecName env node segmentA segmentB linepair)
    let lp := glp_set_col_kind lp decisionVar ColKind.BV
    let lp := glp_set_obj_coef lp decisionVar
      (decisionObjCoef (env.getCrossingPenaltySameSeg node.node)
        linepair.1.numCollapsedPartners linepair.2.numCollapsedPartners)
    (getPositionCombinations2 segmentA segmentB).foldlM
      (sameSegPosStep env node segmentA segmentB linepair decisionVar) { lp := lp, vm := b.vm }

/-- Body of the loop over line pairs in `writeSameSegConstraints`. -/
def sameSegLineStep {P : Type} (env : Env P) (node : OptNode) (processed : List Nat)
    (segmentA : OptEdge) (b : Bld) (linepair : LinePair) : Option Bld := do
  let partners ← getEdgePartners env node segmentA linepair
  partners.foldlM (sameSegPartnerStep env node processed segmentA linepair) b

/-- Body of the loop over `segmentA` in `writeSameSegConstraints`; the state carries
the set `processed`. -/
def sameSegStep {P : Type} (env : Env P) (node : OptNode) (st : List Nat × Bld)
    (segmentA : OptEdge) : Option (List Nat × Bld) := do
  let processed := segmentA.addr :: st.1
  let b ← (getLinePairs segmentA).foldlM (sameSegLineStep env node processed segmentA) st.2
  some (processed, b)

/-- Body of the loop over nodes in `writeSameSegConstraints`. -/
def sameSegNodeStep {P : Type} (env : Env P) (b : Bld) (node : OptNode) : Option Bld := do
  let st ← node.adjList.foldlM (sameSegStep env node) ([], b)
  some st.2

def writeSameSegConstraints {P : Type} (env : Env P) (g : OptGraph) (b : Bld) : Option Bld :=
  g.getNodes.foldlM (sameSegNodeStep env) b

/-- Name of a different-segment decision column. -/
def diffDecName {P : Type} (env : Env P) (node : OptNode) (segmentA : OptEdge)
    (segments : EdgePair) (linepair : LinePair) : String :=
  "x_dec(" ++ env.getStrRepr segmentA ++ "," ++ env.getStrRepr segments.1
    ++ env.getStrRepr segments.2 ++ ","
    ++ ptrRepr linepair.1.addr ++ "(" ++ linepair.1.id ++ "),"
    ++ ptrRepr linepair.2.addr ++ "(" ++ linepair.2.id ++ ")," ++ ptrRepr node.addr ++ ")"

/-- Name of a different-segment crossing row. -/
def diffRowName {P : Type} (env : Env P) (node : OptNode) (segmentA : OptEdge)
    (segments : EdgePair) (linepair : LinePair) (poscomb : PosCom) : String :=
  "dec_sum(" ++ env.getStrRepr segmentA ++ "," ++ env.getStrRepr segments.1
    ++ env.getStrRepr segments.2 ++ ","
    ++ ptrRepr linepair.1.addr ++ "," ++ ptrRepr linepair.2.addr
    ++ "pa=" ++ toString poscomb.1 ++ ",pb=" ++ toString poscomb.2
    ++ ",n=" ++ ptrRepr node.addr ++ ")"

/-- Body of the loop over position combinations in `writeDiffSegConstraints`. -/
def diffSegPosStep {P : Type} (env : Env P) (node : OptNode) (segmentA : OptEdge)
    (segments : EdgePair) (linepair : LinePair) (decisionVar : Nat) (b : Bld)
    (poscomb : PosCom) : Option Bld := do
  let c ← crossesDiff env node segmentA segments poscomb
  if c then
    let lineAinAatP := glp_find_col b.lp (getILPVarName env segmentA linepair.1 poscomb.1)
    let lineBinAatP := glp_find_col b.lp (getILPVarName env segmentA linepair.2 poscomb.2)
    if lineAinAatP = 0 ∨ lineBinAatP = 0 then none
    else
      let (lp, row) := glp_add_rows b.lp 1
      let lp := glp_set_row_name lp row (diffRowName env node segmentA segments linepair poscomb)
      let lp := glp_set_row_bnds lp row RowType.UP 0 1
      let vm := b.vm.addVar row lineAinAatP 1
      let vm := vm.addVar row lineBinAatP 1
      let vm := vm.addVar row decisionVar (-1)
      some { lp := lp, vm := vm }
  else some b

/-- Body of the loop over partner pairs in `writeDiffSegConstraints`. -/
def diffSegPartnerStep {P : Type} (env : Env P) (node : OptNode) (segmentA : OptEdge)
    (linepair : LinePair) (b : Bld) (segments : EdgePair) : Option Bld :=
  let (lp, decisionVar) := glp_add_cols b.lp 1
  let lp := glp_set_col_name lp decisionVar (diffDecName env node segmentA segments linepair)
  let lp := glp_set_col_kind lp decisionVar ColKind.BV
  let lp := glp_set_obj_coef lp decisionVar
    (decisionObjCoef (env.getCrossingPenaltyDiffSeg node.node)
      linepair.1.numCollapsedPartners linepair.2.numCollapsedPartners)
  (getPositionCombinations segmentA).foldlM
    (diffSegPosStep env node segmentA segments linepair decisionVar) { lp := lp, vm := b.vm }

/-- Body of the loop over line pairs in `writeDiffSegConstraints`. -/
def diffSegLineStep {P : Type} (env : Env P) (node : OptNode) (segmentA : OptEdge)
    (b : Bld) (linepair : LinePair) : Option Bld := do
  let pairs ← getEdgePartnerPairs env node segmentA linepair
  pairs.foldlM (diffSegPartnerStep env node segmentA linepair) b

/-- Body of the loop over `segmentA` in `writeDiffSegConstraints`. The set
`processed` is filled there but never read, so it is left out. -/
def diffSegStep {P : Type} (env : Env P) (node : OptNode) (b : Bld) (segmentA : OptEdge) :
    Option Bld :=
  (getLinePairs segmentA).foldlM (diffSegLineStep env node segmentA) b

def writeDiffSegConstraints {P : Type} (env : Env P) (g : OptGraph) (b : Bld) : Option Bld :=
  g.getNodes.foldlM (fun b node => node.adjList.foldlM (diffSegStep env node) b) b

/-- Builder `createProblem`: the result is the problem object together with the
buffer whose entries the bulk load puts into it. -/
def createProblem {P : Type} (env : Env P) (g : OptGraph) : Option Bld := do
  let b := addSegments env g Bld.init
  let b ← writeSameSegConstraints env g b
  writeDiffSegConstraints env g b

/-! ## Decoding the solution -/

/-- Ordering configuration: for every edge (by address) the sequence of trip-list
indices; an edge that was never written has the empty sequence. -/
abbrev OrderingConfig := Nat → List Nat

/-- Replace the entry of edge `a`. -/
def OrderingConfig.set (c : OrderingConfig) (a : Nat) (l : List Nat) : OrderingConfig :=
  fun x => if x = a then l else c x

/-- Scan `for p < getCardinality()` of the decoder for a fixed position `tp`, as a
recursion over the trips that are left, `p` being the index of the first of them. The
state is the configuration and the flag `found`; `none` stands for a failed assertion.
The solution `v` is integral, so `val > 0.5` reads `1 < 2 * v i`. -/
def decodeScan {P : Type} (env : Env P) (lp : Lp) (v : Nat → Int) (e : OptEdge)
    (etgp : EtgPart) (tp : Nat) :
    Nat → List RouteOccurrence → OrderingConfig × Bool → Option (OrderingConfig × Bool)
  | _, [], st => some st
  | p, r :: rs, st =>
    if r.route.relativeTo.isSome then decodeScan env lp v e etgp tp (p + 1) rs st
    else
      let i := glp_find_col lp (getILPVarName env e r.route tp)
      if i = 0 then none
      else if 1 < 2 * v i then
        let c :=
          if !(xor etgp.dir e.front.dir) then st.1.set etgp.etg.addr (p :: st.1 etgp.etg.addr)
          else st.1.set etgp.etg.addr (st.1 etgp.etg.addr ++ [p])
        if st.2 then none
        else decodeScan env lp v e etgp tp (p + 1) rs (c, true)
      else decodeScan env lp v e etgp tp (p + 1) rs st

/-- Body of the loop over `tp`: the scan starts with `found = false` and must end with
`found = true`. -/
def decodeTp {P : Type} (env : Env P) (lp : Lp) (v : Nat → Int) (e : OptEdge)
    (etgp : EtgPart) (c : OrderingConfig) (tp : Nat) : Option OrderingConfig := do
  let st ← decodeScan env lp v e etgp tp 0 etgp.etg.trips (c, false)
  if st.2 then some st.1 else none

/-- Loop over the positions `tp` below the non-relative cardinality of the underlying
edge. -/
def decodeEtg {P : Type} (env : Env P) (lp : Lp) (v : Nat → Int) (e : OptEdge)
    (c : OrderingConfig) (etgp : EtgPart) : Option OrderingConfig :=
  (List.range (etgp.etg.getCardinality true)).foldlM (decodeTp env lp v e etgp) c

/-- Loop over the underlying edges of a segment. -/
def decodeSegment {P : Type} (env : Env P) (lp : Lp) (v : Nat → Int) (c : OrderingConfig)
    (e : OptEdge) : Option OrderingConfig :=
  e.etgs.foldlM (decodeEtg env lp v e) c

/-- Loop nest of `getConfigurationFromSolution` before the relative routes are
expanded. -/
def decodePositions {P : Type} (env : Env P) (lp : Lp) (v : Nat → Int) (g : OptGraph)
    (c : OrderingConfig) : Option OrderingConfig :=
  g.getNodes.foldlM (fun c n => n.adjListOut.foldlM (decodeSegment env lp v) c) c

/-- Write of the decoder: position `p` goes to the head when the direction flag of the
underlying edge agrees with that of the reference entry, else to the tail. -/
def insertPos (e : OptEdge) (etgp : EtgPart) (c : OrderingConfig) (p : Nat) : OrderingConfig :=
  if !(xor etgp.dir e.front.dir) then c.set etgp.etg.addr (p :: c etgp.etg.addr)
  else c.set etgp.etg.addr (c etgp.etg.addr ++ [p])

/-- Trip-list indices, counted from `p`, of the non-relative occurrences whose column at
position `tp` has a value above one half. -/
def scanHits {P : Type} (env : Env P) (lp : Lp) (v : Nat → Int) (e : OptEdge) (tp : Nat) :
    Nat → List RouteOccurrence → List Nat
  | _, [] => []
  | p, r :: rs =>
    if r.route.relativeTo.isSome then scanHits env lp v e tp (p + 1) rs
    else if 1 < 2 * v (glp_find_col lp (getILPVarName env e r.route tp)) then
      p :: scanHits env lp v e tp (p + 1) rs
    else scanHits env lp v e tp (p + 1) rs

/-- Trip-list indices, counted from `p`, of the non-relative occurrences. -/
def nonRelIdxFrom : Nat → List RouteOccurrence → List Nat
  | _, [] => []
  | p, r :: rs =>
    if r.route.relativeTo.isSome then nonRelIdxFrom (p + 1) rs else p :: nonRelIdxFrom (p + 1) rs

/-- Trip-list indices of the non-relative occurrences of an edge. -/
def Edge.nonRelIdx (e : Edge) : List Nat := nonRelIdxFrom 0 e.trips

/-! ## Expansion of relative routes -/

/-- Node of the transit graph with its adjacency lists. -/
structure Node where
  addr : Nat
  adjListIn : List Edge
  adjListOut : List Edge
deriving DecidableEq

/-- Transit graph: the nodes `g->getNodes()` iterates over. An edge names its end nodes
by address; `nodeAt` resolves an address. -/
structure TransitGraph where
  getNodes : List Node

/-- Node with address `a`; a node that is not listed has no adjacent edges. -/
def TransitGraph.nodeAt (g : TransitGraph) (a : Nat) : Node :=
  (g.getNodes.find? (fun n => n.addr = a)).getD { addr := a, adjListIn := [], adjListOut := [] }

/-- Modelled from the spec: `Edge::containsRoute(r)`, not among the sources. -/
def Edge.containsRoute (e : Edge) (r : Nat) : Bool :=
  e.trips.any (fun o => o.route.addr = r)

/-- Index of the first entry of `l` that satisfies `f`, counted from `n`. -/
def firstIdxFrom {α : Type} (f : α → Bool) : Nat → List α → Option Nat
  | _, [] => none
  | n, x :: xs => if f x then some n else firstIdxFrom f (n + 1) xs

/-- Modelled from the spec: second component of `Edge::getRouteOccWithPos(r)`, not among
the sources: the index of the occurrence of `r` in the trip list; zero (the value of a
default pair) when the edge does not carry `r`. -/
def Edge.getRouteOccWithPos (e : Edge) (r : Nat) : Nat :=
  (firstIdxFrom (fun o : RouteOccurrence => o.route.addr = r) 0 e.trips).getD 0

/-- Modelled from the spec: second component of `Edge::getRouteOccWithPosUnder(r, ordering)`,
not among the sources: the place of `r` in the ordering, i.e. the first `i` such that the
trip with index `ordering[i]` is an occurrence of `r`; zero when there is none. -/
def Edge.getRouteOccWithPosUnder (e : Edge) (r : Nat) (ordering : List Nat) : Nat :=
  (firstIdxFrom (fun i : Nat =>
    match e.trips[i]? with
    | some o => o.route.addr = r
    | none => false) 0 ordering).getD 0

/-- Insertion into a set of pointers, kept in increasing order. -/
def setInsert (a : Nat) : List Nat → List Nat
  | [] => [a]
  | x :: xs => if a < x then a :: x :: xs else if a = x then x :: xs else x :: setInsert a xs

/-- Modelled from the spec: `Edge::getRoutesRelTo(ref)`, not among the sources: the set
of the routes on the edge that are relative to `ref`, iterated in pointer order. -/
def Edge.getRoutesRelTo (e : Edge) (ref : Nat) : List Nat :=
  (e.trips.filter (fun o => o.route.relativeTo = some ref)).foldl
    (fun s o => setInsert o.route.addr s) []

/-- Insertion before the iterator at offset `i`. -/
def insertAt (l : List Nat) (i : Nat) (x : Nat) : List Nat := l.take i ++ x :: l.drop i

/-- Body of `for (auto r : rs)` in `expandRelativesFor`: the trip index of `r` is put
right after the index of `ref` when `prev` is set and the exclusive-or holds, else right
before it. `none` stands for the failed `assert(it != end)`. -/
def insertRelative (ref : Nat) (prev : Option Edge) (cur : Edge) (c : OrderingConfig)
    (r : Nat) : Option OrderingConfig :=
  let index := cur.getRouteOccWithPos ref
  match firstIdxFrom (fun x : Nat => x = index) 0 (c cur.addr) with
  | none => none
  | some it =>
    let p := cur.getRouteOccWithPos r
    let after :=
      match prev with
      | none => false
      | some first =>
        xor (first.getTo = cur.getTo || first.getFrom = cur.getFrom)
          (decide (first.getRouteOccWithPosUnder r (c first.addr)
            > first.getRouteOccWithPosUnder ref (c first.addr)))
    if after then some (c.set cur.addr (insertAt (c cur.addr) (it + 1) p))
    else some (c.set cur.addr (insertAt (c cur.addr) it p))

/-- Edges pushed after `cur` has been expanded, in the order of the pushes: for the
nodes `from` and `to` of `cur`, unless `prev` touches the node, the incoming and then
the outgoing edges that carry `ref` and are not in `visited`. -/
def pushedEdges (g : TransitGraph) (ref : Nat) (prev : Option Edge) (cur : Edge)
    (visited : List Nat) : List Edge :=
  [cur.getFrom, cur.getTo].flatMap (fun n =>
    if (match prev with
        | none => false
        | some first => first.getTo = n || first.getFrom = n) then []
    else
      ((g.nodeAt n).adjListIn.filter (fun e => e.containsRoute ref && !visited.contains e.addr))
        ++ ((g.nodeAt n).adjListOut.filter
          (fun e => e.containsRoute ref && !visited.contains e.addr)))

/-- State of the traversal: configuration, visited edges, stack (top first). -/
structure ExpandState where
  c : OrderingConfig
  visited : List Nat
  todo : List (Option Edge × Edge)

/-- Loop `while (!todo.empty())` of `expandRelativesFor` with at most `fuel` iterations;
`none` stands for a failed assertion or for fuel that did not suffice. -/
def expandLoop (g : TransitGraph) (ref : Nat) (rs : List Nat) :
    Nat → ExpandState → Option ExpandState
  | 0, _ => none
  | fuel + 1, st =>
    match st.todo with
    | [] => some st
    | cur :: rest =>
      if st.visited.contains cur.2.addr then
        expandLoop g ref rs fuel { st with todo := rest }
      else
        match rs.foldlM (insertRelative ref cur.1 cur.2) st.c with
        | none => none
        | some c2 =>
          let visited := cur.2.addr :: st.visited
          let pushed := (pushedEdges g ref cur.1 cur.2 visited).map (fun e => (some cur.2, e))
          expandLoop g ref rs fuel { c := c2, visited := visited, todo := pushed.reverse ++ rest }

/-- Traversal `expandRelativesFor(c, ref, start, rs)`. -/
def expandRelativesFor (g : TransitGraph) (fuel : Nat) (c : OrderingConfig) (ref : Nat)
    (start : Edge) (rs : List Nat) : Option OrderingConfig :=
  (expandLoop g ref rs fuel { c := c, visited := [], todo := [(none, start)] }).map
    (fun st => st.c)

/-- Body of the innermost loop of `expandRelatives`; the state carries the set `proced`. -/
def expandRelativesStep (g : TransitGraph) (fuel : Nat) (e : Edge)
    (st : List Nat × OrderingConfig) (ra : RouteOccurrence) :
    Option (List Nat × OrderingConfig) :=
  match ra.route.relativeTo with
  | none => some st
  | some ref =>
    if st.1.contains ref then some st
    else
      (expandRelativesFor g fuel st.2 ref e (e.getRoutesRelTo ref)).map
        (fun c => (ref :: st.1, c))

/-- Function `expandRelatives(c, g)`; every traversal gets `fuel` iterations. -/
def expandRelatives (g : TransitGraph) (fuel : Nat) (c : OrderingConfig) :
    Option OrderingConfig :=
  (g.getNodes.foldlM (fun (st : List Nat × OrderingConfig) (n : Node) =>
    n.adjListOut.foldlM (fun (st : List Nat × OrderingConfig) (e : Edge) =>
      e.trips.foldlM (expandRelativesStep g fuel e) st) st)
    ([], c)).map (fun st => st.2)

/-! ## Descriptions of what the builder emits -/

/-- Assignment column of route `r` at position `p` in segment `e`. -/
def assignCol {P : Type} (env : Env P) (e : OptEdge) (r : Route) (p : Nat) : Col :=
  { name := getILPVarName env e r p, kind := ColKind.BV, objCoef := 0 }

/-- Assignment columns of a segment: line after line, position after position. -/
def assignCols {P : Type} (env : Env P) (e : OptEdge) : List Col :=
  e.front.etg.nonRelRoutes.flatMap (fun r =>
    (List.range (e.front.etg.getCardinality true)).map (assignCol env e r))

/-- Position-sum row of position `p`. -/
def posSumRow {P : Type} (env : Env P) (e : OptEdge) (p : Nat) : Row :=
  { name := "sum(" ++ env.getStrRepr e ++ ",p=" ++ toString p ++ ")",
    typ := RowType.FX, lb := 1, ub := 1 }

/-- Line-sum row of route `r`. -/
def lineSumRow {P : Type} (env : Env P) (e : OptEdge) (r : Route) : Row :=
  { name := "sum(" ++ env.getStrRepr e ++ ",l=" ++ ptrRepr r.addr ++ ")",
    typ := RowType.FX, lb := 1, ub := 1 }

/-- Uniqueness rows of a segment: the position-sum rows, then the line-sum rows. -/
def sumRows {P : Type} (env : Env P) (e : OptEdge) : List Row :=
  (List.range (e.front.etg.getCardinality true)).map (posSumRow env e)
    ++ e.front.etg.nonRelRoutes.map (lineSumRow env e)

/-- Entries of `n` lines over `k` positions: `rowA` is the ordinal of the first
position-sum row, `r0` of the first line-sum row, `c0` of the first column. -/
def sumEntries (rowA c0 r0 k n : Nat) : List Entry :=
  (List.range n).flatMap (fun m => (List.range k).flatMap (fun p =>
    [{ row := r0 + m, col := c0 + m * k + p, val := 1 },
     { row := rowA + p, col := c0 + m * k + p, val := 1 }]))

/-- Entries of the matrix in row `j`, in insertion order. -/
def rowEntries (es : List Entry) (j : Nat) : List Entry := es.filter (fun en => en.row = j)

/-- Value of the linear form of row `j` under the valuation `v` of the columns. -/
def rowActivity (v : Nat → Int) (es : List Entry) (j : Nat) : Int :=
  ((rowEntries es j).map (fun en => en.val * v en.col)).sum

/-- Lengths of the three vectors agree and no entry lies in a row that does not exist. -/
def Bld.Inv (b : Bld) : Prop :=
  b.vm.rowNum.length = b.vm.colNum.length ∧ b.vm.colNum.length = b.vm.vals.length ∧
    ∀ en ∈ b.vm.entries, en.row ≤ b.lp.rows.length

/-- Decision columns: binary, with a name that starts with `x_dec(`. -/
def IsDecCol (x : Col) : Prop := x.kind = ColKind.BV ∧ ∃ t : String, x.name = "x_dec(" ++ t

/-- Growth of the builder state: columns, rows and entries are only appended, new
columns are decision columns and new entries lie in new rows. -/
structure Ext (b c : Bld) : Prop where
  inv : c.Inv
  cols : ∃ nc, c.lp.cols = b.lp.cols ++ nc ∧ ∀ x ∈ nc, IsDecCol x
  rows : ∃ nr, c.lp.rows = b.lp.rows ++ nr
  ents : ∃ ne, c.vm.entries = b.vm.entries ++ ne ∧ ∀ en ∈ ne, b.lp.rows.length < en.row

/-- Entries of the uniqueness rows of a list of segments when `c` columns and `r`
rows exist already. -/
def segsEntries : Nat → Nat → List OptEdge → List Entry
  | _, _, [] => []
  | c, r, e :: es =>
    sumEntries (r + 1) (c + 1) (r + e.front.etg.getCardinality true + 1)
        (e.front.etg.getCardinality true) (e.front.etg.getCardinality true)
      ++ segsEntries (c + e.front.etg.getCardinality true * e.front.etg.getCardinality true)
          (r + 2 * e.front.etg.getCardinality true) es

/-- Number of assignment columns of a list of segments. -/
def numAssignCols (es : List OptEdge) : Nat :=
  (es.map (fun e => e.front.etg.getCardinality true * e.front.etg.getCardinality true)).sum

/-- Number of uniqueness rows of a list of segments. -/
def numSumRows (es : List OptEdge) : Nat :=
  (es.map (fun e => 2 * e.front.etg.getCardinality true)).sum

/-- Row written for a same-segment crossing. -/
def sameRow {P : Type} (env : Env P) (node : OptNode) (segmentA segmentB : OptEdge)
    (linepair : LinePair) (poscomb : PosComPair) : Row :=
  { name := sameRowName env node segmentA segmentB linepair poscomb,
    typ := RowType.UP, lb := 0, ub := 3 }

/-- Entries written for a same-segment crossing into row `row` with decision column `d`,
the assignment columns being looked up by name in `lp`. -/
def sameEntries {P : Type} (env : Env P) (lp : Lp) (segmentA segmentB : OptEdge)
    (linepair : LinePair) (poscomb : PosComPair) (row d : Nat) : List Entry :=
  [{ row := row, col := glp_find_col lp (getILPVarName env segmentA linepair.1 poscomb.1.1),
     val := 1 },
   { row := row, col := glp_find_col lp (getILPVarName env segmentA linepair.2 poscomb.2.1),
     val := 1 },
   { row := row, col := glp_find_col lp (getILPVarName env segmentB linepair.1 poscomb.1.2),
     val := 1 },
   { row := row, col := glp_find_col lp (getILPVarName env segmentB linepair.2 poscomb.2.2),
     val := 1 },
   { row := row, col := d, val := -1 }]

/-- Row written for a different-segment crossing. -/
def diffRow {P : Type} (env : Env P) (node : OptNode) (segmentA : OptEdge)
    (segments : EdgePair) (linepair : LinePair) (poscomb : PosCom) : Row :=
  { name := diffRowName env node segmentA segments linepair poscomb,
    typ := RowType.UP, lb := 0, ub := 1 }

/-- Entries written for a different-segment crossing into row `row` with decision
column `d`. -/
def diffEntries {P : Type} (env : Env P) (lp : Lp) (segmentA : OptEdge)
    (linepair : LinePair) (poscomb : PosCom) (row d : Nat) : List Entry :=
  [{ row := row, col := glp_find_col lp (getILPVarName env segmentA linepair.1 poscomb.1),
     val := 1 },
   { row := row, col := glp_find_col lp (getILPVarName env segmentA linepair.2 poscomb.2),
     val := 1 },
   { row := row, col := d, val := -1 }]

/-- Same-segment decision column. -/
def sameDecCol {P : Type} (env : Env P) (node : OptNode) (segmentA segmentB : OptEdge)
    (linepair : LinePair) : Col :=
  { name := sameDecName env node segmentA segmentB linepair, kind := ColKind.BV,
    objCoef := decisionObjCoef (env.getCrossingPenaltySameSeg node.node)
      linepair.1.numCollapsedPartners linepair.2.numCollapsedPartners }

/-- Different-segment decision column. -/
def diffDecCol {P : Type} (env : Env P) (node : OptNode) (segmentA : OptEdge)
    (segments : EdgePair) (linepair : LinePair) : Col :=
  { name := diffDecName env node segmentA segments linepair, kind := ColKind.BV,
    objCoef := decisionObjCoef (env.getCrossingPenaltyDiffSeg node.node)
      linepair.1.numCollapsedPartners linepair.2.numCollapsedPartners }

/-! ## Valuations of the columns -/

/-- Value of column `j` is zero or one. -/
def IsBin (v : Nat → Int) (j : Nat) : Prop := v j = 0 ∨ v j = 1

instance (v : Nat → Int) (j : Nat) : Decidable (IsBin v j) := by
  unfold IsBin; infer_instance

/-- Row `r` holds when its linear form has the value `act`. -/
def Row.holds (r : Row) (act : Int) : Prop :=
  match r.typ with
  | RowType.FR => True
  | RowType.LO => r.lb ≤ act
  | RowType.UP => act ≤ r.ub
  | RowType.DB => r.lb ≤ act ∧ act ≤ r.ub
  | RowType.FX => act = r.lb

instance (r : Row) (act : Int) : Decidable (r.holds act) := by
  unfold Row.holds; split <;> infer_instance

/-- Row with ordinal `j` of the model exists and holds under the valuation `v`. -/
def Bld.rowSatisfied (m : Bld) (v : Nat → Int) (j : Nat) : Prop :=
  0 < j ∧
    match m.lp.rows[j - 1]? with
    | some r => r.holds (rowActivity v m.vm.entries j)
    | none => False

instance (m : Bld) (v : Nat → Int) (j : Nat) : Decidable (m.rowSatisfied v j) := by
  unfold Bld.rowSatisfied; split <;> infer_instance

/-- Value of the objective under the valuation `v`: column `j` (counted from `n + 1`)
contributes its coefficient times `v j`. -/
def objectiveFrom (v : Nat → Int) : Nat → List Col → Int
  | _, [] => 0
  | n, c :: cs => (c.objCoef : Int) * v (n + 1) + objectiveFrom v (n + 1) cs

def Bld.objective (m : Bld) (v : Nat → Int) : Int := objectiveFrom v 0 m.lp.cols

/-- Sum of the objective coefficients of the columns whose value is one, the first of
them being column `n + 1`. -/
def weightOfOnes (v : Nat → Int) : Nat → List Col → Int
  | _, [] => 0
  | n, c :: cs => (if v (n + 1) = 1 then (c.objCoef : Int) else 0) + weightOfOnes v (n + 1) cs

/-! ## Sample networks -/

/-- Sample parameters: a segment is written as its address, a route continues into
every edge that carries it, node fronts are numbered by edge, a point is the pair of
node front and position, and two placements cross when their order flips. -/
def sampleEnv : Env (Nat × Nat) :=
  { getStrRepr := fun e => toString e.addr
    getAdjacentEdge := fun e _ => e.front.etg
    getContinuedRoutesIn := fun e _ r _ _ =>
      (e.trips.filter (fun o => o.route.addr = r.addr)).map (fun o => o.route)
    getCrossingPenaltySameSeg := fun _ => 4
    getCrossingPenaltyDiffSeg := fun _ => 3
    getNodeFrontFor := fun _ e => some e.addr
    getTripPos := fun nf _ p _ => (nf, p)
    intersects := fun a1 a2 b1 b2 => decide (a1.2 < b1.2) != decide (a2.2 < b2.2)
    distBelowOne := fun _ _ _ _ => false }

def lineA : Route := { addr := 16, id := "A", relativeTo := none, numCollapsedPartners := 0 }

def lineB : Route := { addr := 32, id := "B", relativeTo := none, numCollapsedPartners := 1 }

def lineC : Route := { addr := 48, id := "C", relativeTo := none, numCollapsedPartners := 0 }

/-- Route bundled to `lineA`. -/
def lineA1 : Route := { addr := 64, id := "A1", relativeTo := some 16, numCollapsedPartners := 0 }

/-- Second route bundled to `lineA`. -/
def lineA2 : Route := { addr := 80, id := "A2", relativeTo := some 16, numCollapsedPartners := 0 }

/-- Chain of three edges with the lines A, B, C, merged into one segment. -/
def chainEdge (addr fromN toN : Nat) : Edge :=
  { addr := addr, getFrom := fromN, getTo := toN,
    trips := [⟨lineA, none⟩, ⟨lineB, none⟩, ⟨lineC, none⟩] }

def chainSeg : OptEdge :=
  { addr := 1000, front := ⟨chainEdge 1 101 102, true⟩,
    rest := [⟨chainEdge 2 102 103, true⟩, ⟨chainEdge 3 103 104, true⟩],
    fromNode := 501, toNode := 504 }

def chainGraph : OptGraph :=
  { getNodes := [{ addr := 501, node := 101, adjListIn := [], adjListOut := [chainSeg],
                   adjList := [chainSeg] },
                 { addr := 504, node := 104, adjListIn := [chainSeg], adjListOut := [],
                   adjList := [chainSeg] }] }

/-- Two segments with the lines A and B meeting at the node `x`. -/
def crossSegA : OptEdge :=
  { addr := 1000, front := ⟨⟨1, 101, 102, [⟨lineA, none⟩, ⟨lineB, none⟩]⟩, true⟩, rest := [],
    fromNode := 501, toNode := 502 }

def crossSegB : OptEdge :=
  { addr := 2000, front := ⟨⟨2, 102, 103, [⟨lineA, none⟩, ⟨lineB, none⟩]⟩, true⟩, rest := [],
    fromNode := 502, toNode := 503 }

def crossNodeX : OptNode :=
  { addr := 502, node := 102, adjListIn := [crossSegA], adjListOut := [crossSegB],
    adjList := [crossSegA, crossSegB] }

def crossGraph : OptGraph :=
  { getNodes := [{ addr := 501, node := 101, adjListIn := [], adjListOut := [crossSegA],
                   adjList := [crossSegA] },
                 crossNodeX,
                 { addr := 503, node := 103, adjListIn := [crossSegB], adjListOut := [],
                   adjList := [crossSegB] }] }

/-- Fork: segment A with the lines A and B splits at the node `n` into segment B
(line A) and segment C (line B). -/
def forkSegA : OptEdge :=
  { addr := 3000, front := ⟨⟨11, 201, 202, [⟨lineA, none⟩, ⟨lineB, none⟩]⟩, true⟩, rest := [],
    fromNode := 601, toNode := 602 }

def forkSegB : OptEdge :=
  { addr := 4000, front := ⟨⟨12, 202, 203, [⟨lineA, none⟩]⟩, true⟩, rest := [],
    fromNode := 602, toNode := 603 }

def forkSegC : OptEdge :=
  { addr := 5000, front := ⟨⟨13, 202, 204, [⟨lineB, none⟩]⟩, true⟩, rest := [],
    fromNode := 602, toNode := 604 }

def forkNode : OptNode :=
  { addr := 602, node := 202, adjListIn := [forkSegA], adjListOut := [forkSegB, forkSegC],
    adjList := [forkSegA, forkSegB, forkSegC] }

def forkGraph : OptGraph :=
  { getNodes := [{ addr := 601, node := 201, adjListIn := [], adjListOut := [forkSegA],
                   adjList := [forkSegA] },
                 forkNode,
                 { addr := 603, node := 203, adjListIn := [forkSegB], adjListOut := [],
                   adjList := [forkSegB] },
                 { addr := 604, node := 204, adjListIn := [forkSegC], adjListOut := [],
                   adjList := [forkSegC] }] }

/-- First node of `forkGraph`, where segment A is the only adjacent segment. -/
def forkEntry : OptNode :=
  { addr := 601, node := 201, adjListIn := [], adjListOut := [forkSegA], adjList := [forkSegA] }

/-- One segment over an edge whose trip list starts with a route bundled to line A. -/
def bundleEdge : Edge :=
  { addr := 21, getFrom := 301, getTo := 302,
    trips := [⟨lineA1, none⟩, ⟨lineA, none⟩, ⟨lineB, none⟩] }

def bundleSeg : OptEdge :=
  { addr := 6000, front := ⟨bundleEdge, true⟩, rest := [], fromNode := 701, toNode := 702 }

def bundleGraph : OptGraph :=
  { getNodes := [{ addr := 701, node := 301, adjListIn := [], adjListOut := [bundleSeg],
                   adjList := [bundleSeg] },
                 { addr := 702, node := 302, adjListIn := [bundleSeg], adjListOut := [],
                   adjList := [bundleSeg] }] }

/-- One segment over an edge that carries line A alone. -/
def soloEdge : Edge := { addr := 51, getFrom := 801, getTo := 802, trips := [⟨lineA, none⟩] }

def soloSeg : OptEdge :=
  { addr := 7000, front := ⟨soloEdge, true⟩, rest := [], fromNode := 901, toNode := 902 }

def soloGraph : OptGraph :=
  { getNodes := [{ addr := 901, node := 801, adjListIn := [], adjListOut := [soloSeg],
                   adjList := [soloSeg] },
                 { addr := 902, node := 802, adjListIn := [soloSeg], adjListOut := [],
                   adjList := [soloSeg] }] }

/-- Solution for `bundleGraph`: line A at position 0, line B at position 1. -/
def bundleValuation (j : Nat) : Int := if j = 1 ∨ j = 4 then 1 else 0

/-- Solution for `chainGraph`: line A at position 0, B at 1, C at 2. -/
def chainValuation (j : Nat) : Int := if j = 1 ∨ j = 5 ∨ j = 9 then 1 else 0

/-- Transit graph with one edge that carries line A and two routes bundled to it. -/
def twinEdge : Edge :=
  { addr := 31, getFrom := 401, getTo := 402,
    trips := [⟨lineA, none⟩, ⟨lineA1, none⟩, ⟨lineA2, none⟩] }

def twinGraph : TransitGraph :=
  { getNodes := [{ addr := 401, adjListIn := [], adjListOut := [twinEdge] },
                 { addr := 402, adjListIn := [twinEdge], adjListOut := [] }] }

/-- Ordering of `twinEdge` as the decoder leaves it: the index of line A alone. -/
def twinConfig : OrderingConfig := fun a => if a = 31 then [0] else []

/-- Transit graph with two consecutive edges that carry line A and one route bundled
to it, in different trip order. -/
def pairEdge1 : Edge :=
  { addr := 41, getFrom := 411, getTo := 412, trips := [⟨lineA, none⟩, ⟨lineA1, none⟩] }

def pairEdge2 : Edge :=
  { addr := 42, getFrom := 412, getTo := 413,
    trips := [⟨lineA1, none⟩, ⟨lineB, none⟩, ⟨lineA, none⟩] }

def pairGraph : TransitGraph :=
  { getNodes := [{ addr := 411, adjListIn := [], adjListOut := [pairEdge1] },
                 { addr := 412, adjListIn := [pairEdge1], adjListOut := [pairEdge2] },
                 { addr := 413, adjListIn := [pairEdge2], adjListOut := [] }] }

/-- Orderings of the two edges as the decoder leaves them: indices of A and B only. -/
def pairConfig : OrderingConfig := fun a => if a = 41 then [0] else if a = 42 then [2, 1] else []

/-- Valuation of the columns of `crossGraph`: line A at position 0 and line B at
position 1 in both segments, both decision columns at one. -/
def sampleValuation (j : Nat) : Int :=
  if j = 1 ∨ j = 4 ∨ j = 5 ∨ j = 8 ∨ j = 9 ∨ j = 10 then 1 else 0

/-- Model of the builder for a sample network; the empty model when it aborts. -/
def modelOf (g : OptGraph) : Bld := (createProblem sampleEnv g).getD Bld.init

/-- Decision columns of the builder: the column of some line pair of some segment, for
a partner (same-segment) or a pair of partners (different-segment). -/
def DecOf {P : Type} (env : Env P) (x : Col) : Prop :=
  ∃ (node : OptNode) (segmentA : OptEdge) (linepair : LinePair),
    linepair ∈ getLinePairs segmentA ∧
      ((∃ segmentB, x = sameDecCol env node segmentA segmentB linepair) ∨
        (∃ segments, x = diffDecCol env node segmentA segments linepair))

/-- Columns are only appended, and the new ones satisfy `D`. -/
def ColsExt (D : Col → Prop) (b c : Bld) : Prop :=
  ∃ nc, c.lp.cols = b.lp.cols ++ nc ∧ ∀ x ∈ nc, D x

/-- Decision columns a line pair gets in `writeSameSegConstraints` while `segmentA` is
handled: one for every partner that is not in the set `processed`. -/
def sameLineCols {P : Type} (env : Env P) (node : OptNode) (processed : List Nat)
    (segmentA : OptEdge) (linepair : LinePair) : List Col :=
  ((getEdgePartners env node segmentA linepair).getD []).flatMap (fun segmentB =>
    if processed.contains segmentB.addr then []
    else [sameDecCol env node segmentA segmentB linepair])

/-- Hypotheses under which the decoder reads the solution for one underlying edge:
the model is the builder's, the segment is one of its segments, the edge carries the
routes of the reference edge (same addresses, pairwise distinct), assignment columns
have pairwise distinct names, the solution is zero-one and satisfies the uniqueness
rows of the segment. -/
structure DecodeOk {P : Type} (env : Env P) (g : OptGraph) (m : Bld) (v : Nat → Int)
    (pre post : List OptEdge) (e : OptEdge) (etgp : EtgPart) : Prop where
  built : createProblem env g = some m
  segs : g.segments = pre ++ e :: post
  sameRoutes : (etgp.etg.nonRelRoutes.map (fun r => r.addr)).Perm
    (e.front.etg.nonRelRoutes.map (fun r => r.addr))
  distinct : (e.front.etg.nonRelRoutes.map (fun r => r.addr)).Nodup
  names : ((g.segments.flatMap (assignCols env)).map (fun c => c.name)).Nodup
  bin : ∀ j, IsBin v j
  sat : ∀ j, numSumRows pre < j →
    j ≤ numSumRows pre + 2 * e.front.etg.getCardinality true → m.rowSatisfied v j

/-! ## Descriptions of the traversal -/

/-- Number of entries of all adjacency lists. -/
def adjTotal (g : TransitGraph) : Nat :=
  (g.getNodes.map (fun n => n.adjListIn.length + n.adjListOut.length)).sum

/-- Number of iterations that suffices for every traversal of `g`. -/
def expandFuel (g : TransitGraph) : Nat := (2 * adjTotal g + 1) * (adjTotal g + 1) + 2

/-- Addresses of the edges a traversal from `start` can meet. -/
def edgeUniverse (g : TransitGraph) (start : Edge) : List Nat :=
  start.addr :: g.getNodes.flatMap (fun n => (n.adjListIn ++ n.adjListOut).map (fun e => e.addr))

/-- Edge on which the insertion loop can run: the ordering `c0` holds the index of `ref`,
and no route of `rs` has the index of `ref` (as it would if the edge did not carry it
while `ref` is the first trip). -/
def Expandable (ref : Nat) (rs : List Nat) (c0 : OrderingConfig) (e : Edge) : Prop :=
  e.getRouteOccWithPos ref ∈ c0 e.addr ∧
    ∀ r ∈ rs, e.getRouteOccWithPos r ≠ e.getRouteOccWithPos ref

/-- Ordering of `e` in `c` is the ordering in `c0` with the indices of the routes `rs`
put around the first index of `ref`: `bef` directly before it, `aft` directly after. -/
def RelForm (ref : Nat) (rs : List Nat) (c0 c : OrderingConfig) (e : Edge) : Prop :=
  ∃ A B bef aft, c0 e.addr = A ++ e.getRouteOccWithPos ref :: B ∧
    e.getRouteOccWithPos ref ∉ A ∧
    c e.addr = A ++ bef ++ e.getRouteOccWithPos ref :: (aft ++ B) ∧
    (bef ++ aft).Perm (rs.map e.getRouteOccWithPos)

/-- Invariant of the traversal; `done` lists the edges expanded so far, latest first. -/
structure ExpandInv (g : TransitGraph) (ref : Nat) (rs : List Nat) (c0 : OrderingConfig)
    (start : Edge) (st : ExpandState) (done : List Edge) : Prop where
  visited_eq : done.map (fun e => e.addr) = st.visited
  form : ∀ e ∈ done, RelForm ref rs c0 st.c e
  frame : ∀ a, a ∉ st.visited → st.c a = c0 a
  todo_ok : ∀ x ∈ st.todo, x.2.addr ∈ edgeUniverse g start ∧ Expandable ref rs c0 x.2

/-- Measure that decreases in every iteration of the traversal. -/
def expandMeasure (g : TransitGraph) (start : Edge) (st : ExpandState) : Nat :=
  st.todo.length
    + (2 * adjTotal g + 1) * ((edgeUniverse g start).toFinset \ st.visited.toFinset).card

/-- Entries `x` and `y` stand next to each other in `l`. -/
def adjacentIn (l : List Nat) (x y : Nat) : Prop := [x, y] <:+: l ∨ [y, x] <:+: l

instance (l : List Nat) (x y : Nat) : Decidable (adjacentIn l x y) := by
  unfold adjacentIn; infer_instance

/-! ## The driver: external pre-solve, solve, decode -/

/-- Bounds of a column as `glp_set_col_bnds` sets them. -/
structure ColBnds where
  typ : RowType
  lb : Int
  ub : Int
deriving DecidableEq

/-- Problem object after the build: the builder's result, whose buffer is the loaded
matrix, and the bounds given to columns afterwards; `none` stands for the bounds a
column has from its kind. -/
structure Mip where
  bld : Bld
  colBnds : Nat → Option ColBnds

def glp_set_col_bnds (m : Mip) (j : Nat) (typ : RowType) (lb ub : Int) : Mip :=
  { m with colBnds := fun i => if i = j then some { typ := typ, lb := lb, ub := ub }
                                else m.colBnds i }

/-- White space as the stream extractors skip it: blank, tab, line feed, vertical tab,
form feed, carriage return. -/
def isSpaceChar (c : Char) : Bool := c.toNat = 32 || (9 ≤ c.toNat && c.toNat ≤ 13)

def isDigitChar (c : Char) : Bool := 48 ≤ c.toNat && c.toNat ≤ 57

/-- Number written by a run of decimal digits. -/
def digitsValue (ds : List Char) : Nat := ds.foldl (fun n c => 10 * n + (c.toNat - 48)) 0

/-- Optional sign in front of a number: whether it is a minus, and the rest. -/
def readSign : List Char → Bool × List Char
  | [] => (false, [])
  | c :: t => if c.toNat = 45 then (true, t) else if c.toNat = 43 then (false, t)
              else (false, c :: t)

/-- Extraction `iss >> number` into an `int` followed by `if (iss.fail()) iss.clear()`:
white space is skipped, then a sign and digits are read. The number itself is never
used by the program, so only success and the rest of the stream are kept. -/
def readInt (s : List Char) : Bool × List Char :=
  let s2 := (readSign (s.dropWhile isSpaceChar)).2
  if (s2.takeWhile isDigitChar).isEmpty then (false, s2)
  else (true, s2.dropWhile isDigitChar)

/-- Extraction `iss >> name` into a string: white space is skipped, then the characters
up to the next white space are read; the empty text when there is none. -/
def readWord (s : List Char) : String × List Char :=
  let s1 := s.dropWhile isSpaceChar
  (String.mk (s1.takeWhile (fun c => !isSpaceChar c)), s1.dropWhile (fun c => !isSpaceChar c))

/-- Finite value of type `double`: the sign and the magnitude `mant * 2 ^ exp`. -/
structure Double where
  neg : Bool
  mant : Nat
  exp : Int
deriving DecidableEq

/-- Number of binary digits of `n`, found by halving at most `fuel` times. -/
def bitLengthAux : Nat → Nat → Nat
  | 0, _ => 0
  | fuel + 1, n => if n = 0 then 0 else bitLengthAux fuel (n / 2) + 1

/-- Number of binary digits of `n`. -/
def bitLength (n : Nat) : Nat := bitLengthAux n n

/-- Numerator and denominator of `num / den / 2 ^ e`. -/
def scaleBin (num den : Nat) (e : Int) : Nat × Nat :=
  (num * 2 ^ (-e).toNat, den * 2 ^ e.toNat)

/-- Exponent that the `double` format gives the positive number `num / den`: the `e`
with `2 ^ 52 ≤ num / den / 2 ^ e < 2 ^ 53`, and the exponent -1074 of the subnormal
numbers when that `e` would lie below it. -/
def binExp (num den : Nat) : Int :=
  let e1 : Int := (bitLength num : Int) - (bitLength den : Int) - 52
  let e2 := if (scaleBin num den e1).1 < 2 ^ 52 * (scaleBin num den e1).2 then e1 - 1 else e1
  max e2 (-1074)

/-- Integer nearest to `a / b`, the even one of the two when `a / b` lies half way. -/
def roundHalfEven (a b : Nat) : Nat :=
  if 2 * (a % b) < b then a / b else if b < 2 * (a % b) then a / b + 1 else a / b + (a / b) % 2

/-- Conversion of the number `num / den` with the sign `neg` to `double` as the library
does it for a decimal text: the nearest number with a significand of 53 binary digits
(subnormal numbers have fewer), the one with the even significand on a tie. A number too
large for the format is stored as the largest finite `double`. -/
def nearestDouble (neg : Bool) (num den : Nat) : Double :=
  if num = 0 then { neg := neg, mant := 0, exp := 0 }
  else
    let e := binExp num den
    let q := roundHalfEven (scaleBin num den e).1 (scaleBin num den e).2
    if 971 < e ∨ (e = 971 ∧ q = 2 ^ 53) then { neg := neg, mant := 2 ^ 53 - 1, exp := 971 }
    else { neg := neg, mant := q, exp := e }

/-- Digits, fraction and exponent of a floating-point text after its sign: the value of
the digits with the point removed and the power of ten that goes with it; `none` when
there is no digit, or when an exponent letter is read and no digit follows it. -/
def readMantExp (s2 : List Char) : Option (Nat × Int) :=
  let ip := s2.takeWhile isDigitChar
  let s3 := s2.dropWhile isDigitChar
  let (fp, s4) := match s3 with
    | c :: t => if c.toNat = 46 then (t.takeWhile isDigitChar, t.dropWhile isDigitChar)
                else ([], s3)
    | [] => ([], s3)
  if ip.isEmpty && fp.isEmpty then none
  else
    match s4 with
    | c :: t =>
      if c.toNat = 101 || c.toNat = 69 then
        let (eneg, s5) := readSign t
        let ed : Int := digitsValue (s5.takeWhile isDigitChar)
        if (s5.takeWhile isDigitChar).isEmpty then none
        else some (digitsValue (ip ++ fp), (if eneg then -ed else ed) - fp.length)
      else some (digitsValue (ip ++ fp), 0 - fp.length)
    | [] => some (digitsValue (ip ++ fp), 0 - fp.length)

/-- Extraction `iss >> value` into a `double` from a stream that has a character other
than white space left: white space is skipped, then a sign, digits, a fraction and an
exponent are read, and the decimal number so written is converted to the nearest
`double`; zero is stored when the characters read do not make a number. -/
def readDouble (s : List Char) : Double :=
  let (neg, s2) := readSign (s.dropWhile isSpaceChar)
  match readMantExp s2 with
  | none => { neg := false, mant := 0, exp := 0 }
  | some (m, ex) => nearestDouble neg (m * 10 ^ ex.toNat) (10 ^ (-ex).toNat)

/-- Conversion `int intVal = value` of a `double` to the 32-bit `int`: the fraction is
discarded, which rounds toward zero; the conversion is undefined, `none`, when the
number without its fraction is not in the range of `int`. -/
def Double.toInt (d : Double) : Option Int :=
  let t : Nat := d.mant * 2 ^ d.exp.toNat / 2 ^ (-d.exp).toNat
  let v : Int := if d.neg then -(t : Int) else (t : Int)
  if -(2 : Int) ^ 31 ≤ v ∧ v < 2 ^ 31 then some v else none

/-- Name read from a line of the solution file. -/
def lineName (line : String) : String := (readWord (readInt line.toList).2).1

/-- Value read from a line of the solution file, converted to `int`. When nothing but
white space is left after the name (or no name could be read), the stream is at its end
or has failed, `iss >> value` stores nothing and `value` stays uninitialised, so that
the conversion is undefined as well. -/
def lineIntVal (line : String) : Option Int :=
  let rest := (readWord (readInt line.toList).2).2
  if (rest.dropWhile isSpaceChar).isEmpty then none else (readDouble rest).toInt

/-- Body of the loop `while (std::getline(fin, line))` in `preSolveCoinCbc`; `none`
when the conversion of the value to `int` is undefined. The library finds no column for
a name that is not in the model. -/
def preSolveLine (m : Mip) (line : String) : Option Mip := do
  let name := lineName line
  let intVal ← lineIntVal line
  let col := glp_find_col m.bld.lp name
  if col ≠ 0 then some (glp_set_col_bnds m col RowType.FX intVal intVal) else some m

/-- What the call of the external command leaves behind: the value `r` returned by
`system` and the lines of the output file, none when the file cannot be opened. -/
structure ExternalRun where
  r : Int
  lines : List String

/-- Function `preSolveCoinCbc`, after the command has run: `r` goes to the log only, the
first line of the file is skipped and the other lines are worked off in order; `none`
when a line makes the behaviour undefined. -/
def preSolveCoinCbc (m : Mip) (run : ExternalRun) : Option Mip :=
  (run.lines.drop 1).foldlM preSolveLine m

/-- Fields of the configuration that `optimize` reads. -/
structure Config where
  createCoreOptimGraph : Bool
  externalSolver : String
  glpkPSTimeLimit : Int
  glpkTimeLimit : Int
  useGlpkFeasibilityPump : Bool
  useGlpkProximSearch : Bool

/-- Control parameters of the in-process solver. -/
structure Iocp where
  presolve : Bool
  binarize : Bool
  ps_tm_lim : Int
  tm_lim : Int
  fp_heur : Bool
  ps_heur : Bool

/-- Status of the MIP solution as the library reports it. -/
inductive MipStatus where
  | UNDEF | OPT | FEAS | NOFEAS
deriving DecidableEq

/-- What `glp_intopt` leaves behind: its return value, the status of the MIP solution,
the column values `glp_mip_col_val` and the objective value `glp_mip_obj_val`. -/
structure Solved where
  ret : Int
  status : MipStatus
  colVal : Nat → Int
  objVal : Int

/-- Parts of a run of `optimize` that lie outside the sources: the optimiser graph built
from the transit graph (simplified or not), the external command and the in-process
solver. -/
structure Outside where
  optGraph : Bool → OptGraph
  system : String → Bld → ExternalRun
  glp_intopt : Mip → Iocp → Solved

/-- Function `solveProblem`: sets the parameters and calls the solver; nothing of what
the solver reports is passed on by the program, the result object is what the later
`glp_mip_*` calls read. -/
def solveProblem (out : Outside) (cfg : Config) (m : Mip) : Solved :=
  out.glp_intopt m
    { presolve := true, binarize := true, ps_tm_lim := cfg.glpkPSTimeLimit,
      tm_lim := cfg.glpkTimeLimit,
      fp_heur := if cfg.externalSolver = "" then cfg.useGlpkFeasibilityPump else false,
      ps_heur := if cfg.externalSolver = "" then cfg.useGlpkProximSearch else false }

/-- Function `getConfigurationFromSolution`: the positions are decoded into the empty
configuration `c`, then the relative routes are expanded. -/
def getConfigurationFromSolution {P : Type} (env : Env P) (lp : Lp) (v : Nat → Int)
    (g : OptGraph) (tg : TransitGraph) (fuel : Nat) (c : OrderingConfig) :
    Option OrderingConfig := do
  let c ← decodePositions env lp v g c
  expandRelatives tg fuel c

/-- What `optimize` writes into the transit graph object. -/
structure GraphState where
  config : OrderingConfig
  lastSolveTarget : Int

/-- Function `optimize`: the value it returns and the state of the transit graph
afterwards; `none` stands for a run that a failed assertion aborts or whose behaviour is
undefined. Log output, the optional dumps and the time measurement are left out. -/
def optimize {P : Type} (env : Env P) (out : Outside) (cfg : Config) (tg : TransitGraph)
    (fuel : Nat) (st : GraphState) : Option (Int × GraphState) := do
  let g := out.optGraph cfg.createCoreOptimGraph
  let b ← createProblem env g
  let lp : Mip := { bld := b, colBnds := fun _ => none }
  let lp ← if cfg.externalSolver ≠ "" then preSolveCoinCbc lp (out.system cfg.externalSolver b)
            else some lp
  let res := solveProblem out cfg lp
  let st := { st with lastSolveTarget := res.objVal }
  let c ← getConfigurationFromSolution env lp.bld.lp res.colVal g tg fuel (fun _ => [])
  some (0, { st with config := c })

/-! ## Descriptions of the pre-solve -/

/-- Column that a line of the solution file names in the model, zero when none. -/
def lineCol (lp : Lp) (line : String) : Nat :=
  if lineName line = "" then 0 else glp_find_col lp (lineName line)

/-- Last line of `lines` that names the column `j`. -/
def lastFix (lp : Lp) (lines : List String) (j : Nat) : Option String :=
  lines.reverse.find? (fun l => decide (j ≠ 0 ∧ lineCol lp l = j))

/-- Bounds of column `j` after the lines have been worked off. -/
def fixedBnds (lp : Lp) (lines : List String) (old : Nat → Option ColBnds) (j : Nat) :
    Option ColBnds :=
  match lastFix lp lines j with
  | some l => (lineIntVal l).map (fun v => { typ := RowType.FX, lb := v, ub := v })
  | none => old j

/-- Line of the solution file of the form `[<index>] <name> <value>`, fields separated
by white space: an index of digits or none, a name without white space that does not
start with a digit or a sign, and a value `[-]<digits>[.<digits>]` that ends at white
space or at the end of the line; `ip` are the digits before the point, `fp` those after
it (none when there is no point) and `neg` tells whether there is a minus sign. -/
def IsSolLine (line name : String) (neg : Bool) (ip fp : List Char) : Prop :=
  ∃ (sp0 idx sp1 sp2 frac tail : List Char),
    line.toList = sp0 ++ idx ++ sp1 ++ name.toList ++ sp2
      ++ (if neg then [Char.ofNat 45] else []) ++ ip ++ frac ++ tail ∧
    (∀ c ∈ sp0, isSpaceChar c = true) ∧ (∀ c ∈ idx, isDigitChar c = true) ∧
    (∀ c ∈ sp1, isSpaceChar c = true) ∧ (idx ≠ [] → sp1 ≠ []) ∧
    (∀ c ∈ name.toList, isSpaceChar c = false) ∧
    (∃ c cs, name.toList = c :: cs ∧ isDigitChar c = false ∧ c.toNat ≠ 45 ∧ c.toNat ≠ 43) ∧
    sp2 ≠ [] ∧ (∀ c ∈ sp2, isSpaceChar c = true) ∧
    ip ≠ [] ∧ (∀ c ∈ ip, isDigitChar c = true) ∧
    (∀ c ∈ fp, isDigitChar c = true) ∧
    ((frac = [] ∧ fp = []) ∨ frac = Char.ofNat 46 :: fp) ∧
    (tail = [] ∨ ∃ x t, tail = x :: t ∧ isSpaceChar x = true)

/-- Problem object of a sample network right after the build: no column bound has
been set yet. -/
def mipOf (g : OptGraph) : Mip := { bld := modelOf g, colBnds := fun _ => none }

/-- Solution file for `bundleGraph`: a header, a line with an index, a line without,
a line that names no column of the model and a second line for the first column. -/
def sampleSolFile : List String :=
  ["Optimal - objective value 0.00000000",
   "      0 x_(6000,l=0x10,p=0)              1                       0",
   "x_(6000,l=0x20,p=1) 0.75",
   "      7 y_unknown                        1                       0",
   "      1 x_(6000,l=0x10,p=1)             -2.5                     0"]

/-- Transit graph under `soloGraph`. -/
def soloTransit : TransitGraph :=
  { getNodes := [{ addr := 801, adjListIn := [], adjListOut := [soloEdge] },
                 { addr := 802, adjListIn := [soloEdge], adjListOut := [] }] }

/-- Surroundings of a sample run: the optimiser graph is `g`, the external command
leaves no file, and the solver leaves `res` whatever the model is. -/
def sampleOutside (g : OptGraph) (res : Solved) : Outside :=
  { optGraph := fun _ => g, system := fun _ _ => { r := 0, lines := [] },
    glp_intopt := fun _ _ => res }

/-- Configuration without an external solver. -/
def sampleConfig : Config :=
  { createCoreOptimGraph := false, externalSolver := "", glpkPSTimeLimit := 1000,
    glpkTimeLimit := 60000, useGlpkFeasibilityPump := false, useGlpkProximSearch := false }

/-- Solver outcome without a solution: a nonzero return value, status `GLP_NOFEAS`, all
column values zero. -/
def noSolution : Solved :=
  { ret := 10, status := MipStatus.NOFEAS, colVal := fun _ => 0, objVal := 0 }

/-- Solver outcome for `soloGraph`: the one column is one. -/
def soloSolution : Solved :=
  { ret := 0, status := MipStatus.OPT, colVal := fun j => if j = 1 then 1 else 0, objVal := 0 }

/-- Objective coefficient `c` multiplied by the factor `k` in `size_t` arithmetic. -/
def scaleCoef (k : Int) (c : Nat) : Nat := ((k % 2 ^ 64).toNat * c) % 2 ^ 64

def Col.scaled (k : Int) (c : Col) : Col := { c with objCoef := scaleCoef k c.objCoef }

def Lp.scaled (k : Int) (lp : Lp) : Lp := { lp with cols := lp.cols.map (Col.scaled k) }

/-- Model with every objective coefficient multiplied by `k`. -/
def Bld.scaled (k : Int) (b : Bld) : Bld := { b with lp := b.lp.scaled k }

/-- Parameters with both crossing penalties multiplied by `k`. -/
def Env.scaled {P : Type} (k : Int) (env : Env P) : Env P :=
  { env with
    getCrossingPenaltySameSeg := fun n => k * env.getCrossingPenaltySameSeg n
    getCrossingPenaltyDiffSeg := fun n => k * env.getCrossingPenaltyDiffSeg n }

/-- Parameters of the forced-crossing scenario with penalty one: as `sampleEnv`, but
both penalties are 1 and the node fronts lie so close that any two placements are
nearer than one unit, so the predicate holds for every position combination. -/
def unitEnv : Env (Nat × Nat) :=
  { sampleEnv with
    getCrossingPenaltySameSeg := fun _ => 1
    getCrossingPenaltyDiffSeg := fun _ => 1
    distBelowOne := fun _ _ _ _ => true }

/-- Parameters of the forced-crossing scenario with penalty `pen`. -/
def tightEnv (pen : Int) : Env (Nat × Nat) := unitEnv.scaled pen

/-- Two segments that both carry exactly the lines A and C (no collapsed partners),
meeting at the node `x`. -/
def tightSegA : OptEdge :=
  { addr := 1000, front := ⟨⟨1, 101, 102, [⟨lineA, none⟩, ⟨lineC, none⟩]⟩, true⟩, rest := [],
    fromNode := 501, toNode := 502 }

def tightSegB : OptEdge :=
  { addr := 2000, front := ⟨⟨2, 102, 103, [⟨lineA, none⟩, ⟨lineC, none⟩]⟩, true⟩, rest := [],
    fromNode := 502, toNode := 503 }

def tightNodeX : OptNode :=
  { addr := 502, node := 102, adjListIn := [tightSegA], adjListOut := [tightSegB],
    adjList := [tightSegA, tightSegB] }

def tightGraph : OptGraph :=
  { getNodes := [{ addr := 501, node := 101, adjListIn := [], adjListOut := [tightSegA],
                   adjList := [tightSegA] },
                 tightNodeX,
                 { addr := 503, node := 103, adjListIn := [tightSegB], adjListOut := [],
                   adjList := [tightSegB] }] }

/-- Model of the forced-crossing scenario with penalty one. -/
def unitModel : Bld := (createProblem unitEnv tightGraph).getD Bld.init

/-- Model of the forced-crossing scenario. -/
def tightModel (pen : Int) : Bld := (createProblem (tightEnv pen) tightGraph).getD Bld.init

/-- Valuation is a solution of the model: every column is zero or one and every row
holds. -/
def Bld.Feasible (m : Bld) (v : Nat → Int) : Prop :=
  (∀ j, 0 < j → j ≤ m.lp.cols.length → IsBin v j) ∧
    ∀ i, 0 < i → i ≤ m.lp.rows.length → m.rowSatisfied v i

/-- Solution with the least value of the objective. -/
def Bld.Optimal (m : Bld) (v : Nat → Int) : Prop :=
  m.Feasible v ∧ ∀ w, m.Feasible w → m.objective v ≤ m.objective w

/-- Solution of the forced-crossing scenario: line A at position 0 and line C at
position 1 in both segments, both decision columns at one. -/
def tightValuation (j : Nat) : Int :=
  if j = 1 ∨ j = 4 ∨ j = 5 ∨ j = 8 ∨ j = 9 ∨ j = 10 then 1 else 0

/-! ## Bulk load of the triple buffer -/

/-- Loop of `getGLPKArrs` over `i = 1, ..., size`: slot `i` of the three arrays gets
entry `i - 1` of the three vectors; `none` stands for reading a vector out of range. -/
def glpkArrsLoop (vm : VariableMatrix) :
    List Nat → List (Option Nat) × List (Option Nat) × List (Option Int) →
      Option (List (Option Nat) × List (Option Nat) × List (Option Int))
  | [], arrs => some arrs
  | i :: more, arrs =>
    match vm.rowNum[i - 1]?, vm.colNum[i - 1]?, vm.vals[i - 1]? with
    | some r, some c, some v =>
      glpkArrsLoop vm more (arrs.1.set i (some r), arrs.2.1.set i (some c), arrs.2.2.set i (some v))
    | _, _, _ => none

/-- Method `getGLPKArrs`: the arrays `ia`, `ja`, `r`, each with `rowNum.size() + 1` slots;
a slot that was never written is `none`. The result is `none` when an assertion fails. -/
def VariableMatrix.getGLPKArrs (vm : VariableMatrix) :
    Option (List (Option Nat) × List (Option Nat) × List (Option Int)) :=
  if vm.rowNum.length ≠ vm.colNum.length then none
  else if vm.colNum.length ≠ vm.vals.length then none
  else
    glpkArrsLoop vm ((List.range vm.rowNum.length).map (fun i => i + 1))
      (List.replicate (vm.rowNum.length + 1) none, List.replicate (vm.rowNum.length + 1) none,
        List.replicate (vm.rowNum.length + 1) none)

/-- Buffer after a sequence of `addVar(row, col, val)` calls on an empty buffer. -/
def addVars (calls : List (Nat × Nat × Int)) : VariableMatrix :=
  calls.foldl (fun vm c => vm.addVar c.1 c.2.1 c.2.2) VariableMatrix.empty

/-! ## Trip occurrences of the skeleton builder (`EdgeTripGeom.h`) -/

/-- Struct `TripOccurance`: the route, the trips added so far and the direction, a node
address or null (`none`: both directions). -/
structure TripOccurance where
  route : Nat
  trips : List Nat
  direction : Option Nat
deriving DecidableEq

/-- Constructor `TripOccurance(r)`: no trip, direction null. -/
def TripOccurance.new (r : Nat) : TripOccurance := { route := r, trips := [], direction := none }

/-- Method `addTrip(t, dirNode)`. -/
def TripOccurance.addTrip (o : TripOccurance) (t : Nat) (dirNode : Option Nat) : TripOccurance :=
  let direction :=
    if o.trips.length = 0 then dirNode
    else if o.direction.isSome && o.direction != dirNode then none
    else o.direction
  { o with direction := direction, trips := o.trips ++ [t] }

/-- Sequence of `addTrip` calls. -/
def TripOccurance.addTrips (o : TripOccurance) (calls : List (Nat × Option Nat)) : TripOccurance :=
  calls.foldl (fun o c => o.addTrip c.1 c.2) o

/-! ## Descriptions of the line pairs in unique mode -/

/-- Pair of two routes with the one of smaller address first, as pushed by
`getLinePairs` in unique mode. -/
def orderedPair (a b : Route) : LinePair :=
  if a.addr < b.addr then (a, b) else (b, a)

/-- Every route of a list paired with every later one, smaller address first. -/
def upperPairs : List Route → List LinePair
  | [] => []
  | a :: more => more.map (orderedPair a) ++ upperPairs more

/-- Pairs collected by the outer loop of `getLinePairs` in unique mode over the
non-relative routes `l`, with `processed` the addresses inserted before and `all` the
non-relative routes of the whole trip list. -/
def upperFrom (all : List Route) : List Nat → List Route → List LinePair
  | _, [] => []
  | processed, a :: more =>
    (all.filter (fun b => !(a.addr :: processed).contains b.addr)).map (orderedPair a)
      ++ upperFrom all (a.addr :: processed) more

/-! ## Descriptions of the same-segment pass at one node -/

/-- Triples `(segmentA, segmentB, linepair)` for which the loop over the remaining
adjacency list `l` in `writeSameSegConstraints` creates a decision column, given the
set `processed` reached before: every partner of every line pair of `segmentA` that is
not in `processed` once `segmentA` was inserted. -/
def sameJobs {P : Type} (env : Env P) (node : OptNode) :
    List Nat → List OptEdge → List (OptEdge × OptEdge × LinePair)
  | _, [] => []
  | processed, segmentA :: more =>
    (getLinePairs segmentA).flatMap (fun linepair =>
      (((getEdgePartners env node segmentA linepair).getD []).filter
        (fun segmentB => !(segmentA.addr :: processed).contains segmentB.addr)).map
          (fun segmentB => (segmentA, segmentB, linepair)))
      ++ sameJobs env node (segmentA.addr :: processed) more

/-- Model of the cross network after the segments were added and the same-segment pass
has handled the node `x`. -/
def crossAfterSame : Bld :=
  (sameSegNodeStep sampleEnv (addSegments sampleEnv crossGraph Bld.init) crossNodeX).getD
    Bld.init

/-! ## The human-readable dump -/

def glp_get_num_cols (lp : Lp) : Nat := lp.cols.length

def glp_get_num_rows (lp : Lp) : Nat := lp.rows.length

/-- Name of column `i`, counted from one. -/
def glp_get_col_name (lp : Lp) (i : Nat) : String :=
  ((lp.cols[i - 1]?).map (fun c => c.name)).getD ""

/-- Objective coefficient of column `i`; index zero is the constant term of the
objective, which nothing in this program sets. -/
def glp_get_obj_coef (lp : Lp) (i : Nat) : Int :=
  if i = 0 then 0 else ((lp.cols[i - 1]?).map (fun c => (c.objCoef : Int))).getD 0

def glp_get_row_type (lp : Lp) (j : Nat) : RowType :=
  ((lp.rows[j - 1]?).map (fun r => r.typ)).getD RowType.FR

def glp_get_row_lb (lp : Lp) (j : Nat) : Int := ((lp.rows[j - 1]?).map (fun r => r.lb)).getD 0

def glp_get_row_ub (lp : Lp) (j : Nat) : Int := ((lp.rows[j - 1]?).map (fun r => r.ub)).getD 0

/-- The two arrays after `glp_get_mat_col(lp, col, indices, values)`, slots `1` to
`n - 1` of the `n` allocated ones: the elements of the column in the loaded matrix fill
the first slots, a slot that was not written is `none`. The result is `none` when the
column has more elements than the slots `1` to `n - 1` hold. -/
def glp_get_mat_col (b : Bld) (col : Nat) : Option (List (Option (Nat × Int))) :=
  let n := glp_get_num_cols b.lp
  let elems := (b.vm.entries.filter (fun e => e.col = col)).map (fun e => (e.row, e.val))
  if elems.length ≤ n - 1 then
    some (elems.map some ++ List.replicate (n - 1 - elems.length) none)
  else none

/-- Scan of `getConstraintCoeff` over the slots `1` to `n - 1`; reading a slot that was
never written gives `none`. -/
def constraintCoeffScan (constraint : Nat) : List (Option (Nat × Int)) → Option Int
  | [] => some 0
  | none :: _ => none
  | some (idx, v) :: more => if idx = constraint then some v else constraintCoeffScan constraint more

def getConstraintCoeff (b : Bld) (constraint col : Nat) : Option Int := do
  let slots ← glp_get_mat_col b col
  constraintCoeffScan constraint slots

/-- Text a stream writes for a number of integral value with fewer than seven digits. -/
def showDouble (x : Int) : String := toString x

/-- One turn of the loops that build a linear form in `printHumanReadable`: the text
`acc` written so far, extended by the term of coefficient `coef` and column name
`colName`. -/
def appendTerm (acc : String) (coef : Int) (colName : String) : String :=
  if coef ≠ 0 then
    let acc1 :=
      if 0 < coef ∧ 0 < acc.length then acc ++ " + "
      else if coef < 0 ∧ 0 < acc.length then acc ++ " - "
      else acc
    let acc2 :=
      if coef.natAbs ≠ 1 then
        acc1 ++ showDouble (if 0 < acc1.length then (coef.natAbs : Int) else coef) ++ " "
      else acc1
    acc2 ++ colName
  else acc

/-- Linear form of the objective: the loop `for (i = 0; i < num_cols - 1; ++i)`. -/
def objectiveText (lp : Lp) : String :=
  (List.range (glp_get_num_cols lp - 1)).foldl (fun obj i =>
    appendTerm obj (glp_get_obj_coef lp i) (if 0 < i then glp_get_col_name lp i else "")) ""

/-- Linear form of row `j`: the loop `for (i = 1; i < num_cols - 1; ++i)`. -/
def rowText (b : Bld) (j : Nat) : Option String :=
  (List.range' 1 (glp_get_num_cols b.lp - 2)).foldlM (fun row i => do
    let coef ← getConstraintCoeff b j i
    some (appendTerm row coef (glp_get_col_name b.lp i))) ""

/-- Lines written for row `j` with linear form `row`: the `switch` on the row type. -/
def rowLines (lp : Lp) (j : Nat) (row : String) : String :=
  match glp_get_row_type lp j with
  | RowType.FR => ""
  | RowType.LO => "\n" ++ row ++ " >= " ++ showDouble (glp_get_row_lb lp j)
  | RowType.UP => "\n" ++ row ++ " <= " ++ showDouble (glp_get_row_ub lp j)
  | RowType.DB =>
    "\n" ++ row ++ " >= " ++ showDouble (glp_get_row_lb lp j)
      ++ "\n" ++ row ++ " <= " ++ showDouble (glp_get_row_ub lp j)
  | RowType.FX => "\n" ++ row ++ " = " ++ showDouble (glp_get_row_lb lp j)

/-- Content `printHumanReadable` writes to the file it opened, for the problem object
and the matrix loaded into it; all problems here are minimisations. The rows are walked
by `for (j = 1; j < num_rows - 1; ++j)`. -/
def printHumanReadable (b : Bld) : Option String :=
  (List.range' 1 (glp_get_num_rows b.lp - 2)).foldlM (fun file j => do
    let row ← rowText b j
    some (file ++ rowLines b.lp j row)) ("min " ++ objectiveText b.lp ++ "\n")

/-- Second segment over an edge that carries line B alone. -/
def duoEdge : Edge := { addr := 52, getFrom := 803, getTo := 804, trips := [⟨lineB, none⟩] }

def duoSeg : OptEdge :=
  { addr := 7100, front := ⟨duoEdge, true⟩, rest := [], fromNode := 903, toNode := 904 }

/-- Two separate segments of one line each. -/
def duoGraph : OptGraph :=
  { getNodes := [{ addr := 901, node := 801, adjListIn := [], adjListOut := [soloSeg],
                   adjList := [soloSeg] },
                 { addr := 902, node := 802, adjListIn := [soloSeg], adjListOut := [],
                   adjList := [soloSeg] },
                 { addr := 903, node := 803, adjListIn := [], adjListOut := [duoSeg],
                   adjList := [duoSeg] },
                 { addr := 904, node := 804, adjListIn := [duoSeg], adjListOut := [],
                   adjList := [duoSeg] }] }

/-! ## A segment with edges of both directions -/

def zigEdge1 : Edge :=
  { addr := 61, getFrom := 811, getTo := 812, trips := [⟨lineA, none⟩, ⟨lineB, none⟩] }

/-- Second edge of the segment: it lists the lines in the other order. -/
def zigEdge2 : Edge :=
  { addr := 62, getFrom := 813, getTo := 812, trips := [⟨lineB, none⟩, ⟨lineA, none⟩] }

/-- Segment over two edges, the second with the other direction flag. -/
def zigSeg : OptEdge :=
  { addr := 7200, front := ⟨zigEdge1, true⟩, rest := [⟨zigEdge2, false⟩],
    fromNode := 911, toNode := 913 }

def zigGraph : OptGraph :=
  { getNodes := [{ addr := 911, node := 811, adjListIn := [], adjListOut := [zigSeg],
                   adjList := [zigSeg] },
                 { addr := 913, node := 813, adjListIn := [zigSeg], adjListOut := [],
                   adjList := [zigSeg] }] }

/-! ## Descriptions of the side of a relative route -/

/-- Test of `expandRelativesFor` on the side of `r`: whether `r` has a greater place than
`ref` in the ordering `o` of the edge `e`. -/
def liesAfter (e : Edge) (ref r : Nat) (o : List Nat) : Bool :=
  decide (e.getRouteOccWithPosUnder r o > e.getRouteOccWithPosUnder ref o)

/-- Configuration of `pairGraph` when the second edge is expanded: the first edge holds
the bundled route before line A, the second the lines B and A. -/
def pairMidConfig : OrderingConfig := fun a => if a = 41 then [1, 0] else if a = 42 then [1, 2] else []

/-! ## Descriptions of the edges a traversal reaches -/

/-- Edges of the graph: the entries of the adjacency lists of its nodes. -/
def TransitGraph.edges (g : TransitGraph) : List Edge :=
  g.getNodes.flatMap (fun n => n.adjListIn ++ n.adjListOut)

/-- Two edges share an end node. -/
def sharesNode (a b : Edge) : Prop :=
  a.getFrom = b.getFrom ∨ a.getFrom = b.getTo ∨ a.getTo = b.getFrom ∨ a.getTo = b.getTo

/-- Edges joined to `start` by a chain of edges of the graph that carry `ref`, every
edge of the chain sharing an end node with the one before. -/
inductive RefReach (g : TransitGraph) (ref : Nat) (start : Edge) : Edge → Prop
  | start : RefReach g ref start start
  | step (e e2 : Edge) : RefReach g ref start e → e2 ∈ g.edges →
      e2.containsRoute ref = true → sharesNode e e2 → RefReach g ref start e2

/-- Invariant of the traversal on the edges met: no edge is expanded twice, expanded
edges are reachable, an entry of the stack is the start edge or was pushed from an
expanded edge that shares a node with it, and every edge with `ref` at an end node of an
expanded edge is expanded or on the stack. -/
structure WalkInv (g : TransitGraph) (ref : Nat) (start : Edge) (st : ExpandState)
    (done : List Edge) : Prop where
  nodup : st.visited.Nodup
  sound : ∀ e ∈ done, RefReach g ref start e
  origin : ∀ x ∈ st.todo, (x.1 = none ∧ x.2 = start) ∨
    ∃ prev, x.1 = some prev ∧ prev ∈ done ∧ x.2 ∈ g.edges ∧
      x.2.containsRoute ref = true ∧ sharesNode prev x.2
  covered : ∀ e ∈ done, ∀ n, (n = e.getFrom ∨ n = e.getTo) →
    ∀ e2, (e2 ∈ (g.nodeAt n).adjListIn ∨ e2 ∈ (g.nodeAt n).adjListOut) →
      e2.containsRoute ref = true → e2.addr ∈ st.visited ∨ ∃ p, (p, e2) ∈ st.todo

/-- Well-formed graph: an edge in the list of incoming (outgoing) edges of a node ends
(starts) there, an edge of the graph stands in the lists of its two end nodes, and the
edges met from `start` are told apart by their addresses. -/
structure WellFormed (g : TransitGraph) (start : Edge) : Prop where
  ends : ∀ n ∈ g.getNodes, (∀ e ∈ n.adjListIn, e.getTo = n.addr) ∧
    (∀ e ∈ n.adjListOut, e.getFrom = n.addr)
  listed : ∀ e ∈ g.edges, e ∈ (g.nodeAt e.getFrom).adjListOut ∧ e ∈ (g.nodeAt e.getTo).adjListIn
  ident : ∀ e e2, (e = start ∨ e ∈ g.edges) → (e2 = start ∨ e2 ∈ g.edges) →
    e.addr = e2.addr → e = e2

/-! ## The Gurobi back end -/

/-- Gurobi model as far as `GurobiSolver` uses it: the names of the variables and of the
constraints, an index being the place in the list, and the coefficient of a variable
in a constraint (`coef cind vind`). Coefficients are integers here. -/
structure GrbModel where
  varNames : List String
  constrNames : List String
  coef : Nat → Nat → Int

/-- Index of the first entry `name`, counted from `n`; `-1` when there is none. -/
def nameIndexFrom (name : String) : Nat → List String → Int
  | _, [] => -1
  | n, x :: xs => if x = name then (n : Int) else nameIndexFrom name (n + 1) xs

/-- Library call `GRBchgcoeffs(model, 1, &cind, &vind, &val)`: sets one coefficient;
an index out of range is an error (`none`). -/
def GRBchgcoeffs (m : GrbModel) (cind vind : Int) (val : Int) : Option GrbModel :=
  if 0 ≤ cind ∧ cind < m.constrNames.length ∧ 0 ≤ vind ∧ vind < m.varNames.length then
    some { m with coef := fun i j => if i = cind.toNat ∧ j = vind.toNat then val else m.coef i j }
  else none

/-- State of a `GurobiSolver`: the model and the two counters. -/
structure GurobiSolver where
  model : GrbModel
  numVars : Nat
  numRows : Nat

/-- Method `getVarByName`: the index of the variable, `-1` when the lookup fails. -/
def GurobiSolver.getVarByName (s : GurobiSolver) (name : String) : Int :=
  nameIndexFrom name 0 s.model.varNames

/-- Method `getConstrByName`: the index of the constraint, `-1` when the lookup fails. -/
def GurobiSolver.getConstrByName (s : GurobiSolver) (name : String) : Int :=
  nameIndexFrom name 0 s.model.constrNames

/-- Overload `addColToRow(int rowId, int colId, double coef)`: `rowId` is handed to the
library as the constraint index and `colId` as the variable index; `none` stands for
the exception thrown when the library reports an error. -/
def GurobiSolver.addColToRowIdx (s : GurobiSolver) (rowId colId : Int) (coef : Int) :
    Option GurobiSolver :=
  (GRBchgcoeffs s.model rowId colId coef).map (fun m => { s with model := m })

/-- Overload `addColToRow(rowName, colName, coef)`: looks both names up (a failed lookup
is only logged) and calls the index overload with `col` first and `row` second. -/
def GurobiSolver.addColToRow (s : GurobiSolver) (rowName colName : String) (coef : Int) :
    Option GurobiSolver :=
  let col := s.getVarByName colName
  let row := s.getConstrByName rowName
  s.addColToRowIdx col row coef

/-- Solver with the variables `x0`, `x1`, `x2` and the constraints `r0`, `r1`, all
coefficients zero. -/
def sampleGurobi : GurobiSolver :=
  { model := { varNames := ["x0", "x1", "x2"], constrNames := ["r0", "r1"], coef := fun _ _ => 0 },
    numVars := 3, numRows := 2 }

/-! ## Columns and rows of the Gurobi back end -/

/-- Column types of the solver interface, as the `switch` of `addCol` names them. -/
inductive GrbColType where
  | INT | BIN | CONT
deriving DecidableEq

/-- Row types of the solver interface, as the `switch` of `addRow` names them. -/
inductive GrbRowType where
  | FIX | UP | LO
deriving DecidableEq

/-- Library call `GRBaddvar`: whether it reports an error is decided outside the program
(`ok`); without error the variable is appended to the model. `none` stands for the
error code. -/
def GRBaddvar (m : GrbModel) (ok : Bool) (name : String) : Option GrbModel :=
  if ok then some { m with varNames := m.varNames ++ [name] } else none

/-- Library call `GRBaddconstr`, with the outcome `ok` as for `GRBaddvar`. -/
def GRBaddconstr (m : GrbModel) (ok : Bool) (name : String) : Option GrbModel :=
  if ok then some { m with constrNames := m.constrNames ++ [name] } else none

/-- Solver as the constructor leaves it: an empty model and both counters zero. -/
def GurobiSolver.create : GurobiSolver :=
  { model := { varNames := [], constrNames := [], coef := fun _ _ => 0 },
    numVars := 0, numRows := 0 }

/-- Method `addCol`: on an error of the library the exception is thrown before the
counter is touched (`none`, the solver stays as it was); else `_numVars` is incremented
and `_numVars - 1` returned. The counters are not bounded here. -/
def GurobiSolver.addCol (s : GurobiSolver) (ok : Bool) (name : String) (_colType : GrbColType)
    (_objCoef : Int) : GurobiSolver × Option Int :=
  match GRBaddvar s.model ok name with
  | none => (s, none)
  | some m =>
    let s2 : GurobiSolver := { s with model := m, numVars := s.numVars + 1 }
    (s2, some ((s2.numVars : Int) - 1))

/-- Method `addRow`: as `addCol`, with `_numRows`. -/
def GurobiSolver.addRow (s : GurobiSolver) (ok : Bool) (name : String) (_bnd : Int)
    (_rowType : GrbRowType) : GurobiSolver × Option Int :=
  match GRBaddconstr s.model ok name with
  | none => (s, none)
  | some m =>
    let s2 : GurobiSolver := { s with model := m, numRows := s.numRows + 1 }
    (s2, some ((s2.numRows : Int) - 1))

def GurobiSolver.getNumVars (s : GurobiSolver) : Nat := s.numVars

def GurobiSolver.getNumConstrs (s : GurobiSolver) : Nat := s.numRows

/-- One call of `addCol` or `addRow`, with the outcome of the library call it makes. -/
inductive GrbCall where
  | col (ok : Bool) (name : String) (colType : GrbColType) (objCoef : Int)
  | row (ok : Bool) (name : String) (bnd : Int) (rowType : GrbRowType)

/-- Solver and result after one call; the result `none` is a thrown exception. -/
def GurobiSolver.call (s : GurobiSolver) : GrbCall → GurobiSolver × Option Int
  | GrbCall.col ok name t c => s.addCol ok name t c
  | GrbCall.row ok name b t => s.addRow ok name b t

/-- Solver after a sequence of calls whose exceptions are caught by the caller. -/
def GurobiSolver.run (s : GurobiSolver) (calls : List GrbCall) : GurobiSolver :=
  calls.foldl (fun s c => (s.call c).1) s

/-- Number of `addCol` calls of a sequence whose library call reported no error. -/
def countCols (calls : List GrbCall) : Nat :=
  (calls.filter (fun c => match c with
    | GrbCall.col ok _ _ _ => ok
    | GrbCall.row _ _ _ _ => false)).length

/-- Number of `addRow` calls of a sequence whose library call reported no error. -/
def countRows (calls : List GrbCall) : Nat :=
  (calls.filter (fun c => match c with
    | GrbCall.col _ _ _ _ => false
    | GrbCall.row ok _ _ _ => ok)).length

/-! ## Descriptions of the pairs in the triple buffer -/

/-- Pairs (row, column) of the entries of the buffer, in insertion order. -/
def Bld.pairs (b : Bld) : List (Nat × Nat) := b.vm.entries.map (fun en => (en.row, en.col))

/-- Conditions on the graph under which the crossing passes look up columns that
exist: assignment columns have pairwise different names, every segment met at a node is
a segment of the graph, and the reference edge of a same-segment partner carries the two
routes of the line pair. -/
structure CrossOk {P : Type} (env : Env P) (g : OptGraph) : Prop where
  names : ((g.segments.flatMap (assignCols env)).map (fun c => c.name)).Nodup
  segs : ∀ node ∈ g.getNodes, ∀ s ∈ node.adjList, s ∈ g.segments
  partners : ∀ node ∈ g.getNodes, ∀ segA ∈ node.adjList, ∀ lp ∈ getLinePairs segA,
    ∀ segB ∈ (getEdgePartners env node segA lp).getD [],
      lp.1.addr ∈ segB.front.etg.nonRelRoutes.map (fun r => r.addr) ∧
      lp.2.addr ∈ segB.front.etg.nonRelRoutes.map (fun r => r.addr)

/-! # Theorems -/

/-! ## Lists -/

theorem modifyAt_append_length {α : Type} (f : α → α) (A : List α) (x : α) (B : List α) :
    modifyAt f A.length (A ++ x :: B) = A ++ f x :: B := by
  induction A with
  | nil => rfl
  | cons a A ih => simp [modifyAt, ih]

theorem modifyOrd_append_length {α : Type} (f : α → α) (A : List α) (x : α) (B : List α)
    (j : Nat) (hj : j = A.length + 1) :
    modifyOrd f j (A ++ x :: B) = A ++ f x :: B := by
  subst hj
  simp [modifyOrd, modifyAt_append_length]

theorem entries_addVar (vm : VariableMatrix) (r c : Nat) (v : Int)
    (h1 : vm.rowNum.length = vm.colNum.length) (h2 : vm.colNum.length = vm.vals.length) :
    (vm.addVar r c v).entries = vm.entries ++ [{ row := r, col := c, val := v }] := by
  unfold VariableMatrix.entries VariableMatrix.addVar
  simp only
  rw [List.zip_append h2, List.zipWith_append]
  · simp
  · simp [h1, h2]

theorem addVar_lengths (vm : VariableMatrix) (r c : Nat) (v : Int)
    (h1 : vm.rowNum.length = vm.colNum.length) (h2 : vm.colNum.length = vm.vals.length) :
    (vm.addVar r c v).rowNum.length = (vm.addVar r c v).colNum.length ∧
      (vm.addVar r c v).colNum.length = (vm.addVar r c v).vals.length := by
  simp [VariableMatrix.addVar, h1, h2]

theorem lineColsLoop_range {P : Type} (env : Env P) (e : OptEdge) (r : Route)
    (cols rowA row k : Nat) (st : Bld × Nat) (A C : List Col)
    (hc : st.1.lp.cols = A ++ List.replicate k Col.fresh ++ C)
    (hA : cols + st.2 = A.length + 1)
    (h1 : st.1.vm.rowNum.length = st.1.vm.colNum.length)
    (h2 : st.1.vm.colNum.length = st.1.vm.vals.length) (j : Nat) (hj : j ≤ k) :
    ((List.range j).foldl (lineColsBody env e r cols rowA row) st).1.lp.cols
        = A ++ (List.range j).map (assignCol env e r)
          ++ List.replicate (k - j) Col.fresh ++ C ∧
      ((List.range j).foldl (lineColsBody env e r cols rowA row) st).1.lp.rows = st.1.lp.rows ∧
      ((List.range j).foldl (lineColsBody env e r cols rowA row) st).2 = st.2 + j ∧
      ((List.range j).foldl (lineColsBody env e r cols rowA row) st).1.vm.rowNum.length
        = ((List.range j).foldl (lineColsBody env e r cols rowA row) st).1.vm.colNum.length ∧
      ((List.range j).foldl (lineColsBody env e r cols rowA row) st).1.vm.colNum.length
        = ((List.range j).foldl (lineColsBody env e r cols rowA row) st).1.vm.vals.length ∧
      ((List.range j).foldl (lineColsBody env e r cols rowA row) st).1.vm.entries
        = st.1.vm.entries ++ (List.range j).flatMap (fun p =>
        [{ row := row, col := cols + st.2 + p, val := 1 },
         { row := rowA + p, col := cols + st.2 + p, val := 1 }]) := by
  induction j with
  | zero =>
    have hc2 : st.1.lp.cols = A ++ (List.replicate k Col.fresh ++ C) := by simpa using hc
    simpa using ⟨hc2, h1, h2⟩
  | succ j ih =>
    have ih := ih (by omega)
    simp only [List.range_succ, List.foldl_append, List.foldl_cons, List.foldl_nil]
    generalize (List.range j).foldl (lineColsBody env e r cols rowA row) st = res at ih ⊢
    obtain ⟨ic, ir, ii, il1, il2, ie⟩ := ih
    have hk : k - j = (k - (j + 1)) + 1 := by omega
    have hlen : cols + res.2 = (A ++ (List.range j).map (assignCol env e r)).length + 1 := by
      simp; omega
    refine ⟨?_, ?_, ?_, ?_, ?_, ?_⟩
    · simp only [lineColsBody, glp_set_col_kind, glp_set_col_name, ic]
      rw [hk, List.replicate_succ]
      rw [List.append_assoc (A ++ _), List.cons_append,
        modifyOrd_append_length _ _ _ _ _ hlen, modifyOrd_append_length _ _ _ _ _ hlen]
      simp [assignCol, Col.fresh]
    · simp [lineColsBody, glp_set_col_kind, glp_set_col_name, ir]
    · simp only [lineColsBody]; rw [ii]; omega
    · simp [lineColsBody, VariableMatrix.addVar, il1, il2]
    · simp [lineColsBody, VariableMatrix.addVar, il1, il2]
    · have a1 := addVar_lengths _ row (cols + res.2) 1 il1 il2
      simp only [lineColsBody]
      rw [entries_addVar _ _ _ _ a1.1 a1.2, entries_addVar _ _ _ _ il1 il2, ie, ii]
      simp [Nat.add_assoc]

theorem nameSumRows_range {P : Type} (env : Env P) (e : OptEdge) (rowA k : Nat) (lp : Lp)
    (A C : List Row) (hr : lp.rows = A ++ List.replicate k Row.fresh ++ C)
    (hA : rowA = A.length + 1) (j : Nat) (hj : j ≤ k) :
    ((List.range j).foldl (nameSumRowsBody env e rowA) lp).rows
        = A ++ (List.range j).map (posSumRow env e) ++ List.replicate (k - j) Row.fresh ++ C ∧
      ((List.range j).foldl (nameSumRowsBody env e rowA) lp).cols = lp.cols := by
  induction j with
  | zero =>
    have hr2 : lp.rows = A ++ (List.replicate k Row.fresh ++ C) := by simpa using hr
    simpa using hr2
  | succ j ih =>
    have ih := ih (by omega)
    simp only [List.range_succ, List.foldl_append, List.foldl_cons, List.foldl_nil]
    generalize (List.range j).foldl (nameSumRowsBody env e rowA) lp = res at ih ⊢
    obtain ⟨ir, ic⟩ := ih
    have hk : k - j = (k - (j + 1)) + 1 := by omega
    have hlen : rowA + j = (A ++ (List.range j).map (posSumRow env e)).length + 1 := by
      simp; omega
    refine ⟨?_, ?_⟩
    · simp only [nameSumRowsBody, glp_set_row_name, glp_set_row_bnds, ir]
      rw [hk, List.replicate_succ]
      rw [List.append_assoc (A ++ _), List.cons_append,
        modifyOrd_append_length _ _ _ _ _ hlen, modifyOrd_append_length _ _ _ _ _ hlen]
      simp [posSumRow, Row.fresh]
    · simp [nameSumRowsBody, glp_set_row_name, glp_set_row_bnds, ic]

theorem sumEntries_succ (rowA c0 r0 k n : Nat) :
    sumEntries rowA c0 r0 k (n + 1)
      = (List.range k).flatMap (fun p =>
          [{ row := r0, col := c0 + p, val := 1 }, { row := rowA + p, col := c0 + p, val := 1 }])
        ++ sumEntries rowA (c0 + k) (r0 + 1) k n := by
  unfold sumEntries
  rw [List.range_succ_eq_map, List.flatMap_cons, List.flatMap_map]
  congr 1
  · simp
  · apply List.flatMap_congr
    intro m _
    apply List.flatMap_congr
    intro p _
    simp only [Nat.succ_eq_add_one, Nat.add_mul, Nat.one_mul]
    have h1 : r0 + (m + 1) = r0 + 1 + m := by omega
    have h2 : c0 + (m * k + k) + p = c0 + k + m * k + p := by omega
    rw [h1, h2]

/-- Number of non-relative occurrences in a trip list. -/
theorem nonRel_length (e : Edge) : e.nonRelRoutes.length = e.getCardinality true := by
  simp [Edge.nonRelRoutes, Edge.getCardinality]

theorem lineStep_fold {P : Type} (env : Env P) (e : OptEdge) (cols rowA k : Nat)
    (ts : List RouteOccurrence) : ∀ (st : Bld × Nat) (A C : List Col),
    st.1.lp.cols = A ++ List.replicate
      ((ts.filter (fun r => r.route.relativeTo.isNone)).length * k) Col.fresh ++ C →
    cols + st.2 = A.length + 1 →
    st.1.vm.rowNum.length = st.1.vm.colNum.length →
    st.1.vm.colNum.length = st.1.vm.vals.length →
    (ts.foldl (lineStep env e cols rowA k) st).1.lp.cols
        = A ++ ((ts.filter (fun r => r.route.relativeTo.isNone)).map (fun r => r.route)).flatMap
            (fun r => (List.range k).map (assignCol env e r)) ++ C ∧
      (ts.foldl (lineStep env e cols rowA k) st).1.lp.rows
        = st.1.lp.rows ++ ((ts.filter (fun r => r.route.relativeTo.isNone)).map
            (fun r => r.route)).map (lineSumRow env e) ∧
      (ts.foldl (lineStep env e cols rowA k) st).1.vm.rowNum.length
        = (ts.foldl (lineStep env e cols rowA k) st).1.vm.colNum.length ∧
      (ts.foldl (lineStep env e cols rowA k) st).1.vm.colNum.length
        = (ts.foldl (lineStep env e cols rowA k) st).1.vm.vals.length ∧
      (ts.foldl (lineStep env e cols rowA k) st).1.vm.entries
        = st.1.vm.entries ++ sumEntries rowA (cols + st.2) (st.1.lp.rows.length + 1) k
            (ts.filter (fun r => r.route.relativeTo.isNone)).length := by
  induction ts with
  | nil =>
    intro st A C hc _ h1 h2
    have hc2 : st.1.lp.cols = A ++ C := by simpa using hc
    simp [hc2, h1, h2, sumEntries]
  | cons t ts ih =>
    intro st A C hc hA h1 h2
    rw [List.foldl_cons]
    cases hrel : t.route.relativeTo with
    | some x =>
      have hstep : lineStep env e cols rowA k st t = st := by simp [lineStep, hrel]
      rw [hstep]
      have hf : (t :: ts).filter (fun r => r.route.relativeTo.isNone)
          = ts.filter (fun r => r.route.relativeTo.isNone) := by simp [hrel]
      rw [hf] at hc ⊢
      exact ih st A C hc hA h1 h2
    | none =>
      have hf : (t :: ts).filter (fun r => r.route.relativeTo.isNone)
          = t :: ts.filter (fun r => r.route.relativeTo.isNone) := by simp [hrel]
      rw [hf] at hc ⊢
      simp only [List.length_cons, Nat.succ_mul, List.map_cons, List.flatMap_cons] at hc ⊢
      have hc2 : st.1.lp.cols = A ++ List.replicate k Col.fresh
          ++ (List.replicate ((ts.filter (fun r => r.route.relativeTo.isNone)).length * k)
            Col.fresh ++ C) := by
        rw [hc, Nat.add_comm, List.replicate_add]; simp only [List.append_assoc]
      have hstep : lineStep env e cols rowA k st t
          = (List.range k).foldl (lineColsBody env e t.route cols rowA (st.1.lp.rows.length + 1))
              ({ lp := { cols := st.1.lp.cols,
                         rows := st.1.lp.rows ++ [lineSumRow env e t.route] },
                 vm := st.1.vm }, st.2) := by
        simp only [lineStep, hrel, Option.isSome_none, Bool.false_eq_true, if_false,
          lineColsLoop, glp_add_rows, glp_set_row_name, glp_set_row_bnds, List.replicate_one]
        rw [modifyOrd_append_length _ _ _ _ _ rfl, modifyOrd_append_length _ _ _ _ _ rfl]
        simp [lineSumRow, Row.fresh]
      obtain ⟨lc, lr, li, ll1, ll2, le⟩ := lineColsLoop_range env e t.route cols rowA
        (st.1.lp.rows.length + 1) k
        ({ lp := { cols := st.1.lp.cols, rows := st.1.lp.rows ++ [lineSumRow env e t.route] },
           vm := st.1.vm }, st.2) A _ hc2 hA h1 h2 k (Nat.le_refl k)
      rw [← hstep] at lc lr li ll1 ll2 le
      generalize lineStep env e cols rowA k st t = st2 at lc lr li ll1 ll2 le ⊢
      simp only [Nat.sub_self, List.replicate_zero, List.append_nil] at lc
      have hA2 : cols + st2.2 = (A ++ (List.range k).map (assignCol env e t.route)).length + 1 := by
        rw [li]; simp; omega
      have lc2 : st2.1.lp.cols = (A ++ (List.range k).map (assignCol env e t.route))
          ++ List.replicate ((ts.filter (fun r => r.route.relativeTo.isNone)).length * k)
            Col.fresh ++ C := by
        rw [lc]; simp
      obtain ⟨c3, r3, l31, l32, e3⟩ := ih st2 _ C lc2 hA2 ll1 ll2
      refine ⟨?_, ?_, l31, l32, ?_⟩
      · rw [c3]; simp
      · rw [r3, lr]; simp
      · rw [e3, le, lr, li, sumEntries_succ]
        simp [Nat.add_assoc]

theorem assignCols_length {P : Type} (env : Env P) (e : OptEdge) :
    (assignCols env e).length
      = e.front.etg.getCardinality true * e.front.etg.getCardinality true := by
  unfold assignCols
  rw [List.length_flatMap]
  have hf : (List.length ∘ fun r =>
      List.map (assignCol env e r) (List.range (e.front.etg.getCardinality true)))
      = fun _ => e.front.etg.getCardinality true := by
    funext r; simp
  rw [hf]
  simp [nonRel_length]

theorem sumRows_length {P : Type} (env : Env P) (e : OptEdge) :
    (sumRows env e).length = 2 * e.front.etg.getCardinality true := by
  simp [sumRows, nonRel_length]; omega

theorem addSegment_spec {P : Type} (env : Env P) (b : Bld) (e : OptEdge)
    (h1 : b.vm.rowNum.length = b.vm.colNum.length)
    (h2 : b.vm.colNum.length = b.vm.vals.length) :
    (addSegment env b e).lp.cols = b.lp.cols ++ assignCols env e ∧
      (addSegment env b e).lp.rows = b.lp.rows ++ sumRows env e ∧
      (addSegment env b e).vm.rowNum.length = (addSegment env b e).vm.colNum.length ∧
      (addSegment env b e).vm.colNum.length = (addSegment env b e).vm.vals.length ∧
      (addSegment env b e).vm.entries = b.vm.entries ++
        sumEntries (b.lp.rows.length + 1) (b.lp.cols.length + 1)
          (b.lp.rows.length + e.front.etg.getCardinality true + 1)
          (e.front.etg.getCardinality true) (e.front.etg.getCardinality true) := by
  obtain ⟨k, hk⟩ : ∃ k, k = e.front.etg.getCardinality true := ⟨_, rfl⟩
  obtain ⟨lp0, hlp0⟩ : ∃ lp0 : Lp, lp0 = Lp.mk (b.lp.cols ++ List.replicate (k * k) Col.fresh)
      (b.lp.rows ++ List.replicate k Row.fresh) := ⟨_, rfl⟩
  obtain ⟨lp1, hlp1⟩ : ∃ lp1 : Lp, lp1 = nameSumRows env e (b.lp.rows.length + 1) k lp0 :=
    ⟨_, rfl⟩
  have hdef : addSegment env b e = (e.front.etg.trips.foldl
      (lineStep env e (b.lp.cols.length + 1) (b.lp.rows.length + 1) k)
      (({ lp := lp1, vm := b.vm } : Bld), 0)).1 := by
    rw [hlp1, hlp0, hk]; rfl
  obtain ⟨nr, nc⟩ := nameSumRows_range env e (b.lp.rows.length + 1) k lp0
    b.lp.rows [] (by simp [hlp0]) rfl k (Nat.le_refl _)
  simp only [Nat.sub_self, List.replicate_zero, List.append_nil] at nr
  have nr1 : lp1.rows = b.lp.rows ++ (List.range k).map (posSumRow env e) := by
    rw [hlp1]; exact nr
  have nc1 : lp1.cols = b.lp.cols ++ List.replicate (k * k) Col.fresh := by
    rw [hlp1]; unfold nameSumRows; rw [nc, hlp0]
  have hcard : (e.front.etg.trips.filter (fun r => r.route.relativeTo.isNone)).length = k := by
    simp [hk, Edge.getCardinality]
  obtain ⟨c, r, l1, l2, en⟩ := lineStep_fold env e (b.lp.cols.length + 1)
    (b.lp.rows.length + 1) k e.front.etg.trips
    (({ lp := lp1, vm := b.vm } : Bld), 0) b.lp.cols []
    (by rw [hcard]; simpa using nc1) rfl h1 h2
  rw [← hdef] at c r l1 l2 en
  rw [← hk]
  refine ⟨?_, ?_, l1, l2, ?_⟩
  · rw [c]; simp [assignCols, Edge.nonRelRoutes, hk]
  · rw [r, nr1]; simp [sumRows, Edge.nonRelRoutes, hk]
  · rw [en, hcard]
    simp only [Nat.add_zero, nr1]
    simp [Nat.add_assoc]

theorem addSegments_eq_foldl {P : Type} (env : Env P) (g : OptGraph) (b : Bld) :
    addSegments env g b = g.segments.foldl (addSegment env) b := by
  unfold addSegments OptGraph.segments
  generalize g.getNodes = ns
  induction ns generalizing b with
  | nil => rfl
  | cons n ns ih => simp [List.flatMap_cons, List.foldl_append, ih]

theorem numAssignCols_eq {P : Type} (env : Env P) (es : List OptEdge) :
    (es.flatMap (assignCols env)).length = numAssignCols es := by
  induction es with
  | nil => rfl
  | cons e es ih =>
    simp only [List.flatMap_cons, List.length_append, ih, assignCols_length, numAssignCols,
      List.map_cons, List.sum_cons]

theorem numSumRows_eq {P : Type} (env : Env P) (es : List OptEdge) :
    (es.flatMap (sumRows env)).length = numSumRows es := by
  induction es with
  | nil => rfl
  | cons e es ih =>
    simp only [List.flatMap_cons, List.length_append, ih, sumRows_length, numSumRows,
      List.map_cons, List.sum_cons]

theorem foldl_addSegment_spec {P : Type} (env : Env P) (es : List OptEdge) : ∀ (b : Bld),
    b.vm.rowNum.length = b.vm.colNum.length → b.vm.colNum.length = b.vm.vals.length →
    (es.foldl (addSegment env) b).lp.cols = b.lp.cols ++ es.flatMap (assignCols env) ∧
      (es.foldl (addSegment env) b).lp.rows = b.lp.rows ++ es.flatMap (sumRows env) ∧
      (es.foldl (addSegment env) b).vm.rowNum.length
        = (es.foldl (addSegment env) b).vm.colNum.length ∧
      (es.foldl (addSegment env) b).vm.colNum.length
        = (es.foldl (addSegment env) b).vm.vals.length ∧
      (es.foldl (addSegment env) b).vm.entries
        = b.vm.entries ++ segsEntries b.lp.cols.length b.lp.rows.length es := by
  induction es with
  | nil => intro b h1 h2; simp [segsEntries, h1, h2]
  | cons e es ih =>
    intro b h1 h2
    obtain ⟨c, r, l1, l2, en⟩ := addSegment_spec env b e h1 h2
    obtain ⟨c2, r2, l21, l22, en2⟩ := ih (addSegment env b e) l1 l2
    rw [List.foldl_cons]
    refine ⟨?_, ?_, l21, l22, ?_⟩
    · rw [c2, c]; simp
    · rw [r2, r]; simp
    · rw [en2, en, c, r]
      simp [segsEntries, assignCols_length, sumRows_length, Nat.add_assoc, Nat.two_mul]

/-- State after the first loop nest of the builder. -/
theorem addSegments_spec {P : Type} (env : Env P) (g : OptGraph) :
    (addSegments env g Bld.init).lp.cols = g.segments.flatMap (assignCols env) ∧
      (addSegments env g Bld.init).lp.rows = g.segments.flatMap (sumRows env) ∧
      (addSegments env g Bld.init).vm.rowNum.length
        = (addSegments env g Bld.init).vm.colNum.length ∧
      (addSegments env g Bld.init).vm.colNum.length
        = (addSegments env g Bld.init).vm.vals.length ∧
      (addSegments env g Bld.init).vm.entries = segsEntries 0 0 g.segments := by
  rw [addSegments_eq_foldl]
  have h := foldl_addSegment_spec env g.segments Bld.init rfl rfl
  simpa [Bld.init, glp_create_prob, VariableMatrix.empty, VariableMatrix.entries] using h

theorem Ext.refl {b : Bld} (h : b.Inv) : Ext b b :=
  ⟨h, ⟨[], by simp⟩, ⟨[], by simp⟩, ⟨[], by simp⟩⟩

theorem Ext.trans {a b c : Bld} (h1 : Ext a b) (h2 : Ext b c) : Ext a c := by
  obtain ⟨nc1, hc1, hd1⟩ := h1.cols
  obtain ⟨nr1, hr1⟩ := h1.rows
  obtain ⟨ne1, he1, hb1⟩ := h1.ents
  obtain ⟨nc2, hc2, hd2⟩ := h2.cols
  obtain ⟨nr2, hr2⟩ := h2.rows
  obtain ⟨ne2, he2, hb2⟩ := h2.ents
  refine ⟨h2.inv, ⟨nc1 ++ nc2, by rw [hc2, hc1, List.append_assoc], fun x hx =>
      (List.mem_append.1 hx).elim (hd1 x) (hd2 x)⟩,
    ⟨nr1 ++ nr2, by rw [hr2, hr1, List.append_assoc]⟩,
    ⟨ne1 ++ ne2, by rw [he2, he1, List.append_assoc], ?_⟩⟩
  intro en hen
  rcases List.mem_append.1 hen with h | h
  · exact hb1 en h
  · have := hb2 en h
    rw [hr1, List.length_append] at this
    omega

/-- Entries of rows that exist already are not touched by later growth. -/
theorem Ext.rowEntries_eq {b c : Bld} (h : Ext b c) (j : Nat) (hj : j ≤ b.lp.rows.length) :
    rowEntries c.vm.entries j = rowEntries b.vm.entries j := by
  obtain ⟨ne, he, hb⟩ := h.ents
  rw [he]
  unfold rowEntries
  rw [List.filter_append]
  have : ne.filter (fun en => en.row = j) = [] := by
    rw [List.filter_eq_nil_iff]
    intro en hen
    have := hb en hen
    simp; omega
  rw [this, List.append_nil]

theorem Ext.rows_getElem {b c : Bld} (h : Ext b c) (i : Nat) (r : Row)
    (hi : b.lp.rows[i]? = some r) : c.lp.rows[i]? = some r := by
  obtain ⟨nr, hr⟩ := h.rows
  rw [hr]
  have hlt : i < b.lp.rows.length := by
    by_contra hcon
    rw [List.getElem?_eq_none (by omega)] at hi
    exact absurd hi (by simp)
  rw [List.getElem?_append_left hlt]; exact hi

theorem Ext.cols_getElem {b c : Bld} (h : Ext b c) (i : Nat) (x : Col)
    (hi : b.lp.cols[i]? = some x) : c.lp.cols[i]? = some x := by
  obtain ⟨nc, hc, _⟩ := h.cols
  rw [hc]
  have hlt : i < b.lp.cols.length := by
    by_contra hcon
    rw [List.getElem?_eq_none (by omega)] at hi
    exact absurd hi (by simp)
  rw [List.getElem?_append_left hlt]; exact hi

/-- A fold of growing steps grows the state. -/
theorem foldlM_ext {α : Type} (f : Bld → α → Option Bld)
    (hf : ∀ b x c, b.Inv → f b x = some c → Ext b c) (l : List α) :
    ∀ b c, b.Inv → l.foldlM f b = some c → Ext b c := by
  induction l with
  | nil =>
    intro b c hb h
    simp only [List.foldlM_nil, pure, Option.some.injEq] at h
    subst h; exact Ext.refl hb
  | cons x l ih =>
    intro b c hb h
    rw [List.foldlM_cons] at h
    cases hx : f b x with
    | none => rw [hx] at h; exact absurd h (by simp)
    | some b1 =>
      rw [hx] at h
      have e1 := hf b x b1 hb hx
      exact e1.trans (ih b1 c e1.inv h)

/-- The state in which a fold of growing steps meets a member of its list. -/
theorem foldlM_mem_ext {α : Type} (f : Bld → α → Option Bld)
    (hf : ∀ b x c, b.Inv → f b x = some c → Ext b c) (l : List α) (x : α) (hx : x ∈ l) :
    ∀ b c, b.Inv → l.foldlM f b = some c →
      ∃ b1 b2, Ext b b1 ∧ f b1 x = some b2 ∧ Ext b2 c := by
  obtain ⟨pre, post, rfl⟩ := List.append_of_mem hx
  intro b c hb h
  rw [List.foldlM_append] at h
  cases h1 : pre.foldlM f b with
  | none => rw [h1] at h; exact absurd h (by simp)
  | some b1 =>
    rw [h1] at h
    simp only [Option.bind_eq_bind, Option.some_bind, List.foldlM_cons] at h
    have e1 := foldlM_ext f hf pre b b1 hb h1
    cases h2 : f b1 x with
    | none => rw [h2] at h; exact absurd h (by simp)
    | some b2 =>
      rw [h2] at h
      have e2 := hf b1 x b2 e1.inv h2
      exact ⟨b1, b2, e1, h2, foldlM_ext f hf post b2 c e2.inv h⟩

theorem sameSegPosStep_false {P : Type} (env : Env P) (node : OptNode)
    (segmentA segmentB : OptEdge) (linepair : LinePair) (d : Nat) (b : Bld)
    (poscomb : PosComPair) (hx : crosses env node segmentA segmentB poscomb = some false) :
    sameSegPosStep env node segmentA segmentB linepair d b poscomb = some b := by
  simp [sameSegPosStep, hx]

theorem sameSegPosStep_true {P : Type} (env : Env P) (node : OptNode)
    (segmentA segmentB : OptEdge) (linepair : LinePair) (d : Nat) (b c : Bld)
    (poscomb : PosComPair) (hx : crosses env node segmentA segmentB poscomb = some true)
    (h1 : b.vm.rowNum.length = b.vm.colNum.length)
    (h2 : b.vm.colNum.length = b.vm.vals.length)
    (h : sameSegPosStep env node segmentA segmentB linepair d b poscomb = some c) :
    (glp_find_col b.lp (getILPVarName env segmentA linepair.1 poscomb.1.1) ≠ 0 ∧
      glp_find_col b.lp (getILPVarName env segmentA linepair.2 poscomb.2.1) ≠ 0 ∧
      glp_find_col b.lp (getILPVarName env segmentB linepair.1 poscomb.1.2) ≠ 0 ∧
      glp_find_col b.lp (getILPVarName env segmentB linepair.2 poscomb.2.2) ≠ 0) ∧
    c.lp.cols = b.lp.cols ∧
    c.lp.rows = b.lp.rows ++ [sameRow env node segmentA segmentB linepair poscomb] ∧
    c.vm.rowNum.length = c.vm.colNum.length ∧ c.vm.colNum.length = c.vm.vals.length ∧
    c.vm.entries = b.vm.entries
      ++ sameEntries env b.lp segmentA segmentB linepair poscomb (b.lp.rows.length + 1) d := by
  simp only [sameSegPosStep, hx, Option.bind_eq_bind, Option.some_bind, if_true] at h
  split at h
  · exact absurd h (by simp)
  · rename_i hne
    simp only [not_or] at hne
    simp only [Option.some.injEq] at h
    subst h
    refine ⟨⟨hne.1, hne.2.2.1, hne.2.1, hne.2.2.2⟩, ?_, ?_, ?_, ?_, ?_⟩
    · simp [glp_add_rows, glp_set_row_name, glp_set_row_bnds]
    · simp only [glp_add_rows, glp_set_row_name, glp_set_row_bnds, List.replicate_one]
      rw [modifyOrd_append_length _ _ _ _ _ rfl, modifyOrd_append_length _ _ _ _ _ rfl]
      simp [sameRow, Row.fresh]
    · simp [VariableMatrix.addVar, h1, h2]
    · simp [VariableMatrix.addVar, h1, h2]
    · simp only [glp_add_rows]
      have a1 := addVar_lengths b.vm (b.lp.rows.length + 1)
        (glp_find_col b.lp (getILPVarName env segmentA linepair.1 poscomb.1.1)) 1 h1 h2
      have a2 := addVar_lengths _ (b.lp.rows.length + 1)
        (glp_find_col b.lp (getILPVarName env segmentA linepair.2 poscomb.2.1)) 1 a1.1 a1.2
      have a3 := addVar_lengths _ (b.lp.rows.length + 1)
        (glp_find_col b.lp (getILPVarName env segmentB linepair.1 poscomb.1.2)) 1 a2.1 a2.2
      have a4 := addVar_lengths _ (b.lp.rows.length + 1)
        (glp_find_col b.lp (getILPVarName env segmentB linepair.2 poscomb.2.2)) 1 a3.1 a3.2
      rw [entries_addVar _ _ _ _ a4.1 a4.2, entries_addVar _ _ _ _ a3.1 a3.2,
        entries_addVar _ _ _ _ a2.1 a2.2, entries_addVar _ _ _ _ a1.1 a1.2,
        entries_addVar _ _ _ _ h1 h2]
      simp [sameEntries]

theorem sameSegPosStep_ext {P : Type} (env : Env P) (node : OptNode)
    (segmentA segmentB : OptEdge) (linepair : LinePair) (d : Nat) (b : Bld)
    (poscomb : PosComPair) (c : Bld) (hb : b.Inv)
    (h : sameSegPosStep env node segmentA segmentB linepair d b poscomb = some c) :
    Ext b c := by
  cases hx : crosses env node segmentA segmentB poscomb with
  | none => simp [sameSegPosStep, hx] at h
  | some t =>
    cases t with
    | false =>
      rw [sameSegPosStep_false env node segmentA segmentB linepair d b poscomb hx] at h
      simp only [Option.some.injEq] at h
      subst h; exact Ext.refl hb
    | true =>
      obtain ⟨_, hc, hr, l1, l2, he⟩ := sameSegPosStep_true env node segmentA segmentB
        linepair d b c poscomb hx hb.1 hb.2.1 h
      refine ⟨⟨l1, l2, ?_⟩, ⟨[], by simp [hc]⟩, ⟨_, hr⟩, ⟨_, he, ?_⟩⟩
      · intro en hen
        rw [he] at hen
        rw [hr]
        rcases List.mem_append.1 hen with h' | h'
        · have := hb.2.2 en h'
          simp; omega
        · simp only [sameEntries, List.mem_cons, List.mem_singleton, List.not_mem_nil,
            or_false] at h'
          rcases h' with h' | h' | h' | h' | h' <;> subst h' <;> simp
      · intro en h'
        simp only [sameEntries, List.mem_cons, List.mem_singleton, List.not_mem_nil,
          or_false] at h'
        rcases h' with h' | h' | h' | h' | h' <;> subst h' <;> simp

theorem diffSegPosStep_false {P : Type} (env : Env P) (node : OptNode)
    (segmentA : OptEdge) (segments : EdgePair) (linepair : LinePair) (d : Nat) (b : Bld)
    (poscomb : PosCom) (hx : crossesDiff env node segmentA segments poscomb = some false) :
    diffSegPosStep env node segmentA segments linepair d b poscomb = some b := by
  simp [diffSegPosStep, hx]

theorem diffSegPosStep_true {P : Type} (env : Env P) (node : OptNode)
    (segmentA : OptEdge) (segments : EdgePair) (linepair : LinePair) (d : Nat) (b c : Bld)
    (poscomb : PosCom) (hx : crossesDiff env node segmentA segments poscomb = some true)
    (h1 : b.vm.rowNum.length = b.vm.colNum.length)
    (h2 : b.vm.colNum.length = b.vm.vals.length)
    (h : diffSegPosStep env node segmentA segments linepair d b poscomb = some c) :
    (glp_find_col b.lp (getILPVarName env segmentA linepair.1 poscomb.1) ≠ 0 ∧
      glp_find_col b.lp (getILPVarName env segmentA linepair.2 poscomb.2) ≠ 0) ∧
    c.lp.cols = b.lp.cols ∧
    c.lp.rows = b.lp.rows ++ [diffRow env node segmentA segments linepair poscomb] ∧
    c.vm.rowNum.length = c.vm.colNum.length ∧ c.vm.colNum.length = c.vm.vals.length ∧
    c.vm.entries = b.vm.entries
      ++ diffEntries env b.lp segmentA linepair poscomb (b.lp.rows.length + 1) d := by
  simp only [diffSegPosStep, hx, Option.bind_eq_bind, Option.some_bind, if_true] at h
  split at h
  · exact absurd h (by simp)
  · rename_i hne
    simp only [not_or] at hne
    simp only [Option.some.injEq] at h
    subst h
    refine ⟨hne, ?_, ?_, ?_, ?_, ?_⟩
    · simp [glp_add_rows, glp_set_row_name, glp_set_row_bnds]
    · simp only [glp_add_rows, glp_set_row_name, glp_set_row_bnds, List.replicate_one]
      rw [modifyOrd_append_length _ _ _ _ _ rfl, modifyOrd_append_length _ _ _ _ _ rfl]
      simp [diffRow, Row.fresh]
    · simp [VariableMatrix.addVar, h1, h2]
    · simp [VariableMatrix.addVar, h1, h2]
    · simp only [glp_add_rows]
      have a1 := addVar_lengths b.vm (b.lp.rows.length + 1)
        (glp_find_col b.lp (getILPVarName env segmentA linepair.1 poscomb.1)) 1 h1 h2
      have a2 := addVar_lengths _ (b.lp.rows.length + 1)
        (glp_find_col b.lp (getILPVarName env segmentA linepair.2 poscomb.2)) 1 a1.1 a1.2
      rw [entries_addVar _ _ _ _ a2.1 a2.2, entries_addVar _ _ _ _ a1.1 a1.2,
        entries_addVar _ _ _ _ h1 h2]
      simp [diffEntries]

theorem diffSegPosStep_ext {P : Type} (env : Env P) (node : OptNode)
    (segmentA : OptEdge) (segments : EdgePair) (linepair : LinePair) (d : Nat) (b : Bld)
    (poscomb : PosCom) (c : Bld) (hb : b.Inv)
    (h : diffSegPosStep env node segmentA segments linepair d b poscomb = some c) :
    Ext b c := by
  cases hx : crossesDiff env node segmentA segments poscomb with
  | none => simp [diffSegPosStep, hx] at h
  | some t =>
    cases t with
    | false =>
      rw [diffSegPosStep_false env node segmentA segments linepair d b poscomb hx] at h
      simp only [Option.some.injEq] at h
      subst h; exact Ext.refl hb
    | true =>
      obtain ⟨_, hc, hr, l1, l2, he⟩ := diffSegPosStep_true env node segmentA segments
        linepair d b c poscomb hx hb.1 hb.2.1 h
      refine ⟨⟨l1, l2, ?_⟩, ⟨[], by simp [hc]⟩, ⟨_, hr⟩, ⟨_, he, ?_⟩⟩
      · intro en hen
        rw [he] at hen
        rw [hr]
        rcases List.mem_append.1 hen with h' | h'
        · have := hb.2.2 en h'
          simp; omega
        · simp only [diffEntries, List.mem_cons, List.mem_singleton, List.not_mem_nil,
            or_false] at h'
          rcases h' with h' | h' | h' <;> subst h' <;> simp
      · intro en h'
        simp only [diffEntries, List.mem_cons, List.mem_singleton, List.not_mem_nil,
          or_false] at h'
        rcases h' with h' | h' | h' <;> subst h' <;> simp

/-- State after a decision column has been added, named, typed and priced. -/
theorem addDec_eq (b : Bld) (name : String) (coef : Nat) :
    glp_set_obj_coef (glp_set_col_kind (glp_set_col_name (glp_add_cols b.lp 1).1
        (glp_add_cols b.lp 1).2 name) (glp_add_cols b.lp 1).2 ColKind.BV)
        (glp_add_cols b.lp 1).2 coef
      = { cols := b.lp.cols ++ [{ name := name, kind := ColKind.BV, objCoef := coef }],
          rows := b.lp.rows } := by
  simp only [glp_add_cols, glp_set_col_name, glp_set_col_kind, glp_set_obj_coef,
    List.replicate_one]
  rw [modifyOrd_append_length _ _ _ _ _ rfl, modifyOrd_append_length _ _ _ _ _ rfl,
    modifyOrd_append_length _ _ _ _ _ rfl]

theorem addDec_ext (b : Bld) (x : Col) (hb : b.Inv) (hx : IsDecCol x) :
    Ext b { lp := { cols := b.lp.cols ++ [x], rows := b.lp.rows }, vm := b.vm } :=
  ⟨hb, ⟨[x], rfl, by simpa using hx⟩, ⟨[], by simp⟩, ⟨[], by simp⟩⟩

theorem sameSegPartnerStep_eq {P : Type} (env : Env P) (node : OptNode) (processed : List Nat)
    (segmentA : OptEdge) (linepair : LinePair) (b : Bld) (segmentB : OptEdge)
    (hp : processed.contains segmentB.addr = false) :
    sameSegPartnerStep env node processed segmentA linepair b segmentB
      = (getPositionCombinations2 segmentA segmentB).foldlM
          (sameSegPosStep env node segmentA segmentB linepair (b.lp.cols.length + 1))
          { lp := { cols := b.lp.cols ++ [sameDecCol env node segmentA segmentB linepair],
                    rows := b.lp.rows },
            vm := b.vm } := by
  unfold sameSegPartnerStep
  rw [if_neg (by rw [hp]; exact Bool.false_ne_true)]
  simp only []
  rw [addDec_eq]
  rfl

theorem diffSegPartnerStep_eq {P : Type} (env : Env P) (node : OptNode)
    (segmentA : OptEdge) (linepair : LinePair) (b : Bld) (segments : EdgePair) :
    diffSegPartnerStep env node segmentA linepair b segments
      = (getPositionCombinations segmentA).foldlM
          (diffSegPosStep env node segmentA segments linepair (b.lp.cols.length + 1))
          { lp := { cols := b.lp.cols ++ [diffDecCol env node segmentA segments linepair],
                    rows := b.lp.rows },
            vm := b.vm } := by
  unfold diffSegPartnerStep
  simp only []
  rw [addDec_eq]
  rfl

theorem sameDecCol_isDec {P : Type} (env : Env P) (node : OptNode)
    (segmentA segmentB : OptEdge) (linepair : LinePair) :
    IsDecCol (sameDecCol env node segmentA segmentB linepair) := by
  refine ⟨rfl, ?_⟩
  simp only [sameDecCol, sameDecName, String.append_assoc]
  exact ⟨_, rfl⟩

theorem diffDecCol_isDec {P : Type} (env : Env P) (node : OptNode)
    (segmentA : OptEdge) (segments : EdgePair) (linepair : LinePair) :
    IsDecCol (diffDecCol env node segmentA segments linepair) := by
  refine ⟨rfl, ?_⟩
  simp only [diffDecCol, diffDecName, String.append_assoc]
  exact ⟨_, rfl⟩

theorem assignCol_not_isDec {P : Type} (env : Env P) (e : OptEdge) (r : Route) (p : Nat) :
    ¬ IsDecCol (assignCol env e r p) := by
  rintro ⟨_, t, ht⟩
  simp only [assignCol, getILPVarName, String.append_assoc] at ht
  have := congrArg String.data ht
  simp only [String.data_append] at this
  have h3 := congrArg (fun l => l.get? 2) this
  simp at h3

theorem sameSegPartnerStep_ext {P : Type} (env : Env P) (node : OptNode) (processed : List Nat)
    (segmentA : OptEdge) (linepair : LinePair) (b : Bld) (segmentB : OptEdge) (c : Bld)
    (hb : b.Inv)
    (h : sameSegPartnerStep env node processed segmentA linepair b segmentB = some c) :
    Ext b c := by
  cases hp : processed.contains segmentB.addr with
  | true =>
    simp only [sameSegPartnerStep, hp, if_true, Option.some.injEq] at h
    subst h; exact Ext.refl hb
  | false =>
    rw [sameSegPartnerStep_eq env node processed segmentA linepair b segmentB hp] at h
    have e1 := addDec_ext b (sameDecCol env node segmentA segmentB linepair) hb
      (sameDecCol_isDec env node segmentA segmentB linepair)
    exact e1.trans (foldlM_ext _
      (sameSegPosStep_ext env node segmentA segmentB linepair (b.lp.cols.length + 1))
      _ _ _ e1.inv h)

theorem sameSegLineStep_ext {P : Type} (env : Env P) (node : OptNode) (processed : List Nat)
    (segmentA : OptEdge) (b : Bld) (linepair : LinePair) (c : Bld) (hb : b.Inv)
    (h : sameSegLineStep env node processed segmentA b linepair = some c) : Ext b c := by
  unfold sameSegLineStep at h
  cases hp : getEdgePartners env node segmentA linepair with
  | none => simp [hp] at h
  | some ps =>
    simp only [hp, Option.bind_eq_bind, Option.some_bind] at h
    exact foldlM_ext _ (sameSegPartnerStep_ext env node processed segmentA linepair) _ _ _ hb h

theorem sameSegStep_ext {P : Type} (env : Env P) (node : OptNode) (st : List Nat × Bld)
    (segmentA : OptEdge) (st2 : List Nat × Bld) (hb : st.2.Inv)
    (h : sameSegStep env node st segmentA = some st2) :
    Ext st.2 st2.2 ∧ st2.1 = segmentA.addr :: st.1 := by
  unfold sameSegStep at h
  cases hp : (getLinePairs segmentA).foldlM
      (sameSegLineStep env node (segmentA.addr :: st.1) segmentA) st.2 with
  | none => simp [hp] at h
  | some c =>
    simp only [hp, Option.bind_eq_bind, Option.some_bind, Option.some.injEq] at h
    subst h
    exact ⟨foldlM_ext _ (sameSegLineStep_ext env node _ segmentA) _ _ _ hb hp, rfl⟩

theorem sameSegStep_fold_ext {P : Type} (env : Env P) (node : OptNode) (l : List OptEdge) :
    ∀ (st st2 : List Nat × Bld), st.2.Inv → l.foldlM (sameSegStep env node) st = some st2 →
      Ext st.2 st2.2 ∧ st2.1 = (l.map (fun e => e.addr)).reverse ++ st.1 := by
  induction l with
  | nil =>
    intro st st2 hb h
    simp only [List.foldlM_nil, pure, Option.some.injEq] at h
    subst h; exact ⟨Ext.refl hb, by simp⟩
  | cons x l ih =>
    intro st st2 hb h
    rw [List.foldlM_cons] at h
    cases hx : sameSegStep env node st x with
    | none => rw [hx] at h; exact absurd h (by simp)
    | some s1 =>
      rw [hx] at h
      obtain ⟨e1, p1⟩ := sameSegStep_ext env node st x s1 hb hx
      obtain ⟨e2, p2⟩ := ih s1 st2 e1.inv h
      exact ⟨e1.trans e2, by rw [p2, p1]; simp⟩

theorem sameSegNodeStep_ext {P : Type} (env : Env P) (b : Bld) (node : OptNode) (c : Bld)
    (hb : b.Inv) (h : sameSegNodeStep env b node = some c) : Ext b c := by
  unfold sameSegNodeStep at h
  cases hp : node.adjList.foldlM (sameSegStep env node) ([], b) with
  | none => simp [hp] at h
  | some st =>
    simp only [hp, Option.bind_eq_bind, Option.some_bind, Option.some.injEq] at h
    subst h
    exact (sameSegStep_fold_ext env node _ _ _ hb hp).1

theorem writeSameSegConstraints_ext {P : Type} (env : Env P) (g : OptGraph) (b c : Bld)
    (hb : b.Inv) (h : writeSameSegConstraints env g b = some c) : Ext b c :=
  foldlM_ext _ (sameSegNodeStep_ext env) _ _ _ hb h

theorem diffSegPartnerStep_ext {P : Type} (env : Env P) (node : OptNode)
    (segmentA : OptEdge) (linepair : LinePair) (b : Bld) (segments : EdgePair) (c : Bld)
    (hb : b.Inv)
    (h : diffSegPartnerStep env node segmentA linepair b segments = some c) : Ext b c := by
  rw [diffSegPartnerStep_eq] at h
  have e1 := addDec_ext b (diffDecCol env node segmentA segments linepair) hb
    (diffDecCol_isDec env node segmentA segments linepair)
  exact e1.trans (foldlM_ext _
    (diffSegPosStep_ext env node segmentA segments linepair (b.lp.cols.length + 1))
    _ _ _ e1.inv h)

theorem diffSegLineStep_ext {P : Type} (env : Env P) (node : OptNode)
    (segmentA : OptEdge) (b : Bld) (linepair : LinePair) (c : Bld) (hb : b.Inv)
    (h : diffSegLineStep env node segmentA b linepair = some c) : Ext b c := by
  unfold diffSegLineStep at h
  cases hp : getEdgePartnerPairs env node segmentA linepair with
  | none => simp [hp] at h
  | some ps =>
    simp only [hp, Option.bind_eq_bind, Option.some_bind] at h
    exact foldlM_ext _ (diffSegPartnerStep_ext env node segmentA linepair) _ _ _ hb h

theorem diffSegStep_ext {P : Type} (env : Env P) (node : OptNode) (b : Bld)
    (segmentA : OptEdge) (c : Bld) (hb : b.Inv)
    (h : diffSegStep env node b segmentA = some c) : Ext b c :=
  foldlM_ext _ (diffSegLineStep_ext env node segmentA) _ _ _ hb h

theorem diffSegNode_ext {P : Type} (env : Env P) (b : Bld) (node : OptNode) (c : Bld)
    (hb : b.Inv) (h : node.adjList.foldlM (diffSegStep env node) b = some c) : Ext b c :=
  foldlM_ext _ (diffSegStep_ext env node) _ _ _ hb h

theorem writeDiffSegConstraints_ext {P : Type} (env : Env P) (g : OptGraph) (b c : Bld)
    (hb : b.Inv) (h : writeDiffSegConstraints env g b = some c) : Ext b c := by
  unfold writeDiffSegConstraints at h
  exact foldlM_ext _ (diffSegNode_ext env) _ _ _ hb h

theorem mem_sumEntries (rowA c0 r0 k n : Nat) (en : Entry) :
    en ∈ sumEntries rowA c0 r0 k n ↔ ∃ m p, m < n ∧ p < k ∧
      (en = { row := r0 + m, col := c0 + m * k + p, val := 1 } ∨
        en = { row := rowA + p, col := c0 + m * k + p, val := 1 }) := by
  simp only [sumEntries, List.mem_flatMap, List.mem_range, List.mem_cons, List.mem_singleton,
    List.not_mem_nil, or_false]
  constructor
  · rintro ⟨m, hm, p, hp, h⟩
    exact ⟨m, p, hm, hp, h⟩
  · rintro ⟨m, p, hm, hp, h⟩
    exact ⟨m, hm, p, hp, h⟩

theorem segsEntries_row_bounds (es : List OptEdge) : ∀ (c r : Nat) (en : Entry),
    en ∈ segsEntries c r es → r < en.row ∧ en.row ≤ r + numSumRows es := by
  induction es with
  | nil => intro c r en h; simp [segsEntries] at h
  | cons e es ih =>
    intro c r en h
    simp only [segsEntries, List.mem_append] at h
    simp only [numSumRows, List.map_cons, List.sum_cons]
    rcases h with h | h
    · obtain ⟨m, p, hm, hp, h | h⟩ := (mem_sumEntries _ _ _ _ _ _).1 h <;> subst h <;>
        simp <;> omega
    · have := ih _ _ en h
      simp only [numSumRows] at this
      omega

theorem addSegments_inv {P : Type} (env : Env P) (g : OptGraph) :
    (addSegments env g Bld.init).Inv := by
  obtain ⟨_, r, l1, l2, en⟩ := addSegments_spec env g
  refine ⟨l1, l2, ?_⟩
  intro x hx
  rw [en] at hx
  have := segsEntries_row_bounds _ _ _ _ hx
  rw [r, numSumRows_eq]
  omega

theorem createProblem_some {P : Type} (env : Env P) (g : OptGraph) (m : Bld)
    (h : createProblem env g = some m) :
    ∃ b1, writeSameSegConstraints env g (addSegments env g Bld.init) = some b1 ∧
      writeDiffSegConstraints env g b1 = some m ∧
      Ext (addSegments env g Bld.init) b1 ∧ Ext b1 m := by
  unfold createProblem at h
  cases h1 : writeSameSegConstraints env g (addSegments env g Bld.init) with
  | none => simp [h1] at h
  | some b1 =>
    simp only [h1, Option.bind_eq_bind, Option.some_bind] at h
    have e1 := writeSameSegConstraints_ext env g _ _ (addSegments_inv env g) h1
    exact ⟨b1, rfl, h, e1, writeDiffSegConstraints_ext env g _ _ e1.inv h⟩

theorem createProblem_ext {P : Type} (env : Env P) (g : OptGraph) (m : Bld)
    (h : createProblem env g = some m) : Ext (addSegments env g Bld.init) m := by
  obtain ⟨b1, _, _, e1, e2⟩ := createProblem_some env g m h
  exact e1.trans e2

theorem flatMap_range_ite {α : Type} (f : Nat → List α) (n i : Nat) (hi : i < n) :
    (List.range n).flatMap (fun m => if m = i then f m else []) = f i := by
  induction n with
  | zero => omega
  | succ n ih =>
    rw [List.range_succ, List.flatMap_append, List.flatMap_singleton]
    by_cases h : i = n
    · subst h
      have : (List.range i).flatMap (fun m => if m = i then f m else []) = [] := by
        rw [List.flatMap_eq_nil_iff]
        intro m hm
        have := List.mem_range.1 hm
        rw [if_neg (by omega)]
      rw [this]; simp
    · rw [ih (by omega), if_neg (fun h' => h h'.symm)]; simp

theorem rowEntries_sumEntries_pos (rowA c0 r0 k n p0 : Nat) (hp : p0 < k)
    (hr : rowA + k ≤ r0) :
    rowEntries (sumEntries rowA c0 r0 k n) (rowA + p0)
      = (List.range n).map (fun m => { row := rowA + p0, col := c0 + m * k + p0, val := 1 }) := by
  unfold rowEntries sumEntries
  rw [List.filter_flatMap, List.map_eq_flatMap]
  apply List.flatMap_congr
  intro m _
  rw [List.filter_flatMap]
  rw [← flatMap_range_ite (fun p => [({ row := rowA + p, col := c0 + m * k + p, val := 1 } : Entry)])
    k p0 hp]
  apply List.flatMap_congr
  intro p hp'
  have hp' := List.mem_range.1 hp'
  have h1 : ¬ (r0 + m = rowA + p0) := by omega
  by_cases h : p = p0
  · subst h
    simp [h1]
  · have h2 : ¬ (rowA + p = rowA + p0) := by omega
    simp [h, h1, h2]

theorem rowEntries_sumEntries_line (rowA c0 r0 k n m0 : Nat) (hm : m0 < n)
    (hr : rowA + k ≤ r0) :
    rowEntries (sumEntries rowA c0 r0 k n) (r0 + m0)
      = (List.range k).map (fun p => { row := r0 + m0, col := c0 + m0 * k + p, val := 1 }) := by
  unfold rowEntries sumEntries
  rw [List.filter_flatMap]
  rw [← flatMap_range_ite (fun m => (List.range k).map (fun p =>
    ({ row := r0 + m, col := c0 + m * k + p, val := 1 } : Entry))) n m0 hm]
  apply List.flatMap_congr
  intro m _
  rw [List.filter_flatMap]
  by_cases h : m = m0
  · subst h
    rw [if_pos rfl, List.map_eq_flatMap]
    apply List.flatMap_congr
    intro p hp'
    have hp' := List.mem_range.1 hp'
    have h2 : ¬ (rowA + p = r0 + m) := by omega
    simp [h2]
  · rw [if_neg h, List.flatMap_eq_nil_iff]
    intro p hp'
    have hp' := List.mem_range.1 hp'
    have h1 : ¬ (r0 + m = r0 + m0) := by omega
    have h2 : ¬ (rowA + p = r0 + m0) := by omega
    simp [h1, h2]

theorem segsEntries_append (pre l : List OptEdge) : ∀ (c r : Nat),
    segsEntries c r (pre ++ l)
      = segsEntries c r pre ++ segsEntries (c + numAssignCols pre) (r + numSumRows pre) l := by
  induction pre with
  | nil => intro c r; simp [segsEntries, numAssignCols, numSumRows]
  | cons e pre ih =>
    intro c r
    have hA : numAssignCols (e :: pre)
        = e.front.etg.getCardinality true * e.front.etg.getCardinality true
          + numAssignCols pre := by simp [numAssignCols]
    have hR : numSumRows (e :: pre) = 2 * e.front.etg.getCardinality true + numSumRows pre := by
      simp [numSumRows]
    rw [List.cons_append, segsEntries, segsEntries, ih, hA, hR, List.append_assoc]
    simp only [Nat.add_assoc]

theorem rowEntries_append (a b : List Entry) (j : Nat) :
    rowEntries (a ++ b) j = rowEntries a j ++ rowEntries b j := by
  simp [rowEntries, List.filter_append]

theorem rowEntries_eq_nil (a : List Entry) (j : Nat) (h : ∀ en ∈ a, en.row ≠ j) :
    rowEntries a j = [] := by
  unfold rowEntries
  rw [List.filter_eq_nil_iff]
  intro en hen
  simpa using h en hen

/-- Entries of the uniqueness rows of one segment in the matrix of the finished model. -/
theorem uniqueness_rows_final {P : Type} (env : Env P) (g : OptGraph) (m : Bld)
    (pre post : List OptEdge) (e : OptEdge)
    (h : createProblem env g = some m) (hs : g.segments = pre ++ e :: post) :
    (∀ p, p < e.front.etg.getCardinality true →
      rowEntries m.vm.entries (numSumRows pre + 1 + p)
        = (List.range (e.front.etg.getCardinality true)).map (fun i =>
            { row := numSumRows pre + 1 + p,
              col := numAssignCols pre + 1 + i * e.front.etg.getCardinality true + p,
              val := 1 })) ∧
    (∀ i, i < e.front.etg.getCardinality true →
      rowEntries m.vm.entries (numSumRows pre + e.front.etg.getCardinality true + 1 + i)
        = (List.range (e.front.etg.getCardinality true)).map (fun p =>
            { row := numSumRows pre + e.front.etg.getCardinality true + 1 + i,
              col := numAssignCols pre + 1 + i * e.front.etg.getCardinality true + p,
              val := 1 })) := by
  have hext := createProblem_ext env g m h
  obtain ⟨_, hr, _, _, hen⟩ := addSegments_spec env g
  have hlen : (addSegments env g Bld.init).lp.rows.length
      = numSumRows pre + 2 * e.front.etg.getCardinality true + numSumRows post := by
    rw [hr, numSumRows_eq, hs]
    simp [numSumRows, Nat.add_assoc]
  have hsplit : (addSegments env g Bld.init).vm.entries
      = segsEntries 0 0 pre
        ++ (sumEntries (numSumRows pre + 1) (numAssignCols pre + 1)
            (numSumRows pre + e.front.etg.getCardinality true + 1)
            (e.front.etg.getCardinality true) (e.front.etg.getCardinality true)
          ++ segsEntries
            (numAssignCols pre
              + e.front.etg.getCardinality true * e.front.etg.getCardinality true)
            (numSumRows pre + 2 * e.front.etg.getCardinality true) post) := by
    rw [hen, hs, segsEntries_append]
    simp [segsEntries]
  have key : ∀ j, numSumRows pre < j →
      j ≤ numSumRows pre + 2 * e.front.etg.getCardinality true →
      rowEntries m.vm.entries j
        = rowEntries (sumEntries (numSumRows pre + 1) (numAssignCols pre + 1)
            (numSumRows pre + e.front.etg.getCardinality true + 1)
            (e.front.etg.getCardinality true) (e.front.etg.getCardinality true)) j := by
    intro j h1 h2
    rw [hext.rowEntries_eq j (by omega), hsplit, rowEntries_append, rowEntries_append,
      rowEntries_eq_nil (segsEntries 0 0 pre), rowEntries_eq_nil (segsEntries _ _ post)]
    · simp
    · intro en hen'
      have := segsEntries_row_bounds _ _ _ _ hen'
      omega
    · intro en hen'
      have := segsEntries_row_bounds _ _ _ _ hen'
      omega
  refine ⟨fun p hp => ?_, fun i hi => ?_⟩
  · rw [key _ (by omega) (by omega), Nat.add_assoc (numSumRows pre) 1 p,
      Nat.add_comm 1 p, ← Nat.add_assoc]
    have := rowEntries_sumEntries_pos (numSumRows pre + 1) (numAssignCols pre + 1)
      (numSumRows pre + e.front.etg.getCardinality true + 1)
      (e.front.etg.getCardinality true) (e.front.etg.getCardinality true) p hp (by omega)
    have e1 : numSumRows pre + 1 + p = numSumRows pre + p + 1 := by omega
    rw [e1] at this
    exact this
  · rw [key _ (by omega) (by omega)]
    exact rowEntries_sumEntries_line (numSumRows pre + 1) (numAssignCols pre + 1)
      (numSumRows pre + e.front.etg.getCardinality true + 1)
      (e.front.etg.getCardinality true) (e.front.etg.getCardinality true) i hi (by omega)

/-- Columns and rows of one segment in the finished model. -/
theorem segment_block_final {P : Type} (env : Env P) (g : OptGraph) (m : Bld)
    (pre post : List OptEdge) (e : OptEdge)
    (h : createProblem env g = some m) (hs : g.segments = pre ++ e :: post) :
    (∃ rest, m.lp.cols = pre.flatMap (assignCols env) ++ assignCols env e ++ rest) ∧
    (∃ rest, m.lp.rows = pre.flatMap (sumRows env) ++ sumRows env e ++ rest) := by
  have hext := createProblem_ext env g m h
  obtain ⟨hc, hr, _, _, _⟩ := addSegments_spec env g
  obtain ⟨nc, hnc, _⟩ := hext.cols
  obtain ⟨nr, hnr⟩ := hext.rows
  rw [hc, hs] at hnc
  rw [hr, hs] at hnr
  exact ⟨⟨post.flatMap (assignCols env) ++ nc, by rw [hnc]; simp⟩,
    ⟨post.flatMap (sumRows env) ++ nr, by rw [hnr]; simp⟩⟩

theorem flatMap_getElem_block {α β : Type} (f : α → List β) (k : Nat) (l : List α) :
    ∀ (i p : Nat) (a : α), (∀ x ∈ l, (f x).length = k) → p < k → l[i]? = some a →
      (l.flatMap f)[i * k + p]? = (f a)[p]? := by
  induction l with
  | nil => intro i p a _ _ h; simp at h
  | cons x l ih =>
    intro i p a hk hp h
    rw [List.flatMap_cons]
    cases i with
    | zero =>
      simp only [List.getElem?_cons_zero, Option.some.injEq] at h
      subst h
      have := hk x (List.mem_cons_self _ _)
      rw [Nat.zero_mul, Nat.zero_add, List.getElem?_append_left (by omega)]
    | succ i =>
      simp only [List.getElem?_cons_succ] at h
      have hx := hk x (List.mem_cons_self _ _)
      rw [List.getElem?_append_right (by rw [hx, Nat.succ_mul]; omega)]
      have : (i + 1) * k + p - (f x).length = i * k + p := by
        rw [hx, Nat.succ_mul]; omega
      rw [this]
      exact ih i p a (fun y hy => hk y (List.mem_cons_of_mem _ hy)) hp h

/-- Column of line number `i` at position `p` within the block of a segment. -/
theorem assignCols_getElem {P : Type} (env : Env P) (e : OptEdge) (i p : Nat) (r : Route)
    (hr : e.front.etg.nonRelRoutes[i]? = some r) (hp : p < e.front.etg.getCardinality true) :
    (assignCols env e)[i * e.front.etg.getCardinality true + p]? = some (assignCol env e r p) := by
  unfold assignCols
  rw [flatMap_getElem_block _ (e.front.etg.getCardinality true) _ i p r (by simp) hp hr]
  simp [hp]

theorem getElem_append_mid {α : Type} (A B C : List α) (i : Nat) (x : α)
    (h : B[i]? = some x) : (A ++ B ++ C)[A.length + i]? = some x := by
  have hlt : i < B.length := by
    by_contra hcon
    rw [List.getElem?_eq_none (by omega)] at h
    exact absurd h (by simp)
  rw [List.append_assoc, List.getElem?_append_right (by omega)]
  simp only [Nat.add_sub_cancel_left]
  rw [List.getElem?_append_left hlt]; exact h

/-- C1: every segment gets `k * k` binary assignment columns, one for each non-relative
route of its reference edge and each position below `k`, named `getILPVarName`; all
other columns of the model are decision columns. -/
theorem createProblem_assignment_columns {P : Type} (env : Env P) (g : OptGraph) (m : Bld)
    (h : createProblem env g = some m) :
    (∃ dec, m.lp.cols = g.segments.flatMap (fun e =>
        e.front.etg.nonRelRoutes.flatMap (fun r =>
          (List.range (e.front.etg.getCardinality true)).map (fun p =>
            ({ name := getILPVarName env e r p, kind := ColKind.BV, objCoef := 0 } : Col))))
        ++ dec ∧ ∀ x ∈ dec, IsDecCol x) ∧
    ∀ e : OptEdge,
      e.front.etg.nonRelRoutes.length = e.front.etg.getCardinality true ∧
      (assignCols env e).length
        = e.front.etg.getCardinality true * e.front.etg.getCardinality true ∧
      (∀ x ∈ assignCols env e, x.kind = ColKind.BV ∧ ¬ IsDecCol x) ∧
      (∀ i p r, e.front.etg.nonRelRoutes[i]? = some r → p < e.front.etg.getCardinality true →
        (assignCols env e)[i * e.front.etg.getCardinality true + p]?
          = some { name := getILPVarName env e r p, kind := ColKind.BV, objCoef := 0 }) := by
  refine ⟨?_, fun e => ⟨nonRel_length _, assignCols_length env e, ?_, ?_⟩⟩
  · obtain ⟨nc, hnc, hd⟩ := (createProblem_ext env g m h).cols
    exact ⟨nc, by rw [hnc, (addSegments_spec env g).1]; rfl, hd⟩
  · intro x hx
    simp only [assignCols, List.mem_flatMap, List.mem_map] at hx
    obtain ⟨r, _, p, _, rfl⟩ := hx
    exact ⟨rfl, assignCol_not_isDec env e r p⟩
  · intro i p r hr hp
    exact assignCols_getElem env e i p r hr hp

theorem createProblem_assignment_columns_witness :
    createProblem sampleEnv chainGraph = some (modelOf chainGraph) ∧
      (modelOf chainGraph).lp.cols.length = 9 ∧
      chainSeg.etgs.length = 3 ∧
      (assignCols sampleEnv chainSeg).length
        = chainSeg.front.etg.getCardinality true * chainSeg.front.etg.getCardinality true :=
  ⟨by rfl, by decide, by decide,
    ((createProblem_assignment_columns sampleEnv chainGraph (modelOf chainGraph) (by rfl)).2
      chainSeg).2.1⟩

theorem sumRows_fixed {P : Type} (env : Env P) (e : OptEdge) (r : Row) (hr : r ∈ sumRows env e) :
    r.typ = RowType.FX ∧ r.lb = 1 ∧ r.ub = 1 := by
  simp only [sumRows, List.mem_append, List.mem_map] at hr
  rcases hr with ⟨p, _, rfl⟩ | ⟨x, _, rfl⟩
  · exact ⟨rfl, rfl, rfl⟩
  · exact ⟨rfl, rfl, rfl⟩

theorem sumRows_getElem_pos {P : Type} (env : Env P) (e : OptEdge) (p : Nat)
    (hp : p < e.front.etg.getCardinality true) :
    (sumRows env e)[p]? = some (posSumRow env e p) := by
  unfold sumRows
  rw [List.getElem?_append_left (by simpa using hp)]
  simp [hp]

theorem sumRows_getElem_line {P : Type} (env : Env P) (e : OptEdge) (i : Nat) (r : Route)
    (hr : e.front.etg.nonRelRoutes[i]? = some r) :
    (sumRows env e)[e.front.etg.getCardinality true + i]? = some (lineSumRow env e r) := by
  unfold sumRows
  rw [List.getElem?_append_right (by simp)]
  simp [hr]

/-- C2: a segment with `k` non-relative lines gets `k` position-sum rows and `k` line-sum
rows, all equalities with right-hand side one; the row of position `p` has coefficient one
on the columns of all lines at `p` and no other entry, the row of a line has coefficient
one on the columns of that line at all positions and no other entry. -/
theorem createProblem_uniqueness_rows {P : Type} (env : Env P) (g : OptGraph) (m : Bld)
    (pre post : List OptEdge) (e : OptEdge)
    (h : createProblem env g = some m) (hs : g.segments = pre ++ e :: post) :
    (∃ rest, m.lp.rows = pre.flatMap (sumRows env)
      ++ ((List.range (e.front.etg.getCardinality true)).map (posSumRow env e)
        ++ e.front.etg.nonRelRoutes.map (lineSumRow env e)) ++ rest) ∧
    ((List.range (e.front.etg.getCardinality true)).map (posSumRow env e)).length
      = e.front.etg.getCardinality true ∧
    (e.front.etg.nonRelRoutes.map (lineSumRow env e)).length
      = e.front.etg.getCardinality true ∧
    (∀ r ∈ sumRows env e, r.typ = RowType.FX ∧ r.lb = 1 ∧ r.ub = 1) ∧
    (∀ p, p < e.front.etg.getCardinality true →
      m.lp.rows[numSumRows pre + p]? = some (posSumRow env e p) ∧
      rowEntries m.vm.entries (numSumRows pre + 1 + p)
        = (List.range (e.front.etg.getCardinality true)).map (fun i =>
            { row := numSumRows pre + 1 + p,
              col := numAssignCols pre + 1 + i * e.front.etg.getCardinality true + p,
              val := 1 })) ∧
    (∀ i r, e.front.etg.nonRelRoutes[i]? = some r →
      m.lp.rows[numSumRows pre + (e.front.etg.getCardinality true + i)]?
        = some (lineSumRow env e r) ∧
      rowEntries m.vm.entries (numSumRows pre + e.front.etg.getCardinality true + 1 + i)
        = (List.range (e.front.etg.getCardinality true)).map (fun p =>
            { row := numSumRows pre + e.front.etg.getCardinality true + 1 + i,
              col := numAssignCols pre + 1 + i * e.front.etg.getCardinality true + p,
              val := 1 })) ∧
    (∀ i p r, e.front.etg.nonRelRoutes[i]? = some r → p < e.front.etg.getCardinality true →
      m.lp.cols[numAssignCols pre + (i * e.front.etg.getCardinality true + p)]?
        = some { name := getILPVarName env e r p, kind := ColKind.BV, objCoef := 0 }) := by
  obtain ⟨⟨rc, hrc⟩, ⟨rr, hrr⟩⟩ := segment_block_final env g m pre post e h hs
  obtain ⟨hpos, hline⟩ := uniqueness_rows_final env g m pre post e h hs
  refine ⟨⟨rr, hrr⟩, by simp, by simp [nonRel_length], sumRows_fixed env e, ?_, ?_, ?_⟩
  · intro p hp
    refine ⟨?_, hpos p hp⟩
    rw [hrr, ← numSumRows_eq env pre]
    exact getElem_append_mid _ _ _ _ _ (sumRows_getElem_pos env e p hp)
  · intro i r hr
    have hi : i < e.front.etg.getCardinality true := by
      rw [← nonRel_length]
      by_contra hcon
      rw [List.getElem?_eq_none (by omega)] at hr
      exact absurd hr (by simp)
    refine ⟨?_, hline i hi⟩
    rw [hrr, ← numSumRows_eq env pre]
    exact getElem_append_mid _ _ _ _ _ (sumRows_getElem_line env e i r hr)
  · intro i p r hr hp
    rw [hrc, ← numAssignCols_eq env pre]
    exact getElem_append_mid _ _ _ _ _ (assignCols_getElem env e i p r hr hp)

theorem createProblem_uniqueness_rows_witness :
    createProblem sampleEnv crossGraph = some (modelOf crossGraph) ∧
      crossGraph.segments = [crossSegA] ++ crossSegB :: [] ∧
      rowEntries (modelOf crossGraph).vm.entries (numSumRows [crossSegA] + 1 + 1)
        = (List.range (crossSegB.front.etg.getCardinality true)).map (fun i =>
            { row := numSumRows [crossSegA] + 1 + 1,
              col := numAssignCols [crossSegA] + 1
                + i * crossSegB.front.etg.getCardinality true + 1,
              val := 1 }) :=
  ⟨by rfl, by rfl,
    ((createProblem_uniqueness_rows sampleEnv crossGraph (modelOf crossGraph) [crossSegA] []
      crossSegB (by rfl) (by rfl)).2.2.2.2.1 1 (by decide)).2⟩

theorem sum_range_nonneg (f : Nat → Int) (k : Nat) (hb : ∀ p, p < k → f p = 0 ∨ f p = 1) :
    0 ≤ ((List.range k).map f).sum := by
  induction k with
  | zero => simp
  | succ k ih =>
    rw [List.range_succ, List.map_append, List.sum_append]
    have := ih (fun p hp => hb p (by omega))
    rcases hb k (by omega) with h | h <;> simp [h] <;> omega

theorem sum_range_zero (f : Nat → Int) (k : Nat) (hb : ∀ p, p < k → f p = 0 ∨ f p = 1)
    (hs : ((List.range k).map f).sum = 0) : ∀ p, p < k → f p = 0 := by
  induction k with
  | zero => intro p hp; omega
  | succ k ih =>
    rw [List.range_succ, List.map_append, List.sum_append] at hs
    have hn := sum_range_nonneg f k (fun p hp => hb p (by omega))
    simp only [List.map_cons, List.map_nil, List.sum_cons, List.sum_nil, add_zero] at hs
    intro p hp
    rcases hb k (by omega) with h | h
    · rw [h] at hs
      by_cases hpk : p = k
      · subst hpk; exact h
      · exact ih (fun p hp => hb p (by omega)) (by omega) p (by omega)
    · rw [h] at hs; omega

/-- Zero-one values that add up to one: exactly one of them is one. -/
theorem sum_range_one (f : Nat → Int) (k : Nat) (hb : ∀ p, p < k → f p = 0 ∨ f p = 1)
    (hs : ((List.range k).map f).sum = 1) :
    ∃ p, p < k ∧ f p = 1 ∧ ∀ q, q < k → f q = 1 → q = p := by
  induction k with
  | zero => simp at hs
  | succ k ih =>
    rw [List.range_succ, List.map_append, List.sum_append] at hs
    simp only [List.map_cons, List.map_nil, List.sum_cons, List.sum_nil, add_zero] at hs
    rcases hb k (by omega) with h | h
    · rw [h] at hs
      obtain ⟨p, hp, hp1, hu⟩ := ih (fun p hp => hb p (by omega)) (by omega)
      refine ⟨p, by omega, hp1, ?_⟩
      intro q hq hq1
      by_cases hqk : q = k
      · subst hqk; rw [h] at hq1; omega
      · exact hu q (by omega) hq1
    · rw [h] at hs
      have hz := sum_range_zero f k (fun p hp => hb p (by omega)) (by omega)
      refine ⟨k, by omega, h, ?_⟩
      intro q hq hq1
      by_contra hqk
      have := hz q (by omega)
      rw [this] at hq1; omega

theorem rowActivity_of_rowEntries (v : Nat → Int) (es : List Entry) (j k : Nat)
    (col : Nat → Nat)
    (h : rowEntries es j = (List.range k).map (fun i => { row := j, col := col i, val := 1 })) :
    rowActivity v es j = ((List.range k).map (fun i => v (col i))).sum := by
  unfold rowActivity
  rw [h, List.map_map]
  congr 1
  apply List.map_congr_left
  intro i _
  simp

theorem fixed_row_holds (r : Row) (act : Int) (hr : r.typ = RowType.FX ∧ r.lb = 1 ∧ r.ub = 1)
    (h : r.holds act) : act = 1 := by
  unfold Row.holds at h
  rw [hr.1] at h
  simpa [hr.2.1] using h

theorem rowSatisfied_iff (m : Bld) (v : Nat → Int) (j : Nat) :
    m.rowSatisfied v j ↔
      ∃ r, 0 < j ∧ m.lp.rows[j - 1]? = some r ∧ r.holds (rowActivity v m.vm.entries j) := by
  unfold Bld.rowSatisfied
  cases h : m.lp.rows[j - 1]? with
  | none => simp
  | some r => simp

/-- C3: a zero-one valuation of the assignment columns of a segment that satisfies its
position-sum and line-sum rows puts every line at exactly one position and exactly one
line at every position. -/
theorem uniqueness_rows_give_permutation {P : Type} (env : Env P) (g : OptGraph) (m : Bld)
    (pre post : List OptEdge) (e : OptEdge) (v : Nat → Int)
    (h : createProblem env g = some m) (hs : g.segments = pre ++ e :: post)
    (hbin : ∀ i p, i < e.front.etg.getCardinality true → p < e.front.etg.getCardinality true →
      IsBin v (numAssignCols pre + 1 + i * e.front.etg.getCardinality true + p))
    (hsat : ∀ j, numSumRows pre < j →
      j ≤ numSumRows pre + 2 * e.front.etg.getCardinality true → m.rowSatisfied v j) :
    (∀ i, i < e.front.etg.getCardinality true →
      ∃ p, p < e.front.etg.getCardinality true ∧
        v (numAssignCols pre + 1 + i * e.front.etg.getCardinality true + p) = 1 ∧
        ∀ q, q < e.front.etg.getCardinality true →
          v (numAssignCols pre + 1 + i * e.front.etg.getCardinality true + q) = 1 → q = p) ∧
    (∀ p, p < e.front.etg.getCardinality true →
      ∃ i, i < e.front.etg.getCardinality true ∧
        v (numAssignCols pre + 1 + i * e.front.etg.getCardinality true + p) = 1 ∧
        ∀ i2, i2 < e.front.etg.getCardinality true →
          v (numAssignCols pre + 1 + i2 * e.front.etg.getCardinality true + p) = 1 → i2 = i) := by
  obtain ⟨_, ⟨rr, hrr⟩⟩ := segment_block_final env g m pre post e h hs
  obtain ⟨hpos, hline⟩ := uniqueness_rows_final env g m pre post e h hs
  have hact : ∀ j, numSumRows pre < j →
      j ≤ numSumRows pre + 2 * e.front.etg.getCardinality true →
      rowActivity v m.vm.entries j = 1 := by
    intro j h1 h2
    obtain ⟨r, _, hr, hh⟩ := (rowSatisfied_iff m v j).1 (hsat j h1 h2)
    refine fixed_row_holds r _ (sumRows_fixed env e r ?_) hh
    have hl := numSumRows_eq env pre
    rw [hrr, List.append_assoc, List.getElem?_append_right (by omega),
      List.getElem?_append_left (by rw [sumRows_length]; omega)] at hr
    exact List.getElem?_mem hr
  refine ⟨fun i hi => ?_, fun p hp => ?_⟩
  · have ha := hact (numSumRows pre + e.front.etg.getCardinality true + 1 + i) (by omega)
      (by omega)
    rw [rowActivity_of_rowEntries v _ _ _ _ (hline i hi)] at ha
    exact sum_range_one _ _ (fun p hp => hbin i p hi hp) ha
  · have ha := hact (numSumRows pre + 1 + p) (by omega) (by omega)
    rw [rowActivity_of_rowEntries v _ _ _
      (fun i => numAssignCols pre + 1 + i * e.front.etg.getCardinality true + p) (hpos p hp)] at ha
    exact sum_range_one _ _ (fun i hi => hbin i p hi hp) ha
theorem uniqueness_rows_give_permutation_witness :
    createProblem sampleEnv crossGraph = some (modelOf crossGraph) ∧
      crossGraph.segments = [] ++ crossSegA :: [crossSegB] ∧
      ∃ p, p < crossSegA.front.etg.getCardinality true ∧
        sampleValuation
          (numAssignCols [] + 1 + 1 * crossSegA.front.etg.getCardinality true + p) = 1 ∧
        ∀ q, q < crossSegA.front.etg.getCardinality true →
          sampleValuation
            (numAssignCols [] + 1 + 1 * crossSegA.front.etg.getCardinality true + q) = 1 →
          q = p :=
  ⟨by rfl, by rfl,
    (uniqueness_rows_give_permutation sampleEnv crossGraph (modelOf crossGraph) [] [crossSegB]
      crossSegA sampleValuation (by rfl) (by rfl)
      (by
        have hk : crossSegA.front.etg.getCardinality true = 2 := by decide
        intro i p hi hp
        rw [hk] at hi hp ⊢
        interval_cases i <;> interval_cases p <;> decide)
      (by
        have hk : crossSegA.front.etg.getCardinality true = 2 := by decide
        have hn : numSumRows [] = 0 := by decide
        intro j h1 h2
        rw [hk, hn] at h2
        rw [hn] at h1
        interval_cases j <;> decide)).1 1 (by decide)⟩

theorem findNameFrom_spec (name : String) (l : List Col) : ∀ (n c : Nat),
    findNameFrom name n l = c → c ≠ 0 →
      n < c ∧ ∃ x, l[c - n - 1]? = some x ∧ x.name = name := by
  induction l with
  | nil => intro n c h hc; simp [findNameFrom] at h; omega
  | cons y l ih =>
    intro n c h hc
    unfold findNameFrom at h
    split at h
    · rename_i hy
      subst h
      exact ⟨by omega, y, by simp, hy⟩
    · obtain ⟨h1, x, hx, hn⟩ := ih (n + 1) c h hc
      refine ⟨by omega, x, ?_, hn⟩
      have : c - n - 1 = (c - (n + 1) - 1) + 1 := by omega
      rw [this, List.getElem?_cons_succ]; exact hx

theorem findNameFrom_append (name : String) (l l2 : List Col) : ∀ (n : Nat),
    findNameFrom name n l ≠ 0 → findNameFrom name n (l ++ l2) = findNameFrom name n l := by
  induction l with
  | nil => intro n h; simp [findNameFrom] at h
  | cons y l ih =>
    intro n h
    rw [List.cons_append]
    unfold findNameFrom at h ⊢
    split
    · rfl
    · rename_i hy
      rw [if_neg hy] at h
      exact ih (n + 1) h

/-- Column found by name: it exists and carries the name. -/
theorem glp_find_col_spec (lp : Lp) (name : String) (h : glp_find_col lp name ≠ 0) :
    ∃ x, lp.cols[glp_find_col lp name - 1]? = some x ∧ x.name = name := by
  obtain ⟨_, x, hx, hn⟩ := findNameFrom_spec name lp.cols 0 _ rfl h
  exact ⟨x, by simpa using hx, hn⟩

/-- Lookup by name is not changed by columns appended later. -/
theorem Ext.find_col_eq {b c : Bld} (h : Ext b c) (name : String)
    (hf : glp_find_col b.lp name ≠ 0) : glp_find_col c.lp name = glp_find_col b.lp name := by
  obtain ⟨nc, hc, _⟩ := h.cols
  unfold glp_find_col at hf ⊢
  rw [hc]
  exact findNameFrom_append name _ _ 0 hf

theorem sameSegStep_fold_split {P : Type} (env : Env P) (node : OptNode)
    (pre post : List OptEdge) (segmentA : OptEdge) (st st2 : List Nat × Bld) (hb : st.2.Inv)
    (h : (pre ++ segmentA :: post).foldlM (sameSegStep env node) st = some st2) :
    ∃ b1 b2, Ext st.2 b1 ∧
      (getLinePairs segmentA).foldlM (sameSegLineStep env node
        (segmentA.addr :: ((pre.map (fun e => e.addr)).reverse ++ st.1)) segmentA) b1 = some b2 ∧
      Ext b2 st2.2 := by
  rw [List.foldlM_append] at h
  cases h1 : pre.foldlM (sameSegStep env node) st with
  | none => rw [h1] at h; exact absurd h (by simp)
  | some s1 =>
    rw [h1] at h
    simp only [Option.bind_eq_bind, Option.some_bind, List.foldlM_cons] at h
    obtain ⟨e1, p1⟩ := sameSegStep_fold_ext env node pre st s1 hb h1
    cases h2 : sameSegStep env node s1 segmentA with
    | none => rw [h2] at h; exact absurd h (by simp)
    | some s2 =>
      rw [h2] at h
      obtain ⟨e2, _⟩ := sameSegStep_ext env node s1 segmentA s2 e1.inv h2
      obtain ⟨e3, _⟩ := sameSegStep_fold_ext env node post s2 st2 e2.inv h
      unfold sameSegStep at h2
      cases h3 : (getLinePairs segmentA).foldlM
          (sameSegLineStep env node (segmentA.addr :: s1.1) segmentA) s1.2 with
      | none => simp [h3] at h2
      | some c =>
        simp only [h3, Option.bind_eq_bind, Option.some_bind, Option.some.injEq] at h2
        subst h2
        rw [p1] at h3
        exact ⟨s1.2, c, e1, h3, e3⟩

/-- States around the step that handles one partner of one line pair in
`writeSameSegConstraints`: the decision column is appended to `b0`, then the position
combinations are folded. -/
theorem sameSeg_job {P : Type} (env : Env P) (g : OptGraph) (m : Bld) (node : OptNode)
    (pre post : List OptEdge) (segmentA segmentB : OptEdge) (linepair : LinePair)
    (ps : List OptEdge)
    (h : createProblem env g = some m) (hn : node ∈ g.getNodes)
    (ha : node.adjList = pre ++ segmentA :: post) (hl : linepair ∈ getLinePairs segmentA)
    (hp : getEdgePartners env node segmentA linepair = some ps) (hB : segmentB ∈ ps)
    (hproc : (segmentA.addr :: (pre.map (fun e => e.addr)).reverse).contains segmentB.addr
      = false) :
    ∃ b0 b3, Ext (addSegments env g Bld.init) b0 ∧
      (getPositionCombinations2 segmentA segmentB).foldlM
          (sameSegPosStep env node segmentA segmentB linepair (b0.lp.cols.length + 1))
          { lp := { cols := b0.lp.cols ++ [sameDecCol env node segmentA segmentB linepair],
                    rows := b0.lp.rows },
            vm := b0.vm } = some b3 ∧
      Ext b3 m := by
  obtain ⟨bs, hsame, _, _, ediff⟩ := createProblem_some env g m h
  obtain ⟨n1, n2, en1, hnode, en2⟩ := foldlM_mem_ext _ (sameSegNodeStep_ext env) _ node hn _ _
    (addSegments_inv env g) hsame
  unfold sameSegNodeStep at hnode
  cases hfold : node.adjList.foldlM (sameSegStep env node) ([], n1) with
  | none => simp [hfold] at hnode
  | some st =>
    simp only [hfold, Option.bind_eq_bind, Option.some_bind, Option.some.injEq] at hnode
    subst hnode
    rw [ha] at hfold
    obtain ⟨a1, a2, ea1, hline, ea2⟩ := sameSegStep_fold_split env node pre post segmentA
      ([], n1) st en1.inv hfold
    simp only [List.append_nil] at hline
    obtain ⟨l1, l2, el1, hlp, el2⟩ := foldlM_mem_ext _
      (sameSegLineStep_ext env node _ segmentA) _ linepair hl _ _ ea1.inv hline
    unfold sameSegLineStep at hlp
    simp only [hp, Option.bind_eq_bind, Option.some_bind] at hlp
    obtain ⟨p1, p2, ep1, hpart, ep2⟩ := foldlM_mem_ext _
      (sameSegPartnerStep_ext env node _ segmentA linepair) _ segmentB hB _ _ el1.inv hlp
    rw [sameSegPartnerStep_eq env node _ segmentA linepair p1 segmentB hproc] at hpart
    exact ⟨p1, p2, en1.trans (ea1.trans (el1.trans ep1)), hpart,
      ep2.trans (el2.trans (ea2.trans (en2.trans ediff)))⟩

/-- States around the step that handles one position combination of one partner of one
line pair in `writeSameSegConstraints`. -/
theorem sameSeg_reach {P : Type} (env : Env P) (g : OptGraph) (m : Bld) (node : OptNode)
    (pre post : List OptEdge) (segmentA segmentB : OptEdge) (linepair : LinePair)
    (ps : List OptEdge) (poscomb : PosComPair)
    (h : createProblem env g = some m) (hn : node ∈ g.getNodes)
    (ha : node.adjList = pre ++ segmentA :: post) (hl : linepair ∈ getLinePairs segmentA)
    (hp : getEdgePartners env node segmentA linepair = some ps) (hB : segmentB ∈ ps)
    (hproc : (segmentA.addr :: (pre.map (fun e => e.addr)).reverse).contains segmentB.addr
      = false)
    (hc : poscomb ∈ getPositionCombinations2 segmentA segmentB) :
    ∃ b0 b1 b2, Ext (addSegments env g Bld.init) b0 ∧
      Ext { lp := { cols := b0.lp.cols ++ [sameDecCol env node segmentA segmentB linepair],
                    rows := b0.lp.rows },
            vm := b0.vm } b1 ∧
      sameSegPosStep env node segmentA segmentB linepair (b0.lp.cols.length + 1) b1 poscomb
        = some b2 ∧
      Ext b2 m := by
  obtain ⟨p1, p2, e0, hpart, ep2⟩ := sameSeg_job env g m node pre post segmentA segmentB
    linepair ps h hn ha hl hp hB hproc
  have ed := addDec_ext p1 (sameDecCol env node segmentA segmentB linepair) e0.inv
    (sameDecCol_isDec env node segmentA segmentB linepair)
  obtain ⟨c1, c2, ec1, hstep, ec2⟩ := foldlM_mem_ext _
    (sameSegPosStep_ext env node segmentA segmentB linepair (p1.lp.cols.length + 1))
    _ poscomb hc _ _ ed.inv hpart
  exact ⟨p1, c1, c2, e0, ec1, hstep, ec2.trans ep2⟩

/-- States around the step that handles one partner pair of one line pair in
`writeDiffSegConstraints`. -/
theorem diffSeg_job {P : Type} (env : Env P) (g : OptGraph) (m : Bld) (node : OptNode)
    (segmentA : OptEdge) (segments : EdgePair) (linepair : LinePair) (ps : List EdgePair)
    (h : createProblem env g = some m) (hn : node ∈ g.getNodes)
    (ha : segmentA ∈ node.adjList) (hl : linepair ∈ getLinePairs segmentA)
    (hp : getEdgePartnerPairs env node segmentA linepair = some ps) (hB : segments ∈ ps) :
    ∃ b0 b3, Ext (addSegments env g Bld.init) b0 ∧
      (getPositionCombinations segmentA).foldlM
          (diffSegPosStep env node segmentA segments linepair (b0.lp.cols.length + 1))
          { lp := { cols := b0.lp.cols ++ [diffDecCol env node segmentA segments linepair],
                    rows := b0.lp.rows },
            vm := b0.vm } = some b3 ∧
      Ext b3 m := by
  obtain ⟨bs, _, hdiff, esame, _⟩ := createProblem_some env g m h
  unfold writeDiffSegConstraints at hdiff
  obtain ⟨n1, n2, en1, hnode, en2⟩ := foldlM_mem_ext _ (diffSegNode_ext env) _ node hn _ _
    esame.inv hdiff
  obtain ⟨a1, a2, ea1, hline, ea2⟩ := foldlM_mem_ext _ (diffSegStep_ext env node) _ segmentA
    ha _ _ en1.inv hnode
  unfold diffSegStep at hline
  obtain ⟨l1, l2, el1, hlp, el2⟩ := foldlM_mem_ext _
    (diffSegLineStep_ext env node segmentA) _ linepair hl _ _ ea1.inv hline
  unfold diffSegLineStep at hlp
  simp only [hp, Option.bind_eq_bind, Option.some_bind] at hlp
  obtain ⟨p1, p2, ep1, hpart, ep2⟩ := foldlM_mem_ext _
    (diffSegPartnerStep_ext env node segmentA linepair) _ segments hB _ _ el1.inv hlp
  rw [diffSegPartnerStep_eq] at hpart
  exact ⟨p1, p2, esame.trans (en1.trans (ea1.trans (el1.trans ep1))), hpart,
    ep2.trans (el2.trans (ea2.trans en2))⟩

/-- States around the step that handles one position combination of one partner pair of
one line pair in `writeDiffSegConstraints`. -/
theorem diffSeg_reach {P : Type} (env : Env P) (g : OptGraph) (m : Bld) (node : OptNode)
    (segmentA : OptEdge) (segments : EdgePair) (linepair : LinePair) (ps : List EdgePair)
    (poscomb : PosCom)
    (h : createProblem env g = some m) (hn : node ∈ g.getNodes)
    (ha : segmentA ∈ node.adjList) (hl : linepair ∈ getLinePairs segmentA)
    (hp : getEdgePartnerPairs env node segmentA linepair = some ps) (hB : segments ∈ ps)
    (hc : poscomb ∈ getPositionCombinations segmentA) :
    ∃ b0 b1 b2, Ext (addSegments env g Bld.init) b0 ∧
      Ext { lp := { cols := b0.lp.cols ++ [diffDecCol env node segmentA segments linepair],
                    rows := b0.lp.rows },
            vm := b0.vm } b1 ∧
      diffSegPosStep env node segmentA segments linepair (b0.lp.cols.length + 1) b1 poscomb
        = some b2 ∧
      Ext b2 m := by
  obtain ⟨p1, p2, e0, hpart, ep2⟩ := diffSeg_job env g m node segmentA segments linepair ps
    h hn ha hl hp hB
  have ed := addDec_ext p1 (diffDecCol env node segmentA segments linepair) e0.inv
    (diffDecCol_isDec env node segmentA segments linepair)
  obtain ⟨c1, c2, ec1, hstep, ec2⟩ := foldlM_mem_ext _
    (diffSegPosStep_ext env node segmentA segments linepair (p1.lp.cols.length + 1))
    _ poscomb hc _ _ ed.inv hpart
  exact ⟨p1, c1, c2, e0, ec1, hstep, ec2.trans ep2⟩

theorem rowEntries_self (es : List Entry) (j : Nat) (h : ∀ en ∈ es, en.row = j) :
    rowEntries es j = es := by
  unfold rowEntries
  rw [List.filter_eq_self]
  intro en hen
  simpa using h en hen

/-- Entries of a row that a step has just appended, seen in a later state. -/
theorem rowEntries_new_row {b1 b2 m : Bld} (ne : List Entry) (h1 : b1.Inv) (h2 : Ext b2 m)
    (hr : b2.lp.rows.length = b1.lp.rows.length + 1)
    (he : b2.vm.entries = b1.vm.entries ++ ne)
    (hn : ∀ en ∈ ne, en.row = b1.lp.rows.length + 1) :
    rowEntries m.vm.entries (b1.lp.rows.length + 1) = ne := by
  rw [h2.rowEntries_eq _ (by omega), he, rowEntries_append, rowEntries_self ne _ hn,
    rowEntries_eq_nil b1.vm.entries]
  · simp
  · intro en hen
    have := h1.2.2 en hen
    omega

theorem crossing_row_iff (a b c e d : Int) (ha : a = 0 ∨ a = 1) (hb : b = 0 ∨ b = 1)
    (hc : c = 0 ∨ c = 1) (he : e = 0 ∨ e = 1) (hd : d = 0 ∨ d = 1) :
    a + b + c + e - d ≤ 3 ↔ (d = 1 ∨ ¬ (a = 1 ∧ b = 1 ∧ c = 1 ∧ e = 1)) := by
  rcases ha with rfl | rfl <;> rcases hb with rfl | rfl <;> rcases hc with rfl | rfl <;>
    rcases he with rfl | rfl <;> rcases hd with rfl | rfl <;> simp

/-- C4: for a position combination on which the predicate holds, the step of
`writeSameSegConstraints` appends exactly one row, bounded above by three, with
coefficient one on the four assignment columns of the combination and minus one on the
decision column; these are all entries of that row in the finished model, so a zero-one
valuation satisfies the row iff the decision column is one or not all four assignment
columns are one. When the predicate fails the step changes nothing. -/
theorem sameSeg_crossing_row {P : Type} (env : Env P) (g : OptGraph) (m : Bld)
    (node : OptNode) (pre post : List OptEdge) (segmentA segmentB : OptEdge)
    (linepair : LinePair) (ps : List OptEdge) (poscomb : PosComPair)
    (h : createProblem env g = some m) (hn : node ∈ g.getNodes)
    (ha : node.adjList = pre ++ segmentA :: post) (hl : linepair ∈ getLinePairs segmentA)
    (hp : getEdgePartners env node segmentA linepair = some ps) (hB : segmentB ∈ ps)
    (hproc : (segmentA.addr :: (pre.map (fun e => e.addr)).reverse).contains segmentB.addr
      = false)
    (hc : poscomb ∈ getPositionCombinations2 segmentA segmentB) :
    (crosses env node segmentA segmentB poscomb = some false →
      ∀ b d, sameSegPosStep env node segmentA segmentB linepair d b poscomb = some b) ∧
    (crosses env node segmentA segmentB poscomb = some true →
      (∀ b c d, b.vm.rowNum.length = b.vm.colNum.length →
        b.vm.colNum.length = b.vm.vals.length →
        sameSegPosStep env node segmentA segmentB linepair d b poscomb = some c →
        c.lp.cols = b.lp.cols ∧
        c.lp.rows = b.lp.rows ++ [{ name := sameRowName env node segmentA segmentB linepair
                                      poscomb,
                                    typ := RowType.UP, lb := 0, ub := 3 }] ∧
        c.vm.entries = b.vm.entries
          ++ sameEntries env b.lp segmentA segmentB linepair poscomb (b.lp.rows.length + 1) d) ∧
      ∃ j d, 0 < j ∧ 0 < d ∧
        m.lp.rows[j - 1]? = some { name := sameRowName env node segmentA segmentB linepair
                                     poscomb,
                                   typ := RowType.UP, lb := 0, ub := 3 } ∧
        m.lp.cols[d - 1]? = some (sameDecCol env node segmentA segmentB linepair) ∧
        rowEntries m.vm.entries j
          = [{ row := j, val := 1,
               col := glp_find_col m.lp (getILPVarName env segmentA linepair.1 poscomb.1.1) },
             { row := j, val := 1,
               col := glp_find_col m.lp (getILPVarName env segmentA linepair.2 poscomb.2.1) },
             { row := j, val := 1,
               col := glp_find_col m.lp (getILPVarName env segmentB linepair.1 poscomb.1.2) },
             { row := j, val := 1,
               col := glp_find_col m.lp (getILPVarName env segmentB linepair.2 poscomb.2.2) },
             { row := j, val := -1, col := d }] ∧
        (∀ name ∈ [getILPVarName env segmentA linepair.1 poscomb.1.1,
            getILPVarName env segmentA linepair.2 poscomb.2.1,
            getILPVarName env segmentB linepair.1 poscomb.1.2,
            getILPVarName env segmentB linepair.2 poscomb.2.2],
          glp_find_col m.lp name ≠ 0 ∧
          ∃ x, m.lp.cols[glp_find_col m.lp name - 1]? = some x ∧ x.name = name) ∧
        ∀ v : Nat → Int,
          IsBin v (glp_find_col m.lp (getILPVarName env segmentA linepair.1 poscomb.1.1)) →
          IsBin v (glp_find_col m.lp (getILPVarName env segmentA linepair.2 poscomb.2.1)) →
          IsBin v (glp_find_col m.lp (getILPVarName env segmentB linepair.1 poscomb.1.2)) →
          IsBin v (glp_find_col m.lp (getILPVarName env segmentB linepair.2 poscomb.2.2)) →
          IsBin v d →
          (m.rowSatisfied v j ↔ (v d = 1 ∨
            ¬ (v (glp_find_col m.lp (getILPVarName env segmentA linepair.1 poscomb.1.1)) = 1 ∧
               v (glp_find_col m.lp (getILPVarName env segmentA linepair.2 poscomb.2.1)) = 1 ∧
               v (glp_find_col m.lp (getILPVarName env segmentB linepair.1 poscomb.1.2)) = 1 ∧
               v (glp_find_col m.lp (getILPVarName env segmentB linepair.2 poscomb.2.2)) = 1)))) := by
  refine ⟨fun hx b d => sameSegPosStep_false env node segmentA segmentB linepair d b poscomb hx,
    fun hx => ⟨?_, ?_⟩⟩
  · intro b c d h1 h2 hs
    obtain ⟨_, hcc, hr, _, _, he⟩ := sameSegPosStep_true env node segmentA segmentB linepair d
      b c poscomb hx h1 h2 hs
    exact ⟨hcc, hr, he⟩
  · obtain ⟨b0, b1, b2, e0, e1, hstep, e2⟩ := sameSeg_reach env g m node pre post segmentA
      segmentB linepair ps poscomb h hn ha hl hp hB hproc hc
    obtain ⟨⟨f1, f2, f3, f4⟩, hcc, hr, _, _, he⟩ := sameSegPosStep_true env node segmentA
      segmentB linepair (b0.lp.cols.length + 1) b1 b2 poscomb hx e1.inv.1 e1.inv.2.1 hstep
    have e12 : Ext b1 m :=
      (sameSegPosStep_ext env node segmentA segmentB linepair _ b1 poscomb b2 e1.inv hstep).trans e2
    have g1 := e12.find_col_eq _ f1
    have g2 := e12.find_col_eq _ f2
    have g3 := e12.find_col_eq _ f3
    have g4 := e12.find_col_eq _ f4
    have hrow : m.lp.rows[b1.lp.rows.length + 1 - 1]?
        = some (sameRow env node segmentA segmentB linepair poscomb) := by
      apply e2.rows_getElem
      rw [hr]; simp
    have hent : rowEntries m.vm.entries (b1.lp.rows.length + 1)
        = sameEntries env m.lp segmentA segmentB linepair poscomb (b1.lp.rows.length + 1)
            (b0.lp.cols.length + 1) := by
      rw [rowEntries_new_row _ e1.inv e2 (by rw [hr]; simp) he]
      · simp only [sameEntries, g1, g2, g3, g4]
      · intro en hen
        simp only [sameEntries, List.mem_cons, List.mem_singleton, List.not_mem_nil,
          or_false] at hen
        rcases hen with h' | h' | h' | h' | h' <;> subst h' <;> rfl
    refine ⟨b1.lp.rows.length + 1, b0.lp.cols.length + 1, by omega, by omega, hrow, ?_, hent,
      ?_, ?_⟩
    · apply (e1.trans e12).cols_getElem
      simp
    · intro name hname
      simp only [List.mem_cons, List.mem_singleton, List.not_mem_nil, or_false] at hname
      have hne : glp_find_col m.lp name ≠ 0 := by
        rcases hname with h' | h' | h' | h' <;> subst h'
        · rw [g1]; exact f1
        · rw [g2]; exact f2
        · rw [g3]; exact f3
        · rw [g4]; exact f4
      exact ⟨hne, glp_find_col_spec m.lp name hne⟩
    · intro v v1 v2 v3 v4 vd
      rw [rowSatisfied_iff]
      unfold IsBin at v1 v2 v3 v4 vd
      have hact : rowActivity v m.vm.entries (b1.lp.rows.length + 1)
          = v (glp_find_col m.lp (getILPVarName env segmentA linepair.1 poscomb.1.1))
            + v (glp_find_col m.lp (getILPVarName env segmentA linepair.2 poscomb.2.1))
            + v (glp_find_col m.lp (getILPVarName env segmentB linepair.1 poscomb.1.2))
            + v (glp_find_col m.lp (getILPVarName env segmentB linepair.2 poscomb.2.2))
            - v (b0.lp.cols.length + 1) := by
        unfold rowActivity
        rw [hent]
        simp [sameEntries]
        ring
      rw [← crossing_row_iff _ _ _ _ _ v1 v2 v3 v4 vd, ← hact]
      constructor
      · rintro ⟨r, _, hr', hh⟩
        rw [hrow] at hr'
        simp only [Option.some.injEq] at hr'
        subst hr'
        simpa [Row.holds, sameRow] using hh
      · intro hle
        exact ⟨_, by omega, hrow, by simpa [Row.holds, sameRow] using hle⟩

theorem sameSeg_crossing_row_witness :
    createProblem sampleEnv crossGraph = some (modelOf crossGraph) ∧
      crossNodeX ∈ crossGraph.getNodes ∧
      crossNodeX.adjList = [] ++ crossSegA :: [crossSegB] ∧
      (lineA, lineB) ∈ getLinePairs crossSegA ∧
      getEdgePartners sampleEnv crossNodeX crossSegA (lineA, lineB) = some [crossSegB] ∧
      ((0, 0), (1, 1)) ∈ getPositionCombinations2 crossSegA crossSegB ∧
      crosses sampleEnv crossNodeX crossSegA crossSegB ((0, 0), (1, 1)) = some true ∧
      ∃ j d, 0 < j ∧ 0 < d ∧
        (modelOf crossGraph).lp.rows[j - 1]?
          = some { name := sameRowName sampleEnv crossNodeX crossSegA crossSegB (lineA, lineB)
                     ((0, 0), (1, 1)),
                   typ := RowType.UP, lb := 0, ub := 3 } ∧
        (modelOf crossGraph).lp.cols[d - 1]?
          = some (sameDecCol sampleEnv crossNodeX crossSegA crossSegB (lineA, lineB)) := by
  refine ⟨by rfl, by decide, by rfl, by decide, by rfl, by decide, by rfl, ?_⟩
  obtain ⟨j, d, hj, hd, hr, hc, _⟩ := (sameSeg_crossing_row sampleEnv crossGraph
    (modelOf crossGraph) crossNodeX [] [crossSegB] crossSegA crossSegB (lineA, lineB)
    [crossSegB] ((0, 0), (1, 1)) (by rfl) (by decide) (by rfl) (by decide) (by rfl)
    (by decide) (by decide) (by decide)).2 (by rfl) |>.2
  exact ⟨j, d, hj, hd, hr, hc⟩

theorem diff_row_iff (a b d : Int) (ha : a = 0 ∨ a = 1) (hb : b = 0 ∨ b = 1)
    (hd : d = 0 ∨ d = 1) : a + b - d ≤ 1 ↔ (d = 1 ∨ ¬ (a = 1 ∧ b = 1)) := by
  rcases ha with rfl | rfl <;> rcases hb with rfl | rfl <;> rcases hd with rfl | rfl <;> simp

/-- C5: for a position pair on which the different-segment predicate holds, the step of
`writeDiffSegConstraints` appends exactly one row, bounded above by one, with coefficient
one on the two assignment columns of segment A and minus one on the decision column;
these are all entries of that row in the finished model, so in a zero-one valuation that
satisfies the row the decision column is one whenever both assignment columns are one.
The positions in the two partner segments do not occur in the row. -/
theorem diffSeg_crossing_row {P : Type} (env : Env P) (g : OptGraph) (m : Bld)
    (node : OptNode) (segmentA : OptEdge) (segments : EdgePair)
    (linepair : LinePair) (ps : List EdgePair) (poscomb : PosCom)
    (h : createProblem env g = some m) (hn : node ∈ g.getNodes)
    (ha : segmentA ∈ node.adjList) (hl : linepair ∈ getLinePairs segmentA)
    (hp : getEdgePartnerPairs env node segmentA linepair = some ps) (hB : segments ∈ ps)
    (hc : poscomb ∈ getPositionCombinations segmentA)
    (hx : crossesDiff env node segmentA segments poscomb = some true) :
    (∀ b c d, b.vm.rowNum.length = b.vm.colNum.length →
      b.vm.colNum.length = b.vm.vals.length →
      diffSegPosStep env node segmentA segments linepair d b poscomb = some c →
      c.lp.cols = b.lp.cols ∧
      c.lp.rows = b.lp.rows ++ [{ name := diffRowName env node segmentA segments linepair
                                    poscomb,
                                  typ := RowType.UP, lb := 0, ub := 1 }] ∧
      c.vm.entries = b.vm.entries
        ++ diffEntries env b.lp segmentA linepair poscomb (b.lp.rows.length + 1) d) ∧
    ∃ j d, 0 < j ∧ 0 < d ∧
      m.lp.rows[j - 1]? = some { name := diffRowName env node segmentA segments linepair
                                   poscomb,
                                 typ := RowType.UP, lb := 0, ub := 1 } ∧
      m.lp.cols[d - 1]? = some (diffDecCol env node segmentA segments linepair) ∧
      rowEntries m.vm.entries j
        = [{ row := j, val := 1,
             col := glp_find_col m.lp (getILPVarName env segmentA linepair.1 poscomb.1) },
           { row := j, val := 1,
             col := glp_find_col m.lp (getILPVarName env segmentA linepair.2 poscomb.2) },
           { row := j, val := -1, col := d }] ∧
      (∀ name ∈ [getILPVarName env segmentA linepair.1 poscomb.1,
          getILPVarName env segmentA linepair.2 poscomb.2],
        glp_find_col m.lp name ≠ 0 ∧
        ∃ x, m.lp.cols[glp_find_col m.lp name - 1]? = some x ∧ x.name = name) ∧
      ∀ v : Nat → Int,
        IsBin v (glp_find_col m.lp (getILPVarName env segmentA linepair.1 poscomb.1)) →
        IsBin v (glp_find_col m.lp (getILPVarName env segmentA linepair.2 poscomb.2)) →
        IsBin v d →
        (m.rowSatisfied v j ↔ (v d = 1 ∨
          ¬ (v (glp_find_col m.lp (getILPVarName env segmentA linepair.1 poscomb.1)) = 1 ∧
             v (glp_find_col m.lp (getILPVarName env segmentA linepair.2 poscomb.2)) = 1))) ∧
        (m.rowSatisfied v j →
          v (glp_find_col m.lp (getILPVarName env segmentA linepair.1 poscomb.1)) = 1 →
          v (glp_find_col m.lp (getILPVarName env segmentA linepair.2 poscomb.2)) = 1 →
          v d = 1) := by
  refine ⟨?_, ?_⟩
  · intro b c d h1 h2 hs
    obtain ⟨_, hcc, hr, _, _, he⟩ := diffSegPosStep_true env node segmentA segments linepair d
      b c poscomb hx h1 h2 hs
    exact ⟨hcc, hr, he⟩
  · obtain ⟨b0, b1, b2, e0, e1, hstep, e2⟩ := diffSeg_reach env g m node segmentA
      segments linepair ps poscomb h hn ha hl hp hB hc
    obtain ⟨⟨f1, f2⟩, hcc, hr, _, _, he⟩ := diffSegPosStep_true env node segmentA
      segments linepair (b0.lp.cols.length + 1) b1 b2 poscomb hx e1.inv.1 e1.inv.2.1 hstep
    have e12 : Ext b1 m :=
      (diffSegPosStep_ext env node segmentA segments linepair _ b1 poscomb b2 e1.inv hstep).trans e2
    have g1 := e12.find_col_eq _ f1
    have g2 := e12.find_col_eq _ f2
    have hrow : m.lp.rows[b1.lp.rows.length + 1 - 1]?
        = some (diffRow env node segmentA segments linepair poscomb) := by
      apply e2.rows_getElem
      rw [hr]; simp
    have hent : rowEntries m.vm.entries (b1.lp.rows.length + 1)
        = diffEntries env m.lp segmentA linepair poscomb (b1.lp.rows.length + 1)
            (b0.lp.cols.length + 1) := by
      rw [rowEntries_new_row _ e1.inv e2 (by rw [hr]; simp) he]
      · simp only [diffEntries, g1, g2]
      · intro en hen
        simp only [diffEntries, List.mem_cons, List.mem_singleton, List.not_mem_nil,
          or_false] at hen
        rcases hen with h' | h' | h' <;> subst h' <;> rfl
    refine ⟨b1.lp.rows.length + 1, b0.lp.cols.length + 1, by omega, by omega, hrow, ?_, hent,
      ?_, ?_⟩
    · apply (e1.trans e12).cols_getElem
      simp
    · intro name hname
      simp only [List.mem_cons, List.mem_singleton, List.not_mem_nil, or_false] at hname
      have hne : glp_find_col m.lp name ≠ 0 := by
        rcases hname with h' | h' <;> subst h'
        · rw [g1]; exact f1
        · rw [g2]; exact f2
      exact ⟨hne, glp_find_col_spec m.lp name hne⟩
    · intro v v1 v2 vd
      have hiff : m.rowSatisfied v (b1.lp.rows.length + 1) ↔ (v (b0.lp.cols.length + 1) = 1 ∨
          ¬ (v (glp_find_col m.lp (getILPVarName env segmentA linepair.1 poscomb.1)) = 1 ∧
             v (glp_find_col m.lp (getILPVarName env segmentA linepair.2 poscomb.2)) = 1)) := by
        rw [rowSatisfied_iff]
        unfold IsBin at v1 v2 vd
        have hact : rowActivity v m.vm.entries (b1.lp.rows.length + 1)
            = v (glp_find_col m.lp (getILPVarName env segmentA linepair.1 poscomb.1))
              + v (glp_find_col m.lp (getILPVarName env segmentA linepair.2 poscomb.2))
              - v (b0.lp.cols.length + 1) := by
          unfold rowActivity
          rw [hent]
          simp [diffEntries]
          ring
        rw [← diff_row_iff _ _ _ v1 v2 vd, ← hact]
        constructor
        · rintro ⟨r, _, hr', hh⟩
          rw [hrow] at hr'
          simp only [Option.some.injEq] at hr'
          subst hr'
          simpa [Row.holds, diffRow] using hh
        · intro hle
          exact ⟨_, by omega, hrow, by simpa [Row.holds, diffRow] using hle⟩
      refine ⟨hiff, fun hs h1 h2 => ?_⟩
      rcases hiff.1 hs with hd | hd
      · exact hd
      · exact absurd ⟨h1, h2⟩ hd

theorem diffSeg_crossing_row_witness :
    createProblem sampleEnv forkGraph = some (modelOf forkGraph) ∧
      forkNode ∈ forkGraph.getNodes ∧ forkSegA ∈ forkNode.adjList ∧
      (lineA, lineB) ∈ getLinePairs forkSegA ∧
      getEdgePartnerPairs sampleEnv forkNode forkSegA (lineA, lineB)
        = some [(forkSegB, forkSegC)] ∧
      (0, 1) ∈ getPositionCombinations forkSegA ∧
      crossesDiff sampleEnv forkNode forkSegA (forkSegB, forkSegC) (0, 1) = some true ∧
      ∃ j d, 0 < j ∧ 0 < d ∧
        (modelOf forkGraph).lp.rows[j - 1]?
          = some { name := diffRowName sampleEnv forkNode forkSegA (forkSegB, forkSegC)
                     (lineA, lineB) (0, 1),
                   typ := RowType.UP, lb := 0, ub := 1 } ∧
        (modelOf forkGraph).lp.cols[d - 1]?
          = some (diffDecCol sampleEnv forkNode forkSegA (forkSegB, forkSegC) (lineA, lineB)) := by
  refine ⟨by rfl, by decide, by decide, by decide, by rfl, by decide, by rfl, ?_⟩
  obtain ⟨j, d, hj, hd, hr, hc, _⟩ := (diffSeg_crossing_row sampleEnv forkGraph
    (modelOf forkGraph) forkNode forkSegA (forkSegB, forkSegC) (lineA, lineB)
    [(forkSegB, forkSegC)] (0, 1) (by rfl) (by decide) (by decide) (by decide) (by rfl)
    (by decide) (by decide) (by rfl)).2
  exact ⟨j, d, hj, hd, hr, hc⟩

theorem ColsExt.refl_cols (D : Col → Prop) (b : Bld) : ColsExt D b b := ⟨[], by simp, by simp⟩

theorem ColsExt.of_eq {D : Col → Prop} {b c : Bld} (h : c.lp.cols = b.lp.cols) :
    ColsExt D b c := ⟨[], by simp [h], by simp⟩

theorem ColsExt.trans_cols {D : Col → Prop} {a b c : Bld} (h1 : ColsExt D a b)
    (h2 : ColsExt D b c) : ColsExt D a c := by
  obtain ⟨n1, e1, d1⟩ := h1
  obtain ⟨n2, e2, d2⟩ := h2
  exact ⟨n1 ++ n2, by rw [e2, e1, List.append_assoc],
    fun x hx => (List.mem_append.1 hx).elim (d1 x) (d2 x)⟩

theorem foldlM_colsExt {α : Type} (D : Col → Prop) (f : Bld → α → Option Bld) (l : List α) :
    ∀ b c, (∀ x ∈ l, ∀ b c, f b x = some c → ColsExt D b c) → l.foldlM f b = some c →
      ColsExt D b c := by
  induction l with
  | nil =>
    intro b c _ h
    simp only [List.foldlM_nil, pure, Option.some.injEq] at h
    subst h; exact ColsExt.refl_cols D b
  | cons x l ih =>
    intro b c hf h
    rw [List.foldlM_cons] at h
    cases hx : f b x with
    | none => rw [hx] at h; exact absurd h (by simp)
    | some b1 =>
      rw [hx] at h
      exact (hf x (List.mem_cons_self _ _) b b1 hx).trans_cols
        (ih b1 c (fun y hy => hf y (List.mem_cons_of_mem _ hy)) h)

theorem sameSegPosStep_cols {P : Type} (env : Env P) (node : OptNode)
    (segmentA segmentB : OptEdge) (linepair : LinePair) (d : Nat) (b c : Bld)
    (poscomb : PosComPair)
    (h : sameSegPosStep env node segmentA segmentB linepair d b poscomb = some c) :
    c.lp.cols = b.lp.cols := by
  unfold sameSegPosStep at h
  cases hx : crosses env node segmentA segmentB poscomb with
  | none => simp [hx] at h
  | some t =>
    simp only [hx, Option.bind_eq_bind, Option.some_bind] at h
    split at h
    · split at h
      · exact absurd h (by simp)
      · simp only [Option.some.injEq] at h
        subst h
        simp [glp_add_rows, glp_set_row_name, glp_set_row_bnds]
    · simp only [Option.some.injEq] at h
      subst h; rfl

theorem diffSegPosStep_cols {P : Type} (env : Env P) (node : OptNode)
    (segmentA : OptEdge) (segments : EdgePair) (linepair : LinePair) (d : Nat) (b c : Bld)
    (poscomb : PosCom)
    (h : diffSegPosStep env node segmentA segments linepair d b poscomb = some c) :
    c.lp.cols = b.lp.cols := by
  unfold diffSegPosStep at h
  cases hx : crossesDiff env node segmentA segments poscomb with
  | none => simp [hx] at h
  | some t =>
    simp only [hx, Option.bind_eq_bind, Option.some_bind] at h
    split at h
    · split at h
      · exact absurd h (by simp)
      · simp only [Option.some.injEq] at h
        subst h
        simp [glp_add_rows, glp_set_row_name, glp_set_row_bnds]
    · simp only [Option.some.injEq] at h
      subst h; rfl

/-- Folding the position combinations leaves the columns as they are. -/
theorem sameSegPos_fold_cols {P : Type} (env : Env P) (node : OptNode)
    (segmentA segmentB : OptEdge) (linepair : LinePair) (d : Nat) (l : List PosComPair) :
    ∀ b c, l.foldlM (sameSegPosStep env node segmentA segmentB linepair d) b = some c →
      c.lp.cols = b.lp.cols := by
  induction l with
  | nil =>
    intro b c h
    simp only [List.foldlM_nil, pure, Option.some.injEq] at h
    subst h; rfl
  | cons x l ih =>
    intro b c h
    rw [List.foldlM_cons] at h
    cases hx : sameSegPosStep env node segmentA segmentB linepair d b x with
    | none => rw [hx] at h; exact absurd h (by simp)
    | some b1 =>
      rw [hx] at h
      rw [ih b1 c h, sameSegPosStep_cols env node segmentA segmentB linepair d b b1 x hx]

theorem diffSegPos_fold_cols {P : Type} (env : Env P) (node : OptNode)
    (segmentA : OptEdge) (segments : EdgePair) (linepair : LinePair) (d : Nat)
    (l : List PosCom) :
    ∀ b c, l.foldlM (diffSegPosStep env node segmentA segments linepair d) b = some c →
      c.lp.cols = b.lp.cols := by
  induction l with
  | nil =>
    intro b c h
    simp only [List.foldlM_nil, pure, Option.some.injEq] at h
    subst h; rfl
  | cons x l ih =>
    intro b c h
    rw [List.foldlM_cons] at h
    cases hx : diffSegPosStep env node segmentA segments linepair d b x with
    | none => rw [hx] at h; exact absurd h (by simp)
    | some b1 =>
      rw [hx] at h
      rw [ih b1 c h, diffSegPosStep_cols env node segmentA segments linepair d b b1 x hx]

/-- Columns after the step for one partner: none when the partner was processed
before, else exactly the decision column of the line pair and the partner. -/
theorem sameSegPartnerStep_cols {P : Type} (env : Env P) (node : OptNode)
    (processed : List Nat) (segmentA : OptEdge) (linepair : LinePair) (b : Bld)
    (segmentB : OptEdge) (c : Bld)
    (h : sameSegPartnerStep env node processed segmentA linepair b segmentB = some c) :
    c.lp.cols = b.lp.cols ++
      (if processed.contains segmentB.addr then []
       else [sameDecCol env node segmentA segmentB linepair]) := by
  cases hp : processed.contains segmentB.addr with
  | true =>
    simp only [sameSegPartnerStep, hp, if_true, Option.some.injEq] at h
    subst h; simp
  | false =>
    rw [sameSegPartnerStep_eq env node processed segmentA linepair b segmentB hp] at h
    rw [sameSegPos_fold_cols env node segmentA segmentB linepair _ _ _ _ h]
    simp

/-- Columns after the step for one pair of partners: exactly one decision column. -/
theorem diffSegPartnerStep_cols {P : Type} (env : Env P) (node : OptNode)
    (segmentA : OptEdge) (linepair : LinePair) (b : Bld) (segments : EdgePair) (c : Bld)
    (h : diffSegPartnerStep env node segmentA linepair b segments = some c) :
    c.lp.cols = b.lp.cols ++ [diffDecCol env node segmentA segments linepair] := by
  rw [diffSegPartnerStep_eq] at h
  rw [diffSegPos_fold_cols env node segmentA segments linepair _ _ _ _ h]

/-- Columns after a fold of steps that each append the columns `cols x`. -/
theorem foldlM_cols_flatMap {α : Type} (f : Bld → α → Option Bld) (cols : α → List Col)
    (l : List α) : ∀ b c, (∀ x ∈ l, ∀ b c, f b x = some c → c.lp.cols = b.lp.cols ++ cols x) →
      l.foldlM f b = some c → c.lp.cols = b.lp.cols ++ l.flatMap cols := by
  induction l with
  | nil =>
    intro b c _ h
    simp only [List.foldlM_nil, pure, Option.some.injEq] at h
    subst h; simp
  | cons x l ih =>
    intro b c hf h
    rw [List.foldlM_cons] at h
    cases hx : f b x with
    | none => rw [hx] at h; exact absurd h (by simp)
    | some b1 =>
      rw [hx] at h
      rw [ih b1 c (fun y hy => hf y (List.mem_cons_of_mem _ hy)) h,
        hf x (List.mem_cons_self _ _) b b1 hx]
      simp

theorem sameSegLineStep_cols {P : Type} (env : Env P) (node : OptNode) (processed : List Nat)
    (segmentA : OptEdge) (b : Bld) (linepair : LinePair) (c : Bld)
    (h : sameSegLineStep env node processed segmentA b linepair = some c) :
    c.lp.cols = b.lp.cols ++ sameLineCols env node processed segmentA linepair := by
  unfold sameSegLineStep at h
  cases hp : getEdgePartners env node segmentA linepair with
  | none => simp [hp] at h
  | some ps =>
    simp only [hp, Option.bind_eq_bind, Option.some_bind] at h
    rw [foldlM_cols_flatMap _ _ ps b c
      (fun x _ b c hx => sameSegPartnerStep_cols env node processed segmentA linepair b x c hx) h]
    simp [sameLineCols, hp]

/-- Columns added while `segmentA` is handled in `writeSameSegConstraints`. -/
theorem sameSegStep_cols {P : Type} (env : Env P) (node : OptNode) (st : List Nat × Bld)
    (segmentA : OptEdge) (st2 : List Nat × Bld)
    (h : sameSegStep env node st segmentA = some st2) :
    st2.2.lp.cols = st.2.lp.cols ++ (getLinePairs segmentA).flatMap
      (sameLineCols env node (segmentA.addr :: st.1) segmentA) := by
  unfold sameSegStep at h
  cases hp : (getLinePairs segmentA).foldlM
      (sameSegLineStep env node (segmentA.addr :: st.1) segmentA) st.2 with
  | none => simp [hp] at h
  | some c =>
    simp only [hp, Option.bind_eq_bind, Option.some_bind, Option.some.injEq] at h
    subst h
    exact foldlM_cols_flatMap _ _ _ _ _
      (fun x _ b c hx => sameSegLineStep_cols env node _ segmentA b x c hx) hp

theorem sameLineCols_decOf {P : Type} (env : Env P) (node : OptNode) (processed : List Nat)
    (segmentA : OptEdge) (linepair : LinePair) (hl : linepair ∈ getLinePairs segmentA) :
    ∀ x ∈ sameLineCols env node processed segmentA linepair, DecOf env x := by
  intro x hx
  simp only [sameLineCols, List.mem_flatMap] at hx
  obtain ⟨segmentB, _, hx⟩ := hx
  split at hx
  · simp at hx
  · simp only [List.mem_singleton] at hx
    exact ⟨node, segmentA, linepair, hl, Or.inl ⟨segmentB, hx⟩⟩

theorem sameSegStep_colsExt {P : Type} (env : Env P) (node : OptNode) (st : List Nat × Bld)
    (segmentA : OptEdge) (st2 : List Nat × Bld)
    (h : sameSegStep env node st segmentA = some st2) : ColsExt (DecOf env) st.2 st2.2 := by
  refine ⟨_, sameSegStep_cols env node st segmentA st2 h, ?_⟩
  intro x hx
  obtain ⟨lp, hlp, hx⟩ := List.mem_flatMap.1 hx
  exact sameLineCols_decOf env node _ segmentA lp hlp x hx

theorem sameSegStep_fold_colsExt {P : Type} (env : Env P) (node : OptNode)
    (l : List OptEdge) : ∀ (st st2 : List Nat × Bld),
    l.foldlM (sameSegStep env node) st = some st2 → ColsExt (DecOf env) st.2 st2.2 := by
  induction l with
  | nil =>
    intro st st2 h
    simp only [List.foldlM_nil, pure, Option.some.injEq] at h
    subst h; exact ColsExt.refl_cols _ _
  | cons x l ih =>
    intro st st2 h
    rw [List.foldlM_cons] at h
    cases hx : sameSegStep env node st x with
    | none => rw [hx] at h; exact absurd h (by simp)
    | some s1 =>
      rw [hx] at h
      exact (sameSegStep_colsExt env node st x s1 hx).trans_cols (ih s1 st2 h)

theorem writeSameSegConstraints_colsExt {P : Type} (env : Env P) (g : OptGraph) (b c : Bld)
    (h : writeSameSegConstraints env g b = some c) : ColsExt (DecOf env) b c := by
  unfold writeSameSegConstraints at h
  refine foldlM_colsExt _ _ _ _ _ ?_ h
  intro node _ b c hn
  unfold sameSegNodeStep at hn
  cases hp : node.adjList.foldlM (sameSegStep env node) ([], b) with
  | none => simp [hp] at hn
  | some st =>
    simp only [hp, Option.bind_eq_bind, Option.some_bind, Option.some.injEq] at hn
    subst hn
    exact sameSegStep_fold_colsExt env node _ _ _ hp

/-- Columns added for one line pair in `writeDiffSegConstraints`: one for every pair of
partners. -/
theorem diffSegLineStep_cols {P : Type} (env : Env P) (node : OptNode)
    (segmentA : OptEdge) (b : Bld) (linepair : LinePair) (c : Bld)
    (h : diffSegLineStep env node segmentA b linepair = some c) :
    c.lp.cols = b.lp.cols ++ ((getEdgePartnerPairs env node segmentA linepair).getD []).map
      (fun segments => diffDecCol env node segmentA segments linepair) := by
  unfold diffSegLineStep at h
  cases hp : getEdgePartnerPairs env node segmentA linepair with
  | none => simp [hp] at h
  | some ps =>
    simp only [hp, Option.bind_eq_bind, Option.some_bind] at h
    rw [foldlM_cols_flatMap _ (fun segments => [diffDecCol env node segmentA segments linepair])
      ps b c
      (fun x _ b c hx => diffSegPartnerStep_cols env node segmentA linepair b x c hx) h]
    simp [List.map_eq_flatMap]

theorem writeDiffSegConstraints_colsExt {P : Type} (env : Env P) (g : OptGraph) (b c : Bld)
    (h : writeDiffSegConstraints env g b = some c) : ColsExt (DecOf env) b c := by
  unfold writeDiffSegConstraints at h
  refine foldlM_colsExt _ _ _ _ _ ?_ h
  intro node _ b c hn
  refine foldlM_colsExt _ _ _ _ _ ?_ hn
  intro segmentA _ b c hs
  unfold diffSegStep at hs
  refine foldlM_colsExt _ _ _ _ _ ?_ hs
  intro linepair hl b c hlp
  refine ⟨_, diffSegLineStep_cols env node segmentA b linepair c hlp, ?_⟩
  intro x hx
  obtain ⟨segments, _, rfl⟩ := List.mem_map.1 hx
  exact ⟨node, segmentA, linepair, hl, Or.inr ⟨segments, rfl⟩⟩

/-- Columns of the finished model: the assignment columns of the segments, then
decision columns of line pairs. -/
theorem createProblem_cols {P : Type} (env : Env P) (g : OptGraph) (m : Bld)
    (h : createProblem env g = some m) :
    ∃ dec, m.lp.cols = g.segments.flatMap (assignCols env) ++ dec ∧
      ∀ x ∈ dec, DecOf env x := by
  obtain ⟨b1, h1, h2, _, _⟩ := createProblem_some env g m h
  obtain ⟨dec, hd, hD⟩ := (writeSameSegConstraints_colsExt env g _ _ h1).trans_cols
    (writeDiffSegConstraints_colsExt env g _ _ h2)
  exact ⟨dec, by rw [hd, (addSegments_spec env g).1], hD⟩

/-- Without wrap-around the coefficient is the plain product. -/
theorem decisionObjCoef_eq (pen : Int) (a b : Nat) (h0 : 0 ≤ pen)
    (hlt : pen * (a + 1) * (b + 1) < 2 ^ 53) :
    (decisionObjCoef pen a b : Int) = pen * (a + 1) * (b + 1) := by
  obtain ⟨n, rfl⟩ := Int.eq_ofNat_of_zero_le h0
  have hlt2 : n * (a + 1) * (b + 1) < 2 ^ 53 := by exact_mod_cast hlt
  have hmod : ((n : Int) % 2 ^ 64).toNat = n % 2 ^ 64 := by
    have : ((n : Int) % 2 ^ 64) = ((n % 2 ^ 64 : Nat) : Int) := by push_cast; rfl
    rw [this, Int.toNat_ofNat]
  unfold decisionObjCoef
  rw [hmod]
  have hfin : (n % 2 ^ 64 * ((a + 1) % 2 ^ 64) % 2 ^ 64 * ((b + 1) % 2 ^ 64)) % 2 ^ 64
      = n * (a + 1) * (b + 1) := by
    have hm : n * (a + 1) * (b + 1) = (n * (a + 1) * (b + 1)) % 2 ^ 64 :=
      (Nat.mod_eq_of_lt (by omega)).symm
    rw [hm, Nat.mul_mod (n * (a + 1)) (b + 1), Nat.mul_mod n (a + 1)]
  rw [hfin]
  push_cast
  ring

theorem objectiveFrom_append (v : Nat → Int) (l1 l2 : List Col) : ∀ n,
    objectiveFrom v n (l1 ++ l2) = objectiveFrom v n l1 + objectiveFrom v (n + l1.length) l2 := by
  induction l1 with
  | nil => intro n; simp [objectiveFrom]
  | cons c l1 ih =>
    intro n
    rw [List.cons_append, objectiveFrom, objectiveFrom, ih, List.length_cons,
      show n + 1 + l1.length = n + (l1.length + 1) by omega]
    ring

theorem objectiveFrom_zero (v : Nat → Int) (l : List Col) (h : ∀ x ∈ l, x.objCoef = 0) :
    ∀ n, objectiveFrom v n l = 0 := by
  induction l with
  | nil => intro n; rfl
  | cons c l ih =>
    intro n
    simp only [objectiveFrom]
    rw [h c (List.mem_cons_self _ _), ih (fun x hx => h x (List.mem_cons_of_mem _ hx))]
    simp

theorem objectiveFrom_bin (v : Nat → Int) (hv : ∀ j, IsBin v j) (l : List Col) : ∀ n,
    objectiveFrom v n l = weightOfOnes v n l := by
  induction l with
  | nil => intro n; rfl
  | cons c l ih =>
    intro n
    simp only [objectiveFrom, weightOfOnes, ih]
    rcases hv (n + 1) with h | h <;> simp [h]

theorem assignCols_objCoef {P : Type} (env : Env P) (es : List OptEdge) :
    ∀ x ∈ es.flatMap (assignCols env), x.objCoef = 0 := by
  intro x hx
  simp only [assignCols, List.mem_flatMap, List.mem_map] at hx
  obtain ⟨e, _, r, _, p, _, rfl⟩ := hx
  rfl

/-- C6: the columns of the model are the assignment columns, with objective coefficient
zero, followed by decision columns; every same-segment decision column carries the
same-segment penalty of its node times the two factors of its line pair, every
different-segment decision column the different-segment penalty times the two factors
(the plain product as long as the penalty is not negative and the product stays below
`2 ^ 53`); the objective of a zero-one valuation is the sum of the coefficients of the
decision columns whose value is one. -/
theorem objective_coefficients {P : Type} (env : Env P) (g : OptGraph) (m : Bld)
    (h : createProblem env g = some m) :
    ∃ dec, m.lp.cols = g.segments.flatMap (assignCols env) ++ dec ∧
      (∀ x ∈ g.segments.flatMap (assignCols env), x.objCoef = 0) ∧
      (∀ x ∈ dec, ∃ (node : OptNode) (segmentA : OptEdge) (linepair : LinePair),
        linepair ∈ getLinePairs segmentA ∧
        ((∃ segmentB, x.name = sameDecName env node segmentA segmentB linepair ∧
            x.objCoef = decisionObjCoef (env.getCrossingPenaltySameSeg node.node)
              linepair.1.numCollapsedPartners linepair.2.numCollapsedPartners ∧
            (0 ≤ env.getCrossingPenaltySameSeg node.node →
              env.getCrossingPenaltySameSeg node.node * (linepair.1.numCollapsedPartners + 1)
                * (linepair.2.numCollapsedPartners + 1) < 2 ^ 53 →
              (x.objCoef : Int) = env.getCrossingPenaltySameSeg node.node
                * (linepair.1.numCollapsedPartners + 1)
                * (linepair.2.numCollapsedPartners + 1))) ∨
          (∃ segments, x.name = diffDecName env node segmentA segments linepair ∧
            x.objCoef = decisionObjCoef (env.getCrossingPenaltyDiffSeg node.node)
              linepair.1.numCollapsedPartners linepair.2.numCollapsedPartners ∧
            (0 ≤ env.getCrossingPenaltyDiffSeg node.node →
              env.getCrossingPenaltyDiffSeg node.node * (linepair.1.numCollapsedPartners + 1)
                * (linepair.2.numCollapsedPartners + 1) < 2 ^ 53 →
              (x.objCoef : Int) = env.getCrossingPenaltyDiffSeg node.node
                * (linepair.1.numCollapsedPartners + 1)
                * (linepair.2.numCollapsedPartners + 1))))) ∧
      (∀ v : Nat → Int, (∀ j, IsBin v j) →
        m.objective v = weightOfOnes v (numAssignCols g.segments) dec) := by
  obtain ⟨dec, hd, hD⟩ := createProblem_cols env g m h
  refine ⟨dec, hd, assignCols_objCoef env g.segments, ?_, ?_⟩
  · intro x hx
    obtain ⟨node, segmentA, linepair, hl, hcase⟩ := hD x hx
    refine ⟨node, segmentA, linepair, hl, ?_⟩
    rcases hcase with ⟨segmentB, rfl⟩ | ⟨segments, rfl⟩
    · exact Or.inl ⟨segmentB, rfl, rfl, fun h0 hlt => decisionObjCoef_eq _ _ _ h0 hlt⟩
    · exact Or.inr ⟨segments, rfl, rfl, fun h0 hlt => decisionObjCoef_eq _ _ _ h0 hlt⟩
  · intro v hv
    unfold Bld.objective
    rw [hd, objectiveFrom_append, objectiveFrom_zero v _ (assignCols_objCoef env g.segments),
      numAssignCols_eq, Nat.zero_add, Int.zero_add, objectiveFrom_bin v hv]

theorem objective_coefficients_witness :
    createProblem sampleEnv crossGraph = some (modelOf crossGraph) ∧
      (modelOf crossGraph).objective sampleValuation = 16 ∧
      ∃ dec, (modelOf crossGraph).lp.cols
          = crossGraph.segments.flatMap (assignCols sampleEnv) ++ dec ∧
        ∀ x ∈ crossGraph.segments.flatMap (assignCols sampleEnv), x.objCoef = 0 := by
  refine ⟨by rfl, by decide, ?_⟩
  obtain ⟨dec, hd, h0, _⟩ := objective_coefficients sampleEnv crossGraph (modelOf crossGraph)
    (by rfl)
  exact ⟨dec, hd, h0⟩

theorem linePairsInner_false (processed : List Nat) (toA : Route)
    (trips : List RouteOccurrence) :
    linePairsInner false processed toA trips
      = ((((trips.filter (fun r => r.route.relativeTo.isNone)).map (fun r => r.route)).filter
          (fun b => decide (toA.addr ≠ b.addr))).map (fun b => (toA, b))) := by
  unfold linePairsInner
  induction trips with
  | nil => rfl
  | cons t ts ih =>
    rw [List.flatMap_cons, ih]
    cases hrel : t.route.relativeTo with
    | some x => simp [hrel]
    | none =>
      by_cases had : toA.addr = t.route.addr
      · simp [hrel, had]
      · simp [hrel, had]

theorem linePairsOuter_false (trips : List RouteOccurrence) (l : List RouteOccurrence) :
    ∀ st : List Nat × List LinePair,
    (linePairsOuter false trips l st).2
      = st.2 ++ ((l.filter (fun r => r.route.relativeTo.isNone)).map (fun r => r.route)).flatMap
          (fun a => ((((trips.filter (fun r => r.route.relativeTo.isNone)).map
            (fun r => r.route)).filter (fun b => decide (a.addr ≠ b.addr))).map
              (fun b => (a, b)))) := by
  induction l with
  | nil => intro st; simp [linePairsOuter]
  | cons t l ih =>
    intro st
    unfold linePairsOuter
    cases hrel : t.route.relativeTo with
    | some x => simp [hrel, ih]
    | none => simp [hrel, ih, linePairsInner_false]

/-- List of line pairs of a segment: every non-relative route of the reference edge
paired, in trip order, with every non-relative route of another address. -/
theorem getLinePairs_eq (segment : OptEdge) :
    getLinePairs segment = segment.front.etg.nonRelRoutes.flatMap (fun a =>
      (segment.front.etg.nonRelRoutes.filter (fun b => decide (a.addr ≠ b.addr))).map
        (fun b => (a, b))) := by
  unfold getLinePairs getLinePairsU
  rw [linePairsOuter_false]
  simp [Edge.nonRelRoutes]

theorem mem_getLinePairs (segment : OptEdge) (rA rB : Route) :
    (rA, rB) ∈ getLinePairs segment ↔
      rA ∈ segment.front.etg.nonRelRoutes ∧ rB ∈ segment.front.etg.nonRelRoutes ∧
        rA.addr ≠ rB.addr := by
  rw [getLinePairs_eq]
  simp only [List.mem_flatMap, List.mem_map, List.mem_filter, decide_eq_true_eq, Prod.mk.injEq]
  constructor
  · rintro ⟨a, ha, b, ⟨hb, hab⟩, rfl, rfl⟩
    exact ⟨ha, hb, hab⟩
  · rintro ⟨ha, hb, hab⟩
    exact ⟨rA, ha, rB, ⟨hb, hab⟩, rfl, rfl⟩

theorem getLinePairs_nodup (segment : OptEdge)
    (hd : (segment.front.etg.nonRelRoutes.map (fun r => r.addr)).Nodup) :
    (getLinePairs segment).Nodup := by
  rw [getLinePairs_eq]
  have hn : segment.front.etg.nonRelRoutes.Nodup := List.Nodup.of_map _ hd
  rw [List.nodup_flatMap]
  refine ⟨?_, ?_⟩
  · intro a _
    exact (hn.filter _).map (fun x y hxy => by simpa using hxy)
  · refine List.Pairwise.imp ?_ hn
    intro a b hab
    intro x hx1 hx2
    simp only [List.mem_map, List.mem_filter] at hx1 hx2
    obtain ⟨_, _, rfl⟩ := hx1
    obtain ⟨_, _, h2⟩ := hx2
    simp only [Prod.mk.injEq] at h2
    exact hab h2.1.symm

/-- C7 as the program has it: while `segmentA` is handled at a node, one decision column
is appended for every ordered line pair of `getLinePairs(segmentA)` and every partner
of that pair that was not handled before; the line pairs are all ordered pairs of
distinct non-relative routes of the reference edge, so two lines `rA`, `rB` appear both
as `(rA, rB)` and as `(rB, rA)`, two different pairs, and no pair is listed twice when
the routes are pairwise distinct. -/
theorem sameSeg_decision_columns {P : Type} (env : Env P) (g : OptGraph) (m : Bld)
    (node : OptNode) (pre post : List OptEdge) (segmentA : OptEdge)
    (h : createProblem env g = some m) (hn : node ∈ g.getNodes)
    (ha : node.adjList = pre ++ segmentA :: post) :
    (∃ before after, m.lp.cols = before ++ (getLinePairs segmentA).flatMap (fun linepair =>
        ((getEdgePartners env node segmentA linepair).getD []).flatMap (fun segmentB =>
          if (segmentA.addr :: (pre.map (fun e => e.addr)).reverse).contains segmentB.addr
          then []
          else [sameDecCol env node segmentA segmentB linepair])) ++ after) ∧
    (∀ rA rB, (rA, rB) ∈ getLinePairs segmentA ↔
      rA ∈ segmentA.front.etg.nonRelRoutes ∧ rB ∈ segmentA.front.etg.nonRelRoutes ∧
        rA.addr ≠ rB.addr) ∧
    (∀ rA rB, (rA, rB) ∈ getLinePairs segmentA → (rB, rA) ∈ getLinePairs segmentA) ∧
    ((segmentA.front.etg.nonRelRoutes.map (fun r => r.addr)).Nodup →
      (getLinePairs segmentA).Nodup) ∧
    (∀ rA rB, (rA, rB) ∈ getLinePairs segmentA → (rA, rB) ≠ (rB, rA)) := by
  have hsymm : ∀ rA rB, (rA, rB) ∈ getLinePairs segmentA → (rB, rA) ∈ getLinePairs segmentA := by
    intro rA rB hm
    obtain ⟨h1, h2, h3⟩ := (mem_getLinePairs segmentA rA rB).1 hm
    exact (mem_getLinePairs segmentA rB rA).2 ⟨h2, h1, fun hh => h3 hh.symm⟩
  refine ⟨?_, mem_getLinePairs segmentA, hsymm, getLinePairs_nodup segmentA, ?_⟩
  · obtain ⟨bs, hsame, _, _, ediff⟩ := createProblem_some env g m h
    obtain ⟨n1, n2, en1, hnode, en2⟩ := foldlM_mem_ext _ (sameSegNodeStep_ext env) _ node hn
      _ _ (addSegments_inv env g) hsame
    unfold sameSegNodeStep at hnode
    cases hfold : node.adjList.foldlM (sameSegStep env node) ([], n1) with
    | none => simp [hfold] at hnode
    | some st =>
      simp only [hfold, Option.bind_eq_bind, Option.some_bind, Option.some.injEq] at hnode
      subst hnode
      rw [ha] at hfold
      obtain ⟨a1, a2, ea1, hline, ea2⟩ := sameSegStep_fold_split env node pre post segmentA
        ([], n1) st en1.inv hfold
      simp only [List.append_nil] at hline
      have hcols := foldlM_cols_flatMap _ _ _ _ _
        (fun x _ b c hx => sameSegLineStep_cols env node
          (segmentA.addr :: (pre.map (fun e => e.addr)).reverse) segmentA b x c hx) hline
      obtain ⟨nc, hnc, _⟩ := (ea2.trans (en2.trans ediff)).cols
      exact ⟨a1.lp.cols, nc, by rw [hnc, hcols]; rfl⟩
  · intro rA rB hm heq
    have := ((mem_getLinePairs segmentA rA rB).1 hm).2.2
    simp only [Prod.mk.injEq] at heq
    exact this (congrArg Route.addr heq.1)

theorem sameSeg_decision_columns_witness :
    createProblem sampleEnv crossGraph = some (modelOf crossGraph) ∧
      crossNodeX ∈ crossGraph.getNodes ∧
      crossNodeX.adjList = [] ++ crossSegA :: [crossSegB] ∧
      ((lineA, lineB) ∈ getLinePairs crossSegA → (lineB, lineA) ∈ getLinePairs crossSegA) :=
  ⟨by rfl, by decide, by rfl,
    (sameSeg_decision_columns sampleEnv crossGraph (modelOf crossGraph) crossNodeX []
      [crossSegB] crossSegA (by rfl) (by decide) (by rfl)).2.2.1 lineA lineB⟩

/-- C7 as stated fails: at the node `x` of `crossGraph` the only unordered pair of lines,
A and B, continues from segment A into segment B, and the builder introduces two
decision columns for it, one for `(A, B)` and one for `(B, A)`. -/
theorem sameSeg_unordered_pair_two_columns :
    createProblem sampleEnv crossGraph = some (modelOf crossGraph) ∧
      crossSegA.front.etg.nonRelRoutes = [lineA, lineB] ∧
      (modelOf crossGraph).lp.cols.drop (numAssignCols crossGraph.segments)
        = [sameDecCol sampleEnv crossNodeX crossSegA crossSegB (lineA, lineB),
           sameDecCol sampleEnv crossNodeX crossSegA crossSegB (lineB, lineA)] ∧
      ((modelOf crossGraph).lp.cols.filter (fun x =>
        x.name = sameDecName sampleEnv crossNodeX crossSegA crossSegB (lineA, lineB) ∨
        x.name = sameDecName sampleEnv crossNodeX crossSegA crossSegB (lineB, lineA))).length
        = 2 := by
  refine ⟨by rfl, by decide, by decide, by decide⟩

theorem decodeScan_no_hit {P : Type} (env : Env P) (lp : Lp) (v : Nat → Int) (e : OptEdge)
    (etgp : EtgPart) (tp : Nat) (rs : List RouteOccurrence) :
    ∀ (p : Nat) (st : OrderingConfig × Bool),
    (∀ r ∈ rs, r.route.relativeTo = none →
      glp_find_col lp (getILPVarName env e r.route tp) ≠ 0) →
    scanHits env lp v e tp p rs = [] →
    decodeScan env lp v e etgp tp p rs st = some st := by
  induction rs with
  | nil => intro p st _ _; rfl
  | cons r rs ih =>
    intro p st hf hh
    unfold decodeScan
    unfold scanHits at hh
    cases hrel : r.route.relativeTo with
    | some x =>
      simp only [hrel, Option.isSome_some, if_true] at hh ⊢
      exact ih _ _ (fun r' hr' => hf r' (List.mem_cons_of_mem _ hr')) hh
    | none =>
      simp only [hrel, Option.isSome_none, Bool.false_eq_true, if_false] at hh ⊢
      have hne := hf r (List.mem_cons_self _ _) hrel
      rw [if_neg hne]
      split at hh
      · exact absurd hh (by simp)
      · rename_i hv
        rw [if_neg hv]
        exact ih _ _ (fun r' hr' => hf r' (List.mem_cons_of_mem _ hr')) hh

theorem decodeScan_one_hit {P : Type} (env : Env P) (lp : Lp) (v : Nat → Int) (e : OptEdge)
    (etgp : EtgPart) (tp : Nat) (rs : List RouteOccurrence) :
    ∀ (p q : Nat) (c : OrderingConfig),
    (∀ r ∈ rs, r.route.relativeTo = none →
      glp_find_col lp (getILPVarName env e r.route tp) ≠ 0) →
    scanHits env lp v e tp p rs = [q] →
    decodeScan env lp v e etgp tp p rs (c, false) = some (insertPos e etgp c q, true) := by
  induction rs with
  | nil => intro p q c _ hh; simp [scanHits] at hh
  | cons r rs ih =>
    intro p q c hf hh
    unfold decodeScan
    unfold scanHits at hh
    cases hrel : r.route.relativeTo with
    | some x =>
      simp only [hrel, Option.isSome_some, if_true] at hh ⊢
      exact ih _ _ _ (fun r' hr' => hf r' (List.mem_cons_of_mem _ hr')) hh
    | none =>
      simp only [hrel, Option.isSome_none, Bool.false_eq_true, if_false] at hh ⊢
      have hne := hf r (List.mem_cons_self _ _) hrel
      rw [if_neg hne]
      split at hh
      · rename_i hv
        rw [if_pos hv]
        simp only [List.cons.injEq] at hh
        obtain ⟨rfl, hrest⟩ := hh
        exact decodeScan_no_hit env lp v e etgp tp rs _ _
          (fun r' hr' => hf r' (List.mem_cons_of_mem _ hr')) hrest
      · rename_i hv
        rw [if_neg hv]
        exact ih _ _ _ (fun r' hr' => hf r' (List.mem_cons_of_mem _ hr')) hh

theorem findNameFrom_of_nodup (l l2 : List Col) :
    ∀ (off n : Nat) (x : Col), (l.map (fun c => c.name)).Nodup → l[n]? = some x →
      findNameFrom x.name off (l ++ l2) = off + n + 1 := by
  induction l with
  | nil => intro off n x _ h; simp at h
  | cons y l ih =>
    intro off n x hn h
    rw [List.cons_append]
    unfold findNameFrom
    cases n with
    | zero =>
      simp only [List.getElem?_cons_zero, Option.some.injEq] at h
      subst h
      simp
    | succ n =>
      simp only [List.getElem?_cons_succ] at h
      simp only [List.map_cons, List.nodup_cons] at hn
      have hne : ¬ y.name = x.name := by
        intro heq
        apply hn.1
        rw [heq]
        exact List.mem_map.2 ⟨x, List.getElem?_mem h, rfl⟩
      rw [if_neg hne, ih (off + 1) n x hn.2 h]
      omega

/-- Column found for the `i`-th non-relative route of the reference edge at position `p`,
when assignment columns have pairwise distinct names. -/
theorem assign_find_col {P : Type} (env : Env P) (g : OptGraph) (m : Bld)
    (pre post : List OptEdge) (e : OptEdge) (i p : Nat) (r : Route)
    (h : createProblem env g = some m) (hs : g.segments = pre ++ e :: post)
    (hnames : ((g.segments.flatMap (assignCols env)).map (fun c => c.name)).Nodup)
    (hr : e.front.etg.nonRelRoutes[i]? = some r) (hp : p < e.front.etg.getCardinality true) :
    glp_find_col m.lp (getILPVarName env e r p)
      = numAssignCols pre + 1 + i * e.front.etg.getCardinality true + p := by
  obtain ⟨dec, hd, _⟩ := createProblem_cols env g m h
  have hget : (g.segments.flatMap (assignCols env))[numAssignCols pre
      + (i * e.front.etg.getCardinality true + p)]? = some (assignCol env e r p) := by
    rw [hs, List.flatMap_append, List.flatMap_cons, ← numAssignCols_eq env pre,
      ← List.append_assoc]
    exact getElem_append_mid _ _ _ _ _ (assignCols_getElem env e i p r hr hp)
  unfold glp_find_col
  rw [hd]
  have := findNameFrom_of_nodup _ dec 0 _ _ hnames hget
  simp only [assignCol] at this
  rw [this]
  omega

/-- Sums of the values over a position and over a line of a segment whose uniqueness
rows hold. -/
theorem uniqueness_sums {P : Type} (env : Env P) (g : OptGraph) (m : Bld)
    (pre post : List OptEdge) (e : OptEdge) (v : Nat → Int)
    (h : createProblem env g = some m) (hs : g.segments = pre ++ e :: post)
    (hsat : ∀ j, numSumRows pre < j →
      j ≤ numSumRows pre + 2 * e.front.etg.getCardinality true → m.rowSatisfied v j) :
    (∀ p, p < e.front.etg.getCardinality true →
      ((List.range (e.front.etg.getCardinality true)).map (fun i =>
        v (numAssignCols pre + 1 + i * e.front.etg.getCardinality true + p))).sum = 1) ∧
    (∀ i, i < e.front.etg.getCardinality true →
      ((List.range (e.front.etg.getCardinality true)).map (fun p =>
        v (numAssignCols pre + 1 + i * e.front.etg.getCardinality true + p))).sum = 1) := by
  obtain ⟨_, ⟨rr, hrr⟩⟩ := segment_block_final env g m pre post e h hs
  obtain ⟨hpos, hline⟩ := uniqueness_rows_final env g m pre post e h hs
  have hact : ∀ j, numSumRows pre < j →
      j ≤ numSumRows pre + 2 * e.front.etg.getCardinality true →
      rowActivity v m.vm.entries j = 1 := by
    intro j h1 h2
    obtain ⟨r, _, hr, hh⟩ := (rowSatisfied_iff m v j).1 (hsat j h1 h2)
    refine fixed_row_holds r _ (sumRows_fixed env e r ?_) hh
    have hl := numSumRows_eq env pre
    rw [hrr, List.append_assoc, List.getElem?_append_right (by omega),
      List.getElem?_append_left (by rw [sumRows_length]; omega)] at hr
    exact List.getElem?_mem hr
  refine ⟨fun p hp => ?_, fun i hi => ?_⟩
  · have ha := hact (numSumRows pre + 1 + p) (by omega) (by omega)
    rw [rowActivity_of_rowEntries v _ _ _
      (fun i => numAssignCols pre + 1 + i * e.front.etg.getCardinality true + p) (hpos p hp)] at ha
    exact ha
  · have ha := hact (numSumRows pre + e.front.etg.getCardinality true + 1 + i) (by omega)
      (by omega)
    rw [rowActivity_of_rowEntries v _ _ _ _ (hline i hi)] at ha
    exact ha

theorem scanHits_length {P : Type} (env : Env P) (lp : Lp) (v : Nat → Int) (e : OptEdge)
    (tp : Nat) (hv : ∀ j, IsBin v j) (rs : List RouteOccurrence) : ∀ p,
    ((scanHits env lp v e tp p rs).length : Int)
      = (((rs.filter (fun r => r.route.relativeTo.isNone)).map (fun r => r.route)).map
          (fun r => v (glp_find_col lp (getILPVarName env e r tp)))).sum := by
  induction rs with
  | nil => intro p; rfl
  | cons r rs ih =>
    intro p
    unfold scanHits
    cases hrel : r.route.relativeTo with
    | some x => simp [hrel, ih]
    | none =>
      simp only [hrel, Option.isSome_none, Bool.false_eq_true, if_false, Option.isNone_none,
        List.filter_cons_of_pos, List.map_cons, List.sum_cons]
      rcases hv (glp_find_col lp (getILPVarName env e r.route tp)) with h0 | h1
      · rw [h0]; simp [ih]
      · rw [h1]; simp [ih]; ring

theorem scanHits_subset {P : Type} (env : Env P) (lp : Lp) (v : Nat → Int) (e : OptEdge)
    (tp : Nat) (rs : List RouteOccurrence) : ∀ p q,
    q ∈ scanHits env lp v e tp p rs → q ∈ nonRelIdxFrom p rs := by
  induction rs with
  | nil => intro p q h; simp [scanHits] at h
  | cons r rs ih =>
    intro p q h
    unfold scanHits at h
    unfold nonRelIdxFrom
    cases hrel : r.route.relativeTo with
    | some x =>
      simp only [hrel, Option.isSome_some, if_true] at h ⊢
      exact ih _ _ h
    | none =>
      simp only [hrel, Option.isSome_none, Bool.false_eq_true, if_false] at h ⊢
      split at h
      · rcases List.mem_cons.1 h with h | h
        · exact List.mem_cons.2 (Or.inl h)
        · exact List.mem_cons_of_mem _ (ih _ _ h)
      · exact List.mem_cons_of_mem _ (ih _ _ h)

theorem getILPVarName_congr {P : Type} (env : Env P) (e : OptEdge) (r r2 : Route) (p : Nat)
    (h : r.addr = r2.addr) : getILPVarName env e r p = getILPVarName env e r2 p := by
  unfold getILPVarName; rw [h]

theorem mem_nonRelRoutes_iff (e : Edge) (r : Route) :
    r ∈ e.nonRelRoutes ↔ ∃ o ∈ e.trips, o.route = r ∧ o.route.relativeTo = none := by
  simp only [Edge.nonRelRoutes, List.mem_map, List.mem_filter, Option.isNone_iff_eq_none]
  constructor
  · rintro ⟨o, ⟨ho, hn⟩, rfl⟩; exact ⟨o, ho, rfl, hn⟩
  · rintro ⟨o, ho, rfl, hn⟩; exact ⟨o, ⟨ho, hn⟩, rfl⟩

theorem map_sum_eq_range {α : Type} (l : List α) (F : α → Int) (G : Nat → Int)
    (h : ∀ i x, l[i]? = some x → F x = G i) :
    (l.map F).sum = ((List.range l.length).map G).sum := by
  congr 1
  apply List.ext_getElem?
  intro i
  by_cases hi : i < l.length
  · rw [List.getElem?_map, List.getElem?_map, List.getElem?_range hi,
      List.getElem?_eq_getElem hi]
    simp only [Option.map_some']
    rw [h i l[i] (List.getElem?_eq_getElem hi)]
  · rw [List.getElem?_eq_none (by simpa using hi), List.getElem?_eq_none (by simpa using hi)]

theorem DecodeOk.card_eq {P : Type} {env : Env P} {g : OptGraph} {m : Bld} {v : Nat → Int}
    {pre post : List OptEdge} {e : OptEdge} {etgp : EtgPart}
    (ok : DecodeOk env g m v pre post e etgp) :
    etgp.etg.getCardinality true = e.front.etg.getCardinality true := by
  have := ok.sameRoutes.length_eq
  simpa [nonRel_length] using this

/-- Route of the underlying edge is, by address, the `i`-th route of the reference edge. -/
theorem DecodeOk.route_index {P : Type} {env : Env P} {g : OptGraph} {m : Bld}
    {v : Nat → Int} {pre post : List OptEdge} {e : OptEdge} {etgp : EtgPart}
    (ok : DecodeOk env g m v pre post e etgp) (r : Route) (hr : r ∈ etgp.etg.nonRelRoutes) :
    ∃ i r2, i < e.front.etg.getCardinality true ∧ e.front.etg.nonRelRoutes[i]? = some r2 ∧
      r2.addr = r.addr := by
  have h1 : r.addr ∈ etgp.etg.nonRelRoutes.map (fun r => r.addr) :=
    List.mem_map.2 ⟨r, hr, rfl⟩
  have h2 := ok.sameRoutes.subset h1
  obtain ⟨r2, hr2, ha⟩ := List.mem_map.1 h2
  obtain ⟨i, hi, hget⟩ := List.getElem_of_mem hr2
  exact ⟨i, r2, by rw [← nonRel_length]; exact hi,
    by rw [List.getElem?_eq_getElem hi, hget], ha⟩

/-- Column of a route of the underlying edge at position `tp`. -/
theorem DecodeOk.find_col {P : Type} {env : Env P} {g : OptGraph} {m : Bld}
    {v : Nat → Int} {pre post : List OptEdge} {e : OptEdge} {etgp : EtgPart}
    (ok : DecodeOk env g m v pre post e etgp) (r : Route) (hr : r ∈ etgp.etg.nonRelRoutes)
    (tp : Nat) (htp : tp < e.front.etg.getCardinality true) :
    ∃ i, i < e.front.etg.getCardinality true ∧
      glp_find_col m.lp (getILPVarName env e r tp)
        = numAssignCols pre + 1 + i * e.front.etg.getCardinality true + tp := by
  obtain ⟨i, r2, hi, hget, ha⟩ := ok.route_index r hr
  refine ⟨i, hi, ?_⟩
  rw [getILPVarName_congr env e r r2 tp ha.symm]
  exact assign_find_col env g m pre post e i tp r2 ok.built ok.segs ok.names hget htp

/-- Values of the columns of the underlying edge at one position add up to one. -/
theorem DecodeOk.sum_at_position {P : Type} {env : Env P} {g : OptGraph} {m : Bld}
    {v : Nat → Int} {pre post : List OptEdge} {e : OptEdge} {etgp : EtgPart}
    (ok : DecodeOk env g m v pre post e etgp)
    (tp : Nat) (htp : tp < e.front.etg.getCardinality true) :
    (etgp.etg.nonRelRoutes.map
      (fun r => v (glp_find_col m.lp (getILPVarName env e r tp)))).sum = 1 := by
  have hG : ∀ l : List Route,
      l.map (fun r => v (glp_find_col m.lp (getILPVarName env e r tp)))
        = (l.map (fun r => r.addr)).map (fun a => v (glp_find_col m.lp
            ("x_(" ++ env.getStrRepr e ++ ",l=" ++ ptrRepr a ++ ",p=" ++ toString tp ++ ")"))) := by
    intro l
    rw [List.map_map]
    rfl
  rw [hG, (ok.sameRoutes.map _).sum_eq, ← hG]
  rw [map_sum_eq_range _ _
    (fun i => v (numAssignCols pre + 1 + i * e.front.etg.getCardinality true + tp))
    (fun i r hr => by
      rw [assign_find_col env g m pre post e i tp r ok.built ok.segs ok.names hr htp]),
    nonRel_length]
  exact (uniqueness_sums env g m pre post e v ok.built ok.segs ok.sat).1 tp htp

/-- Scan of the underlying edge at a position below `k`: exactly one hit. -/
theorem DecodeOk.one_hit {P : Type} {env : Env P} {g : OptGraph} {m : Bld}
    {v : Nat → Int} {pre post : List OptEdge} {e : OptEdge} {etgp : EtgPart}
    (ok : DecodeOk env g m v pre post e etgp)
    (tp : Nat) (htp : tp < e.front.etg.getCardinality true) :
    ∃ q, scanHits env m.lp v e tp 0 etgp.etg.trips = [q] := by
  have hl := scanHits_length env m.lp v e tp ok.bin etgp.etg.trips 0
  have hs := ok.sum_at_position tp htp
  unfold Edge.nonRelRoutes at hs
  rw [hs] at hl
  have h1 : (scanHits env m.lp v e tp 0 etgp.etg.trips).length = 1 := by exact_mod_cast hl
  exact List.length_eq_one.1 h1

theorem DecodeOk.decodeTp_eq {P : Type} {env : Env P} {g : OptGraph} {m : Bld}
    {v : Nat → Int} {pre post : List OptEdge} {e : OptEdge} {etgp : EtgPart}
    (ok : DecodeOk env g m v pre post e etgp) (c : OrderingConfig)
    (tp q : Nat) (htp : tp < e.front.etg.getCardinality true)
    (hq : scanHits env m.lp v e tp 0 etgp.etg.trips = [q]) :
    decodeTp env m.lp v e etgp c tp = some (insertPos e etgp c q) := by
  unfold decodeTp
  rw [decodeScan_one_hit env m.lp v e etgp tp etgp.etg.trips 0 q c ?_ hq]
  · rfl
  · intro r hr hrel
    obtain ⟨i, _, hf⟩ := ok.find_col r.route
      ((mem_nonRelRoutes_iff _ _).2 ⟨r, hr, rfl, hrel⟩) tp htp
    rw [hf]; omega

theorem scanHits_mem {P : Type} (env : Env P) (lp : Lp) (v : Nat → Int) (e : OptEdge)
    (tp : Nat) (rs : List RouteOccurrence) : ∀ p q,
    q ∈ scanHits env lp v e tp p rs →
      p ≤ q ∧ ∃ r, rs[q - p]? = some r ∧ r.route.relativeTo = none ∧
        1 < 2 * v (glp_find_col lp (getILPVarName env e r.route tp)) := by
  induction rs with
  | nil => intro p q h; simp [scanHits] at h
  | cons r rs ih =>
    intro p q h
    unfold scanHits at h
    have step : q ∈ scanHits env lp v e tp (p + 1) rs →
        p ≤ q ∧ ∃ r2, (r :: rs)[q - p]? = some r2 ∧ r2.route.relativeTo = none ∧
          1 < 2 * v (glp_find_col lp (getILPVarName env e r2.route tp)) := by
      intro h'
      obtain ⟨hle, r2, hget, hrel, hv⟩ := ih _ _ h'
      refine ⟨by omega, r2, ?_, hrel, hv⟩
      have : q - p = (q - (p + 1)) + 1 := by omega
      rw [this, List.getElem?_cons_succ]; exact hget
    cases hrel : r.route.relativeTo with
    | some x =>
      simp only [hrel, Option.isSome_some, if_true] at h
      exact step h
    | none =>
      simp only [hrel, Option.isSome_none, Bool.false_eq_true, if_false] at h
      split at h
      · rename_i hv
        rcases List.mem_cons.1 h with h | h
        · subst h
          exact ⟨Nat.le_refl _, r, by simp, hrel, hv⟩
        · exact step h
      · exact step h

theorem nonRelIdxFrom_ge (rs : List RouteOccurrence) : ∀ p q,
    q ∈ nonRelIdxFrom p rs → p ≤ q := by
  induction rs with
  | nil => intro p q h; simp [nonRelIdxFrom] at h
  | cons r rs ih =>
    intro p q h
    unfold nonRelIdxFrom at h
    split at h
    · have := ih _ _ h; omega
    · rcases List.mem_cons.1 h with h | h
      · omega
      · have := ih _ _ h; omega

theorem nonRelIdxFrom_nodup (rs : List RouteOccurrence) : ∀ p, (nonRelIdxFrom p rs).Nodup := by
  induction rs with
  | nil => intro p; simp [nonRelIdxFrom]
  | cons r rs ih =>
    intro p
    unfold nonRelIdxFrom
    split
    · exact ih _
    · refine List.nodup_cons.2 ⟨?_, ih _⟩
      intro hmem
      have := nonRelIdxFrom_ge rs _ _ hmem
      omega

theorem nonRelIdxFrom_length (rs : List RouteOccurrence) : ∀ p,
    (nonRelIdxFrom p rs).length = (rs.filter (fun r => r.route.relativeTo.isNone)).length := by
  induction rs with
  | nil => intro p; rfl
  | cons r rs ih =>
    intro p
    unfold nonRelIdxFrom
    cases hrel : r.route.relativeTo with
    | some x => simp [hrel, ih]
    | none => simp [hrel, ih]

theorem insertPos_other (e : OptEdge) (etgp : EtgPart) (c : OrderingConfig) (q x : Nat)
    (hx : x ≠ etgp.etg.addr) : insertPos e etgp c q x = c x := by
  unfold insertPos OrderingConfig.set
  split <;> simp [hx]

theorem insertPos_perm (e : OptEdge) (etgp : EtgPart) (c : OrderingConfig) (q : Nat) :
    (insertPos e etgp c q etgp.etg.addr).Perm (q :: c etgp.etg.addr) := by
  unfold insertPos OrderingConfig.set
  split
  · simp
  · simp only [if_true]
    exact List.perm_append_singleton _ _

/-- Loop over positions for one underlying edge: it runs through, leaves other edges
alone and adds the hits of all positions to the sequence of the edge. -/
theorem DecodeOk.fold_tp {P : Type} {env : Env P} {g : OptGraph} {m : Bld}
    {v : Nat → Int} {pre post : List OptEdge} {e : OptEdge} {etgp : EtgPart}
    (ok : DecodeOk env g m v pre post e etgp) (l : List Nat) :
    ∀ c : OrderingConfig, (∀ tp ∈ l, tp < e.front.etg.getCardinality true) →
      ∃ c2, l.foldlM (decodeTp env m.lp v e etgp) c = some c2 ∧
        (∀ x, x ≠ etgp.etg.addr → c2 x = c x) ∧
        (c2 etgp.etg.addr).Perm
          (l.flatMap (fun tp => scanHits env m.lp v e tp 0 etgp.etg.trips)
            ++ c etgp.etg.addr) := by
  induction l with
  | nil => intro c _; exact ⟨c, rfl, fun _ _ => rfl, by simp⟩
  | cons tp l ih =>
    intro c hl
    have htp := hl tp (List.mem_cons_self _ _)
    obtain ⟨q, hq⟩ := ok.one_hit tp htp
    obtain ⟨c2, hf, ho, hp⟩ := ih (insertPos e etgp c q)
      (fun t ht => hl t (List.mem_cons_of_mem _ ht))
    refine ⟨c2, ?_, ?_, ?_⟩
    · rw [List.foldlM_cons, ok.decodeTp_eq c tp q htp hq]
      exact hf
    · intro x hx
      rw [ho x hx, insertPos_other e etgp c q x hx]
    · rw [List.flatMap_cons, hq]
      refine hp.trans ?_
      refine ((insertPos_perm e etgp c q).append_left _).trans ?_
      simp only [List.singleton_append]
      exact List.perm_middle

/-- Hits of two different positions are different trip indices. -/
theorem DecodeOk.hits_disjoint {P : Type} {env : Env P} {g : OptGraph} {m : Bld}
    {v : Nat → Int} {pre post : List OptEdge} {e : OptEdge} {etgp : EtgPart}
    (ok : DecodeOk env g m v pre post e etgp) (tp tp2 q : Nat)
    (h1 : tp < e.front.etg.getCardinality true) (h2 : tp2 < e.front.etg.getCardinality true)
    (hq1 : q ∈ scanHits env m.lp v e tp 0 etgp.etg.trips)
    (hq2 : q ∈ scanHits env m.lp v e tp2 0 etgp.etg.trips) : tp = tp2 := by
  obtain ⟨_, r, hget, hrel, hv⟩ := scanHits_mem env m.lp v e tp _ _ _ hq1
  obtain ⟨_, r2, hget2, _, hv2⟩ := scanHits_mem env m.lp v e tp2 _ _ _ hq2
  rw [hget] at hget2
  simp only [Option.some.injEq] at hget2
  subst hget2
  have hmem : r.route ∈ etgp.etg.nonRelRoutes :=
    (mem_nonRelRoutes_iff _ _).2 ⟨r, List.getElem?_mem hget, rfl, hrel⟩
  obtain ⟨i, r3, hi, hget3, ha⟩ := ok.route_index r.route hmem
  rw [getILPVarName_congr env e r.route r3 tp ha.symm,
    assign_find_col env g m pre post e i tp r3 ok.built ok.segs ok.names hget3 h1] at hv
  rw [getILPVarName_congr env e r.route r3 tp2 ha.symm,
    assign_find_col env g m pre post e i tp2 r3 ok.built ok.segs ok.names hget3 h2] at hv2
  have hsum := (uniqueness_sums env g m pre post e v ok.built ok.segs ok.sat).2 i hi
  obtain ⟨p0, _, _, hu⟩ := sum_range_one _ _ (fun p _ => ok.bin _) hsum
  have e1 : v (numAssignCols pre + 1 + i * e.front.etg.getCardinality true + tp) = 1 := by
    rcases ok.bin (numAssignCols pre + 1 + i * e.front.etg.getCardinality true + tp) with h | h
    · rw [h] at hv; omega
    · exact h
  have e2 : v (numAssignCols pre + 1 + i * e.front.etg.getCardinality true + tp2) = 1 := by
    rcases ok.bin (numAssignCols pre + 1 + i * e.front.etg.getCardinality true + tp2) with h | h
    · rw [h] at hv2; omega
    · exact h
  rw [hu tp h1 e1, hu tp2 h2 e2]

/-- Hits of all positions together are a permutation of the trip indices of the
non-relative occurrences of the underlying edge. -/
theorem DecodeOk.hits_perm {P : Type} {env : Env P} {g : OptGraph} {m : Bld}
    {v : Nat → Int} {pre post : List OptEdge} {e : OptEdge} {etgp : EtgPart}
    (ok : DecodeOk env g m v pre post e etgp) :
    ((List.range (etgp.etg.getCardinality true)).flatMap
      (fun tp => scanHits env m.lp v e tp 0 etgp.etg.trips)).Perm etgp.etg.nonRelIdx := by
  rw [ok.card_eq]
  have hnd : ((List.range (e.front.etg.getCardinality true)).flatMap
      (fun tp => scanHits env m.lp v e tp 0 etgp.etg.trips)).Nodup := by
    rw [List.nodup_flatMap]
    refine ⟨?_, ?_⟩
    · intro tp htp
      obtain ⟨q, hq⟩ := ok.one_hit tp (List.mem_range.1 htp)
      rw [hq]; simp
    · refine (List.nodup_range _).pairwise_of_forall_ne ?_
      intro a ha b hb hab
      intro q hq1 hq2
      exact hab (ok.hits_disjoint a b q (List.mem_range.1 ha) (List.mem_range.1 hb) hq1 hq2)
  have hsub : (List.range (e.front.etg.getCardinality true)).flatMap
      (fun tp => scanHits env m.lp v e tp 0 etgp.etg.trips) ⊆ etgp.etg.nonRelIdx := by
    intro q hq
    obtain ⟨tp, _, hq⟩ := List.mem_flatMap.1 hq
    exact scanHits_subset env m.lp v e tp _ _ _ hq
  have hlen : ((List.range (e.front.etg.getCardinality true)).flatMap
      (fun tp => scanHits env m.lp v e tp 0 etgp.etg.trips)).length
      = e.front.etg.getCardinality true := by
    rw [List.length_flatMap]
    have : (List.range (e.front.etg.getCardinality true)).map
        (List.length ∘ fun tp => scanHits env m.lp v e tp 0 etgp.etg.trips)
        = (List.range (e.front.etg.getCardinality true)).map (fun _ => 1) := by
      apply List.map_congr_left
      intro tp htp
      obtain ⟨q, hq⟩ := ok.one_hit tp (List.mem_range.1 htp)
      simp [hq]
    rw [this]
    simp
  refine (hnd.subperm hsub).perm_of_length_le ?_
  rw [hlen, ← ok.card_eq]
  unfold Edge.nonRelIdx
  rw [nonRelIdxFrom_length]
  simp [Edge.getCardinality]

theorem nonRelIdxFrom_all_rel (b : List RouteOccurrence)
    (hb : ∀ r ∈ b, r.route.relativeTo.isSome) : ∀ p, nonRelIdxFrom p b = [] := by
  induction b with
  | nil => intro p; rfl
  | cons r b ih =>
    intro p
    unfold nonRelIdxFrom
    rw [if_pos (hb r (List.mem_cons_self _ _))]
    exact ih (fun x hx => hb x (List.mem_cons_of_mem _ hx)) _

theorem nonRelIdxFrom_sorted_trips (a b : List RouteOccurrence)
    (ha : ∀ r ∈ a, r.route.relativeTo = none) (hb : ∀ r ∈ b, r.route.relativeTo.isSome) :
    ∀ p, nonRelIdxFrom p (a ++ b) = List.range' p a.length := by
  induction a with
  | nil => intro p; simpa using nonRelIdxFrom_all_rel b hb p
  | cons r a ih =>
    intro p
    rw [List.cons_append]
    unfold nonRelIdxFrom
    have := ha r (List.mem_cons_self _ _)
    rw [if_neg (by simp [this]), ih (fun x hx => ha x (List.mem_cons_of_mem _ hx))]
    simp [List.range'_succ]

theorem bundle_decodeOk :
    DecodeOk sampleEnv bundleGraph (modelOf bundleGraph) bundleValuation [] [] bundleSeg
      bundleSeg.front where
  built := by rfl
  segs := by rfl
  sameRoutes := List.Perm.refl _
  distinct := by decide
  names := by decide
  bin := by
    intro j
    unfold IsBin bundleValuation
    split <;> simp
  sat := by
    have hk : bundleSeg.front.etg.getCardinality true = 2 := by decide
    have hn : numSumRows [] = 0 := by decide
    intro j h1 h2
    rw [hk, hn] at h2
    rw [hn] at h1
    interval_cases j <;> decide

theorem foldlM_some_of_forall {α β : Type} (f : β → α → Option β) (l : List α)
    (h : ∀ x ∈ l, ∀ c, ∃ c2, f c x = some c2) : ∀ c, ∃ c2, l.foldlM f c = some c2 := by
  induction l with
  | nil => intro c; exact ⟨c, rfl⟩
  | cons x l ih =>
    intro c
    obtain ⟨c1, h1⟩ := h x (List.mem_cons_self _ _) c
    obtain ⟨c2, h2⟩ := ih (fun y hy => h y (List.mem_cons_of_mem _ hy)) c1
    exact ⟨c2, by rw [List.foldlM_cons, h1]; exact h2⟩

theorem decodePositions_eq {P : Type} (env : Env P) (lp : Lp) (v : Nat → Int) (g : OptGraph)
    (c : OrderingConfig) :
    decodePositions env lp v g c = g.segments.foldlM (decodeSegment env lp v) c := by
  unfold decodePositions OptGraph.segments
  generalize g.getNodes = ns
  induction ns generalizing c with
  | nil => rfl
  | cons n ns ih =>
    rw [List.foldlM_cons, List.flatMap_cons, List.foldlM_append]
    cases n.adjListOut.foldlM (decodeSegment env lp v) c with
    | none => rfl
    | some c1 => exact ih c1

/-- C9: when every underlying edge of every segment carries the pairwise distinct
non-relative routes of the reference edge and the zero-one solution satisfies the
uniqueness rows, the decoder finds for every underlying edge at every position below `k`
exactly one non-relative occurrence whose column has a value above one half, every column
is found by its name, and the whole loop nest runs through without a failed assertion. -/
theorem decoder_assertions_hold {P : Type} (env : Env P) (g : OptGraph) (m : Bld)
    (v : Nat → Int)
    (ok : ∀ pre e post etgp, g.segments = pre ++ e :: post → etgp ∈ e.etgs →
      DecodeOk env g m v pre post e etgp) :
    (∀ e ∈ g.segments, ∀ etgp ∈ e.etgs,
      etgp.etg.getCardinality true = e.front.etg.getCardinality true ∧
      (∀ tp, tp < etgp.etg.getCardinality true →
        (∀ r ∈ etgp.etg.nonRelRoutes, glp_find_col m.lp (getILPVarName env e r tp) ≠ 0) ∧
        ∃ q r, scanHits env m.lp v e tp 0 etgp.etg.trips = [q] ∧
          etgp.etg.trips[q]? = some r ∧ r.route.relativeTo = none ∧
          v (glp_find_col m.lp (getILPVarName env e r.route tp)) = 1 ∧
          ∀ c2 : OrderingConfig,
            decodeTp env m.lp v e etgp c2 tp = some (insertPos e etgp c2 q)) ∧
      ∀ c : OrderingConfig, ∃ c2, decodeEtg env m.lp v e c etgp = some c2) ∧
    ∀ c : OrderingConfig, ∃ c2, decodePositions env m.lp v g c = some c2 := by
  have hetg : ∀ e ∈ g.segments, ∀ etgp ∈ e.etgs, ∀ c : OrderingConfig,
      ∃ c2, decodeEtg env m.lp v e c etgp = some c2 := by
    intro e he etgp hetgp c
    obtain ⟨pre, post, hs⟩ := List.append_of_mem he
    have ok1 := ok pre e post etgp hs hetgp
    obtain ⟨c2, hf, _, _⟩ := ok1.fold_tp (List.range (etgp.etg.getCardinality true)) c
      (fun tp htp => by rw [← ok1.card_eq]; exact List.mem_range.1 htp)
    exact ⟨c2, hf⟩
  refine ⟨?_, ?_⟩
  · intro e he etgp hetgp
    obtain ⟨pre, post, hs⟩ := List.append_of_mem he
    have ok1 := ok pre e post etgp hs hetgp
    refine ⟨ok1.card_eq, ?_, hetg e he etgp hetgp⟩
    intro tp htp
    rw [ok1.card_eq] at htp
    refine ⟨?_, ?_⟩
    · intro r hr
      obtain ⟨i, _, hf⟩ := ok1.find_col r hr tp htp
      rw [hf]; omega
    · obtain ⟨q, hq⟩ := ok1.one_hit tp htp
      obtain ⟨_, r, hget, hrel, hv⟩ := scanHits_mem env m.lp v e tp _ 0 q (by rw [hq]; simp)
      refine ⟨q, r, hq, by simpa using hget, hrel, ?_, fun c2 => ok1.decodeTp_eq c2 tp q htp hq⟩
      rcases ok1.bin (glp_find_col m.lp (getILPVarName env e r.route tp)) with h | h
      · rw [h] at hv; omega
      · exact h
  · intro c
    rw [decodePositions_eq]
    refine foldlM_some_of_forall _ _ ?_ c
    intro e he c1
    exact foldlM_some_of_forall _ _ (fun etgp hetgp c2 => hetg e he etgp hetgp c2) c1

theorem chain_decodeOk_all : ∀ pre e post etgp, chainGraph.segments = pre ++ e :: post →
    etgp ∈ e.etgs → DecodeOk sampleEnv chainGraph (modelOf chainGraph) chainValuation
      pre post e etgp := by
  intro pre e post etgp hs he
  have hseg : chainGraph.segments = [chainSeg] := by rfl
  rw [hseg] at hs
  have hpre : pre = [] := by
    cases pre with
    | nil => rfl
    | cons x xs =>
      have := congrArg List.length hs
      simp at this
  subst hpre
  simp only [List.nil_append, List.cons.injEq] at hs
  obtain ⟨rfl, rfl⟩ := hs
  have hk : chainSeg.front.etg.getCardinality true = 3 := by decide
  have hn : numSumRows [] = 0 := by decide
  refine ⟨by rfl, by rfl, ?_, by decide, by decide, ?_, ?_⟩
  · have hall : ∀ x ∈ chainSeg.etgs, (x.etg.nonRelRoutes.map (fun r => r.addr))
        = (chainSeg.front.etg.nonRelRoutes.map (fun r => r.addr)) := by decide
    rw [hall etgp he]
  · intro j
    unfold IsBin chainValuation
    split <;> simp
  · intro j h1 h2
    rw [hk, hn] at h2
    rw [hn] at h1
    interval_cases j <;> decide

theorem decoder_assertions_hold_witness :
    (∀ pre e post etgp, chainGraph.segments = pre ++ e :: post → etgp ∈ e.etgs →
      DecodeOk sampleEnv chainGraph (modelOf chainGraph) chainValuation pre post e etgp) ∧
    ∃ c2, decodePositions sampleEnv (modelOf chainGraph).lp chainValuation chainGraph
      (fun _ => []) = some c2 :=
  ⟨chain_decodeOk_all,
    (decoder_assertions_hold sampleEnv chainGraph (modelOf chainGraph) chainValuation
      chain_decodeOk_all).2 (fun _ => [])⟩

/-- C8 as the program has it: the decoder adds to the sequence of an underlying edge a
permutation of the trip-list indices of its non-relative occurrences and leaves the other
edges alone; these indices are `0, ..., k - 1` when all non-relative occurrences stand
before the relative ones in the trip list. -/
theorem decoder_writes_trip_indices {P : Type} (env : Env P) (g : OptGraph) (m : Bld)
    (v : Nat → Int) (pre post : List OptEdge) (e : OptEdge) (etgp : EtgPart)
    (c : OrderingConfig) (ok : DecodeOk env g m v pre post e etgp) :
    ∃ c2, decodeEtg env m.lp v e c etgp = some c2 ∧
      (∀ x, x ≠ etgp.etg.addr → c2 x = c x) ∧
      (c2 etgp.etg.addr).Perm (etgp.etg.nonRelIdx ++ c etgp.etg.addr) ∧
      etgp.etg.nonRelIdx.length = e.front.etg.getCardinality true ∧
      (∀ a b, etgp.etg.trips = a ++ b → (∀ r ∈ a, r.route.relativeTo = none) →
        (∀ r ∈ b, r.route.relativeTo.isSome) →
        etgp.etg.nonRelIdx = List.range (e.front.etg.getCardinality true)) := by
  obtain ⟨c2, hf, ho, hp⟩ := ok.fold_tp (List.range (etgp.etg.getCardinality true)) c
    (fun tp htp => by rw [← ok.card_eq]; exact List.mem_range.1 htp)
  have hlen : etgp.etg.nonRelIdx.length = e.front.etg.getCardinality true := by
    rw [← ok.card_eq]
    unfold Edge.nonRelIdx
    rw [nonRelIdxFrom_length]
    simp [Edge.getCardinality]
  refine ⟨c2, hf, ho, hp.trans (ok.hits_perm.append_right _), hlen, ?_⟩
  intro a b hab ha hb
  have h1 : etgp.etg.nonRelIdx = List.range' 0 a.length := by
    unfold Edge.nonRelIdx
    rw [hab]
    exact nonRelIdxFrom_sorted_trips a b ha hb 0
  rw [h1, List.range_eq_range']
  congr 1
  rw [← hlen, h1]
  simp

theorem decoder_writes_trip_indices_witness :
    DecodeOk sampleEnv bundleGraph (modelOf bundleGraph) bundleValuation [] [] bundleSeg
      bundleSeg.front ∧
    ∃ c2, decodeEtg sampleEnv (modelOf bundleGraph).lp bundleValuation bundleSeg (fun _ => [])
        bundleSeg.front = some c2 ∧
      (c2 bundleEdge.addr).Perm (bundleEdge.nonRelIdx ++ []) := by
  obtain ⟨c2, h1, _, h3, _⟩ := decoder_writes_trip_indices sampleEnv bundleGraph
    (modelOf bundleGraph) bundleValuation [] [] bundleSeg bundleSeg.front (fun _ => [])
    bundle_decodeOk
  exact ⟨bundle_decodeOk, c2, h1, h3⟩

/-- C8 as stated fails: the edge of `bundleGraph` lists a bundled route before the lines
A and B, so `k = 2`; for a zero-one solution that satisfies the uniqueness rows the
decoder writes the trip indices 2 and 1, which are not a permutation of 0, 1. -/
theorem decoder_entries_not_below_k :
    createProblem sampleEnv bundleGraph = some (modelOf bundleGraph) ∧
      bundleSeg.front.etg.getCardinality true = 2 ∧
      (∀ j ∈ [1, 2, 3, 4], (modelOf bundleGraph).rowSatisfied bundleValuation j) ∧
      (decodePositions sampleEnv (modelOf bundleGraph).lp bundleValuation bundleGraph
        (fun _ => [])).map (fun c => c bundleEdge.addr) = some [2, 1] ∧
      ¬ ([2, 1] : List Nat).Perm (List.range 2) := by
  refine ⟨by rfl, by decide, by decide, by decide, by decide⟩

theorem firstIdxFrom_eq_append (i : Nat) (A B : List Nat) (hA : i ∉ A) : ∀ n,
    firstIdxFrom (fun x : Nat => decide (x = i)) n (A ++ i :: B) = some (n + A.length) := by
  induction A with
  | nil => intro n; simp [firstIdxFrom]
  | cons a A ih =>
    intro n
    have ha : a ≠ i := fun h => hA (by simp [h])
    have hA2 : i ∉ A := fun h => hA (List.mem_cons_of_mem _ h)
    rw [List.cons_append]
    unfold firstIdxFrom
    rw [if_neg (by simpa using ha), ih hA2]
    simp only [List.length_cons]
    congr 1
    omega

theorem insertAt_append_before (A B : List Nat) (i p : Nat) :
    insertAt (A ++ i :: B) A.length p = (A ++ [p]) ++ i :: B := by
  simp [insertAt]

theorem insertAt_append_after (A B : List Nat) (i p : Nat) :
    insertAt (A ++ i :: B) (A.length + 1) p = A ++ i :: (p :: B) := by
  unfold insertAt
  have h1 : A ++ i :: B = (A ++ [i]) ++ B := by simp
  have h2 : A.length + 1 = (A ++ [i]).length := by simp
  rw [h1, h2, List.take_left, List.drop_left]
  simp

theorem set_same (c : OrderingConfig) (a : Nat) (l : List Nat) : c.set a l a = l := by
  simp [OrderingConfig.set]

theorem set_other (c : OrderingConfig) (a x : Nat) (l : List Nat) (h : x ≠ a) :
    c.set a l x = c x := by
  simp [OrderingConfig.set, h]

/-- One insertion: the index of `r` lands right before or right after the index of
`ref`, nothing else changes. -/
theorem insertRelative_spec (ref : Nat) (prev : Option Edge) (cur : Edge)
    (c : OrderingConfig) (r : Nat) (A B : List Nat)
    (hc : c cur.addr = A ++ cur.getRouteOccWithPos ref :: B)
    (hA : cur.getRouteOccWithPos ref ∉ A) :
    ∃ c2, insertRelative ref prev cur c r = some c2 ∧
      (∀ x, x ≠ cur.addr → c2 x = c x) ∧
      (c2 cur.addr = (A ++ [cur.getRouteOccWithPos r]) ++ cur.getRouteOccWithPos ref :: B ∨
        c2 cur.addr = A ++ cur.getRouteOccWithPos ref :: (cur.getRouteOccWithPos r :: B)) := by
  unfold insertRelative
  simp only [hc, firstIdxFrom_eq_append _ A B hA 0, Nat.zero_add]
  split
  · exact ⟨_, rfl, fun x hx => set_other _ _ _ _ hx,
      Or.inr (by rw [set_same, insertAt_append_after])⟩
  · exact ⟨_, rfl, fun x hx => set_other _ _ _ _ hx,
      Or.inl (by rw [set_same, insertAt_append_before])⟩

/-- Loop over the relative routes on one edge: their indices are put around the index
of `ref`, some directly before it, the others directly after it. -/
theorem expandEdge_spec (ref : Nat) (prev : Option Edge) (cur : Edge) (rs : List Nat) :
    ∀ (c : OrderingConfig) (A B : List Nat),
    c cur.addr = A ++ cur.getRouteOccWithPos ref :: B →
    cur.getRouteOccWithPos ref ∉ A →
    (∀ r ∈ rs, cur.getRouteOccWithPos r ≠ cur.getRouteOccWithPos ref) →
    ∃ c2 bef aft, rs.foldlM (insertRelative ref prev cur) c = some c2 ∧
      (∀ x, x ≠ cur.addr → c2 x = c x) ∧
      c2 cur.addr = A ++ bef ++ cur.getRouteOccWithPos ref :: (aft ++ B) ∧
      (bef ++ aft).Perm (rs.map cur.getRouteOccWithPos) := by
  induction rs with
  | nil =>
    intro c A B hc _ _
    exact ⟨c, [], [], rfl, fun _ _ => rfl, by simpa using hc, by simp⟩
  | cons r rs ih =>
    intro c A B hc hA hr
    obtain ⟨c1, h1, ho, hcase⟩ := insertRelative_spec ref prev cur c r A B hc hA
    have hr2 : ∀ r ∈ rs, cur.getRouteOccWithPos r ≠ cur.getRouteOccWithPos ref :=
      fun x hx => hr x (List.mem_cons_of_mem _ hx)
    rcases hcase with hb | ha
    · have hA2 : cur.getRouteOccWithPos ref ∉ A ++ [cur.getRouteOccWithPos r] := by
        intro hmem
        rcases List.mem_append.1 hmem with h | h
        · exact hA h
        · exact hr r (List.mem_cons_self _ _) (List.mem_singleton.1 h).symm
      obtain ⟨c2, bef, aft, hf, ho2, hform, hperm⟩ := ih c1 _ B hb hA2 hr2
      refine ⟨c2, cur.getRouteOccWithPos r :: bef, aft, ?_, ?_, ?_, ?_⟩
      · rw [List.foldlM_cons, h1]; exact hf
      · intro x hx; rw [ho2 x hx, ho x hx]
      · rw [hform]; simp
      · simpa using hperm
    · obtain ⟨c2, bef, aft, hf, ho2, hform, hperm⟩ := ih c1 A _ ha hA hr2
      refine ⟨c2, bef, aft ++ [cur.getRouteOccWithPos r], ?_, ?_, ?_, ?_⟩
      · rw [List.foldlM_cons, h1]; exact hf
      · intro x hx; rw [ho2 x hx, ho x hx]
      · rw [hform]; simp
      · rw [List.map_cons]
        refine List.Perm.trans ?_ (List.Perm.cons _ hperm)
        rw [← List.append_assoc]
        exact List.perm_append_singleton _ _

theorem exists_first_split (x : Nat) (l : List Nat) (h : x ∈ l) :
    ∃ A B, l = A ++ x :: B ∧ x ∉ A := by
  induction l with
  | nil => simp at h
  | cons y l ih =>
    by_cases hy : y = x
    · exact ⟨[], l, by simp [hy], by simp⟩
    · have hx : x ∈ l := by
        rcases List.mem_cons.1 h with h | h
        · exact absurd h.symm hy
        · exact h
      obtain ⟨A, B, rfl, hA⟩ := ih hx
      refine ⟨y :: A, B, by simp, ?_⟩
      intro hmem
      rcases List.mem_cons.1 hmem with h' | h'
      · exact hy h'.symm
      · exact hA h'

theorem nodeAt_cases (g : TransitGraph) (a : Nat) :
    g.nodeAt a ∈ g.getNodes ∨
      ((g.nodeAt a).adjListIn = [] ∧ (g.nodeAt a).adjListOut = []) := by
  unfold TransitGraph.nodeAt
  cases h : g.getNodes.find? (fun n => n.addr = a) with
  | none => exact Or.inr ⟨rfl, rfl⟩
  | some n => exact Or.inl (List.mem_of_find?_eq_some h)

theorem adj_le_adjTotal (g : TransitGraph) (n : Node) (hn : n ∈ g.getNodes) :
    n.adjListIn.length + n.adjListOut.length ≤ adjTotal g := by
  unfold adjTotal
  exact List.single_le_sum (by simp) _ (List.mem_map.2 ⟨n, hn, rfl⟩)

theorem nodeAt_adj_length (g : TransitGraph) (a : Nat) :
    (g.nodeAt a).adjListIn.length + (g.nodeAt a).adjListOut.length ≤ adjTotal g := by
  rcases nodeAt_cases g a with h | ⟨h1, h2⟩
  · exact adj_le_adjTotal g _ h
  · rw [h1, h2]; simp

theorem pushedEdges_length (g : TransitGraph) (ref : Nat) (prev : Option Edge) (cur : Edge)
    (visited : List Nat) : (pushedEdges g ref prev cur visited).length ≤ 2 * adjTotal g := by
  unfold pushedEdges
  simp only [List.flatMap_cons, List.flatMap_nil, List.append_nil, List.length_append]
  have h1 := nodeAt_adj_length g cur.getFrom
  have h2 := nodeAt_adj_length g cur.getTo
  have f1 := List.length_filter_le (fun e : Edge => e.containsRoute ref && !visited.contains e.addr)
    (g.nodeAt cur.getFrom).adjListIn
  have f2 := List.length_filter_le (fun e : Edge => e.containsRoute ref && !visited.contains e.addr)
    (g.nodeAt cur.getFrom).adjListOut
  have f3 := List.length_filter_le (fun e : Edge => e.containsRoute ref && !visited.contains e.addr)
    (g.nodeAt cur.getTo).adjListIn
  have f4 := List.length_filter_le (fun e : Edge => e.containsRoute ref && !visited.contains e.addr)
    (g.nodeAt cur.getTo).adjListOut
  split <;> split <;> simp only [List.length_append, List.length_nil] <;> omega

/-- Every pushed edge carries `ref`, is not visited, and stands in an adjacency list of
a node of the graph. -/
theorem pushedEdges_mem (g : TransitGraph) (ref : Nat) (prev : Option Edge) (cur : Edge)
    (visited : List Nat) (e : Edge) (he : e ∈ pushedEdges g ref prev cur visited) :
    e.containsRoute ref = true ∧ e.addr ∉ visited ∧
      ∃ n ∈ g.getNodes, e ∈ n.adjListIn ∨ e ∈ n.adjListOut := by
  unfold pushedEdges at he
  obtain ⟨a, _, he⟩ := List.mem_flatMap.1 he
  split at he
  · simp at he
  · have hnode : g.nodeAt a ∈ g.getNodes := by
      rcases nodeAt_cases g a with h | ⟨h1, h2⟩
      · exact h
      · rw [h1, h2] at he; simp at he
    rcases List.mem_append.1 he with h | h
    · obtain ⟨hm, hp⟩ := List.mem_filter.1 h
      simp only [Bool.and_eq_true, Bool.not_eq_true'] at hp
      exact ⟨hp.1, by simpa using hp.2, _, hnode, Or.inl hm⟩
    · obtain ⟨hm, hp⟩ := List.mem_filter.1 h
      simp only [Bool.and_eq_true, Bool.not_eq_true'] at hp
      exact ⟨hp.1, by simpa using hp.2, _, hnode, Or.inr hm⟩

theorem mem_edgeUniverse (g : TransitGraph) (start e : Edge) (n : Node) (hn : n ∈ g.getNodes)
    (he : e ∈ n.adjListIn ∨ e ∈ n.adjListOut) : e.addr ∈ edgeUniverse g start := by
  unfold edgeUniverse
  refine List.mem_cons_of_mem _ (List.mem_flatMap.2 ⟨n, hn, List.mem_map.2 ⟨e, ?_, rfl⟩⟩)
  exact List.mem_append.2 he

theorem unvisited_card_lt (U visited : List Nat) (a : Nat) (hU : a ∈ U) (hv : a ∉ visited) :
    (U.toFinset \ (a :: visited).toFinset).card < (U.toFinset \ visited.toFinset).card := by
  apply Finset.card_lt_card
  rw [Finset.ssubset_iff_of_subset]
  · refine ⟨a, ?_, ?_⟩
    · simp [hU, hv]
    · simp
  · intro x hx
    simp only [Finset.mem_sdiff, List.mem_toFinset, List.mem_cons, not_or] at hx ⊢
    exact ⟨hx.1, hx.2.2⟩

/-- Traversal loop: with fuel above the measure it runs to an empty stack, keeps the
invariant and only adds to the expanded edges. -/
theorem expandLoop_spec (g : TransitGraph) (ref : Nat) (rs : List Nat) (c0 : OrderingConfig)
    (start : Edge)
    (hcand : ∀ e n, n ∈ g.getNodes → (e ∈ n.adjListIn ∨ e ∈ n.adjListOut) →
      e.containsRoute ref = true → Expandable ref rs c0 e) :
    ∀ (fuel : Nat) (st : ExpandState) (done : List Edge),
      ExpandInv g ref rs c0 start st done → expandMeasure g start st < fuel →
      ∃ final done2, expandLoop g ref rs fuel st = some final ∧
        ExpandInv g ref rs c0 start final done2 ∧ final.todo = [] ∧
        (∀ e ∈ done, e ∈ done2) ∧
        (∀ x rest, st.todo = x :: rest → x.2.addr ∉ st.visited → x.2 ∈ done2) := by
  intro fuel
  induction fuel with
  | zero => intro st done _ hm; omega
  | succ fuel ih =>
    intro st done inv hm
    unfold expandLoop
    cases htodo : st.todo with
    | nil => exact ⟨st, done, rfl, inv, htodo, fun e he => he, fun x rest h => by simp at h⟩
    | cons cur rest =>
      simp only []
      have hcur := inv.todo_ok cur (by rw [htodo]; exact List.mem_cons_self _ _)
      by_cases hv : st.visited.contains cur.2.addr = true
      · rw [if_pos hv]
        have inv2 : ExpandInv g ref rs c0 start { st with todo := rest } done :=
          ⟨inv.visited_eq, inv.form, inv.frame,
            fun x hx => inv.todo_ok x (by rw [htodo]; exact List.mem_cons_of_mem _ hx)⟩
        have hm2 : expandMeasure g start { st with todo := rest } < fuel := by
          unfold expandMeasure at hm ⊢
          rw [htodo] at hm
          simp only [List.length_cons] at hm ⊢
          omega
        obtain ⟨final, done2, hl, hinv, ht, hsub, _⟩ := ih _ done inv2 hm2
        refine ⟨final, done2, hl, hinv, ht, hsub, ?_⟩
        intro x rest2 hx hxv
        simp only [List.cons.injEq] at hx
        rw [← hx.1] at hxv
        exact absurd (by simpa using hv) hxv
      · rw [if_neg hv]
        have hnv : cur.2.addr ∉ st.visited := by simpa using hv
        obtain ⟨A, B, hAB, hA⟩ := exists_first_split _ _ hcur.2.1
        have hc : st.c cur.2.addr = A ++ cur.2.getRouteOccWithPos ref :: B := by
          rw [inv.frame _ hnv]; exact hAB
        obtain ⟨c2, bef, aft, hf, ho, hform, hperm⟩ :=
          expandEdge_spec ref cur.1 cur.2 rs st.c A B hc hA hcur.2.2
        rw [hf]
        simp only []
        have inv2 : ExpandInv g ref rs c0 start
            { c := c2, visited := cur.2.addr :: st.visited,
              todo := ((pushedEdges g ref cur.1 cur.2 (cur.2.addr :: st.visited)).map
                (fun e => (some cur.2, e))).reverse ++ rest } (cur.2 :: done) := by
          refine ⟨by simp [inv.visited_eq], ?_, ?_, ?_⟩
          · intro e he
            rcases List.mem_cons.1 he with rfl | he
            · exact ⟨A, B, bef, aft, hAB, hA, hform, hperm⟩
            · have hne : e.addr ≠ cur.2.addr := by
                intro heq
                apply hnv
                rw [← inv.visited_eq, ← heq]
                exact List.mem_map.2 ⟨e, he, rfl⟩
              obtain ⟨A2, B2, bef2, aft2, h1, h2, h3, h4⟩ := inv.form e he
              exact ⟨A2, B2, bef2, aft2, h1, h2, (ho _ hne).trans h3, h4⟩
          · intro a ha
            simp only [List.mem_cons, not_or] at ha
            exact (ho a ha.1).trans (inv.frame a ha.2)
          · intro x hx
            rcases List.mem_append.1 hx with hx | hx
            · obtain ⟨e, he, rfl⟩ := List.mem_map.1 (List.mem_reverse.1 hx)
              obtain ⟨hcr, _, n, hn, hadj⟩ := pushedEdges_mem g ref _ _ _ e he
              exact ⟨mem_edgeUniverse g start e n hn hadj, hcand e n hn hadj hcr⟩
            · exact inv.todo_ok x (by rw [htodo]; exact List.mem_cons_of_mem _ hx)
        have hm2 : expandMeasure g start
            { c := c2, visited := cur.2.addr :: st.visited,
              todo := ((pushedEdges g ref cur.1 cur.2 (cur.2.addr :: st.visited)).map
                (fun e => (some cur.2, e))).reverse ++ rest } < fuel := by
          unfold expandMeasure at hm ⊢
          rw [htodo] at hm
          simp only [List.length_cons, List.length_append, List.length_reverse,
            List.length_map] at hm ⊢
          have hp := pushedEdges_length g ref cur.1 cur.2 (cur.2.addr :: st.visited)
          have hlt := unvisited_card_lt (edgeUniverse g start) st.visited cur.2.addr hcur.1 hnv
          have hmul : (2 * adjTotal g + 1)
              * ((edgeUniverse g start).toFinset \ (cur.2.addr :: st.visited).toFinset).card
              + (2 * adjTotal g + 1)
              ≤ (2 * adjTotal g + 1)
                * ((edgeUniverse g start).toFinset \ st.visited.toFinset).card := by
            rw [← Nat.mul_succ]
            exact Nat.mul_le_mul_left _ hlt
          omega
        obtain ⟨final, done2, hl, hinv, ht, hsub, _⟩ := ih _ (cur.2 :: done) inv2 hm2
        refine ⟨final, done2, hl, hinv, ht, fun e he => hsub e (List.mem_cons_of_mem _ he), ?_⟩
        intro x rest2 hx _
        simp only [List.cons.injEq] at hx
        rw [← hx.1]
        exact hsub _ (List.mem_cons_self _ _)

theorem edgeUniverse_length (g : TransitGraph) (start : Edge) :
    (edgeUniverse g start).length = adjTotal g + 1 := by
  unfold edgeUniverse adjTotal
  rw [List.length_cons, List.length_flatMap]
  congr 2
  apply List.map_congr_left
  intro n _
  simp

theorem expandMeasure_init (g : TransitGraph) (start : Edge) (c0 : OrderingConfig) :
    expandMeasure g start { c := c0, visited := [], todo := [(none, start)] } < expandFuel g := by
  unfold expandMeasure expandFuel
  have h1 : ((edgeUniverse g start).toFinset \ ([] : List Nat).toFinset).card
      ≤ adjTotal g + 1 := by
    rw [← edgeUniverse_length g start]
    simp only [List.toFinset_nil, Finset.sdiff_empty]
    exact List.toFinset_card_le _
  have h2 := Nat.mul_le_mul_left (2 * adjTotal g + 1) h1
  simp only [List.length_singleton]
  omega

theorem count_around (A B bef aft : List Nat) (i p : Nat) (l : List Nat)
    (hc0 : p ∉ A ++ i :: B) (hperm : (bef ++ aft).Perm l) (hl : l.Nodup) (hp : p ∈ l) :
    (A ++ bef ++ i :: (aft ++ B)).count p = 1 := by
  have hA : p ∉ A := fun h => hc0 (List.mem_append.2 (Or.inl h))
  have hB : p ∉ B := fun h => hc0 (List.mem_append.2 (Or.inr (List.mem_cons_of_mem _ h)))
  have hi : i ≠ p := fun h => hc0 (List.mem_append.2 (Or.inr (by simp [h])))
  have h1 : (bef ++ aft).count p = 1 := by
    rw [hperm.count_eq]
    exact List.count_eq_one_of_mem hl hp
  rw [List.count_append, List.count_append, List.count_cons, List.count_append,
    List.count_eq_zero_of_not_mem hA, List.count_eq_zero_of_not_mem hB]
  rw [List.count_append] at h1
  have : (i == p) = false := by simpa using hi
  simp only [this]
  simp
  omega

theorem adjacent_single (A B bef aft : List Nat) (i p : Nat) (h : (bef ++ aft).Perm [p]) :
    adjacentIn (A ++ bef ++ i :: (aft ++ B)) p i := by
  have hlen := h.length_eq
  simp only [List.length_append, List.length_singleton] at hlen
  have hmem : ∀ x ∈ bef ++ aft, x = p := fun x hx => by simpa using h.subset hx
  cases bef with
  | nil =>
    cases aft with
    | nil => simp at hlen
    | cons a aft =>
      have ha : a = p := hmem a (by simp)
      have : aft = [] := by
        simp at hlen
        exact hlen
      subst ha this
      exact Or.inr ⟨A, B, by simp⟩
  | cons b bef =>
    have hb : b = p := hmem b (by simp)
    have hlen2 : bef.length + 1 + aft.length = 1 := hlen
    have h1 : bef = [] := List.length_eq_zero.1 (by omega)
    have h2 : aft = [] := List.length_eq_zero.1 (by omega)
    subst hb h1 h2
    exact Or.inl ⟨A, B, by simp⟩

/-- With enough fuel the traversal returns; the start edge is expanded, every expanded
edge has the form `RelForm`, and the orderings of the other edges are untouched. -/
theorem expandRelativesFor_run (g : TransitGraph) (ref : Nat)
    (rs : List Nat) (c0 : OrderingConfig) (start : Edge) (fuel : Nat)
    (hstart : Expandable ref rs c0 start)
    (hcand : ∀ e n, n ∈ g.getNodes → (e ∈ n.adjListIn ∨ e ∈ n.adjListOut) →
      e.containsRoute ref = true → Expandable ref rs c0 e)
    (hfuel : expandFuel g ≤ fuel) :
    ∃ (final : ExpandState) (done : List Edge),
      expandLoop g ref rs fuel { c := c0, visited := [], todo := [(none, start)] }
        = some final ∧
      expandRelativesFor g fuel c0 ref start rs = some final.c ∧
      start ∈ done ∧ done.map (fun e => e.addr) = final.visited ∧
      (∀ a, a ∉ final.visited → final.c a = c0 a) ∧
      ∀ e ∈ done, RelForm ref rs c0 final.c e := by
  have inv0 : ExpandInv g ref rs c0 start { c := c0, visited := [], todo := [(none, start)] }
      [] := by
    refine ⟨rfl, by simp, fun _ _ => rfl, ?_⟩
    intro x hx
    simp only [List.mem_singleton] at hx
    subst hx
    exact ⟨by simp [edgeUniverse], hstart⟩
  obtain ⟨final, done, hl, hinv, _, _, htop⟩ := expandLoop_spec g ref rs c0 start hcand fuel
    _ [] inv0 (Nat.lt_of_lt_of_le (expandMeasure_init g start c0) hfuel)
  exact ⟨final, done, hl, by simp [expandRelativesFor, hl],
    htop (none, start) [] rfl (by simp), hinv.visited_eq, hinv.frame, hinv.form⟩

/-- C10 as the program has it: with enough fuel `expandRelativesFor` returns; on the start
edge and on every other edge it expands, the new ordering is the old one with the trip
indices of the routes of `rs` put around the index of `ref`, some directly before it and
the others directly after it in one run each, so that only indices of routes of `rs`
stand between such an index and the index of `ref`; every such index occurs exactly once
when the indices are pairwise distinct and new to the ordering, and it is immediately
adjacent to the index of `ref` when `rs` holds a single route. -/
theorem expandRelativesFor_relatives_around_ref (g : TransitGraph) (ref : Nat)
    (rs : List Nat) (c0 : OrderingConfig) (start : Edge) (fuel : Nat)
    (hstart : Expandable ref rs c0 start)
    (hcand : ∀ e n, n ∈ g.getNodes → (e ∈ n.adjListIn ∨ e ∈ n.adjListOut) →
      e.containsRoute ref = true → Expandable ref rs c0 e)
    (hfuel : expandFuel g ≤ fuel) :
    ∃ (final : ExpandState) (done : List Edge),
      expandLoop g ref rs fuel { c := c0, visited := [], todo := [(none, start)] }
        = some final ∧
      expandRelativesFor g fuel c0 ref start rs = some final.c ∧
      start ∈ done ∧ done.map (fun e => e.addr) = final.visited ∧
      ∀ e ∈ done, ∃ A B bef aft,
        c0 e.addr = A ++ e.getRouteOccWithPos ref :: B ∧
        e.getRouteOccWithPos ref ∉ A ∧
        final.c e.addr = A ++ bef ++ e.getRouteOccWithPos ref :: (aft ++ B) ∧
        (bef ++ aft).Perm (rs.map e.getRouteOccWithPos) ∧
        (∀ r ∈ rs, e.getRouteOccWithPos r ∉ c0 e.addr →
          (rs.map e.getRouteOccWithPos).Nodup →
          (final.c e.addr).count (e.getRouteOccWithPos r) = 1) ∧
        (∀ r, rs = [r] →
          adjacentIn (final.c e.addr) (e.getRouteOccWithPos r) (e.getRouteOccWithPos ref)) := by
  obtain ⟨final, done, hl, hr, hs, hv, _, hform⟩ :=
    expandRelativesFor_run g ref rs c0 start fuel hstart hcand hfuel
  refine ⟨final, done, hl, hr, hs, hv, ?_⟩
  intro e he
  obtain ⟨A, B, bef, aft, h1, h2, h3, h4⟩ := hform e he
  refine ⟨A, B, bef, aft, h1, h2, h3, h4, ?_, ?_⟩
  · intro r hr hnew hnd
    rw [h3]
    exact count_around A B bef aft _ _ _ (by rw [← h1]; exact hnew) h4 hnd
      (List.mem_map.2 ⟨r, hr, rfl⟩)
  · intro r hrs
    rw [h3]
    exact adjacent_single A B bef aft _ _ (by rw [hrs] at h4; simpa using h4)

theorem expandRelativesFor_relatives_around_ref_witness :
    pairEdge1.getRoutesRelTo 16 = [64] ∧
    Expandable 16 [64] pairConfig pairEdge1 ∧ expandFuel pairGraph ≤ 47 ∧
      ∃ (final : ExpandState) (done : List Edge),
        expandLoop pairGraph 16 [64] 47
          { c := pairConfig, visited := [], todo := [(none, pairEdge1)] } = some final ∧
        pairEdge1 ∈ done ∧
        ∀ e ∈ done, adjacentIn (final.c e.addr) (e.getRouteOccWithPos 64)
          (e.getRouteOccWithPos 16) := by
  have hcand : ∀ e n, n ∈ pairGraph.getNodes → (e ∈ n.adjListIn ∨ e ∈ n.adjListOut) →
      e.containsRoute 16 = true → Expandable 16 [64] pairConfig e := by
    intro e n hn he _
    simp only [pairGraph, List.mem_cons, List.mem_singleton, List.not_mem_nil, or_false] at hn
    rcases hn with rfl | rfl | rfl <;>
      simp only [List.mem_singleton, List.not_mem_nil, or_false, false_or] at he <;>
      first
        | (subst he; unfold Expandable; decide)
        | (rcases he with rfl | rfl <;> (unfold Expandable; decide))
  obtain ⟨final, done, h1, _, h3, _, h6⟩ := expandRelativesFor_relatives_around_ref
    pairGraph 16 [64] pairConfig pairEdge1 47 (by unfold Expandable; decide) hcand (by decide)
  refine ⟨by decide, by unfold Expandable; decide, by decide, final, done, h1, h3, ?_⟩
  intro e he
  obtain ⟨A, B, bef, aft, _, _, _, _, _, hadj⟩ := h6 e he
  exact hadj 64 rfl

/-- C10 as stated fails: on the edge of `twinGraph` the routes A1 and A2 are both
relative to A; after `expandRelatives` the ordering is `[1, 2, 0]`, where the index 1 of
A1 is not next to the index 0 of A. -/
theorem expandRelatives_second_relative_separates :
    lineA1.relativeTo = some lineA.addr ∧ lineA2.relativeTo = some lineA.addr ∧
      twinEdge.getRouteOccWithPos lineA.addr = 0 ∧
      twinEdge.getRouteOccWithPos lineA1.addr = 1 ∧
      (expandRelatives twinGraph (expandFuel twinGraph) twinConfig).map
        (fun c => c twinEdge.addr) = some [1, 2, 0] ∧
      ¬ adjacentIn [1, 2, 0] 1 0 := by
  refine ⟨by decide, by decide, by decide, by decide, by decide, by decide⟩

theorem filter_not_mem_ins (A B bef aft : List Nat) (i : Nat)
    (h : ∀ x ∈ bef ++ aft, x ∉ A ++ i :: B) :
    (A ++ bef ++ i :: (aft ++ B)).filter (fun x => decide (x ∉ bef ++ aft)) = A ++ i :: B := by
  have keep : ∀ l : List Nat, (∀ x ∈ l, x ∉ bef ++ aft) →
      l.filter (fun x => decide (x ∉ bef ++ aft)) = l := by
    intro l hl
    exact List.filter_eq_self.2 (fun x hx => by simpa using hl x hx)
  have drop : ∀ l : List Nat, (∀ x ∈ l, x ∈ bef ++ aft) →
      l.filter (fun x => decide (x ∉ bef ++ aft)) = [] := by
    intro l hl
    exact List.filter_eq_nil_iff.2 (fun x hx => by simp only [decide_not, Bool.not_eq_true', decide_eq_false_iff_not, not_not]; exact hl x hx)
  have hA : ∀ x ∈ A, x ∉ bef ++ aft := fun x hx hm =>
    h x hm (List.mem_append.2 (Or.inl hx))
  have hB : ∀ x ∈ B, x ∉ bef ++ aft := fun x hx hm =>
    h x hm (List.mem_append.2 (Or.inr (List.mem_cons_of_mem _ hx)))
  have hi : i ∉ bef ++ aft := fun hm =>
    h i hm (List.mem_append.2 (Or.inr (List.mem_cons_self _ _)))
  rw [List.filter_append, List.filter_append, List.filter_cons, List.filter_append,
    keep A hA, keep B hB, drop bef (fun x hx => List.mem_append.2 (Or.inl hx)),
    drop aft (fun x hx => List.mem_append.2 (Or.inr hx))]
  simp [hi]

theorem sublist_around (A B bef aft : List Nat) (i : Nat) :
    (A ++ i :: B).Sublist (A ++ bef ++ i :: (aft ++ B)) := by
  rw [List.append_assoc]
  refine List.Sublist.append (List.Sublist.refl A) ?_
  exact List.Sublist.trans (List.Sublist.cons₂ i (List.sublist_append_right aft B))
    (List.sublist_append_right bef _)



theorem perm_around (A B bef aft : List Nat) (i : Nat) :
    (A ++ bef ++ i :: (aft ++ B)).Perm ((bef ++ aft) ++ (A ++ i :: B)) := by
  rw [List.perm_iff_count]
  intro x
  simp only [List.count_append, List.count_cons]
  omega

/-- C11: with enough fuel `expandRelativesFor` returns and has only inserted entries:
the ordering every edge had before is a sublist of its ordering afterwards, so the
relative order of all earlier entries (the index of the reference among them) is kept;
on an expanded edge the inserted entries are the trip indices of the routes of `rs`, and
deleting them gives back the earlier ordering (deletion by value, when none of them was
in the ordering before); the ordering of an edge that was not visited is unchanged. -/
theorem expandRelativesFor_only_inserts (g : TransitGraph) (ref : Nat)
    (rs : List Nat) (c0 : OrderingConfig) (start : Edge) (fuel : Nat)
    (hstart : Expandable ref rs c0 start)
    (hcand : ∀ e n, n ∈ g.getNodes → (e ∈ n.adjListIn ∨ e ∈ n.adjListOut) →
      e.containsRoute ref = true → Expandable ref rs c0 e)
    (hfuel : expandFuel g ≤ fuel) :
    ∃ (final : ExpandState) (done : List Edge),
      expandLoop g ref rs fuel { c := c0, visited := [], todo := [(none, start)] }
        = some final ∧
      expandRelativesFor g fuel c0 ref start rs = some final.c ∧
      done.map (fun e => e.addr) = final.visited ∧
      (∀ a, (c0 a).Sublist (final.c a)) ∧
      (∀ e ∈ done, ∃ ins : List Nat, ins.Perm (rs.map e.getRouteOccWithPos) ∧
        (final.c e.addr).Perm (ins ++ c0 e.addr) ∧
        ((∀ x ∈ ins, x ∉ c0 e.addr) →
          (final.c e.addr).filter (fun x => decide (x ∉ ins)) = c0 e.addr)) ∧
      (∀ a, a ∉ final.visited → final.c a = c0 a) := by
  obtain ⟨final, done, hl, hr, _, hv, hframe, hform⟩ :=
    expandRelativesFor_run g ref rs c0 start fuel hstart hcand hfuel
  refine ⟨final, done, hl, hr, hv, ?_, ?_, hframe⟩
  · intro a
    by_cases ha : a ∈ final.visited
    · rw [← hv] at ha
      obtain ⟨e, he, rfl⟩ := List.mem_map.1 ha
      obtain ⟨A, B, bef, aft, h1, _, h3, _⟩ := hform e he
      rw [h1, h3]
      exact sublist_around A B bef aft _
    · rw [hframe a ha]
  · intro e he
    obtain ⟨A, B, bef, aft, h1, _, h3, h4⟩ := hform e he
    refine ⟨bef ++ aft, h4, ?_, ?_⟩
    · rw [h1, h3]
      exact perm_around A B bef aft _
    · intro hnew
      rw [h3, h1]
      exact filter_not_mem_ins A B bef aft _ (by rw [← h1]; exact hnew)

theorem expandRelativesFor_only_inserts_witness :
    twinEdge.getRoutesRelTo 16 = [64, 80] ∧
    Expandable 16 [64, 80] twinConfig twinEdge ∧ expandFuel twinGraph ≤ 20 ∧
      ∃ c2, expandRelativesFor twinGraph 20 twinConfig 16 twinEdge [64, 80] = some c2 ∧
        (twinConfig 31).Sublist (c2 31) ∧ c2 77 = twinConfig 77 := by
  have hcand : ∀ e n, n ∈ twinGraph.getNodes → (e ∈ n.adjListIn ∨ e ∈ n.adjListOut) →
      e.containsRoute 16 = true → Expandable 16 [64, 80] twinConfig e := by
    intro e n hn he _
    simp only [twinGraph, List.mem_cons, List.mem_singleton, List.not_mem_nil, or_false] at hn
    rcases hn with rfl | rfl <;>
      simp only [List.mem_singleton, List.not_mem_nil, or_false, false_or] at he <;>
      (subst he; unfold Expandable; decide)
  obtain ⟨final, done, h1, h2, h3, h4, _, h6⟩ := expandRelativesFor_only_inserts
    twinGraph 16 [64, 80] twinConfig twinEdge 20 (by unfold Expandable; decide) hcand
    (by decide)
  refine ⟨by decide, by unfold Expandable; decide, by decide, final.c, h2, h4 31, h6 77 ?_⟩
  have hv : final.visited = [31] := by
    have : expandLoop twinGraph 16 [64, 80] 20
        { c := twinConfig, visited := [], todo := [(none, twinEdge)] } = some final := h1
    have h20 : (expandLoop twinGraph 16 [64, 80] 20
        { c := twinConfig, visited := [], todo := [(none, twinEdge)] }).map
        (fun s => s.visited) = some [31] := by decide
    rw [this] at h20
    simpa using h20
  rw [hv]
  decide

theorem nonRelRoutes_relativeTo (e : Edge) (r : Route) (h : r ∈ e.nonRelRoutes) :
    r.relativeTo = none := by
  obtain ⟨o, _, rfl, hn⟩ := (mem_nonRelRoutes_iff e r).1 h
  exact hn

theorem mem_assignCols {P : Type} (env : Env P) (e : OptEdge) (x : Col)
    (h : x ∈ assignCols env e) :
    ∃ r p, r ∈ e.front.etg.nonRelRoutes ∧ p < e.front.etg.getCardinality true ∧
      x = assignCol env e r p := by
  simp only [assignCols, List.mem_flatMap, List.mem_map, List.mem_range] at h
  obtain ⟨r, hr, p, hp, rfl⟩ := h
  exact ⟨r, p, hr, hp, rfl⟩

/-- C12: no column of the model built by `createProblem` is made for a relative route.
Every column is either the assignment column of a segment, a route of its reference
edge that has no `relativeTo` and a position below the cardinality, or the decision
column (same-segment or different-segment) of a line pair both of whose routes have no
`relativeTo`; and `getLinePairs` returns no pair that holds a relative route. -/
theorem createProblem_no_relative_route {P : Type} (env : Env P) (g : OptGraph) (m : Bld)
    (h : createProblem env g = some m) :
    (∀ x ∈ m.lp.cols,
      (∃ e r p, e ∈ g.segments ∧ r ∈ e.front.etg.nonRelRoutes ∧
        p < e.front.etg.getCardinality true ∧ x = assignCol env e r p ∧
        x.name = getILPVarName env e r p ∧ r.relativeTo = none) ∨
      (∃ (node : OptNode) (segmentA : OptEdge) (linepair : LinePair),
        linepair ∈ getLinePairs segmentA ∧
        linepair.1.relativeTo = none ∧ linepair.2.relativeTo = none ∧
        ((∃ segmentB, x = sameDecCol env node segmentA segmentB linepair) ∨
          (∃ segments, x = diffDecCol env node segmentA segments linepair)))) ∧
    (∀ (segment : OptEdge) (linepair : LinePair), linepair ∈ getLinePairs segment →
      linepair.1.relativeTo = none ∧ linepair.2.relativeTo = none) := by
  have hpairs : ∀ (segment : OptEdge) (linepair : LinePair),
      linepair ∈ getLinePairs segment →
      linepair.1.relativeTo = none ∧ linepair.2.relativeTo = none := by
    intro segment linepair hl
    obtain ⟨hA, hB, _⟩ := (mem_getLinePairs segment linepair.1 linepair.2).1 hl
    exact ⟨nonRelRoutes_relativeTo _ _ hA, nonRelRoutes_relativeTo _ _ hB⟩
  refine ⟨?_, hpairs⟩
  obtain ⟨dec, hd, hD⟩ := createProblem_cols env g m h
  intro x hx
  rw [hd, List.mem_append] at hx
  rcases hx with hx | hx
  · left
    obtain ⟨e, he, hxe⟩ := List.mem_flatMap.1 hx
    obtain ⟨r, p, hr, hp, rfl⟩ := mem_assignCols env e x hxe
    exact ⟨e, r, p, he, hr, hp, rfl, rfl, nonRelRoutes_relativeTo _ _ hr⟩
  · right
    obtain ⟨node, segmentA, linepair, hl, hcol⟩ := hD x hx
    exact ⟨node, segmentA, linepair, hl, (hpairs _ _ hl).1, (hpairs _ _ hl).2, hcol⟩

theorem createProblem_no_relative_route_witness :
    createProblem sampleEnv bundleGraph = some (modelOf bundleGraph) ∧
      lineA1.relativeTo = some 16 ∧
      bundleSeg.front.etg.trips.map (fun o => o.route) = [lineA1, lineA, lineB] ∧
      (modelOf bundleGraph).lp.cols.map (fun x => x.name)
        = [getILPVarName sampleEnv bundleSeg lineA 0, getILPVarName sampleEnv bundleSeg lineA 1,
           getILPVarName sampleEnv bundleSeg lineB 0, getILPVarName sampleEnv bundleSeg lineB 1] ∧
      ∀ linepair ∈ getLinePairs bundleSeg,
        linepair.1.relativeTo = none ∧ linepair.2.relativeTo = none :=
  ⟨by rfl, by decide, by decide, by decide,
    (createProblem_no_relative_route sampleEnv bundleGraph (modelOf bundleGraph) (by rfl)).2
      bundleSeg⟩

/-- C14 as the program has it: the name is `x_(`, the text of the segment, `,l=`, the
pointer of the route object as a stream prints it, `,p=`, the position in decimal and
`)`. It is a function of the text of the segment, the address of the route object and
the position: two route records at the same address get the same name whatever their
ids and other fields are. -/
theorem getILPVarName_by_address {P : Type} (env : Env P) (seg : OptEdge) (r1 r2 : Route)
    (p : Nat) (h : r1.addr = r2.addr) :
    getILPVarName env seg r1 p
        = "x_(" ++ env.getStrRepr seg ++ ",l=" ++ ptrRepr r1.addr ++ ",p=" ++ toString p ++ ")" ∧
      getILPVarName env seg r1 p = getILPVarName env seg r2 p := by
  refine ⟨rfl, ?_⟩
  unfold getILPVarName
  rw [h]

theorem getILPVarName_by_address_witness :
    lineA.addr = ({ lineA with id := "Z", numCollapsedPartners := 5 } : Route).addr ∧
      getILPVarName sampleEnv chainSeg lineA 2 = "x_(1000,l=0x10,p=2)" ∧
      getILPVarName sampleEnv chainSeg lineA 2
        = getILPVarName sampleEnv chainSeg { lineA with id := "Z", numCollapsedPartners := 5 } 2 :=
  ⟨rfl, by decide,
    (getILPVarName_by_address sampleEnv chainSeg lineA
      { lineA with id := "Z", numCollapsedPartners := 5 } 2 rfl).2⟩

/-- C14 as stated fails: two route objects with the same id `A`, stored at the addresses
16 and 17, get different names, and the name holds the address, not the id. -/
theorem getILPVarName_same_id_differs :
    lineA.id = "A" ∧ ({ lineA with addr := 17 } : Route).id = "A" ∧
      getILPVarName sampleEnv chainSeg lineA 0 = "x_(1000,l=0x10,p=0)" ∧
      getILPVarName sampleEnv chainSeg { lineA with addr := 17 } 0 = "x_(1000,l=0x11,p=0)" ∧
      getILPVarName sampleEnv chainSeg lineA 0
        ≠ getILPVarName sampleEnv chainSeg { lineA with addr := 17 } 0 := by
  refine ⟨rfl, rfl, by decide, by decide, by decide⟩

theorem foldlM_fix {α β : Type} (f : β → α → Option β) (l : List α) (b : β)
    (h : ∀ x ∈ l, f b x = some b) : l.foldlM f b = some b := by
  induction l with
  | nil => rfl
  | cons x xs ih =>
    rw [List.foldlM_cons, h x (List.mem_cons_self _ _)]
    exact ih (fun y hy => h y (List.mem_cons_of_mem _ hy))

theorem getEdgePartners_single {P : Type} (env : Env P) (node : OptNode) (s : OptEdge)
    (linepair : LinePair) (occA occB : RouteOccurrence) (hadj : node.adjList = [s])
    (hA : (env.getAdjacentEdge s node).getRouteOcc linepair.1 = some occA)
    (hB : (env.getAdjacentEdge s node).getRouteOcc linepair.2 = some occB) :
    getEdgePartners env node s linepair = some [] := by
  simp [getEdgePartners, hA, hB, hadj]

theorem getEdgePartnerPairs_single {P : Type} (env : Env P) (node : OptNode) (s : OptEdge)
    (linepair : LinePair) (occA occB : RouteOccurrence) (hadj : node.adjList = [s])
    (hA : (env.getAdjacentEdge s node).getRouteOcc linepair.1 = some occA)
    (hB : (env.getAdjacentEdge s node).getRouteOcc linepair.2 = some occB) :
    getEdgePartnerPairs env node s linepair = some [] := by
  simp [getEdgePartnerPairs, hA, hB, hadj]

/-- C17: at a node whose adjacency list holds exactly one segment `s`, for every line
pair whose routes occur on the adjacent edge of `s` (the two occurrences are read
unguarded) `getEdgePartners` and `getEdgePartnerPairs` return the empty list; so when
this is the case for the line pairs of `s`, the passes of `writeSameSegConstraints` and
`writeDiffSegConstraints` over that node leave the model as it is: no column, no row
and no matrix entry is added. -/
theorem degree_one_node_no_crossing {P : Type} (env : Env P) (node : OptNode) (s : OptEdge)
    (hadj : node.adjList = [s]) :
    (∀ (linepair : LinePair) (occA occB : RouteOccurrence),
      (env.getAdjacentEdge s node).getRouteOcc linepair.1 = some occA →
      (env.getAdjacentEdge s node).getRouteOcc linepair.2 = some occB →
      getEdgePartners env node s linepair = some [] ∧
        getEdgePartnerPairs env node s linepair = some []) ∧
    ((∀ linepair ∈ getLinePairs s,
        (env.getAdjacentEdge s node).getRouteOcc linepair.1 ≠ none ∧
        (env.getAdjacentEdge s node).getRouteOcc linepair.2 ≠ none) →
      ∀ b : Bld, sameSegNodeStep env b node = some b ∧
        node.adjList.foldlM (diffSegStep env node) b = some b) := by
  refine ⟨fun linepair occA occB hA hB =>
    ⟨getEdgePartners_single env node s linepair occA occB hadj hA hB,
      getEdgePartnerPairs_single env node s linepair occA occB hadj hA hB⟩, ?_⟩
  intro hocc b
  have hsame : (getLinePairs s).foldlM (sameSegLineStep env node [s.addr] s) b = some b := by
    apply foldlM_fix
    intro linepair hl
    obtain ⟨h1, h2⟩ := hocc linepair hl
    obtain ⟨occA, hA⟩ := Option.ne_none_iff_exists'.1 h1
    obtain ⟨occB, hB⟩ := Option.ne_none_iff_exists'.1 h2
    simp [sameSegLineStep, getEdgePartners_single env node s linepair occA occB hadj hA hB]
  have hdiff : (getLinePairs s).foldlM (diffSegLineStep env node s) b = some b := by
    apply foldlM_fix
    intro linepair hl
    obtain ⟨h1, h2⟩ := hocc linepair hl
    obtain ⟨occA, hA⟩ := Option.ne_none_iff_exists'.1 h1
    obtain ⟨occB, hB⟩ := Option.ne_none_iff_exists'.1 h2
    simp [diffSegLineStep, getEdgePartnerPairs_single env node s linepair occA occB hadj hA hB]
  constructor
  · simp [sameSegNodeStep, hadj, sameSegStep, hsame]
  · simp [hadj, diffSegStep, hdiff]

theorem degree_one_node_no_crossing_witness :
    forkGraph.getNodes[0]? = some forkEntry ∧ forkEntry.adjList = [forkSegA] ∧
    getLinePairs forkSegA = [(lineA, lineB), (lineB, lineA)] ∧
    getEdgePartners sampleEnv forkEntry forkSegA (lineA, lineB) = some [] ∧
    getEdgePartnerPairs sampleEnv forkEntry forkSegA (lineA, lineB) = some [] ∧
    getEdgePartnerPairs sampleEnv forkNode forkSegA (lineA, lineB)
      = some [(forkSegB, forkSegC)] :=
  ⟨by decide, rfl, by decide,
    ((degree_one_node_no_crossing sampleEnv forkEntry forkSegA rfl).1 (lineA, lineB)
      ⟨lineA, none⟩ ⟨lineB, none⟩ (by decide) (by decide)).1,
    ((degree_one_node_no_crossing sampleEnv forkEntry forkSegA rfl).1 (lineA, lineB)
      ⟨lineA, none⟩ ⟨lineB, none⟩ (by decide) (by decide)).2,
    by decide⟩

theorem getLinePairs_single (s : OptEdge) (r : Route) (h : s.front.etg.nonRelRoutes = [r]) :
    getLinePairs s = [] := by
  rw [getLinePairs_eq, h]
  simp

theorem sameSegStep_fold_noPairs {P : Type} (env : Env P) (node : OptNode) (b : Bld) :
    ∀ (l : List OptEdge) (processed : List Nat), (∀ s ∈ l, getLinePairs s = []) →
      ∃ processed2, l.foldlM (sameSegStep env node) (processed, b) = some (processed2, b) := by
  intro l
  induction l with
  | nil => intro processed _; exact ⟨processed, rfl⟩
  | cons s ss ih =>
    intro processed h
    have hs : sameSegStep env node (processed, b) s = some (s.addr :: processed, b) := by
      simp [sameSegStep, h s (List.mem_cons_self _ _)]
    rw [List.foldlM_cons, hs]
    exact ih (s.addr :: processed) (fun x hx => h x (List.mem_cons_of_mem _ hx))

theorem writers_noPairs {P : Type} (env : Env P) (g : OptGraph) (b : Bld)
    (h : ∀ n ∈ g.getNodes, ∀ s ∈ n.adjList, getLinePairs s = []) :
    writeSameSegConstraints env g b = some b ∧ writeDiffSegConstraints env g b = some b := by
  constructor
  · apply foldlM_fix
    intro n hn
    obtain ⟨p2, hp⟩ := sameSegStep_fold_noPairs env n b n.adjList [] (h n hn)
    simp [sameSegNodeStep, hp]
  · apply foldlM_fix
    intro n hn
    apply foldlM_fix
    intro s hs
    simp [diffSegStep, h n hn s hs]

/-- C16 as the program has it: for a graph whose only segment `e` has a reference edge
with non-relative cardinality 1, `createProblem` returns a model with exactly one
column, the assignment column of the one non-relative route at position 0, exactly two
rows, the position-sum row of position 0 and the line-sum row of the route, both fixed
to 1 and each with the single entry 1 at that column, and no decision column. -/
theorem single_line_segment_model {P : Type} (env : Env P) (g : OptGraph) (e : OptEdge)
    (hseg : g.segments = [e]) (hadj : ∀ n ∈ g.getNodes, ∀ s ∈ n.adjList, s = e)
    (hcard : e.front.etg.getCardinality true = 1) :
    ∃ (r : Route) (m : Bld), e.front.etg.nonRelRoutes = [r] ∧ createProblem env g = some m ∧
      m.lp.cols = [assignCol env e r 0] ∧
      m.lp.rows = [posSumRow env e 0, lineSumRow env e r] ∧
      (posSumRow env e 0).typ = RowType.FX ∧ (lineSumRow env e r).typ = RowType.FX ∧
      m.vm.entries = [{ row := 2, col := 1, val := 1 }, { row := 1, col := 1, val := 1 }] ∧
      ∀ x ∈ m.lp.cols, ¬ IsDecCol x := by
  have hlen : e.front.etg.nonRelRoutes.length = 1 := by rw [nonRel_length, hcard]
  obtain ⟨r, hr⟩ := List.length_eq_one.1 hlen
  have hpairs : ∀ n ∈ g.getNodes, ∀ s ∈ n.adjList, getLinePairs s = [] := by
    intro n hn s hs
    rw [hadj n hn s hs]
    exact getLinePairs_single e r hr
  obtain ⟨h1, h2⟩ := writers_noPairs env g (addSegments env g Bld.init) hpairs
  obtain ⟨hc, hrows, _, _, hent⟩ := addSegments_spec env g
  refine ⟨r, addSegments env g Bld.init, hr, ?_, ?_, ?_, rfl, rfl, ?_, ?_⟩
  · simp [createProblem, h1, h2]
  · rw [hc, hseg]
    simp [assignCols, hr, hcard, List.range_succ]
  · rw [hrows, hseg]
    simp [sumRows, hr, hcard, List.range_succ]
  · rw [hent, hseg]
    simp [segsEntries, sumEntries, hcard, List.range_succ]
  · intro x hx
    rw [hc, hseg] at hx
    simp only [List.flatMap_cons, List.flatMap_nil, List.append_nil] at hx
    obtain ⟨r2, p, _, _, rfl⟩ := mem_assignCols env e x hx
    exact assignCol_not_isDec env e r2 p

theorem single_line_segment_model_witness :
    soloGraph.segments = [soloSeg] ∧ soloSeg.front.etg.getCardinality true = 1 ∧
      ∃ (r : Route) (m : Bld), createProblem sampleEnv soloGraph = some m ∧
        m.lp.cols = [assignCol sampleEnv soloSeg r 0] ∧
        m.lp.rows = [posSumRow sampleEnv soloSeg 0, lineSumRow sampleEnv soloSeg r] := by
  have hadj : ∀ n ∈ soloGraph.getNodes, ∀ s ∈ n.adjList, s = soloSeg := by
    intro n hn s hs
    simp only [soloGraph, List.mem_cons, List.mem_singleton, List.not_mem_nil, or_false] at hn
    rcases hn with rfl | rfl <;> simpa using hs
  obtain ⟨r, m, _, h2, h3, h4, _⟩ :=
    single_line_segment_model sampleEnv soloGraph soloSeg (by decide) hadj (by decide)
  exact ⟨by decide, by decide, r, m, h2, h3, h4⟩

/-- C16 as stated fails: the model of the one-line segment has two equality rows, the
position-sum row and the line-sum row, not one. -/
theorem single_line_segment_two_rows :
    soloGraph.segments = [soloSeg] ∧ soloSeg.front.etg.getCardinality true = 1 ∧
      createProblem sampleEnv soloGraph = some (modelOf soloGraph) ∧
      (modelOf soloGraph).lp.cols.length = 1 ∧
      (modelOf soloGraph).lp.rows
        = [{ name := "sum(7000,p=0)", typ := RowType.FX, lb := 1, ub := 1 },
           { name := "sum(7000,l=0x10)", typ := RowType.FX, lb := 1, ub := 1 }] ∧
      (modelOf soloGraph).lp.rows.length ≠ 1 := by
  refine ⟨by decide, by decide, by rfl, by decide, by decide, by decide⟩

/-- C18 on the code: the name overload hands the index of the variable to the index
overload as `rowId` and the index of the constraint as `colId`. For constraint `r0`
(index 0) and variable `x1` (index 1) it therefore sets the coefficient of variable
`x0` in constraint `r1`, and leaves the coefficient of `x1` in `r0` at zero, whereas
the index overload called with `rowId = getConstrByName(rowName)` and
`colId = getVarByName(colName)` sets the coefficient of `x1` in `r0`. For variable `x2`
(index 2) the swapped call names a constraint that does not exist and fails. -/
theorem addColToRow_swaps_row_and_col :
    (∀ (s : GurobiSolver) (rowName colName : String) (coef : Int),
      s.addColToRow rowName colName coef
        = s.addColToRowIdx (s.getVarByName colName) (s.getConstrByName rowName) coef) ∧
    sampleGurobi.getConstrByName "r0" = 0 ∧ sampleGurobi.getVarByName "x1" = 1 ∧
    ((sampleGurobi.addColToRow "r0" "x1" 5).map (fun s => (s.model.coef 0 1, s.model.coef 1 0)))
      = some (0, 5) ∧
    ((sampleGurobi.addColToRowIdx (sampleGurobi.getConstrByName "r0")
        (sampleGurobi.getVarByName "x1") 5).map
          (fun s => (s.model.coef 0 1, s.model.coef 1 0))) = some (5, 0) ∧
    (sampleGurobi.addColToRow "r0" "x2" 5).isNone = true ∧
    (sampleGurobi.addColToRowIdx (sampleGurobi.getConstrByName "r0")
        (sampleGurobi.getVarByName "x2") 5).isSome = true := by
  refine ⟨fun _ _ _ _ => rfl, by decide, by decide, by decide, by decide, by decide, by decide⟩

theorem dropWhile_head {α : Type} (p : α → Bool) (c : α) (t : List α) :
    ∀ s : List α, s.dropWhile p = c :: t → p c = false := by
  intro s
  induction s with
  | nil => intro h; exact absurd h (by simp)
  | cons a as ih =>
    intro h
    rw [List.dropWhile_cons] at h
    split at h
    · exact ih h
    · rename_i hpa
      have hac : a = c := (List.cons.inj h).1
      rw [← hac]
      simpa using hpa

/-- No word could be read: the stream was at its end. -/
theorem readWord_empty (s : List Char) (h : (readWord s).1 = "") : (readWord s).2 = [] := by
  unfold readWord at h ⊢
  simp only at h ⊢
  cases hs : s.dropWhile isSpaceChar with
  | nil => rfl
  | cons c t =>
    rw [hs] at h
    have hc := dropWhile_head isSpaceChar c t s hs
    rw [List.takeWhile_cons] at h
    simp only [hc, Bool.not_false, if_true] at h
    exact absurd (congrArg String.data h) (by simp)

theorem lineIntVal_name (line : String) (v : Int) (hv : lineIntVal line = some v) :
    lineName line ≠ "" := by
  intro h
  unfold lineName at h
  unfold lineIntVal at hv
  simp only [readWord_empty _ h, List.dropWhile_nil, List.isEmpty_nil, if_true] at hv
  exact absurd hv (by simp)

theorem preSolveLine_none (m : Mip) (line : String) (hv : lineIntVal line = none) :
    preSolveLine m line = none := by
  unfold preSolveLine
  rw [hv]
  rfl

theorem preSolveLine_some (m : Mip) (line : String) (v : Int) (hv : lineIntVal line = some v) :
    ∃ m2, preSolveLine m line = some m2 ∧ m2.bld = m.bld ∧
      ∀ j, m2.colBnds j =
        if j ≠ 0 ∧ lineCol m.bld.lp line = j then some { typ := RowType.FX, lb := v, ub := v }
        else m.colBnds j := by
  have hne := lineIntVal_name line v hv
  unfold preSolveLine lineCol
  rw [hv]
  simp only [Option.bind_eq_bind, Option.some_bind, if_neg hne]
  by_cases hc : glp_find_col m.bld.lp (lineName line) ≠ 0
  · rw [if_pos hc]
    refine ⟨_, rfl, rfl, fun j => ?_⟩
    by_cases hj : j = glp_find_col m.bld.lp (lineName line)
    · have h2 : j ≠ 0 := by rw [hj]; exact hc
      simp only [glp_set_col_bnds]
      rw [if_pos hj, if_pos ⟨h2, hj.symm⟩]
    · simp only [glp_set_col_bnds]
      rw [if_neg hj, if_neg (fun h => hj h.2.symm)]
  · rw [if_neg hc]
    refine ⟨_, rfl, rfl, fun j => ?_⟩
    have h0 : glp_find_col m.bld.lp (lineName line) = 0 := not_not.1 hc
    rw [h0]
    rw [if_neg (fun h => h.1 h.2.symm)]

/-- The lines change nothing but column bounds, whenever the run is defined. -/
theorem foldlM_preSolveLine_bld (lines : List String) : ∀ m m2 : Mip,
    lines.foldlM preSolveLine m = some m2 → m2.bld = m.bld := by
  induction lines with
  | nil =>
    intro m m2 h
    simp only [List.foldlM_nil] at h
    have h2 : m = m2 := Option.some.inj h
    rw [h2]
  | cons l ls ih =>
    intro m m2 h
    rw [List.foldlM_cons] at h
    cases hv : lineIntVal l with
    | none =>
      rw [preSolveLine_none m l hv] at h
      exact absurd h (by simp)
    | some v =>
      obtain ⟨m1, h1, h2, _⟩ := preSolveLine_some m l v hv
      rw [h1] at h
      simp only [Option.bind_eq_bind, Option.some_bind] at h
      rw [ih m1 m2 h, h2]

/-- A line whose value cannot be converted leaves the run undefined. -/
theorem foldlM_preSolveLine_none (lines : List String) (h : ∃ l ∈ lines, lineIntVal l = none) :
    ∀ m : Mip, lines.foldlM preSolveLine m = none := by
  induction lines with
  | nil =>
    obtain ⟨l, hl, _⟩ := h
    exact absurd hl (List.not_mem_nil l)
  | cons l ls ih =>
    intro m
    rw [List.foldlM_cons]
    cases hv : lineIntVal l with
    | none =>
      rw [preSolveLine_none m l hv]
      rfl
    | some v =>
      obtain ⟨m1, h1, _, _⟩ := preSolveLine_some m l v hv
      rw [h1]
      simp only [Option.bind_eq_bind, Option.some_bind]
      obtain ⟨l2, hl2, hn⟩ := h
      rcases List.mem_cons.1 hl2 with rfl | hmem
      · rw [hv] at hn
        exact absurd hn (by simp)
      · exact ih ⟨l2, hmem, hn⟩ m1

theorem foldlM_preSolveLine (lines : List String) (hval : ∀ l ∈ lines, lineIntVal l ≠ none) :
    ∀ m : Mip, ∃ m2, lines.foldlM preSolveLine m = some m2 ∧ m2.bld = m.bld ∧
      ∀ j, m2.colBnds j = fixedBnds m.bld.lp lines m.colBnds j := by
  induction lines using List.reverseRecOn with
  | nil => intro m; exact ⟨m, rfl, rfl, fun j => rfl⟩
  | append_singleton ls l ih =>
    intro m
    obtain ⟨m1, h0, h1, h2⟩ := ih (fun x hx => hval x (List.mem_append_left _ hx)) m
    have hsome : ∃ v, lineIntVal l = some v := by
      cases hl : lineIntVal l with
      | none => exact absurd hl (hval l (by simp))
      | some v => exact ⟨v, rfl⟩
    obtain ⟨v, hv⟩ := hsome
    obtain ⟨m2, h3, h4, h5⟩ := preSolveLine_some m1 l v hv
    refine ⟨m2, ?_, by rw [h4, h1], fun j => ?_⟩
    · rw [List.foldlM_append, h0]
      simp only [Option.bind_eq_bind, Option.some_bind, List.foldlM_cons, List.foldlM_nil]
      rw [h3]
      rfl
    · rw [h5 j, h1, h2 j]
      unfold fixedBnds lastFix
      rw [List.reverse_append]
      simp only [List.reverse_cons, List.reverse_nil, List.nil_append, List.singleton_append,
        List.find?_cons]
      by_cases hc : j ≠ 0 ∧ lineCol m.bld.lp l = j
      · rw [if_pos hc]
        simp [hc, hv]
      · rw [if_neg hc]
        simp [hc]

theorem takeWhile_append_stop {α : Type} (p : α → Bool) (a : List α) (x : α) (t : List α)
    (ha : ∀ c ∈ a, p c = true) (hx : p x = false) :
    (a ++ x :: t).takeWhile p = a ∧ (a ++ x :: t).dropWhile p = x :: t := by
  induction a with
  | nil => simp [List.takeWhile_cons, List.dropWhile_cons, hx]
  | cons c cs ih =>
    have hc := ha c (List.mem_cons_self _ _)
    obtain ⟨h1, h2⟩ := ih (fun y hy => ha y (List.mem_cons_of_mem _ hy))
    simp [List.takeWhile_cons, List.dropWhile_cons, hc, h1, h2]

theorem takeWhile_all {α : Type} (p : α → Bool) (a : List α) (ha : ∀ c ∈ a, p c = true) :
    a.takeWhile p = a ∧ a.dropWhile p = [] := by
  induction a with
  | nil => simp
  | cons c cs ih =>
    have hc := ha c (List.mem_cons_self _ _)
    obtain ⟨h1, h2⟩ := ih (fun y hy => ha y (List.mem_cons_of_mem _ hy))
    simp [List.takeWhile_cons, List.dropWhile_cons, hc, h1, h2]

theorem digit_not_space (c : Char) (h : isDigitChar c = true) : isSpaceChar c = false := by
  simp only [isDigitChar, Bool.and_eq_true, decide_eq_true_eq] at h
  simp only [isSpaceChar, Bool.or_eq_false_iff, decide_eq_false_iff_not, Bool.and_eq_false_imp,
    decide_eq_true_eq]
  omega

theorem digit_not_sign (c : Char) (h : isDigitChar c = true) :
    c.toNat ≠ 45 ∧ c.toNat ≠ 43 ∧ c.toNat ≠ 46 ∧ c.toNat ≠ 101 ∧ c.toNat ≠ 69 := by
  simp only [isDigitChar, Bool.and_eq_true, decide_eq_true_eq] at h
  omega

theorem readSign_other (c : Char) (t : List Char) (h1 : c.toNat ≠ 45) (h2 : c.toNat ≠ 43) :
    readSign (c :: t) = (false, c :: t) := by
  simp [readSign, h1, h2]

/-- A word starts the stream: no number can be read and the stream is as before. -/
theorem readInt_word (c : Char) (t : List Char) (hs : isSpaceChar c = false)
    (hd : isDigitChar c = false) (h1 : c.toNat ≠ 45) (h2 : c.toNat ≠ 43) :
    readInt (c :: t) = (false, c :: t) := by
  simp [readInt, List.dropWhile_cons, hs, readSign_other c t h1 h2, List.takeWhile_cons, hd]

/-- Digits and a blank start the stream: the number is read up to the blank. -/
theorem readInt_digits (d : Char) (ds : List Char) (x : Char) (t : List Char)
    (hd : ∀ c ∈ d :: ds, isDigitChar c = true) (hx : isDigitChar x = false) :
    readInt (d :: ds ++ x :: t) = (true, x :: t) := by
  have h0 := hd d (List.mem_cons_self _ _)
  obtain ⟨h1, h2, _⟩ := digit_not_sign d h0
  obtain ⟨ht, hdr⟩ := takeWhile_append_stop isDigitChar (d :: ds) x t hd hx
  simp only [readInt, List.cons_append, List.dropWhile_cons, digit_not_space d h0]
  simp only [Bool.false_eq_true, ↓reduceIte, readSign_other d (ds ++ x :: t) h1 h2]
  rw [List.cons_append] at ht hdr
  rw [ht, hdr]
  simp

/-- White space, then a word that ends at white space. -/
theorem readWord_word (sp : List Char) (name : List Char) (x : Char) (t : List Char)
    (hsp : ∀ c ∈ sp, isSpaceChar c = true) (hn : ∀ c ∈ name, isSpaceChar c = false)
    (hne : name ≠ []) (hx : isSpaceChar x = true) :
    readWord (sp ++ name ++ x :: t) = (String.mk name, x :: t) := by
  obtain ⟨c, cs, rfl⟩ := List.exists_cons_of_ne_nil hne
  have hc := hn c (List.mem_cons_self _ _)
  have h1 : (sp ++ (c :: cs) ++ x :: t).dropWhile isSpaceChar = (c :: cs) ++ x :: t := by
    rw [List.append_assoc]
    exact (takeWhile_append_stop isSpaceChar sp c (cs ++ x :: t) hsp hc).2
  obtain ⟨h2, h3⟩ := takeWhile_append_stop (fun c => !isSpaceChar c) (c :: cs) x t
    (fun y hy => by simp [hn y hy]) (by simp [hx])
  simp only [readWord, h1, h2, h3]

theorem digitsValue_foldl (b : List Char) : ∀ n : Nat,
    b.foldl (fun n c => 10 * n + (c.toNat - 48)) n = n * 10 ^ b.length + digitsValue b := by
  induction b with
  | nil => intro n; simp [digitsValue]
  | cons c cs ih =>
    intro n
    have h0 : digitsValue (c :: cs) = cs.foldl (fun n c => 10 * n + (c.toNat - 48))
        (10 * 0 + (c.toNat - 48)) := rfl
    rw [h0, List.foldl_cons, ih, ih (10 * 0 + (c.toNat - 48)), List.length_cons, pow_succ]
    ring

theorem digitsValue_append (a b : List Char) :
    digitsValue (a ++ b) = digitsValue a * 10 ^ b.length + digitsValue b := by
  unfold digitsValue
  rw [List.foldl_append]
  exact digitsValue_foldl b _

theorem digitsValue_lt (b : List Char) (hb : ∀ c ∈ b, isDigitChar c = true) :
    digitsValue b < 10 ^ b.length := by
  induction b using List.reverseRecOn with
  | nil => simp [digitsValue]
  | append_singleton cs c ih =>
    have hc := hb c (by simp)
    simp only [isDigitChar, Bool.and_eq_true, decide_eq_true_eq] at hc
    have h1 := ih (fun y hy => hb y (by simp [hy]))
    rw [digitsValue_append]
    have h2 : digitsValue [c] = c.toNat - 48 := by simp [digitsValue]
    rw [h2]
    simp only [List.length_append, List.length_singleton, pow_succ, pow_zero, one_mul]
    omega

theorem bitLengthAux_spec : ∀ (fuel n : Nat), n ≤ fuel → 0 < n →
    2 ^ (bitLengthAux fuel n - 1) ≤ n ∧ n < 2 ^ (bitLengthAux fuel n) ∧ 0 < bitLengthAux fuel n := by
  intro fuel
  induction fuel with
  | zero => intro n h1 h2; omega
  | succ f ih =>
    intro n h1 h2
    have hn : n ≠ 0 := by omega
    simp only [bitLengthAux, if_neg hn, Nat.add_sub_cancel]
    by_cases h : n / 2 = 0
    · have hn1 : n = 1 := by omega
      subst hn1
      cases f with
      | zero => simp [bitLengthAux]
      | succ g => simp [bitLengthAux]
    · obtain ⟨a, b, c⟩ := ih (n / 2) (by omega) (by omega)
      refine ⟨?_, ?_, by omega⟩
      · have : bitLengthAux f (n / 2) = (bitLengthAux f (n / 2) - 1) + 1 := by omega
        rw [this, pow_succ]
        omega
      · rw [pow_succ]
        omega

theorem bitLength_spec (n : Nat) (h : 0 < n) :
    2 ^ (bitLength n - 1) ≤ n ∧ n < 2 ^ (bitLength n) ∧ 0 < bitLength n :=
  bitLengthAux_spec n n (Nat.le_refl _) h

theorem roundHalfEven_le (a b : Nat) : a / b ≤ roundHalfEven a b ∧ roundHalfEven a b ≤ a / b + 1 := by
  unfold roundHalfEven
  split
  · omega
  · split <;> omega

theorem roundHalfEven_up (a b : Nat) (h : roundHalfEven a b ≠ a / b) : b ≤ 2 * (a % b) := by
  unfold roundHalfEven at h
  split at h
  · exact absurd rfl h
  · omega

theorem binExp_neg (num den : Nat) (hnum0 : 0 < num) (hden : 0 < den) (hnum : num < 2 ^ 53) :
    ∃ t : Nat, binExp num den = -(t : Int) ∧ (t = 1074 ∨ 2 ^ 52 * den ≤ num * 2 ^ t) := by
  obtain ⟨n1, n2, n3⟩ := bitLength_spec num hnum0
  obtain ⟨d1, d2, d3⟩ := bitLength_spec den hden
  have hLn : bitLength num ≤ 53 := by
    by_contra hc
    have : 2 ^ 53 ≤ 2 ^ (bitLength num - 1) := Nat.pow_le_pow_right (by decide) (by omega)
    omega
  unfold binExp
  generalize bitLength num = Ln at *
  generalize bitLength den = Ld at *
  have he1 : ((Ln : Int) - (Ld : Int) - 52) = -((Ld + 52 - Ln : Nat) : Int) := by omega
  have hs1 : scaleBin num den (-((Ld + 52 - Ln : Nat) : Int)) = (num * 2 ^ (Ld + 52 - Ln), den) := by
    unfold scaleBin
    have h1 : (- -((Ld + 52 - Ln : Nat) : Int)).toNat = Ld + 52 - Ln := by omega
    have h2 : (-((Ld + 52 - Ln : Nat) : Int)).toNat = 0 := by omega
    rw [h1, h2, pow_zero, Nat.mul_one]
  simp only [he1, hs1]
  by_cases hb : num * 2 ^ (Ld + 52 - Ln) < 2 ^ 52 * den
  · rw [if_pos hb]
    have hnorm : 2 ^ 52 * den ≤ num * 2 ^ (Ld + 52 - Ln + 1) := by
      have h1 : 2 ^ (Ln - 1) * 2 ^ (Ld + 52 - Ln + 1) ≤ num * 2 ^ (Ld + 52 - Ln + 1) :=
        Nat.mul_le_mul_right _ n1
      rw [← pow_add] at h1
      have h2 : Ln - 1 + (Ld + 52 - Ln + 1) = 52 + Ld := by omega
      rw [h2, pow_add] at h1
      have h3 : 2 ^ 52 * den ≤ 2 ^ 52 * 2 ^ Ld := Nat.mul_le_mul_left _ (Nat.le_of_lt d2)
      omega
    by_cases hc : Ld + 52 - Ln + 1 ≤ 1074
    · refine ⟨Ld + 52 - Ln + 1, ?_, Or.inr hnorm⟩
      rw [max_eq_left (by omega)]
      push_cast
      omega
    · refine ⟨1074, ?_, Or.inl rfl⟩
      rw [max_eq_right (by omega)]
      rfl
  · rw [if_neg hb]
    by_cases hc : Ld + 52 - Ln ≤ 1074
    · refine ⟨Ld + 52 - Ln, ?_, Or.inr (Nat.le_of_not_lt hb)⟩
      rw [max_eq_left (by omega)]
    · refine ⟨1074, ?_, Or.inl rfl⟩
      rw [max_eq_right (by omega)]
      rfl

/-- Rounding to the nearest `double` does not reach the next integer when the decimal
digits fit into 53 binary digits. -/
theorem roundHalfEven_trunc (num den t : Nat) (hden : 0 < den) (hnum : num < 2 ^ 53)
    (ht : t = 1074 ∨ 2 ^ 52 * den ≤ num * 2 ^ t) :
    roundHalfEven (num * 2 ^ t) den / 2 ^ t = num / den := by
  have hP : 0 < 2 ^ t := Nat.pow_pos (by decide)
  generalize hPd : 2 ^ t = P at *
  obtain ⟨hq1, hq2⟩ := roundHalfEven_le (num * P) den
  have hdm := Nat.div_add_mod num den
  have hf := Nat.mod_lt num hden
  generalize num / den = n at *
  generalize num % den = f at *
  have hdm2 := Nat.div_add_mod (num * P) den
  have hr := Nat.mod_lt (num * P) hden
  have hup := roundHalfEven_up (num * P) den
  generalize roundHalfEven (num * P) den = Q at *
  generalize hq : num * P / den = q at *
  generalize num * P % den = r at *
  have hlo : n * P ≤ q := by
    rw [← hq, Nat.le_div_iff_mul_le hden]
    rw [← hdm]
    nlinarith
  have hqlt : q < (n + 1) * P := by
    rw [← hq, Nat.div_lt_iff_lt_mul hden]
    rw [← hdm]
    nlinarith
  apply Nat.div_eq_of_lt_le
  · omega
  · by_cases hQ : Q = q
    · omega
    · have hr2 := hup hQ
      have hQ1 : Q = q + 1 := by omega
      by_contra hcon
      have hqe : q + 1 = (n + 1) * P := by omega
      by_cases hd : den < 2 * P
      · -- the distance to the next integer is more than half a unit in the last place
        have h1 : 2 * (num * P) + 2 * P ≤ 2 * (den * (n + 1) * P) := by
          have : num + 1 ≤ den * (n + 1) := by rw [← hdm]; nlinarith
          nlinarith
        have h2 : den * (2 * (q + 1)) ≤ 2 * (num * P) + den := by
          rw [← hdm2]; nlinarith
        rw [hqe] at h2
        have h3 : den * (2 * ((n + 1) * P)) = 2 * (den * (n + 1) * P) := by ring
        omega
      · have a1 : num * P < 2 ^ 53 * P := Nat.mul_lt_mul_of_pos_right hnum hP
        have a2 : 2 ^ 52 * (2 * P) ≤ 2 ^ 52 * den := Nat.mul_le_mul_left _ (not_lt.1 hd)
        have a3 : 2 ^ 52 * (2 * P) = 2 ^ 53 * P := by ring
        rcases ht with ht | ht
        · have hq52 : q < 2 ^ 52 := by
            rw [← hq, Nat.div_lt_iff_lt_mul hden]
            omega
          have hP52 : 2 ^ 53 ≤ P := by
            have h53 : 2 ^ 53 ≤ 2 ^ t := Nat.pow_le_pow_right (by norm_num) (by omega)
            rw [hPd] at h53
            exact h53
          have hPn : P ≤ (n + 1) * P := Nat.le_mul_of_pos_left P (Nat.succ_pos n)
          omega
        · omega

theorem nearestDouble_toInt (neg : Bool) (num den : Nat) (hden : 0 < den) (hnum : num < 2 ^ 53)
    (hn : num / den < 2 ^ 31) :
    (nearestDouble neg num den).toInt
      = some (if neg then -((num / den : Nat) : Int) else ((num / den : Nat) : Int)) := by
  have hrange : ∀ k : Nat, k < 2 ^ 31 →
      (if -(2 : Int) ^ 31 ≤ (if neg then -(k : Int) else (k : Int))
          ∧ (if neg then -(k : Int) else (k : Int)) < 2 ^ 31
        then some (if neg then -(k : Int) else (k : Int)) else none)
      = some (if neg then -(k : Int) else (k : Int)) := by
    intro k hk
    have hk2 : (k : Int) < 2 ^ 31 := by exact_mod_cast hk
    rw [if_pos]
    cases neg
    · simp only [Bool.false_eq_true, if_false]
      constructor <;> omega
    · simp only [if_true]
      constructor <;> omega
  unfold nearestDouble
  by_cases h0 : num = 0
  · subst h0
    simp [Double.toInt]
  · rw [if_neg h0]
    obtain ⟨t, he, ht⟩ := binExp_neg num den (Nat.pos_of_ne_zero h0) hden hnum
    simp only [he]
    have hnov : ¬ ((971 : Int) < -(t : Int) ∨ (-(t : Int) = 971 ∧
        roundHalfEven (scaleBin num den (-(t : Int))).1 (scaleBin num den (-(t : Int))).2
          = 2 ^ 53)) := by
      omega
    rw [if_neg hnov]
    have hs : scaleBin num den (-(t : Int)) = (num * 2 ^ t, den) := by
      unfold scaleBin
      have h1 : (- -(t : Int)).toNat = t := by omega
      have h2 : (-(t : Int)).toNat = 0 := by omega
      rw [h1, h2, pow_zero, Nat.mul_one]
    rw [hs]
    unfold Double.toInt
    simp only
    have h1 : (- -(t : Int)).toNat = t := by omega
    have h2 : (-(t : Int)).toNat = 0 := by omega
    rw [h1, h2, pow_zero, Nat.mul_one, roundHalfEven_trunc num den t hden hnum ht]
    exact hrange _ hn

theorem takeWhile_digits_tail (fp tail : List Char) (hfp : ∀ c ∈ fp, isDigitChar c = true)
    (htail : tail = [] ∨ ∃ x t, tail = x :: t ∧ isSpaceChar x = true) :
    (fp ++ tail).takeWhile isDigitChar = fp ∧ (fp ++ tail).dropWhile isDigitChar = tail := by
  rcases htail with rfl | ⟨x, t, rfl, hx⟩
  · rw [List.append_nil]
    exact takeWhile_all isDigitChar fp hfp
  · refine takeWhile_append_stop isDigitChar fp x t hfp ?_
    cases h : isDigitChar x
    · rfl
    · rw [digit_not_space x h] at hx; exact absurd hx (by decide)

theorem space_codes (x : Char) (hx : isSpaceChar x = true) :
    x.toNat ≠ 46 ∧ x.toNat ≠ 101 ∧ x.toNat ≠ 69 := by
  simp only [isSpaceChar, Bool.or_eq_true, decide_eq_true_eq, Bool.and_eq_true] at hx
  omega

/-- Digits without a fraction, up to white space or the end of the line. -/
theorem readMantExp_integer (ds tail : List Char) (d : Char)
    (hip : ∀ c ∈ d :: ds, isDigitChar c = true)
    (htail : tail = [] ∨ ∃ x t, tail = x :: t ∧ isSpaceChar x = true) :
    readMantExp ((d :: ds) ++ tail) = some (digitsValue (d :: ds), 0) := by
  obtain ⟨h4, h5⟩ := takeWhile_digits_tail (d :: ds) tail hip htail
  unfold readMantExp
  rw [h4, h5]
  rcases htail with rfl | ⟨x, t, rfl, hx⟩
  · simp
  · obtain ⟨e0, e1, e2⟩ := space_codes x hx
    simp [e0, e1, e2]

/-- Digits with a fraction, up to white space or the end of the line. -/
theorem readMantExp_fraction (ds fp tail : List Char) (d : Char)
    (hip : ∀ c ∈ d :: ds, isDigitChar c = true) (hfp : ∀ c ∈ fp, isDigitChar c = true)
    (htail : tail = [] ∨ ∃ x t, tail = x :: t ∧ isSpaceChar x = true) :
    readMantExp ((d :: ds) ++ Char.ofNat 46 :: (fp ++ tail))
      = some (digitsValue ((d :: ds) ++ fp), 0 - (fp.length : Int)) := by
  have hdot : isDigitChar (Char.ofNat 46) = false := by decide
  obtain ⟨h2, h3⟩ := takeWhile_append_stop isDigitChar (d :: ds) (Char.ofNat 46) (fp ++ tail)
    hip hdot
  obtain ⟨h4, h5⟩ := takeWhile_digits_tail fp tail hfp htail
  have h46 : (Char.ofNat 46).toNat = 46 := by decide
  unfold readMantExp
  rw [h2, h3]
  simp only [h46, if_true, h4, h5]
  rcases htail with rfl | ⟨x, t, rfl, hx⟩
  · simp
  · obtain ⟨_, e1, e2⟩ := space_codes x hx
    simp [e1, e2]

/-- White space, then a word: no number can be read, the stream stands at the word. -/
theorem readInt_spaces_word (sp : List Char) (c : Char) (t : List Char)
    (hsp : ∀ x ∈ sp, isSpaceChar x = true) (hs : isSpaceChar c = false)
    (hd : isDigitChar c = false) (h1 : c.toNat ≠ 45) (h2 : c.toNat ≠ 43) :
    readInt (sp ++ c :: t) = (false, c :: t) := by
  have h0 := (takeWhile_append_stop isSpaceChar sp c t hsp hs).2
  simp [readInt, h0, readSign_other c t h1 h2, List.takeWhile_cons, hd]

/-- White space, digits, then white space: the number is read. -/
theorem readInt_spaces_digits (sp : List Char) (d : Char) (ds : List Char) (x : Char)
    (t : List Char) (hsp : ∀ c ∈ sp, isSpaceChar c = true)
    (hd : ∀ c ∈ d :: ds, isDigitChar c = true) (hx : isSpaceChar x = true) :
    readInt (sp ++ (d :: ds) ++ x :: t) = (true, x :: t) := by
  have h0 := hd d (List.mem_cons_self _ _)
  obtain ⟨h1, h2, _⟩ := digit_not_sign d h0
  have hxd : isDigitChar x = false := by
    cases h : isDigitChar x
    · rfl
    · rw [digit_not_space x h] at hx; exact absurd hx (by decide)
  have hdrop : (sp ++ (d :: ds) ++ x :: t).dropWhile isSpaceChar = d :: (ds ++ x :: t) := by
    rw [List.append_assoc]
    exact (takeWhile_append_stop isSpaceChar sp d _ hsp (digit_not_space d h0)).2
  obtain ⟨ht, hdr⟩ := takeWhile_append_stop isDigitChar (d :: ds) x t hd hxd
  rw [List.cons_append] at ht hdr
  simp only [readInt, hdrop, readSign_other d (ds ++ x :: t) h1 h2, ht, hdr]
  simp

/-- Value `[-]<digits>[.<digits>]` after white space: what is read is the `double`
nearest to the number that the digits write. -/
theorem readDouble_value (sp2 ip fp frac tail : List Char) (neg : Bool)
    (hsp2 : ∀ c ∈ sp2, isSpaceChar c = true)
    (hne : ip ≠ []) (hip : ∀ c ∈ ip, isDigitChar c = true)
    (hfp : ∀ c ∈ fp, isDigitChar c = true)
    (hfrac : (frac = [] ∧ fp = []) ∨ frac = Char.ofNat 46 :: fp)
    (htail : tail = [] ∨ ∃ x t, tail = x :: t ∧ isSpaceChar x = true) :
    readDouble (sp2 ++ ((if neg then [Char.ofNat 45] else []) ++ ip ++ frac ++ tail))
      = nearestDouble neg (digitsValue (ip ++ fp)) (10 ^ fp.length) := by
  obtain ⟨d, ds, rfl⟩ := List.exists_cons_of_ne_nil hne
  have hd := hip d (List.mem_cons_self _ _)
  obtain ⟨hm, hp, _⟩ := digit_not_sign d hd
  have hsign : readSign ((sp2 ++ ((if neg then [Char.ofNat 45] else []) ++ (d :: ds) ++ frac
      ++ tail)).dropWhile isSpaceChar) = (neg, (d :: ds) ++ frac ++ tail) := by
    cases neg
    · have h0 := (takeWhile_append_stop isSpaceChar sp2 d (ds ++ frac ++ tail) hsp2
        (digit_not_space d hd)).2
      simp only [Bool.false_eq_true, if_false, List.nil_append, List.cons_append,
        List.append_assoc] at h0 ⊢
      rw [h0, readSign_other d _ hm hp]
    · have h0 := (takeWhile_append_stop isSpaceChar sp2 (Char.ofNat 45)
        ((d :: ds) ++ frac ++ tail) hsp2 (by decide)).2
      simp only [if_true, List.singleton_append, List.cons_append, List.append_assoc,
        List.nil_append] at h0 ⊢
      rw [h0]
      simp [readSign]
  have hmant : readMantExp ((d :: ds) ++ frac ++ tail)
      = some (digitsValue ((d :: ds) ++ fp), 0 - (fp.length : Int)) := by
    rcases hfrac with ⟨rfl, rfl⟩ | rfl
    · have := readMantExp_integer ds tail d hip htail
      simpa using this
    · have := readMantExp_fraction ds fp tail d hip hfp htail
      simpa [List.append_assoc] using this
  unfold readDouble
  rw [hsign]
  simp only [hmant]
  have e1 : (0 - (fp.length : Int)).toNat = 0 := by omega
  have e2 : (-(0 - (fp.length : Int))).toNat = fp.length := by omega
  rw [e1, e2, pow_zero, Nat.mul_one]

/-- Digits that fit into 53 binary digits, with an integer part within the range of
`int`: the sign and the digits before the point are what is left as an `int`. -/
theorem nearestDouble_digits (neg : Bool) (ip fp : List Char)
    (hfp : ∀ c ∈ fp, isDigitChar c = true)
    (h53 : digitsValue (ip ++ fp) < 2 ^ 53) (h31 : digitsValue ip < 2 ^ 31) :
    (nearestDouble neg (digitsValue (ip ++ fp)) (10 ^ fp.length)).toInt
      = some (if neg then -((digitsValue ip : Nat) : Int) else ((digitsValue ip : Nat) : Int)) := by
  have hdiv : digitsValue (ip ++ fp) / 10 ^ fp.length = digitsValue ip := by
    have hpos : 0 < 10 ^ fp.length := Nat.pow_pos (by decide)
    rw [digitsValue_append, Nat.add_comm, Nat.add_mul_div_right _ _ hpos,
      Nat.div_eq_of_lt (digitsValue_lt fp hfp), Nat.zero_add]
  rw [nearestDouble_toInt neg _ _ (Nat.pow_pos (by decide)) h53 (by rw [hdiv]; exact h31), hdiv]

/-- What the three extractions read from a line of the form `[<index>] <name> <value>`. -/
theorem solLine_read (line name : String) (neg : Bool) (ip fp : List Char)
    (h : IsSolLine line name neg ip fp) :
    lineName line = name ∧ name ≠ "" ∧
      lineIntVal line = (nearestDouble neg (digitsValue (ip ++ fp)) (10 ^ fp.length)).toInt := by
  obtain ⟨sp0, idx, sp1, sp2, frac, tail, hl, hsp0, hidx, hsp1, hsep, hname, ⟨c, cs, hcs, hcd, hc1,
    hc2⟩, hsp2ne, hsp2, hipne, hip, hfp, hfrac, htail⟩ := h
  obtain ⟨x, xs, rfl⟩ := List.exists_cons_of_ne_nil hsp2ne
  have hx := hsp2 x (List.mem_cons_self _ _)
  have hcsp : isSpaceChar c = false := hname c (by rw [hcs]; exact List.mem_cons_self _ _)
  -- the stream after the optional index
  have hint : ∃ sp, (∀ y ∈ sp, isSpaceChar y = true) ∧
      (readInt line.toList).2 = sp ++ name.toList ++ x :: (xs ++
        ((if neg then [Char.ofNat 45] else []) ++ ip ++ frac ++ tail)) := by
    rw [hl]
    cases idx with
    | nil =>
      refine ⟨[], by simp, ?_⟩
      have := readInt_spaces_word (sp0 ++ sp1) c (cs ++ x :: (xs ++
        ((if neg then [Char.ofNat 45] else []) ++ ip ++ frac ++ tail)))
        (fun y hy => by
          rcases List.mem_append.1 hy with h | h
          · exact hsp0 y h
          · exact hsp1 y h) hcsp hcd hc1 hc2
      simp only [hcs, List.append_nil, List.append_assoc, List.cons_append, List.nil_append]
        at this ⊢
      rw [this]
    | cons i is =>
      obtain ⟨y, ys, rfl⟩ := List.exists_cons_of_ne_nil (hsep (by simp))
      refine ⟨y :: ys, hsp1, ?_⟩
      have := readInt_spaces_digits sp0 i is y (ys ++ name.toList ++ x :: (xs ++
        ((if neg then [Char.ofNat 45] else []) ++ ip ++ frac ++ tail))) hsp0 hidx
        (hsp1 y (List.mem_cons_self _ _))
      simp only [List.append_assoc, List.cons_append, List.nil_append] at this ⊢
      rw [this]
  obtain ⟨sp, hsp, hrest⟩ := hint
  have hword := readWord_word sp name.toList x (xs ++
    ((if neg then [Char.ofNat 45] else []) ++ ip ++ frac ++ tail)) hsp hname
    (by rw [hcs]; simp) hx
  have hn : lineName line = name := by
    unfold lineName
    rw [hrest, hword]
    cases name
    rfl
  have hne : name ≠ "" := by
    intro h0
    rw [h0] at hcs
    exact absurd hcs (by simp)
  refine ⟨hn, hne, ?_⟩
  have hleft : ((x :: (xs ++ ((if neg then [Char.ofNat 45] else []) ++ ip ++ frac ++ tail))
      ).dropWhile isSpaceChar).isEmpty = false := by
    obtain ⟨d, ds, rfl⟩ := List.exists_cons_of_ne_nil hipne
    have hd := hip d (List.mem_cons_self _ _)
    cases neg
    · have h0 := (takeWhile_append_stop isSpaceChar (x :: xs) d (ds ++ frac ++ tail) hsp2
        (digit_not_space d hd)).2
      simp only [Bool.false_eq_true, if_false, List.nil_append, List.cons_append,
        List.append_assoc] at h0 ⊢
      rw [h0]
      rfl
    · have h0 := (takeWhile_append_stop isSpaceChar (x :: xs) (Char.ofNat 45)
        ((d :: ds) ++ frac ++ tail) hsp2 (by decide)).2
      simp only [if_true, List.singleton_append, List.cons_append, List.append_assoc,
        List.nil_append] at h0 ⊢
      rw [h0]
      rfl
  unfold lineIntVal
  simp only [hrest, hword, hleft, Bool.false_eq_true, if_false]
  have := readDouble_value (x :: xs) ip fp frac tail neg hsp2 hipne hip hfp hfrac htail
  simp only [List.append_assoc, List.cons_append] at this ⊢
  rw [this]

theorem lastFix_split (lp : Lp) (pre post : List String) (line : String) (j : Nat)
    (hj : j ≠ 0) (hl : lineCol lp line = j) (hpost : ∀ l2 ∈ post, lineCol lp l2 ≠ j) :
    lastFix lp (pre ++ line :: post) j = some line := by
  unfold lastFix
  rw [List.reverse_append, List.reverse_cons, List.append_assoc, List.find?_append]
  have h1 : post.reverse.find? (fun l => decide (j ≠ 0 ∧ lineCol lp l = j)) = none := by
    rw [List.find?_eq_none]
    intro x hx
    have := hpost x (List.mem_reverse.1 hx)
    simp [this]
  rw [h1]
  simp [hj, hl]

theorem lastFix_none (lp : Lp) (lines : List String) (j : Nat)
    (h : ∀ l ∈ lines, lineCol lp l ≠ j) : lastFix lp lines j = none := by
  unfold lastFix
  rw [List.find?_eq_none]
  intro x hx
  have := h x (List.mem_reverse.1 hx)
  simp [this]

/-- C19 with the conversions the program makes: `preSolveCoinCbc` skips the first line
of the file. A later line without a name, or with a value whose conversion to `int` is
undefined, leaves the whole run undefined. When every later line has a name and a
value that can be converted, the model itself stays as it is and each column `j` gets
the bounds of the last line that names it: a line of the form `<index> <name> <value>`
or `<name> <value>` whose name is that of column `j` fixes the bounds of `j` (type
`GLP_FX`, lower and upper bound) to the integer part of the value, with its sign, when
the digits of the value fit into 53 binary digits and the integer part lies in the range
of `int`; a column that no line names keeps its bounds. The value of such a line is read
as the nearest `double` and then converted, and a line whose name is not a column
changes nothing. -/
theorem preSolveCoinCbc_fixes_named_columns (m : Mip) (r : Int) (first : String)
    (lines : List String) :
    ((∃ l ∈ lines, lineIntVal l = none) →
      preSolveCoinCbc m { r := r, lines := first :: lines } = none) ∧
    ((∀ l ∈ lines, lineIntVal l ≠ none) →
      ∃ m2, preSolveCoinCbc m { r := r, lines := first :: lines } = some m2 ∧
        m2.bld = m.bld ∧
        (∀ j, m2.colBnds j = fixedBnds m.bld.lp lines m.colBnds j) ∧
        (∀ (pre post : List String) (line name : String) (neg : Bool) (ip fp : List Char)
            (j : Nat),
          lines = pre ++ line :: post → IsSolLine line name neg ip fp →
          digitsValue (ip ++ fp) < 2 ^ 53 → digitsValue ip < 2 ^ 31 →
          glp_find_col m.bld.lp name = j → j ≠ 0 → (∀ l2 ∈ post, lineCol m.bld.lp l2 ≠ j) →
          m2.colBnds j
            = some { typ := RowType.FX,
                     lb := if neg then -((digitsValue ip : Nat) : Int) else ((digitsValue ip : Nat) : Int),
                     ub := if neg then -((digitsValue ip : Nat) : Int) else ((digitsValue ip : Nat) : Int) }) ∧
        (∀ j, (∀ l ∈ lines, lineCol m.bld.lp l ≠ j) → m2.colBnds j = m.colBnds j)) ∧
    (∀ (line name : String) (neg : Bool) (ip fp : List Char), IsSolLine line name neg ip fp →
      lineName line = name ∧
      lineIntVal line = (nearestDouble neg (digitsValue (ip ++ fp)) (10 ^ fp.length)).toInt ∧
      (digitsValue (ip ++ fp) < 2 ^ 53 → digitsValue ip < 2 ^ 31 →
        lineIntVal line = some (if neg then -((digitsValue ip : Nat) : Int)
          else ((digitsValue ip : Nat) : Int)))) ∧
    (∀ (line : String) (v : Int), lineIntVal line = some v → lineCol m.bld.lp line = 0 →
      preSolveLine m line = some m) := by
  have hrun : preSolveCoinCbc m { r := r, lines := first :: lines }
      = lines.foldlM preSolveLine m := rfl
  have hread : ∀ (line name : String) (neg : Bool) (ip fp : List Char),
      IsSolLine line name neg ip fp → digitsValue (ip ++ fp) < 2 ^ 53 →
      digitsValue ip < 2 ^ 31 →
      lineIntVal line = some (if neg then -((digitsValue ip : Nat) : Int)
        else ((digitsValue ip : Nat) : Int)) := by
    intro line name neg ip fp hform h53 h31
    obtain ⟨_, _, hv⟩ := solLine_read line name neg ip fp hform
    have hfp : ∀ c ∈ fp, isDigitChar c = true := by
      obtain ⟨_, _, _, _, _, _, _, _, _, _, _, _, _, _, _, _, _, hfp, _⟩ := hform
      exact hfp
    rw [hv, nearestDouble_digits neg ip fp hfp h53 h31]
  rw [hrun]
  refine ⟨fun h => foldlM_preSolveLine_none lines h m, ?_, ?_, ?_⟩
  · intro hval
    obtain ⟨m2, h0, h1, h2⟩ := foldlM_preSolveLine lines hval m
    refine ⟨m2, h0, h1, h2, ?_, ?_⟩
    · intro pre post line name neg ip fp j hlines hform h53 h31 hcol hj hpost
      obtain ⟨hn, hne, _⟩ := solLine_read line name neg ip fp hform
      have hv := hread line name neg ip fp hform h53 h31
      have hlc : lineCol m.bld.lp line = j := by
        unfold lineCol
        rw [hn, if_neg hne, hcol]
      rw [h2 j, hlines]
      unfold fixedBnds
      rw [lastFix_split m.bld.lp pre post line j hj hlc hpost]
      simp only [hv]
      rfl
    · intro j hno
      rw [h2 j]
      unfold fixedBnds
      rw [lastFix_none m.bld.lp lines j hno]
  · intro line name neg ip fp hform
    obtain ⟨hn, _, hv⟩ := solLine_read line name neg ip fp hform
    exact ⟨hn, hv, hread line name neg ip fp hform⟩
  · intro line v hv h0
    obtain ⟨m2, h1, h2, h3⟩ := preSolveLine_some m line v hv
    have hcb : m2.colBnds = m.colBnds := by
      funext j
      rw [h3 j, h0]
      rw [if_neg (fun h => h.1 h.2.symm)]
    rw [h1]
    cases m2
    cases m
    simp only at h2 hcb
    rw [h2, hcb]

theorem preSolveCoinCbc_fixes_named_columns_witness :
    (mipOf bundleGraph).bld.lp.cols.map (fun c => c.name)
      = ["x_(6000,l=0x10,p=0)", "x_(6000,l=0x10,p=1)", "x_(6000,l=0x20,p=0)",
         "x_(6000,l=0x20,p=1)"] ∧
    IsSolLine "x_(6000,l=0x20,p=1) 0.75" "x_(6000,l=0x20,p=1)" false "0".toList "75".toList ∧
    glp_find_col (mipOf bundleGraph).bld.lp "x_(6000,l=0x20,p=1)" = 4 ∧
    ∃ m2, preSolveCoinCbc (mipOf bundleGraph) { r := 0, lines := sampleSolFile } = some m2 ∧
      m2.colBnds 4 = some { typ := RowType.FX, lb := 0, ub := 0 } := by
  have hform : IsSolLine "x_(6000,l=0x20,p=1) 0.75" "x_(6000,l=0x20,p=1)" false "0".toList
      "75".toList :=
    ⟨[], [], [], " ".toList, ".75".toList, [], by decide, by decide, by decide, by decide,
      by decide, by decide, ⟨Char.ofNat 120, "_(6000,l=0x20,p=1)".toList, by decide, by decide,
        by decide, by decide⟩, by decide, by decide, by decide, by decide, by decide,
      Or.inr (by decide), Or.inl rfl⟩
  refine ⟨by decide, hform, by decide, ?_⟩
  obtain ⟨m2, h0, _, _, h4, _⟩ := (preSolveCoinCbc_fixes_named_columns (mipOf bundleGraph) 0
    "Optimal - objective value 0.00000000"
    ["      0 x_(6000,l=0x10,p=0)              1                       0",
     "x_(6000,l=0x20,p=1) 0.75",
     "      7 y_unknown                        1                       0",
     "      1 x_(6000,l=0x10,p=1)             -2.5                     0"]).2.1 (by decide)
  exact ⟨m2, h0, h4
    ["      0 x_(6000,l=0x10,p=0)              1                       0"]
    ["      7 y_unknown                        1                       0",
     "      1 x_(6000,l=0x10,p=1)             -2.5                     0"]
    "x_(6000,l=0x20,p=1) 0.75" "x_(6000,l=0x20,p=1)" false "0".toList "75".toList 4 rfl hform
    (by decide) (by decide) (by decide) (by decide) (by decide)⟩

/-- C19 as stated fails for values that `double` or `int` cannot hold. The value
`0.99999999999999999999`, whose integer part is 0, is read as the `double` 1 and fixes
the column to 1; and for the value `2147483648`, which is not in the range of `int`, the
conversion and with it the run is undefined, so that the column is not fixed to that
value. -/
theorem preSolveCoinCbc_value_through_double :
    glp_find_col (mipOf bundleGraph).bld.lp "x_(6000,l=0x10,p=0)" = 1 ∧
    IsSolLine "x_(6000,l=0x10,p=0) 0.99999999999999999999" "x_(6000,l=0x10,p=0)" false
      "0".toList "99999999999999999999".toList ∧
    (preSolveCoinCbc (mipOf bundleGraph) { r := 0, lines :=
        ["Optimal - objective value 0.00000000",
         "x_(6000,l=0x10,p=0) 0.99999999999999999999"] }).bind (fun m2 => m2.colBnds 1)
      = some { typ := RowType.FX, lb := 1, ub := 1 } ∧
    IsSolLine "x_(6000,l=0x10,p=0) 2147483648" "x_(6000,l=0x10,p=0)" false
      "2147483648".toList [] ∧
    (preSolveCoinCbc (mipOf bundleGraph) { r := 0, lines :=
        ["Optimal - objective value 0.00000000",
         "x_(6000,l=0x10,p=0) 2147483648"] }).isNone = true := by
  refine ⟨by decide, ?_, by decide, ?_, by decide⟩
  · exact ⟨[], [], [], " ".toList, ".99999999999999999999".toList, [], by decide, by decide,
      by decide, by decide, by decide, by decide,
      ⟨Char.ofNat 120, "_(6000,l=0x10,p=0)".toList, by decide, by decide, by decide,
        by decide⟩, by decide, by decide, by decide, by decide, by decide,
      Or.inr (by decide), Or.inl rfl⟩
  · exact ⟨[], [], [], " ".toList, [], [], by decide, by decide,
      by decide, by decide, by decide, by decide,
      ⟨Char.ofNat 120, "_(6000,l=0x10,p=0)".toList, by decide, by decide, by decide,
        by decide⟩, by decide, by decide, by decide, by decide, by decide,
      Or.inl ⟨rfl, rfl⟩, Or.inl rfl⟩

/-- C13 as the program has it: `optimize` does not look at what the solver reports.
Replacing the return value of `glp_intopt` and the status of the MIP solution by any
others does not change the run; and whenever `optimize` returns, it returns 0, has
recorded the objective value the solver left and has set the configuration decoded
from the column values the solver left, on the model `createProblem` built. -/
theorem optimize_ignores_solver_report {P : Type} (env : Env P) (out : Outside) (cfg : Config)
    (tg : TransitGraph) (fuel : Nat) (st : GraphState) :
    (∀ (ret2 : Int) (status2 : MipStatus),
      optimize env { out with glp_intopt := fun m p =>
          { out.glp_intopt m p with ret := ret2, status := status2 } } cfg tg fuel st
        = optimize env out cfg tg fuel st) ∧
    (∀ (rv : Int) (st2 : GraphState), optimize env out cfg tg fuel st = some (rv, st2) →
      rv = 0 ∧ ∃ (b : Bld) (lp : Mip),
        createProblem env (out.optGraph cfg.createCoreOptimGraph) = some b ∧ lp.bld = b ∧
        getConfigurationFromSolution env b.lp (solveProblem out cfg lp).colVal
          (out.optGraph cfg.createCoreOptimGraph) tg fuel (fun _ => []) = some st2.config ∧
        st2.lastSolveTarget = (solveProblem out cfg lp).objVal) := by
  constructor
  · intro ret2 status2
    rfl
  · intro rv st2 h
    unfold optimize at h
    dsimp only at h
    cases hb : createProblem env (out.optGraph cfg.createCoreOptimGraph) with
    | none => simp [hb] at h
    | some b =>
      rw [hb] at h
      simp only [Option.bind_eq_bind, Option.some_bind] at h
      have key : ∃ lp : Mip, lp.bld = b ∧
          (getConfigurationFromSolution env lp.bld.lp (solveProblem out cfg lp).colVal
              (out.optGraph cfg.createCoreOptimGraph) tg fuel (fun _ => [])).bind
            (fun c => some ((0 : Int), GraphState.mk c (solveProblem out cfg lp).objVal))
            = some (rv, st2) := by
        split at h
        · cases hps : preSolveCoinCbc { bld := b, colBnds := fun _ => none }
              (out.system cfg.externalSolver b) with
          | none =>
            rw [hps] at h
            exact absurd h (by simp)
          | some lp =>
            rw [hps] at h
            simp only [Option.some_bind] at h
            unfold preSolveCoinCbc at hps
            exact ⟨lp, foldlM_preSolveLine_bld _ _ _ hps, h⟩
        · exact ⟨{ bld := b, colBnds := fun _ => none }, rfl, h⟩
      obtain ⟨lp, hlpb, h⟩ := key
      rw [hlpb] at h
      cases hc : getConfigurationFromSolution env b.lp (solveProblem out cfg lp).colVal
          (out.optGraph cfg.createCoreOptimGraph) tg fuel (fun _ => []) with
      | none =>
        rw [hc] at h
        exact absurd h (by simp)
      | some c =>
        rw [hc] at h
        have h2 : (0, ({ config := c, lastSolveTarget := (solveProblem out cfg lp).objVal }
            : GraphState)) = (rv, st2) := by simpa using h
        obtain ⟨h3, h4⟩ := Prod.mk.inj h2
        subst h4
        exact ⟨h3.symm, b, lp, rfl, hlpb, hc, rfl⟩

theorem optimize_ignores_solver_report_witness :
    optimize sampleEnv (sampleOutside soloGraph soloSolution) sampleConfig soloTransit 10
        { config := pairConfig, lastSolveTarget := 7 }
      = some (0, { config := OrderingConfig.set (fun _ => []) 51 [0], lastSolveTarget := 0 }) ∧
    ((0 : Int) = 0 ∧ ∃ (b : Bld) (lp : Mip),
      createProblem sampleEnv soloGraph = some b ∧ lp.bld = b ∧
      getConfigurationFromSolution sampleEnv b.lp
          (solveProblem (sampleOutside soloGraph soloSolution) sampleConfig lp).colVal
          soloGraph soloTransit 10 (fun _ => [])
        = some (OrderingConfig.set (fun _ => []) 51 [0]) ∧
      (0 : Int) = (solveProblem (sampleOutside soloGraph soloSolution) sampleConfig lp).objVal) :=
  ⟨by rfl,
    (optimize_ignores_solver_report sampleEnv (sampleOutside soloGraph soloSolution)
      sampleConfig soloTransit 10 { config := pairConfig, lastSolveTarget := 7 }).2 0
      { config := OrderingConfig.set (fun _ => []) 51 [0], lastSolveTarget := 0 } (by rfl)⟩

/-- C13 as stated fails. When the solver reports that there is no feasible solution
(nonzero return value, status `GLP_NOFEAS`, all column values zero), `optimize` still
goes on to decode: on the one-line network the run is aborted by the decoder's
assertion, so no value is returned; on a network without segments it returns 0 and has
replaced the configuration (edge 41 had the ordering `[0]` before) and the last solve
target. -/
theorem optimize_decodes_without_solution :
    noSolution.ret ≠ 0 ∧ noSolution.status = MipStatus.NOFEAS ∧
    (optimize sampleEnv (sampleOutside soloGraph noSolution) sampleConfig soloTransit 10
      { config := pairConfig, lastSolveTarget := 7 }).isNone = true ∧
    pairConfig 41 = [0] ∧
    (optimize sampleEnv (sampleOutside { getNodes := [] } noSolution) sampleConfig
      { getNodes := [] } 10 { config := pairConfig, lastSolveTarget := 7 }).map
        (fun p => (p.1, p.2.config 41, p.2.lastSolveTarget)) = some (0, [], 0) := by
  refine ⟨by decide, rfl, by decide, by decide, by decide⟩

/-- C20 as the program has it: the exit status of the external command goes to the log
only. The file is read whatever the status was, so the fixed bounds, and with them the
run of `optimize`, do not depend on it; the model stays unfixed when the file has no
line after the first (a file that could not be opened has no line at all). -/
theorem preSolveCoinCbc_ignores_exit_status {P : Type} (env : Env P) (out : Outside)
    (cfg : Config) (tg : TransitGraph) (fuel : Nat) (st : GraphState) (m : Mip)
    (r r2 : Int) (lines : List String) :
    preSolveCoinCbc m { r := r, lines := lines } = preSolveCoinCbc m { r := r2, lines := lines } ∧
    optimize env { out with system := fun cmd b => { out.system cmd b with r := r2 } }
        cfg tg fuel st = optimize env out cfg tg fuel st ∧
    (lines.length ≤ 1 → preSolveCoinCbc m { r := r, lines := lines } = some m) := by
  refine ⟨rfl, rfl, ?_⟩
  intro h
  unfold preSolveCoinCbc
  have : lines.drop 1 = [] := List.drop_eq_nil_of_le h
  simp only [this, List.foldlM_nil]
  rfl

theorem preSolveCoinCbc_ignores_exit_status_witness :
    ["Infeasible"].length ≤ 1 ∧
      preSolveCoinCbc (mipOf bundleGraph) { r := 256, lines := ["Infeasible"] }
        = some (mipOf bundleGraph) :=
  ⟨by decide,
    (preSolveCoinCbc_ignores_exit_status sampleEnv (sampleOutside bundleGraph noSolution)
      sampleConfig soloTransit 10 { config := pairConfig, lastSolveTarget := 7 }
      (mipOf bundleGraph) 256 0 ["Infeasible"]).2.2 (by decide)⟩

/-- C20 as stated fails: the command exits with a nonzero status and leaves a file with
solution lines; the columns named there are fixed all the same. -/
theorem preSolveCoinCbc_fixes_after_failure :
    ((256 : Int) ≠ 0) ∧
    (mipOf bundleGraph).colBnds 1 = none ∧
    (preSolveCoinCbc (mipOf bundleGraph) { r := 256, lines := sampleSolFile }).bind
        (fun m2 => m2.colBnds 1)
      = some { typ := RowType.FX, lb := 1, ub := 1 } ∧
    (preSolveCoinCbc (mipOf bundleGraph) { r := 256, lines := sampleSolFile }).bind
        (fun m2 => m2.colBnds 2)
      = some { typ := RowType.FX, lb := -2, ub := -2 } := by
  refine ⟨by decide, rfl, by decide, by decide⟩

theorem scaleCoef_zero (k : Int) : scaleCoef k 0 = 0 := by simp [scaleCoef]

theorem decisionObjCoef_scaled (k p : Int) (a b : Nat) :
    decisionObjCoef (k * p) a b = scaleCoef k (decisionObjCoef p a b) := by
  have hk : (0 : Int) ≤ k % 2 ^ 64 := Int.emod_nonneg _ (by norm_num)
  have hp : (0 : Int) ≤ p % 2 ^ 64 := Int.emod_nonneg _ (by norm_num)
  obtain ⟨K, hK⟩ := Int.eq_ofNat_of_zero_le hk
  obtain ⟨Q, hQ⟩ := Int.eq_ofNat_of_zero_le hp
  have hkp : ((k * p) % 2 ^ 64).toNat = (K * Q) % 2 ^ 64 := by
    have : (k * p) % 2 ^ 64 = (((K * Q) % 2 ^ 64 : Nat) : Int) := by
      rw [Int.mul_emod, hK, hQ]
      push_cast
      rfl
    rw [this, Int.toNat_ofNat]
  unfold decisionObjCoef scaleCoef
  rw [hkp, hK, hQ, Int.toNat_ofNat, Int.toNat_ofNat]
  generalize (a + 1) % 2 ^ 64 = A
  generalize (b + 1) % 2 ^ 64 = B
  have h1 : (K * Q % 2 ^ 64 * A % 2 ^ 64 * B) % 2 ^ 64 = (K * Q * A * B) % 2 ^ 64 := by
    rw [Nat.mul_mod (K * Q % 2 ^ 64 * A % 2 ^ 64) B, Nat.mod_mod,
      Nat.mul_mod (K * Q % 2 ^ 64) A, Nat.mod_mod, ← Nat.mul_mod (K * Q) A,
      ← Nat.mul_mod (K * Q * A) B]
  have h2 : (K * (Q * A % 2 ^ 64 * B % 2 ^ 64)) % 2 ^ 64 = (K * Q * A * B) % 2 ^ 64 := by
    rw [Nat.mul_mod K, Nat.mod_mod, Nat.mul_mod (Q * A % 2 ^ 64) B, Nat.mod_mod,
      ← Nat.mul_mod (Q * A) B, ← Nat.mul_mod K (Q * A * B)]
    congr 1
    ring
  rw [h1, h2]

theorem modifyAt_map {α : Type} (f f2 g : α → α) (h : ∀ x, g (f x) = f2 (g x)) :
    ∀ (n : Nat) (l : List α), (modifyAt f n l).map g = modifyAt f2 n (l.map g) := by
  intro n l
  induction l generalizing n with
  | nil => cases n <;> rfl
  | cons x xs ih =>
    cases n with
    | zero => simp [modifyAt, h]
    | succ n => simp [modifyAt, ih]

theorem modifyOrd_map {α : Type} (f f2 g : α → α) (h : ∀ x, g (f x) = f2 (g x)) (j : Nat)
    (l : List α) : (modifyOrd f j l).map g = modifyOrd f2 j (l.map g) := by
  unfold modifyOrd
  split
  · rfl
  · exact modifyAt_map f f2 g h _ _

theorem scaled_add_cols (k : Int) (lp : Lp) (n : Nat) :
    glp_add_cols (lp.scaled k) n = ((glp_add_cols lp n).1.scaled k, (glp_add_cols lp n).2) := by
  simp [glp_add_cols, Lp.scaled, Col.scaled, Col.fresh, scaleCoef_zero]

theorem scaled_add_rows (k : Int) (lp : Lp) (n : Nat) :
    glp_add_rows (lp.scaled k) n = ((glp_add_rows lp n).1.scaled k, (glp_add_rows lp n).2) := by
  simp [glp_add_rows, Lp.scaled]

theorem scaled_set_col_name (k : Int) (lp : Lp) (j : Nat) (name : String) :
    glp_set_col_name (lp.scaled k) j name = (glp_set_col_name lp j name).scaled k := by
  simp only [glp_set_col_name, Lp.scaled]
  rw [modifyOrd_map _ (fun c => { c with name := name }) (Col.scaled k) (fun _ => rfl)]

theorem scaled_set_col_kind (k : Int) (lp : Lp) (j : Nat) (kind : ColKind) :
    glp_set_col_kind (lp.scaled k) j kind = (glp_set_col_kind lp j kind).scaled k := by
  simp only [glp_set_col_kind, Lp.scaled]
  rw [modifyOrd_map _ (fun c => { c with kind := kind }) (Col.scaled k) (fun _ => rfl)]

theorem scaled_set_obj_coef (k : Int) (lp : Lp) (j : Nat) (c : Nat) :
    glp_set_obj_coef (lp.scaled k) j (scaleCoef k c) = (glp_set_obj_coef lp j c).scaled k := by
  simp only [glp_set_obj_coef, Lp.scaled]
  rw [modifyOrd_map _ (fun x => { x with objCoef := scaleCoef k c }) (Col.scaled k)
    (fun _ => rfl)]

theorem scaled_set_row_name (k : Int) (lp : Lp) (i : Nat) (name : String) :
    glp_set_row_name (lp.scaled k) i name = (glp_set_row_name lp i name).scaled k := rfl

theorem scaled_set_row_bnds (k : Int) (lp : Lp) (i : Nat) (typ : RowType) (lb ub : Int) :
    glp_set_row_bnds (lp.scaled k) i typ lb ub = (glp_set_row_bnds lp i typ lb ub).scaled k := rfl

theorem findNameFrom_scaled (k : Int) (name : String) (l : List Col) : ∀ n,
    findNameFrom name n (l.map (Col.scaled k)) = findNameFrom name n l := by
  induction l with
  | nil => intro n; rfl
  | cons c cs ih =>
    intro n
    simp only [List.map_cons, findNameFrom, Col.scaled, ih]

theorem scaled_find_col (k : Int) (lp : Lp) (name : String) :
    glp_find_col (lp.scaled k) name = glp_find_col lp name :=
  findNameFrom_scaled k name lp.cols 0

theorem foldlM_map_comm {α β : Type} (S : β → β) (f f2 : β → α → Option β)
    (h : ∀ b x, f2 (S b) x = (f b x).map S) (l : List α) :
    ∀ b, l.foldlM f2 (S b) = (l.foldlM f b).map S := by
  induction l with
  | nil => intro b; rfl
  | cons x xs ih =>
    intro b
    rw [List.foldlM_cons, List.foldlM_cons, h]
    cases hf : f b x with
    | none => rfl
    | some b2 => exact ih b2

theorem scaled_sameSegPosStep {P : Type} (env : Env P) (k : Int) (node : OptNode)
    (segmentA segmentB : OptEdge) (linepair : LinePair) (decisionVar : Nat) (b : Bld)
    (poscomb : PosComPair) :
    sameSegPosStep (env.scaled k) node segmentA segmentB linepair decisionVar (b.scaled k) poscomb
      = (sameSegPosStep env node segmentA segmentB linepair decisionVar b poscomb).map
          (Bld.scaled k) := by
  have hc : crosses (env.scaled k) node segmentA segmentB poscomb
      = crosses env node segmentA segmentB poscomb := rfl
  have hn : ∀ s r p, getILPVarName (env.scaled k) s r p = getILPVarName env s r p :=
    fun _ _ _ => rfl
  have hr : sameRowName (env.scaled k) node segmentA segmentB linepair poscomb
      = sameRowName env node segmentA segmentB linepair poscomb := rfl
  have hlp : (b.scaled k).lp = b.lp.scaled k := rfl
  unfold sameSegPosStep
  rw [hc]
  cases crosses env node segmentA segmentB poscomb with
  | none => rfl
  | some c =>
    cases c with
    | false => rfl
    | true =>
      simp only [Option.bind_eq_bind, Option.some_bind, if_true, hn, hr, hlp, scaled_find_col]
      split
      · rfl
      · rfl

theorem scaled_sameSegPartnerStep {P : Type} (env : Env P) (k : Int) (node : OptNode)
    (processed : List Nat) (segmentA : OptEdge) (linepair : LinePair) (b : Bld)
    (segmentB : OptEdge) :
    sameSegPartnerStep (env.scaled k) node processed segmentA linepair (b.scaled k) segmentB
      = (sameSegPartnerStep env node processed segmentA linepair b segmentB).map
          (Bld.scaled k) := by
  have hname : sameDecName (env.scaled k) node segmentA segmentB linepair
      = sameDecName env node segmentA segmentB linepair := rfl
  have hpen : (env.scaled k).getCrossingPenaltySameSeg node.node
      = k * env.getCrossingPenaltySameSeg node.node := rfl
  have hlp : (b.scaled k).lp = b.lp.scaled k := rfl
  have hvm : (b.scaled k).vm = b.vm := rfl
  unfold sameSegPartnerStep
  split
  · rfl
  · simp only [hname, hpen, hlp, hvm, scaled_add_cols, decisionObjCoef_scaled,
      scaled_set_col_name, scaled_set_col_kind, scaled_set_obj_coef]
    exact foldlM_map_comm (Bld.scaled k) _ _
      (fun b2 x => scaled_sameSegPosStep env k node segmentA segmentB linepair _ b2 x) _
      { lp := _, vm := b.vm }

theorem scaled_sameSegLineStep {P : Type} (env : Env P) (k : Int) (node : OptNode)
    (processed : List Nat) (segmentA : OptEdge) (b : Bld) (linepair : LinePair) :
    sameSegLineStep (env.scaled k) node processed segmentA (b.scaled k) linepair
      = (sameSegLineStep env node processed segmentA b linepair).map (Bld.scaled k) := by
  have hp : getEdgePartners (env.scaled k) node segmentA linepair
      = getEdgePartners env node segmentA linepair := rfl
  unfold sameSegLineStep
  rw [hp]
  cases getEdgePartners env node segmentA linepair with
  | none => rfl
  | some partners =>
    exact foldlM_map_comm (Bld.scaled k) _ _
      (fun b2 x => scaled_sameSegPartnerStep env k node processed segmentA linepair b2 x) _ b

theorem scaled_sameSegStep {P : Type} (env : Env P) (k : Int) (node : OptNode)
    (st : List Nat × Bld) (segmentA : OptEdge) :
    sameSegStep (env.scaled k) node (st.1, st.2.scaled k) segmentA
      = (sameSegStep env node st segmentA).map (fun s => (s.1, s.2.scaled k)) := by
  unfold sameSegStep
  have := foldlM_map_comm (Bld.scaled k) _ _
    (fun b2 x => scaled_sameSegLineStep env k node (segmentA.addr :: st.1) segmentA b2 x)
    (getLinePairs segmentA) st.2
  simp only [Option.bind_eq_bind]
  rw [this]
  cases (getLinePairs segmentA).foldlM
      (sameSegLineStep env node (segmentA.addr :: st.1) segmentA) st.2 with
  | none => rfl
  | some b2 => rfl

theorem scaled_sameSegNodeStep {P : Type} (env : Env P) (k : Int) (b : Bld) (node : OptNode) :
    sameSegNodeStep (env.scaled k) (b.scaled k) node
      = (sameSegNodeStep env b node).map (Bld.scaled k) := by
  unfold sameSegNodeStep
  have := foldlM_map_comm (fun s : List Nat × Bld => (s.1, s.2.scaled k)) _ _
    (fun st x => scaled_sameSegStep env k node st x) node.adjList ([], b)
  simp only [Option.bind_eq_bind]
  rw [this]
  cases node.adjList.foldlM (sameSegStep env node) ([], b) with
  | none => rfl
  | some st => rfl

theorem scaled_writeSameSegConstraints {P : Type} (env : Env P) (k : Int) (g : OptGraph)
    (b : Bld) :
    writeSameSegConstraints (env.scaled k) g (b.scaled k)
      = (writeSameSegConstraints env g b).map (Bld.scaled k) :=
  foldlM_map_comm (Bld.scaled k) _ _ (fun b2 x => scaled_sameSegNodeStep env k b2 x) _ b

theorem scaled_crossesDiffSearch {P : Type} (env : Env P) (k : Int) (node : OptNode)
    (segments : EdgePair) (otherWayB otherWayC : Bool) (cardB cardC : Nat) (aInA bInA : P)
    (l : List (Nat × Nat)) :
    crossesDiffSearch (env.scaled k) node segments otherWayB otherWayC cardB cardC aInA bInA l
      = crossesDiffSearch env node segments otherWayB otherWayC cardB cardC aInA bInA l := by
  induction l with
  | nil => rfl
  | cons x more ih =>
    obtain ⟨i, j⟩ := x
    have hg : ∀ s p, getPos (env.scaled k) node s p = getPos env node s p := fun _ _ => rfl
    simp only [crossesDiffSearch, hg, ih]
    rfl

theorem scaled_crossesDiff {P : Type} (env : Env P) (k : Int) (node : OptNode)
    (segmentA : OptEdge) (segments : EdgePair) (poscomb : PosCom) :
    crossesDiff (env.scaled k) node segmentA segments poscomb
      = crossesDiff env node segmentA segments poscomb := by
  have hg : ∀ s p, getPos (env.scaled k) node s p = getPos env node s p := fun _ _ => rfl
  simp only [crossesDiff, hg, scaled_crossesDiffSearch]

theorem scaled_diffSegPosStep {P : Type} (env : Env P) (k : Int) (node : OptNode)
    (segmentA : OptEdge) (segments : EdgePair) (linepair : LinePair) (decisionVar : Nat)
    (b : Bld) (poscomb : PosCom) :
    diffSegPosStep (env.scaled k) node segmentA segments linepair decisionVar (b.scaled k) poscomb
      = (diffSegPosStep env node segmentA segments linepair decisionVar b poscomb).map
          (Bld.scaled k) := by
  have hc : crossesDiff (env.scaled k) node segmentA segments poscomb
      = crossesDiff env node segmentA segments poscomb :=
    scaled_crossesDiff env k node segmentA segments poscomb
  have hn : ∀ s r p, getILPVarName (env.scaled k) s r p = getILPVarName env s r p :=
    fun _ _ _ => rfl
  have hr : diffRowName (env.scaled k) node segmentA segments linepair poscomb
      = diffRowName env node segmentA segments linepair poscomb := rfl
  have hlp : (b.scaled k).lp = b.lp.scaled k := rfl
  unfold diffSegPosStep
  rw [hc]
  cases crossesDiff env node segmentA segments poscomb with
  | none => rfl
  | some c =>
    cases c with
    | false => rfl
    | true =>
      simp only [Option.bind_eq_bind, Option.some_bind, if_true, hn, hr, hlp, scaled_find_col]
      split
      · rfl
      · rfl

theorem scaled_diffSegPartnerStep {P : Type} (env : Env P) (k : Int) (node : OptNode)
    (segmentA : OptEdge) (linepair : LinePair) (b : Bld) (segments : EdgePair) :
    diffSegPartnerStep (env.scaled k) node segmentA linepair (b.scaled k) segments
      = (diffSegPartnerStep env node segmentA linepair b segments).map (Bld.scaled k) := by
  have hname : diffDecName (env.scaled k) node segmentA segments linepair
      = diffDecName env node segmentA segments linepair := rfl
  have hpen : (env.scaled k).getCrossingPenaltyDiffSeg node.node
      = k * env.getCrossingPenaltyDiffSeg node.node := rfl
  have hlp : (b.scaled k).lp = b.lp.scaled k := rfl
  have hvm : (b.scaled k).vm = b.vm := rfl
  unfold diffSegPartnerStep
  simp only [hname, hpen, hlp, hvm, scaled_add_cols, decisionObjCoef_scaled,
    scaled_set_col_name, scaled_set_col_kind, scaled_set_obj_coef]
  exact foldlM_map_comm (Bld.scaled k) _ _
    (fun b2 x => scaled_diffSegPosStep env k node segmentA segments linepair _ b2 x) _
    { lp := _, vm := b.vm }

theorem scaled_diffSegLineStep {P : Type} (env : Env P) (k : Int) (node : OptNode)
    (segmentA : OptEdge) (b : Bld) (linepair : LinePair) :
    diffSegLineStep (env.scaled k) node segmentA (b.scaled k) linepair
      = (diffSegLineStep env node segmentA b linepair).map (Bld.scaled k) := by
  have hp : getEdgePartnerPairs (env.scaled k) node segmentA linepair
      = getEdgePartnerPairs env node segmentA linepair := rfl
  unfold diffSegLineStep
  rw [hp]
  cases getEdgePartnerPairs env node segmentA linepair with
  | none => rfl
  | some pairs =>
    exact foldlM_map_comm (Bld.scaled k) _ _
      (fun b2 x => scaled_diffSegPartnerStep env k node segmentA linepair b2 x) _ b

theorem scaled_writeDiffSegConstraints {P : Type} (env : Env P) (k : Int) (g : OptGraph)
    (b : Bld) :
    writeDiffSegConstraints (env.scaled k) g (b.scaled k)
      = (writeDiffSegConstraints env g b).map (Bld.scaled k) := by
  unfold writeDiffSegConstraints
  refine foldlM_map_comm (Bld.scaled k) _ _ (fun b2 node => ?_) _ b
  refine foldlM_map_comm (Bld.scaled k) _ _ (fun b3 segmentA => ?_) _ b2
  unfold diffSegStep
  exact foldlM_map_comm (Bld.scaled k) _ _
    (fun b4 x => scaled_diffSegLineStep env k node segmentA b4 x) _ b3

theorem scaled_of_zero (k : Int) (b : Bld) (h : ∀ x ∈ b.lp.cols, x.objCoef = 0) :
    b.scaled k = b := by
  have hcols : b.lp.cols.map (Col.scaled k) = b.lp.cols := by
    conv_rhs => rw [← List.map_id b.lp.cols]
    apply List.map_congr_left
    intro x hx
    simp [Col.scaled, h x hx, scaleCoef_zero]
    rw [← h x hx]
  cases b with
  | mk lp vm =>
    cases lp with
    | mk cols rows =>
      simp only [Bld.scaled, Lp.scaled] at hcols ⊢
      rw [hcols]

/-- Multiplying both penalties by `k` multiplies every objective coefficient of the
model by `k` and changes nothing else. -/
theorem createProblem_scaled {P : Type} (env : Env P) (k : Int) (g : OptGraph) :
    createProblem (env.scaled k) g = (createProblem env g).map (Bld.scaled k) := by
  have h0 : addSegments (env.scaled k) g Bld.init = addSegments env g Bld.init := rfl
  have hz : (addSegments env g Bld.init).scaled k = addSegments env g Bld.init := by
    apply scaled_of_zero
    rw [(addSegments_spec env g).1]
    exact assignCols_objCoef env g.segments
  unfold createProblem
  simp only [Option.bind_eq_bind]
  rw [h0]
  conv_lhs => rw [← hz]
  rw [scaled_writeSameSegConstraints]
  cases writeSameSegConstraints env g (addSegments env g Bld.init) with
  | none => rfl
  | some b => exact scaled_writeDiffSegConstraints env k g b

theorem unit_created : createProblem unitEnv tightGraph = some unitModel := by
  have h : (createProblem unitEnv tightGraph).isSome = true := by decide
  obtain ⟨b, hb⟩ := Option.isSome_iff_exists.1 h
  simp [unitModel, hb]

theorem tight_created (pen : Int) :
    createProblem (tightEnv pen) tightGraph = some (tightModel pen) ∧
      tightModel pen = unitModel.scaled pen := by
  have h : createProblem (tightEnv pen) tightGraph = some (unitModel.scaled pen) := by
    unfold tightEnv
    rw [createProblem_scaled, unit_created]
    rfl
  refine ⟨?_, ?_⟩
  · rw [h]; simp [tightModel, h]
  · simp [tightModel, h]

theorem unit_entries :
    unitModel.vm.entries
      = [⟨3, 1, 1⟩, ⟨1, 1, 1⟩, ⟨3, 2, 1⟩, ⟨2, 2, 1⟩, ⟨4, 3, 1⟩, ⟨1, 3, 1⟩, ⟨4, 4, 1⟩, ⟨2, 4, 1⟩,
         ⟨7, 5, 1⟩, ⟨5, 5, 1⟩, ⟨7, 6, 1⟩, ⟨6, 6, 1⟩, ⟨8, 7, 1⟩, ⟨5, 7, 1⟩, ⟨8, 8, 1⟩, ⟨6, 8, 1⟩,
         ⟨9, 1, 1⟩, ⟨9, 4, 1⟩, ⟨9, 5, 1⟩, ⟨9, 8, 1⟩, ⟨9, 9, -1⟩,
         ⟨10, 1, 1⟩, ⟨10, 4, 1⟩, ⟨10, 6, 1⟩, ⟨10, 7, 1⟩, ⟨10, 9, -1⟩,
         ⟨11, 2, 1⟩, ⟨11, 3, 1⟩, ⟨11, 5, 1⟩, ⟨11, 8, 1⟩, ⟨11, 9, -1⟩,
         ⟨12, 2, 1⟩, ⟨12, 3, 1⟩, ⟨12, 6, 1⟩, ⟨12, 7, 1⟩, ⟨12, 9, -1⟩,
         ⟨13, 3, 1⟩, ⟨13, 2, 1⟩, ⟨13, 7, 1⟩, ⟨13, 6, 1⟩, ⟨13, 10, -1⟩,
         ⟨14, 3, 1⟩, ⟨14, 2, 1⟩, ⟨14, 8, 1⟩, ⟨14, 5, 1⟩, ⟨14, 10, -1⟩,
         ⟨15, 4, 1⟩, ⟨15, 1, 1⟩, ⟨15, 7, 1⟩, ⟨15, 6, 1⟩, ⟨15, 10, -1⟩,
         ⟨16, 4, 1⟩, ⟨16, 1, 1⟩, ⟨16, 8, 1⟩, ⟨16, 5, 1⟩, ⟨16, 10, -1⟩] := by decide

theorem unit_row_kinds :
    unitModel.lp.rows.map (fun r => (r.typ, r.lb, r.ub))
      = List.replicate 8 (RowType.FX, 1, 1) ++ List.replicate 8 (RowType.UP, 0, 3) := by decide

theorem unit_coefs :
    unitModel.lp.cols.map (fun c => c.objCoef) = [0, 0, 0, 0, 0, 0, 0, 0, 1, 1] := by decide

theorem row_fact (m : Bld) (v : Nat → Int) (i : Nat) (t : RowType × Int × Int)
    (hrow : (m.lp.rows.map (fun r => (r.typ, r.lb, r.ub)))[i - 1]? = some t)
    (hs : m.rowSatisfied v i) :
    Row.holds { name := "", typ := t.1, lb := t.2.1, ub := t.2.2 }
      (rowActivity v m.vm.entries i) := by
  obtain ⟨r, _, hr, hh⟩ := (rowSatisfied_iff m v i).1 hs
  rw [List.getElem?_map, hr] at hrow
  simp only [Option.map_some', Option.some.injEq] at hrow
  subst hrow
  exact hh

theorem objectiveFrom_coefs (v : Nat → Int) (l1 : List Col) : ∀ (l2 : List Col) (n : Nat),
    l1.map (fun c => c.objCoef) = l2.map (fun c => c.objCoef) →
      objectiveFrom v n l1 = objectiveFrom v n l2 := by
  induction l1 with
  | nil =>
    intro l2 n h
    cases l2 with
    | nil => rfl
    | cons c cs => simp at h
  | cons a as ih =>
    intro l2 n h
    cases l2 with
    | nil => simp at h
    | cons c cs =>
      simp only [List.map_cons, List.cons.injEq] at h
      simp only [objectiveFrom, h.1, ih cs (n + 1) h.2]

theorem unit_row_arith (v : Nat → Int) (i : Nat) (t : RowType × Int × Int)
    (hrow : (unitModel.lp.rows.map (fun r => (r.typ, r.lb, r.ub)))[i - 1]? = some t)
    (hs : unitModel.rowSatisfied v i) :
    Row.holds { name := "", typ := t.1, lb := t.2.1, ub := t.2.2 }
      (((rowEntries unitModel.vm.entries i).map (fun en => en.val * v en.col)).sum) :=
  row_fact unitModel v i t hrow hs

/-- Every solution of the forced-crossing model has both decision columns at one. -/
theorem tight_forced (v : Nat → Int)
    (hbin : ∀ j, 0 < j → j ≤ 10 → IsBin v j)
    (hrows : ∀ i, 0 < i → i ≤ 16 → unitModel.rowSatisfied v i) :
    v 9 = 1 ∧ v 10 = 1 := by
  have b1 := hbin 1 (by decide) (by decide)
  have b2 := hbin 2 (by decide) (by decide)
  have b3 := hbin 3 (by decide) (by decide)
  have b4 := hbin 4 (by decide) (by decide)
  have b5 := hbin 5 (by decide) (by decide)
  have b6 := hbin 6 (by decide) (by decide)
  have b7 := hbin 7 (by decide) (by decide)
  have b8 := hbin 8 (by decide) (by decide)
  have b9 := hbin 9 (by decide) (by decide)
  have b10 := hbin 10 (by decide) (by decide)
  have r1 := unit_row_arith v 1 (RowType.FX, 1, 1) (by rw [unit_row_kinds]; rfl)
    (hrows 1 (by decide) (by decide))
  have r2 := unit_row_arith v 2 (RowType.FX, 1, 1) (by rw [unit_row_kinds]; rfl)
    (hrows 2 (by decide) (by decide))
  have r5 := unit_row_arith v 5 (RowType.FX, 1, 1) (by rw [unit_row_kinds]; rfl)
    (hrows 5 (by decide) (by decide))
  have r6 := unit_row_arith v 6 (RowType.FX, 1, 1) (by rw [unit_row_kinds]; rfl)
    (hrows 6 (by decide) (by decide))
  have r3 := unit_row_arith v 3 (RowType.FX, 1, 1) (by rw [unit_row_kinds]; rfl)
    (hrows 3 (by decide) (by decide))
  have r4 := unit_row_arith v 4 (RowType.FX, 1, 1) (by rw [unit_row_kinds]; rfl)
    (hrows 4 (by decide) (by decide))
  have r7 := unit_row_arith v 7 (RowType.FX, 1, 1) (by rw [unit_row_kinds]; rfl)
    (hrows 7 (by decide) (by decide))
  have r8 := unit_row_arith v 8 (RowType.FX, 1, 1) (by rw [unit_row_kinds]; rfl)
    (hrows 8 (by decide) (by decide))
  have r9 := unit_row_arith v 9 (RowType.UP, 0, 3) (by rw [unit_row_kinds]; rfl)
    (hrows 9 (by decide) (by decide))
  have r10 := unit_row_arith v 10 (RowType.UP, 0, 3) (by rw [unit_row_kinds]; rfl)
    (hrows 10 (by decide) (by decide))
  have r11 := unit_row_arith v 11 (RowType.UP, 0, 3) (by rw [unit_row_kinds]; rfl)
    (hrows 11 (by decide) (by decide))
  have r12 := unit_row_arith v 12 (RowType.UP, 0, 3) (by rw [unit_row_kinds]; rfl)
    (hrows 12 (by decide) (by decide))
  have r13 := unit_row_arith v 13 (RowType.UP, 0, 3) (by rw [unit_row_kinds]; rfl)
    (hrows 13 (by decide) (by decide))
  have r14 := unit_row_arith v 14 (RowType.UP, 0, 3) (by rw [unit_row_kinds]; rfl)
    (hrows 14 (by decide) (by decide))
  have r15 := unit_row_arith v 15 (RowType.UP, 0, 3) (by rw [unit_row_kinds]; rfl)
    (hrows 15 (by decide) (by decide))
  have r16 := unit_row_arith v 16 (RowType.UP, 0, 3) (by rw [unit_row_kinds]; rfl)
    (hrows 16 (by decide) (by decide))
  rw [unit_entries] at r1 r2 r3 r4 r5 r6 r7 r8 r9 r10 r11 r12 r13 r14 r15 r16
  simp [Row.holds, rowEntries] at r1 r2 r3 r4 r5 r6 r7 r8 r9 r10 r11 r12 r13 r14 r15 r16
  unfold IsBin at b1 b2 b3 b4 b5 b6 b7 b8 b9 b10
  constructor <;> omega

theorem scaleCoef_one (pen : Int) (h0 : 0 ≤ pen) (hlt : pen < 2 ^ 53) :
    ((scaleCoef pen 1 : Nat) : Int) = pen := by
  obtain ⟨n, rfl⟩ := Int.eq_ofNat_of_zero_le h0
  have hn : n < 2 ^ 53 := by exact_mod_cast hlt
  have hmod : ((n : Int) % 2 ^ 64).toNat = n % 2 ^ 64 := by
    have : ((n : Int) % 2 ^ 64) = ((n % 2 ^ 64 : Nat) : Int) := by push_cast; rfl
    rw [this, Int.toNat_ofNat]
  unfold scaleCoef
  rw [hmod, Nat.mul_one, Nat.mod_mod, Nat.mod_eq_of_lt (by omega)]

theorem tight_objective (pen : Int) (v : Nat → Int) :
    (unitModel.scaled pen).objective v
      = (scaleCoef pen 1 : Nat) * v 9 + (scaleCoef pen 1 : Nat) * v 10 := by
  have hc : ((unitModel.scaled pen).lp.cols).map (fun c => c.objCoef)
      = ((List.replicate 8 ({ name := "", kind := ColKind.BV, objCoef := 0 } : Col))
          ++ ([{ name := "", kind := ColKind.BV, objCoef := scaleCoef pen 1 },
              { name := "", kind := ColKind.BV, objCoef := scaleCoef pen 1 }] : List Col)).map
          (fun c => c.objCoef) := by
    have h1 : ((unitModel.scaled pen).lp.cols).map (fun c => c.objCoef)
        = (unitModel.lp.cols.map (fun c => c.objCoef)).map (scaleCoef pen) := by
      simp [Bld.scaled, Lp.scaled, Col.scaled, List.map_map, Function.comp_def]
    rw [h1, unit_coefs]
    simp [scaleCoef_zero, List.replicate]
  unfold Bld.objective
  rw [objectiveFrom_coefs v _ _ 0 hc]
  simp [objectiveFrom, List.replicate]

theorem scaled_rowSatisfied (k : Int) (b : Bld) (v : Nat → Int) (i : Nat) :
    (b.scaled k).rowSatisfied v i ↔ b.rowSatisfied v i := Iff.rfl

theorem scaled_rows_length (k : Int) (b : Bld) :
    (b.scaled k).lp.rows.length = b.lp.rows.length := rfl

theorem tight_solutions (pen : Int) (h0 : 0 ≤ pen) (hlt : pen < 2 ^ 53) :
    (tightModel pen).Feasible tightValuation ∧
      ∀ v, (tightModel pen).Feasible v →
        v 9 = 1 ∧ v 10 = 1 ∧ (tightModel pen).objective v = 2 * pen := by
  rw [(tight_created pen).2]
  have hcols : (unitModel.scaled pen).lp.cols.length = 10 := by
    show (unitModel.lp.cols.map (Col.scaled pen)).length = 10
    rw [List.length_map]
    decide
  have hrowsl : (unitModel.scaled pen).lp.rows.length = 16 := by
    rw [scaled_rows_length]
    decide
  have hsat : ∀ v i, (unitModel.scaled pen).rowSatisfied v i ↔ unitModel.rowSatisfied v i :=
    fun v i => scaled_rowSatisfied pen unitModel v i
  constructor
  · constructor
    · intro j _ _
      unfold IsBin tightValuation
      split
      · exact Or.inr rfl
      · exact Or.inl rfl
    · intro i hi hle
      rw [hrowsl] at hle
      rw [hsat]
      interval_cases i <;> decide
  · intro v hv
    have hf := tight_forced v (fun j hj hle => hv.1 j hj (by rw [hcols]; exact hle))
      (fun i hi hle => (hsat v i).1 (hv.2 i hi (by rw [hrowsl]; exact hle)))
    refine ⟨hf.1, hf.2, ?_⟩
    rw [tight_objective, hf.1, hf.2, scaleCoef_one pen h0 hlt]
    ring

/-- C15 as the program has it. Scenario: the node `x` has the two incident segments A
and B; both carry exactly the lines A and C, which have no collapsed partners and
continue across `x`; the crossing penalty of `x` is `pen`, and the predicate holds for
every position combination, so that the crossing cannot be avoided. The model has one
decision column for the pair (A, C) and one for (C, A); every solution has both at one,
so the model has optimal solutions and every optimal solution has the objective value
`2 * crossPenSame(x)`. -/
theorem forced_crossing_objective (pen : Int) (h0 : 0 ≤ pen) (hlt : pen < 2 ^ 53) :
    createProblem (tightEnv pen) tightGraph = some (tightModel pen) ∧
    (tightEnv pen).getCrossingPenaltySameSeg tightNodeX.node = pen ∧
    tightNodeX.adjList = [tightSegA, tightSegB] ∧
    getLinePairs tightSegA = [(lineA, lineC), (lineC, lineA)] ∧
    getEdgePartners (tightEnv pen) tightNodeX tightSegA (lineA, lineC) = some [tightSegB] ∧
    (∀ pc ∈ getPositionCombinations2 tightSegA tightSegB,
      crosses (tightEnv pen) tightNodeX tightSegA tightSegB pc = some true) ∧
    (∃ v, (tightModel pen).Optimal v) ∧
    ∀ v, (tightModel pen).Optimal v →
      v 9 = 1 ∧ v 10 = 1 ∧
      (tightModel pen).objective v
        = 2 * (tightEnv pen).getCrossingPenaltySameSeg tightNodeX.node := by
  obtain ⟨hfeas, hall⟩ := tight_solutions pen h0 hlt
  have hpen : (tightEnv pen).getCrossingPenaltySameSeg tightNodeX.node = pen := by
    simp [tightEnv, Env.scaled, unitEnv]
  have hpart : getEdgePartners (tightEnv pen) tightNodeX tightSegA (lineA, lineC)
      = getEdgePartners unitEnv tightNodeX tightSegA (lineA, lineC) := rfl
  have hcr : ∀ pc, crosses (tightEnv pen) tightNodeX tightSegA tightSegB pc
      = crosses unitEnv tightNodeX tightSegA tightSegB pc := fun _ => rfl
  refine ⟨(tight_created pen).1, hpen, rfl, by decide, ?_, ?_, ?_, ?_⟩
  · rw [hpart]; decide
  · intro pc hpc
    rw [hcr]
    revert pc
    decide
  · refine ⟨tightValuation, hfeas, fun w hw => ?_⟩
    rw [(hall _ hfeas).2.2, (hall w hw).2.2]
  · intro v hv
    obtain ⟨h9, h10, hobj⟩ := hall v hv.1
    exact ⟨h9, h10, by rw [hobj, hpen]⟩

theorem forced_crossing_objective_witness :
    (0 : Int) ≤ 4 ∧ (4 : Int) < 2 ^ 53 ∧
    (tightEnv 4).getCrossingPenaltySameSeg tightNodeX.node = 4 ∧
    (∃ v, (tightModel 4).Optimal v) ∧
    ∀ v, (tightModel 4).Optimal v →
      v 9 = 1 ∧ v 10 = 1 ∧
      (tightModel 4).objective v = 2 * (tightEnv 4).getCrossingPenaltySameSeg tightNodeX.node :=
  ⟨by decide, by decide,
    (forced_crossing_objective 4 (by decide) (by decide)).2.1,
    (forced_crossing_objective 4 (by decide) (by decide)).2.2.2.2.2.2.1,
    (forced_crossing_objective 4 (by decide) (by decide)).2.2.2.2.2.2.2⟩

/-- C15 as stated fails: in the forced-crossing scenario with penalty 4 the valuation
with both decision columns at one is an optimal solution, and its objective value is
8, not `crossPenSame(x) = 4`. -/
theorem forced_crossing_costs_twice :
    (tightEnv 4).getCrossingPenaltySameSeg tightNodeX.node = 4 ∧
    (tightModel 4).lp.cols.map (fun c => c.objCoef) = [0, 0, 0, 0, 0, 0, 0, 0, 4, 4] ∧
    (tightModel 4).Optimal tightValuation ∧
    (tightModel 4).objective tightValuation = 8 ∧
    (tightModel 4).objective tightValuation
      ≠ (tightEnv 4).getCrossingPenaltySameSeg tightNodeX.node := by
  obtain ⟨hfeas, hall⟩ := tight_solutions 4 (by decide) (by decide)
  have hobj : (tightModel 4).objective tightValuation = 8 := by
    rw [(hall _ hfeas).2.2]; rfl
  refine ⟨by decide, by decide, ⟨hfeas, fun w hw => ?_⟩, hobj, ?_⟩
  · rw [(hall _ hfeas).2.2, (hall w hw).2.2]
  · rw [hobj]; decide

theorem glpkArrsLoop_append (vm : VariableMatrix) (l1 l2 : List Nat) :
    ∀ arrs, glpkArrsLoop vm (l1 ++ l2) arrs = (glpkArrsLoop vm l1 arrs).bind (glpkArrsLoop vm l2) := by
  induction l1 with
  | nil => intro arrs; rfl
  | cons i more ih =>
    intro arrs
    simp only [List.cons_append, glpkArrsLoop]
    split
    · exact ih _
    · rfl

/-- Array with the slots `1, ..., j` filled from `x` and `n + 1` slots in all. -/
theorem set_filled {α : Type} (x : List α) (n j : Nat) (v : α) (hn : x.length = n) (hj : j < n)
    (hv : x[j]? = some v) :
    (none :: ((x.take j).map some ++ List.replicate (n - j) none)).set (j + 1) (some v)
      = none :: ((x.take (j + 1)).map some ++ List.replicate (n - (j + 1)) none) := by
  have hlen : ((x.take j).map some).length = j := by
    rw [List.length_map, List.length_take, hn]; omega
  have hrep : List.replicate (n - j) (none : Option α)
      = none :: List.replicate (n - (j + 1)) none := by
    rw [show n - j = (n - (j + 1)) + 1 by omega, List.replicate_succ]
  have htake : x.take (j + 1) = x.take j ++ [v] := by
    rw [List.take_succ, hv]; rfl
  rw [List.set_cons_succ, hrep, htake, List.map_append, List.append_assoc]
  congr 1
  rw [List.set_append_right _ _ (by rw [hlen]), hlen, Nat.sub_self]
  rfl

theorem glpkArrsLoop_filled (vm : VariableMatrix) (n : Nat) (h0 : vm.rowNum.length = n)
    (h1 : vm.colNum.length = n) (h2 : vm.vals.length = n) : ∀ j, j ≤ n →
    glpkArrsLoop vm ((List.range j).map (fun i => i + 1))
        (List.replicate (n + 1) none, List.replicate (n + 1) none, List.replicate (n + 1) none)
      = some (none :: ((vm.rowNum.take j).map some ++ List.replicate (n - j) none),
              none :: ((vm.colNum.take j).map some ++ List.replicate (n - j) none),
              none :: ((vm.vals.take j).map some ++ List.replicate (n - j) none)) := by
  intro j
  induction j with
  | zero => intro _; simp [glpkArrsLoop, List.replicate_succ]
  | succ j ih =>
    intro hj
    have hr : j < vm.rowNum.length := by omega
    have hc : j < vm.colNum.length := by omega
    have hv : j < vm.vals.length := by omega
    rw [List.range_succ, List.map_append, glpkArrsLoop_append, ih (by omega)]
    simp only [List.map_cons, List.map_nil, Option.some_bind, glpkArrsLoop, Nat.add_sub_cancel,
      List.getElem?_eq_getElem hr, List.getElem?_eq_getElem hc, List.getElem?_eq_getElem hv]
    rw [set_filled vm.rowNum n j _ h0 (by omega) (List.getElem?_eq_getElem hr),
      set_filled vm.colNum n j _ h1 (by omega) (List.getElem?_eq_getElem hc),
      set_filled vm.vals n j _ h2 (by omega) (List.getElem?_eq_getElem hv)]

theorem getGLPKArrs_eq (vm : VariableMatrix) (h1 : vm.rowNum.length = vm.colNum.length)
    (h2 : vm.colNum.length = vm.vals.length) :
    vm.getGLPKArrs = some (none :: vm.rowNum.map some, none :: vm.colNum.map some,
      none :: vm.vals.map some) := by
  unfold VariableMatrix.getGLPKArrs
  rw [if_neg (by simpa using h1), if_neg (by simpa using h2),
    glpkArrsLoop_filled vm vm.rowNum.length rfl h1.symm (h2.symm.trans h1.symm) _ (le_refl _)]
  simp [List.take_of_length_le, h1, h2]

theorem addVars_vectors (calls : List (Nat × Nat × Int)) :
    (addVars calls).rowNum = calls.map (fun c => c.1) ∧
      (addVars calls).colNum = calls.map (fun c => c.2.1) ∧
      (addVars calls).vals = calls.map (fun c => c.2.2) := by
  unfold addVars
  induction calls using List.reverseRecOn with
  | nil => exact ⟨rfl, rfl, rfl⟩
  | append_singleton cs c ih =>
    obtain ⟨h1, h2, h3⟩ := ih
    simp only [List.foldl_append, List.foldl_cons, List.foldl_nil,
      List.map_append, List.map_cons, List.map_nil]
    exact ⟨congrArg (· ++ [c.1]) h1, congrArg (· ++ [c.2.1]) h2, congrArg (· ++ [c.2.2]) h3⟩

/-- C30: after `n` calls of `addVar` on an empty buffer `getNumVars()` is `n`, the three
vectors have the same length, so the assertions of `getGLPKArrs` hold, and the three
arrays it makes have `n + 1` slots; slot `i`, for `1 ≤ i ≤ n`, holds the row, the column
and the value of the `i`-th call, and slot 0 is not written. -/
theorem addVar_getGLPKArrs (calls : List (Nat × Nat × Int)) :
    (addVars calls).getNumVars = calls.length ∧
    (addVars calls).rowNum.length = (addVars calls).colNum.length ∧
    (addVars calls).colNum.length = (addVars calls).vals.length ∧
    ∃ ia ja r, (addVars calls).getGLPKArrs = some (ia, ja, r) ∧
      ia.length = calls.length + 1 ∧ ja.length = calls.length + 1 ∧
      r.length = calls.length + 1 ∧
      ia[0]? = some none ∧ ja[0]? = some none ∧ r[0]? = some none ∧
      ∀ i c, calls[i]? = some c →
        ia[i + 1]? = some (some c.1) ∧ ja[i + 1]? = some (some c.2.1) ∧
          r[i + 1]? = some (some c.2.2) := by
  obtain ⟨h1, h2, h3⟩ := addVars_vectors calls
  have hl1 : (addVars calls).rowNum.length = (addVars calls).colNum.length := by
    rw [h1, h2]; simp
  have hl2 : (addVars calls).colNum.length = (addVars calls).vals.length := by
    rw [h2, h3]; simp
  refine ⟨by simp [VariableMatrix.getNumVars, h3], hl1, hl2, _, _, _,
    getGLPKArrs_eq _ hl1 hl2, by simp [h1], by simp [h2], by simp [h3], by simp, by simp, by simp, ?_⟩
  intro i c hc
  simp [h1, h2, h3, hc]

theorem addVar_getGLPKArrs_witness :
    (addVars [(3, 1, 1), (1, 1, 1), (9, 9, -1)]).getGLPKArrs
      = some ([none, some 3, some 1, some 9], [none, some 1, some 1, some 9],
          [none, some 1, some 1, some (-1)]) ∧
    (addVars [(3, 1, 1), (1, 1, 1), (9, 9, -1)]).getNumVars
      = [((3 : Nat), (1 : Nat), (1 : Int)), (1, 1, 1), (9, 9, -1)].length :=
  ⟨by decide, (addVar_getGLPKArrs [(3, 1, 1), (1, 1, 1), (9, 9, -1)]).1⟩

theorem addTrips_trips (calls : List (Nat × Option Nat)) : ∀ o : TripOccurance,
    (o.addTrips calls).trips = o.trips ++ calls.map (fun c => c.1) := by
  induction calls with
  | nil => intro o; simp [TripOccurance.addTrips]
  | cons c cs ih =>
    intro o
    have := ih (o.addTrip c.1 c.2)
    simp only [TripOccurance.addTrips, List.foldl_cons] at this ⊢
    rw [this]
    simp [TripOccurance.addTrip]

/-- Further calls on an occurrence that has trips: the direction stays when every call
passes it again, and is null otherwise. -/
theorem addTrips_direction (calls : List (Nat × Option Nat)) : ∀ o : TripOccurance,
    o.trips ≠ [] →
    (o.addTrips calls).direction
      = if ∀ c ∈ calls, c.2 = o.direction then o.direction else none := by
  induction calls with
  | nil => intro o _; simp [TripOccurance.addTrips]
  | cons c cs ih =>
    intro o ho
    have hlen : o.trips.length ≠ 0 := by
      intro h; exact ho (List.length_eq_zero.1 h)
    have hne : (o.addTrip c.1 c.2).trips ≠ [] := by simp [TripOccurance.addTrip]
    have := ih (o.addTrip c.1 c.2) hne
    simp only [TripOccurance.addTrips, List.foldl_cons] at this ⊢
    rw [this]
    have hd : (o.addTrip c.1 c.2).direction
        = if o.direction.isSome && o.direction != c.2 then none else o.direction := by
      simp [TripOccurance.addTrip, hlen]
    rw [hd]
    cases hdir : o.direction with
    | none => simp
    | some d =>
      by_cases hc : c.2 = some d
      · have hc2 : (some d != some d) = false := by simp
        simp only [Option.isSome_some, Bool.true_and, hc, hc2, Bool.false_eq_true, if_false,
          List.mem_cons, forall_eq_or_imp, true_and]
      · have hc2 : (some d != c.2) = true := by
          simp only [bne_iff_ne, ne_eq]
          exact fun h => hc h.symm
        simp only [Option.isSome_some, Bool.true_and, hc2, if_true, List.mem_cons,
          forall_eq_or_imp, hc, false_and, if_false]
        split <;> rfl

theorem addTrips_first (r t : Nat) (d : Option Nat) (calls : List (Nat × Option Nat)) :
    ((TripOccurance.new r).addTrips ((t, d) :: calls)).trips = t :: calls.map (fun c => c.1) ∧
      ((TripOccurance.new r).addTrips ((t, d) :: calls)).direction
        = if ∀ c ∈ (t, d) :: calls, c.2 = d then d else none := by
  have h0 : (TripOccurance.new r).addTrips ((t, d) :: calls)
      = ((TripOccurance.new r).addTrip t d).addTrips calls := rfl
  have h1 : ((TripOccurance.new r).addTrip t d).trips = [t] := rfl
  have h2 : ((TripOccurance.new r).addTrip t d).direction = d := rfl
  rw [h0, addTrips_trips, addTrips_direction _ _ (by rw [h1]; simp), h1, h2]
  refine ⟨by simp, ?_⟩
  simp only [List.mem_cons, forall_eq_or_imp, true_and]

/-- C29: after a non-empty sequence of `addTrip` calls on a fresh occurrence, `trips`
holds the added trips in call order, and `direction` is `d` when every call passed the
same `d` and null otherwise; it is the same for every reordering of the calls, and once
it is null after some calls it is null after any further calls. -/
theorem addTrip_sequence (r t : Nat) (d : Option Nat) (calls : List (Nat × Option Nat)) :
    ((TripOccurance.new r).addTrips ((t, d) :: calls)).trips = t :: calls.map (fun c => c.1) ∧
    ((TripOccurance.new r).addTrips ((t, d) :: calls)).direction
      = (if ∀ c ∈ (t, d) :: calls, c.2 = d then d else none) ∧
    (∀ calls2 : List (Nat × Option Nat), calls2.Perm ((t, d) :: calls) →
      ((TripOccurance.new r).addTrips calls2).direction
        = ((TripOccurance.new r).addTrips ((t, d) :: calls)).direction) ∧
    (∀ pre post : List (Nat × Option Nat), pre ≠ [] →
      ((TripOccurance.new r).addTrips pre).direction = none →
      ((TripOccurance.new r).addTrips (pre ++ post)).direction = none) := by
  obtain ⟨h1, h2⟩ := addTrips_first r t d calls
  refine ⟨h1, h2, ?_, ?_⟩
  · intro calls2 hp
    cases calls2 with
    | nil => exact absurd hp.length_eq (by simp)
    | cons c2 cs2 =>
      obtain ⟨t2, d2⟩ := c2
      rw [h2, (addTrips_first r t2 d2 cs2).2]
      have hmem : ∀ c, c ∈ (t2, d2) :: cs2 ↔ c ∈ (t, d) :: calls := fun c => hp.mem_iff
      by_cases hall : ∀ c ∈ (t, d) :: calls, c.2 = d
      · have hd2 : d2 = d := hall (t2, d2) ((hmem _).1 (List.mem_cons_self _ _))
        rw [if_pos hall, if_pos (fun c hc => by rw [hd2]; exact hall c ((hmem c).1 hc)), hd2]
      · rw [if_neg hall, if_neg]
        intro hall2
        have hd : d = d2 := hall2 (t, d) ((hmem _).2 (List.mem_cons_self _ _))
        exact hall (fun c hc => by rw [hd]; exact hall2 c ((hmem c).2 hc))
  · intro pre post hpre hnone
    have h0 : (TripOccurance.new r).addTrips (pre ++ post)
        = ((TripOccurance.new r).addTrips pre).addTrips post := by
      simp [TripOccurance.addTrips, List.foldl_append]
    have htr : ((TripOccurance.new r).addTrips pre).trips ≠ [] := by
      rw [addTrips_trips]
      simpa [TripOccurance.new] using hpre
    rw [h0, addTrips_direction _ _ htr, hnone]
    split <;> rfl

theorem addTrip_sequence_witness :
    [((8 : Nat), some (2 : Nat)), (7, some 1)].Perm [(7, some 1), (8, some 2)] ∧
    ((TripOccurance.new 5).addTrips [(8, some 2), (7, some 1)]).direction
      = ((TripOccurance.new 5).addTrips [(7, some 1), (8, some 2)]).direction ∧
    ((TripOccurance.new 5).addTrips [(7, some 1), (8, some 2)]).direction = none ∧
    ((TripOccurance.new 5).addTrips [(7, some 1), (8, some 1)]).direction = some 1 ∧
    ((TripOccurance.new 5).addTrips [(7, some 1), (8, some 2)]).trips = [7, 8] :=
  ⟨List.Perm.swap _ _ _,
    (addTrip_sequence 5 7 (some 1) [(8, some 2)]).2.2.1 [(8, some 2), (7, some 1)]
      (List.Perm.swap _ _ _),
    by decide, by decide, by decide⟩

/-- Pairs `(p, q)` with `p ≠ q` below `k`, as two nested loops list them. -/
theorem offDiag_inner_length (k p : Nat) (hp : p < k) :
    ((List.range k).filter (fun q => decide (p ≠ q))).length = k - 1 := by
  have h1 : (List.range k).filter (fun q => decide (p ≠ q)) = (List.range k).erase p := by
    rw [(List.nodup_range k).erase_eq_filter]
    apply List.filter_congr
    intro q _
    by_cases h : p = q
    · simp [h]
    · have h2 : ¬ q = p := fun h3 => h h3.symm
      simp [h, h2]
  rw [h1, List.length_erase_of_mem (List.mem_range.2 hp), List.length_range]

theorem flatMap_ite_eq_map {α : Type} (k p : Nat) (f : Nat → α) :
    (List.range k).flatMap (fun q => if p = q then [] else [f q])
      = ((List.range k).filter (fun q => decide (p ≠ q))).map f := by
  induction (List.range k) with
  | nil => rfl
  | cons x xs ih =>
    rw [List.flatMap_cons, ih]
    by_cases h : p = x
    · simp [h]
    · simp [h]

theorem sum_map_const_nat {α : Type} (l : List α) (f : α → Nat) (c : Nat)
    (h : ∀ x ∈ l, f x = c) : (l.map f).sum = l.length * c := by
  induction l with
  | nil => simp
  | cons x xs ih =>
    rw [List.map_cons, List.sum_cons, h x (List.mem_cons_self _ _),
      ih (fun y hy => h y (List.mem_cons_of_mem _ hy)), List.length_cons]
    ring

theorem getPositionCombinations_eq (a : OptEdge) :
    getPositionCombinations a
      = (List.range (a.front.etg.getCardinality true)).flatMap (fun p =>
          ((List.range (a.front.etg.getCardinality true)).filter (fun q => decide (p ≠ q))).map
            (fun q => (p, q))) := by
  unfold getPositionCombinations
  simp only
  apply List.flatMap_congr
  intro p _
  exact flatMap_ite_eq_map _ p (fun q => (p, q))

theorem mem_getPositionCombinations (a : OptEdge) (p q : Nat) :
    (p, q) ∈ getPositionCombinations a ↔
      p < a.front.etg.getCardinality true ∧ q < a.front.etg.getCardinality true ∧ p ≠ q := by
  rw [getPositionCombinations_eq]
  simp only [List.mem_flatMap, List.mem_map, List.mem_filter, List.mem_range, decide_eq_true_eq,
    Prod.mk.injEq]
  constructor
  · rintro ⟨p2, hp2, q2, ⟨hq2, hne⟩, rfl, rfl⟩
    exact ⟨hp2, hq2, hne⟩
  · rintro ⟨hp, hq, hne⟩
    exact ⟨p, hp, q, ⟨hq, hne⟩, rfl, rfl⟩

theorem getPositionCombinations_nodup (a : OptEdge) : (getPositionCombinations a).Nodup := by
  rw [getPositionCombinations_eq, List.nodup_flatMap]
  constructor
  · intro p _
    exact ((List.nodup_range _).filter _).map (fun x y h => (Prod.mk.inj h).2)
  · refine (List.nodup_range _).pairwise_of_forall_ne ?_
    intro p _ p2 _ hne x hx hx2
    obtain ⟨_, _, rfl⟩ := List.mem_map.1 hx
    obtain ⟨_, _, h2⟩ := List.mem_map.1 hx2
    exact hne (Prod.mk.inj h2).1.symm

theorem getPositionCombinations_length (a : OptEdge) :
    (getPositionCombinations a).length
      = a.front.etg.getCardinality true * (a.front.etg.getCardinality true - 1) := by
  rw [getPositionCombinations_eq, List.length_flatMap,
    sum_map_const_nat _ _ (a.front.etg.getCardinality true - 1), List.length_range]
  intro p hp
  simp only [Function.comp_apply, List.length_map]
  exact offDiag_inner_length _ p (List.mem_range.1 hp)

theorem flatMap_ite_eq_flatMap {α : Type} (k p : Nat) (G : Nat → List α) :
    (List.range k).flatMap (fun q => if p = q then [] else G q)
      = ((List.range k).filter (fun q => decide (p ≠ q))).flatMap G := by
  induction (List.range k) with
  | nil => rfl
  | cons x xs ih =>
    rw [List.flatMap_cons, ih]
    by_cases h : p = x
    · simp [h]
    · simp [h]

/-- The four nested loops list, for every pair of the first segment, every pair of the
second. -/
theorem getPositionCombinations2_eq (a b : OptEdge) :
    getPositionCombinations2 a b
      = (getPositionCombinations a).flatMap (fun x =>
          (getPositionCombinations b).map (fun y => ((x.1, y.1), (x.2, y.2)))) := by
  rw [getPositionCombinations_eq a, getPositionCombinations_eq b]
  unfold getPositionCombinations2
  simp only [List.flatMap_assoc, List.flatMap_map, List.map_flatMap, List.map_map]
  apply List.flatMap_congr
  intro p _
  rw [flatMap_ite_eq_flatMap]
  apply List.flatMap_congr
  intro q _
  apply List.flatMap_congr
  intro p2 _
  rw [flatMap_ite_eq_map]
  rfl

/-- C24: `getPositionCombinations(a, b)` lists, without repetition, exactly the
combinations `((pA_in_A, pA_in_B), (pB_in_A, pB_in_B))` with both positions in A below
`kA` and different and both positions in B below `kB` and different, so there are
`kA (kA - 1) * (kB (kB - 1))` of them; `getPositionCombinations(a)` lists, without
repetition, exactly the pairs `(p, q)` of different positions below `kA`, which are
`kA (kA - 1)`. -/
theorem getPositionCombinations_exact (a b : OptEdge) :
    (∀ pAinA pAinB pBinA pBinB : Nat,
      ((pAinA, pAinB), (pBinA, pBinB)) ∈ getPositionCombinations2 a b ↔
        pAinA < a.front.etg.getCardinality true ∧ pBinA < a.front.etg.getCardinality true ∧
        pAinB < b.front.etg.getCardinality true ∧ pBinB < b.front.etg.getCardinality true ∧
        pAinA ≠ pBinA ∧ pAinB ≠ pBinB) ∧
    (getPositionCombinations2 a b).Nodup ∧
    (getPositionCombinations2 a b).length
      = a.front.etg.getCardinality true * (a.front.etg.getCardinality true - 1)
        * (b.front.etg.getCardinality true * (b.front.etg.getCardinality true - 1)) ∧
    (∀ p q : Nat, (p, q) ∈ getPositionCombinations a ↔
      p < a.front.etg.getCardinality true ∧ q < a.front.etg.getCardinality true ∧ p ≠ q) ∧
    (getPositionCombinations a).Nodup ∧
    (getPositionCombinations a).length
      = a.front.etg.getCardinality true * (a.front.etg.getCardinality true - 1) := by
  refine ⟨?_, ?_, ?_, mem_getPositionCombinations a, getPositionCombinations_nodup a,
    getPositionCombinations_length a⟩
  · intro pAinA pAinB pBinA pBinB
    rw [getPositionCombinations2_eq]
    simp only [List.mem_flatMap, List.mem_map, Prod.mk.injEq, Prod.exists,
      mem_getPositionCombinations]
    constructor
    · rintro ⟨p, q, ⟨hp, hq, hne⟩, p2, q2, ⟨hp2, hq2, hne2⟩, ⟨rfl, rfl⟩, rfl, rfl⟩
      exact ⟨hp, hq, hp2, hq2, hne, hne2⟩
    · rintro ⟨hp, hq, hp2, hq2, hne, hne2⟩
      exact ⟨pAinA, pBinA, ⟨hp, hq, hne⟩, pAinB, pBinB, ⟨hp2, hq2, hne2⟩, ⟨rfl, rfl⟩, rfl, rfl⟩
  · rw [getPositionCombinations2_eq, List.nodup_flatMap]
    constructor
    · intro x _
      refine (getPositionCombinations_nodup b).map ?_
      intro y y2 h
      simp only [Prod.mk.injEq] at h
      exact Prod.ext h.1.2 h.2.2
    · refine (getPositionCombinations_nodup a).pairwise_of_forall_ne ?_
      intro x _ x2 _ hne z hz hz2
      obtain ⟨y, _, rfl⟩ := List.mem_map.1 hz
      obtain ⟨y2, _, h2⟩ := List.mem_map.1 hz2
      simp only [Prod.mk.injEq] at h2
      exact hne (Prod.ext h2.1.1 h2.2.1).symm
  · rw [getPositionCombinations2_eq, List.length_flatMap,
      sum_map_const_nat _ _ (getPositionCombinations b).length
        (fun x _ => by simp only [Function.comp_apply, List.length_map]),
      getPositionCombinations_length a, getPositionCombinations_length b]

theorem getPositionCombinations_exact_witness :
    crossSegA.front.etg.getCardinality true = 2 ∧ chainSeg.front.etg.getCardinality true = 3 ∧
    (getPositionCombinations2 crossSegA chainSeg).length = 2 * (2 - 1) * (3 * (3 - 1)) ∧
    getPositionCombinations crossSegA = [(0, 1), (1, 0)] ∧
    ((1, 2), (0, 0)) ∈ getPositionCombinations2 crossSegA chainSeg :=
  ⟨by decide, by decide, (getPositionCombinations_exact crossSegA chainSeg).2.2.1, by decide,
    ((getPositionCombinations_exact crossSegA chainSeg).1 1 2 0 0).2
      ⟨by decide, by decide, by decide, by decide, by decide, by decide⟩⟩

/-- C25: when the two occurrences on the adjacent edge of `segA` exist (they are read
unguarded), `getEdgePartnerPairs` returns a list whose members are exactly the ordered
pairs `(segB, segC)` of segments of the node's adjacency list with `segB ≠ segA`,
`segC ≠ segA`, `segC ≠ segB` (as pointers), such that the first route continues into
`segB` and the second into `segC`; no returned pair has equal components or holds
`segA`, and without repeated segments in the adjacency list no pair is returned twice. -/
theorem getEdgePartnerPairs_exact {P : Type} (env : Env P) (node : OptNode) (segA : OptEdge)
    (linepair : LinePair) (occA occB : RouteOccurrence)
    (hA : (env.getAdjacentEdge segA node).getRouteOcc linepair.1 = some occA)
    (hB : (env.getAdjacentEdge segA node).getRouteOcc linepair.2 = some occB) :
    ∃ pairs, getEdgePartnerPairs env node segA linepair = some pairs ∧
      (∀ segB segC : OptEdge, (segB, segC) ∈ pairs ↔
        segB ∈ node.adjList ∧ segC ∈ node.adjList ∧
        segB.addr ≠ segA.addr ∧ segC.addr ≠ segA.addr ∧ segC.addr ≠ segB.addr ∧
        (env.getContinuedRoutesIn (env.getAdjacentEdge segB node) node.node linepair.1
          occA.direction (env.getAdjacentEdge segA node)) ≠ [] ∧
        (env.getContinuedRoutesIn (env.getAdjacentEdge segC node) node.node linepair.2
          occB.direction (env.getAdjacentEdge segA node)) ≠ []) ∧
      (∀ x ∈ pairs, x.1.addr ≠ x.2.addr ∧ x.1.addr ≠ segA.addr ∧ x.2.addr ≠ segA.addr) ∧
      ((node.adjList.map (fun s => s.addr)).Nodup → pairs.Nodup) := by
  have hmem : ∀ segB segC : OptEdge,
      (segB, segC) ∈ node.adjList.flatMap (fun segmentB =>
        if segmentB.addr = segA.addr then []
        else
          if !(env.getContinuedRoutesIn (env.getAdjacentEdge segmentB node) node.node linepair.1
              occA.direction (env.getAdjacentEdge segA node)).isEmpty then
            node.adjList.flatMap (fun segmentC =>
              if segmentC.addr = segA.addr || segmentC.addr = segmentB.addr then []
              else
                if !(env.getContinuedRoutesIn (env.getAdjacentEdge segmentC node) node.node
                    linepair.2 occB.direction (env.getAdjacentEdge segA node)).isEmpty then
                  [(segmentB, segmentC)]
                else [])
          else []) ↔
        segB ∈ node.adjList ∧ segC ∈ node.adjList ∧
        segB.addr ≠ segA.addr ∧ segC.addr ≠ segA.addr ∧ segC.addr ≠ segB.addr ∧
        (env.getContinuedRoutesIn (env.getAdjacentEdge segB node) node.node linepair.1
          occA.direction (env.getAdjacentEdge segA node)) ≠ [] ∧
        (env.getContinuedRoutesIn (env.getAdjacentEdge segC node) node.node linepair.2
          occB.direction (env.getAdjacentEdge segA node)) ≠ [] := by
    intro segB segC
    simp only [List.mem_flatMap]
    constructor
    · rintro ⟨sB, hsB, h⟩
      split at h
      · simp at h
      · rename_i hne
        split at h
        · rename_i hcB
          obtain ⟨sC, hsC, h2⟩ := List.mem_flatMap.1 h
          split at h2
          · simp at h2
          · rename_i hneC
            split at h2
            · rename_i hcC
              simp only [List.mem_singleton, Prod.mk.injEq] at h2
              obtain ⟨rfl, rfl⟩ := h2
              simp only [Bool.or_eq_true, decide_eq_true_eq, not_or] at hneC
              exact ⟨hsB, hsC, hne, hneC.1, hneC.2, by simpa using hcB, by simpa using hcC⟩
            · simp at h2
        · simp at h
    · rintro ⟨hsB, hsC, h1, h2, h3, h4, h5⟩
      refine ⟨segB, hsB, ?_⟩
      rw [if_neg h1, if_pos (by simpa using h4)]
      refine List.mem_flatMap.2 ⟨segC, hsC, ?_⟩
      rw [if_neg (by simp [h2, h3]), if_pos (by simpa using h5)]
      exact List.mem_singleton.2 rfl
  refine ⟨_, by simp [getEdgePartnerPairs, hA, hB], hmem, ?_, ?_⟩
  · intro x hx
    obtain ⟨xB, xC⟩ := x
    obtain ⟨_, _, h1, h2, h3, _⟩ := (hmem xB xC).1 hx
    exact ⟨fun h => h3 h.symm, h1, h2⟩
  · intro hnd
    have hnd2 : node.adjList.Nodup := List.Nodup.of_map _ hnd
    rw [List.nodup_flatMap]
    constructor
    · intro sB _
      split
      · exact List.nodup_nil
      · split
        · rw [List.nodup_flatMap]
          constructor
          · intro sC _
            split
            · exact List.nodup_nil
            · split
              · exact List.nodup_singleton _
              · exact List.nodup_nil
          · refine hnd2.pairwise_of_forall_ne ?_
            intro sC _ sC2 _ hne z hz hz2
            dsimp only at hz hz2
            split at hz
            · simp at hz
            · split at hz
              · split at hz2
                · simp at hz2
                · split at hz2
                  · simp only [List.mem_singleton] at hz hz2
                    rw [hz] at hz2
                    exact hne (Prod.mk.inj hz2).2
                  · simp at hz2
              · simp at hz
        · exact List.nodup_nil
    · refine hnd2.pairwise_of_forall_ne ?_
      intro sB _ sB2 _ hne z hz hz2
      dsimp only at hz hz2
      have key : ∀ (s : OptEdge) (z : OptEdge × OptEdge),
          z ∈ (if s.addr = segA.addr then []
            else
              if !(env.getContinuedRoutesIn (env.getAdjacentEdge s node) node.node linepair.1
                  occA.direction (env.getAdjacentEdge segA node)).isEmpty then
                node.adjList.flatMap (fun segmentC =>
                  if segmentC.addr = segA.addr || segmentC.addr = s.addr then []
                  else
                    if !(env.getContinuedRoutesIn (env.getAdjacentEdge segmentC node) node.node
                        linepair.2 occB.direction (env.getAdjacentEdge segA node)).isEmpty then
                      [(s, segmentC)]
                    else [])
              else []) → z.1 = s := by
        intro s z hz
        split at hz
        · simp at hz
        · split at hz
          · obtain ⟨sC, _, h2⟩ := List.mem_flatMap.1 hz
            split at h2
            · simp at h2
            · split at h2
              · simp only [List.mem_singleton] at h2
                rw [h2]
              · simp at h2
          · simp at hz
      exact hne ((key sB z hz).symm.trans (key sB2 z hz2))


theorem getEdgePartnerPairs_exact_witness :
    (sampleEnv.getAdjacentEdge forkSegA forkNode).getRouteOcc (lineA, lineB).1
      = some ⟨lineA, none⟩ ∧
    (sampleEnv.getAdjacentEdge forkSegA forkNode).getRouteOcc (lineA, lineB).2
      = some ⟨lineB, none⟩ ∧
    ∃ pairs, getEdgePartnerPairs sampleEnv forkNode forkSegA (lineA, lineB) = some pairs ∧
      (forkSegB, forkSegC) ∈ pairs ∧ (forkSegC, forkSegB) ∉ pairs ∧ pairs.Nodup := by
  obtain ⟨pairs, h, hm, _, hnd⟩ := getEdgePartnerPairs_exact sampleEnv forkNode forkSegA
    (lineA, lineB) ⟨lineA, none⟩ ⟨lineB, none⟩ (by decide) (by decide)
  refine ⟨by decide, by decide, pairs, h, (hm _ _).2 (by decide), ?_, hnd (by decide)⟩
  intro hc
  exact absurd ((hm _ _).1 hc).2.2.2.2.2.1 (by decide)

theorem linePairsInner_true (processed : List Nat) (toA : Route)
    (hA : toA.addr ∈ processed) (trips : List RouteOccurrence) :
    linePairsInner true processed toA trips
      = ((((trips.filter (fun r => r.route.relativeTo.isNone)).map (fun r => r.route)).filter
          (fun b => !processed.contains b.addr)).map (orderedPair toA)) := by
  unfold linePairsInner
  induction trips with
  | nil => rfl
  | cons t ts ih =>
    rw [List.flatMap_cons, ih]
    by_cases hp : t.route.addr ∈ processed
    · have hc : processed.contains t.route.addr = true := by simpa using hp
      cases hrel : t.route.relativeTo with
      | some x => simp [hrel, hc]
      | none => simp [hrel, hp, List.filter_cons]
    · have hc : processed.contains t.route.addr = false := by simpa using hp
      cases hrel : t.route.relativeTo with
      | some x => simp [hrel, hc]
      | none =>
        have hne : toA.addr ≠ t.route.addr := fun h => hp (h ▸ hA)
        by_cases hlt : toA.addr < t.route.addr
        · simp [hrel, hp, hne, hlt, orderedPair, List.filter_cons]
        · simp [hrel, hp, hne, hlt, orderedPair, List.filter_cons]

theorem linePairsOuter_true (trips : List RouteOccurrence) (l : List RouteOccurrence) :
    ∀ st : List Nat × List LinePair,
    (linePairsOuter true trips l st).2
      = st.2 ++ upperFrom ((trips.filter (fun r => r.route.relativeTo.isNone)).map
          (fun r => r.route)) st.1
          ((l.filter (fun r => r.route.relativeTo.isNone)).map (fun r => r.route)) := by
  induction l with
  | nil => intro st; simp [linePairsOuter, upperFrom]
  | cons t l ih =>
    intro st
    unfold linePairsOuter
    cases hrel : t.route.relativeTo with
    | some x => simp [hrel, ih]
    | none =>
      simp only [hrel, Option.isSome_none, Bool.false_eq_true, if_false, ih, Option.isNone_none,
        List.filter_cons_of_pos, List.map_cons, upperFrom]
      rw [linePairsInner_true _ _ (List.mem_cons_self _ _), List.append_assoc]

theorem upperFrom_eq :
    ∀ (suf : List Route) (pre : List Route) (processed : List Nat),
      ((pre ++ suf).map (fun r => r.addr)).Nodup →
      (∀ x, x ∈ processed ↔ x ∈ pre.map (fun r => r.addr)) →
      upperFrom (pre ++ suf) processed suf = upperPairs suf := by
  intro suf
  induction suf with
  | nil => intro pre processed _ _; rfl
  | cons a more ih =>
    intro pre processed hnd hP
    unfold upperFrom upperPairs
    have hnd2 : ((pre ++ [a]) ++ more).map (fun r => r.addr) |>.Nodup := by
      simpa using hnd
    have hP2 : ∀ x, x ∈ a.addr :: processed ↔ x ∈ (pre ++ [a]).map (fun r => r.addr) := by
      intro x
      simp only [List.mem_cons, hP, List.map_append, List.mem_append, List.map_cons,
        List.map_nil, List.mem_singleton]
      tauto
    have hrec := ih (pre ++ [a]) (a.addr :: processed) hnd2 hP2
    rw [List.append_assoc, List.singleton_append] at hrec
    rw [hrec]
    congr 2
    rw [List.map_append, List.map_cons, List.nodup_append] at hnd
    obtain ⟨_, hnd3, hdis⟩ := hnd
    rw [List.nodup_cons] at hnd3
    rw [List.filter_append, List.filter_cons]
    have h1 : pre.filter (fun b => !(a.addr :: processed).contains b.addr) = [] := by
      rw [List.filter_eq_nil_iff]
      intro b hb
      have : b.addr ∈ processed := (hP _).2 (List.mem_map_of_mem _ hb)
      simp [this]
    have h2 : more.filter (fun b => !(a.addr :: processed).contains b.addr) = more := by
      rw [List.filter_eq_self]
      intro b hb
      have hb2 : b.addr ∈ more.map (fun r => r.addr) := List.mem_map_of_mem _ hb
      have hne : b.addr ≠ a.addr := fun h => hnd3.1 (h ▸ hb2)
      have hnp : b.addr ∉ processed := fun h =>
        hdis ((hP _).1 h) (List.mem_cons_of_mem _ hb2)
      simp [hne, hnp]
    rw [h1, h2]
    simp

/-- In unique mode the line pairs of a segment whose non-relative routes have pairwise
different addresses are: every such route with every later one, smaller address first. -/
theorem getLinePairsU_true_eq (segment : OptEdge)
    (hd : (segment.front.etg.nonRelRoutes.map (fun r => r.addr)).Nodup) :
    getLinePairsU segment true = upperPairs segment.front.etg.nonRelRoutes := by
  unfold getLinePairsU
  rw [linePairsOuter_true]
  have h := upperFrom_eq segment.front.etg.nonRelRoutes [] [] (by simpa using hd)
    (by simp)
  simpa [Edge.nonRelRoutes] using h

theorem upperPairs_subset : ∀ (l : List Route) (x y : Route),
    (x, y) ∈ upperPairs l → x ∈ l ∧ y ∈ l := by
  intro l
  induction l with
  | nil => intro x y h; simp [upperPairs] at h
  | cons a more ih =>
    intro x y h
    unfold upperPairs at h
    rcases List.mem_append.1 h with h1 | h1
    · obtain ⟨b, hb, hxy⟩ := List.mem_map.1 h1
      unfold orderedPair at hxy
      split at hxy
      · obtain ⟨rfl, rfl⟩ := Prod.mk.inj hxy
        exact ⟨List.mem_cons_self _ _, List.mem_cons_of_mem _ hb⟩
      · obtain ⟨rfl, rfl⟩ := Prod.mk.inj hxy
        exact ⟨List.mem_cons_of_mem _ hb, List.mem_cons_self _ _⟩
    · obtain ⟨hx, hy⟩ := ih x y h1
      exact ⟨List.mem_cons_of_mem _ hx, List.mem_cons_of_mem _ hy⟩

theorem mem_upperPairs : ∀ (l : List Route), (l.map (fun r => r.addr)).Nodup →
    ∀ x y : Route, (x, y) ∈ upperPairs l ↔ x ∈ l ∧ y ∈ l ∧ x.addr < y.addr := by
  intro l
  induction l with
  | nil => intro _ x y; simp [upperPairs]
  | cons a more ih =>
    intro hnd x y
    rw [List.map_cons, List.nodup_cons] at hnd
    have hne : ∀ b ∈ more, b.addr ≠ a.addr := fun b hb h =>
      hnd.1 (h ▸ List.mem_map_of_mem (fun r => r.addr) hb)
    unfold upperPairs
    rw [List.mem_append, ih hnd.2 x y]
    constructor
    · rintro (h1 | ⟨hx, hy, hlt⟩)
      · obtain ⟨b, hb, hxy⟩ := List.mem_map.1 h1
        unfold orderedPair at hxy
        split at hxy
        · rename_i hlt
          obtain ⟨rfl, rfl⟩ := Prod.mk.inj hxy
          exact ⟨List.mem_cons_self _ _, List.mem_cons_of_mem _ hb, hlt⟩
        · rename_i hlt
          obtain ⟨rfl, rfl⟩ := Prod.mk.inj hxy
          have := hne _ hb
          exact ⟨List.mem_cons_of_mem _ hb, List.mem_cons_self _ _, by omega⟩
      · exact ⟨List.mem_cons_of_mem _ hx, List.mem_cons_of_mem _ hy, hlt⟩
    · rintro ⟨hx, hy, hlt⟩
      rcases List.mem_cons.1 hx with hxa | hx2
      · rcases List.mem_cons.1 hy with hya | hy2
        · rw [hxa, hya] at hlt
          omega
        · left
          rw [hxa]
          refine List.mem_map.2 ⟨y, hy2, ?_⟩
          rw [hxa] at hlt
          simp [orderedPair, hlt]
      · rcases List.mem_cons.1 hy with hya | hy2
        · left
          rw [hya]
          refine List.mem_map.2 ⟨x, hx2, ?_⟩
          rw [hya] at hlt
          have : ¬ a.addr < x.addr := by omega
          simp [orderedPair, this]
        · right
          exact ⟨hx2, hy2, hlt⟩

theorem upperPairs_nodup : ∀ (l : List Route), (l.map (fun r => r.addr)).Nodup →
    (upperPairs l).Nodup := by
  intro l
  induction l with
  | nil => intro _; exact List.nodup_nil
  | cons a more ih =>
    intro hnd
    rw [List.map_cons, List.nodup_cons] at hnd
    have hmore : more.Nodup := List.Nodup.of_map _ hnd.2
    have hnotin : a ∉ more := fun h => hnd.1 (List.mem_map_of_mem (fun r => r.addr) h)
    unfold upperPairs
    rw [List.nodup_append]
    refine ⟨?_, ih hnd.2, ?_⟩
    · refine List.Nodup.map_on ?_ hmore
      intro b hb c hc hbc
      unfold orderedPair at hbc
      split at hbc <;> split at hbc
      · exact (Prod.mk.inj hbc).2
      · exact absurd ((Prod.mk.inj hbc).1 ▸ hc) hnotin
      · exact absurd ((Prod.mk.inj hbc).1 ▸ hb) hnotin
      · exact (Prod.mk.inj hbc).1
    · intro z hz1 hz2
      obtain ⟨zx, zy⟩ := z
      obtain ⟨hx, hy⟩ := upperPairs_subset more zx zy hz2
      obtain ⟨b, _, hxy⟩ := List.mem_map.1 hz1
      unfold orderedPair at hxy
      split at hxy
      · exact hnotin ((Prod.mk.inj hxy).1 ▸ hx)
      · exact hnotin ((Prod.mk.inj hxy).2 ▸ hy)

theorem upperPairs_length_twice : ∀ (l : List Route),
    2 * (upperPairs l).length = l.length * (l.length - 1) := by
  intro l
  induction l with
  | nil => rfl
  | cons a more ih =>
    unfold upperPairs
    rw [List.length_append, List.length_map, Nat.mul_add, ih, List.length_cons]
    cases more.length with
    | zero => rfl
    | succ m => simp only [Nat.add_sub_cancel]; ring

theorem nonRel_filter_length (l : List Route) (hd : (l.map (fun r => r.addr)).Nodup)
    (a : Route) (ha : a ∈ l) :
    (l.filter (fun b => decide (a.addr ≠ b.addr))).length = l.length - 1 := by
  have h1 : ((l.map (fun r => r.addr)).filter (fun x => decide (a.addr ≠ x))).length
      = (l.filter (fun b => decide (a.addr ≠ b.addr))).length := by
    rw [List.filter_map, List.length_map]
    rfl
  have h2 : (l.map (fun r => r.addr)).filter (fun x => decide (a.addr ≠ x))
      = (l.map (fun r => r.addr)).erase a.addr := by
    rw [hd.erase_eq_filter]
    apply List.filter_congr
    intro q _
    by_cases h : a.addr = q
    · simp [h]
    · have h3 : ¬ q = a.addr := fun h4 => h h4.symm
      simp [h, h3]
  rw [← h1, h2, List.length_erase_of_mem (List.mem_map_of_mem _ ha), List.length_map]

theorem getLinePairs_length (segment : OptEdge)
    (hd : (segment.front.etg.nonRelRoutes.map (fun r => r.addr)).Nodup) :
    (getLinePairs segment).length
      = segment.front.etg.nonRelRoutes.length * (segment.front.etg.nonRelRoutes.length - 1) := by
  rw [getLinePairs_eq, List.length_flatMap]
  apply sum_map_const_nat
  intro a ha
  simp only [Function.comp_apply, List.length_map]
  exact nonRel_filter_length _ hd a ha

/-- C23: for a segment whose reference edge carries `n` non-relative routes of pairwise
different addresses, `getLinePairs(segment, true)` returns `n(n-1)/2` pairs without
repetition, a pair `(x, y)` being returned exactly when `x` and `y` are non-relative
routes of the edge and `x` has the smaller address, so of two different routes exactly
one order is returned; `getLinePairs(segment)` returns `n(n-1)` pairs without
repetition, exactly the ordered pairs of non-relative routes of different addresses. -/
theorem getLinePairs_unique_and_ordered (segment : OptEdge)
    (hd : (segment.front.etg.nonRelRoutes.map (fun r => r.addr)).Nodup) :
    (getLinePairsU segment true).length
      = segment.front.etg.nonRelRoutes.length
          * (segment.front.etg.nonRelRoutes.length - 1) / 2 ∧
    (getLinePairsU segment true).Nodup ∧
    (∀ x y : Route, (x, y) ∈ getLinePairsU segment true ↔
      x ∈ segment.front.etg.nonRelRoutes ∧ y ∈ segment.front.etg.nonRelRoutes ∧
        x.addr < y.addr) ∧
    (∀ a b : Route, a ∈ segment.front.etg.nonRelRoutes → b ∈ segment.front.etg.nonRelRoutes →
      a.addr ≠ b.addr →
      ((a, b) ∈ getLinePairsU segment true ∧ (b, a) ∉ getLinePairsU segment true) ∨
      ((b, a) ∈ getLinePairsU segment true ∧ (a, b) ∉ getLinePairsU segment true)) ∧
    (getLinePairs segment).length
      = segment.front.etg.nonRelRoutes.length * (segment.front.etg.nonRelRoutes.length - 1) ∧
    (getLinePairs segment).Nodup ∧
    (∀ x y : Route, (x, y) ∈ getLinePairs segment ↔
      x ∈ segment.front.etg.nonRelRoutes ∧ y ∈ segment.front.etg.nonRelRoutes ∧
        x.addr ≠ y.addr) := by
  have hmem := mem_upperPairs _ hd
  rw [getLinePairsU_true_eq segment hd]
  refine ⟨?_, upperPairs_nodup _ hd, hmem, ?_, getLinePairs_length segment hd,
    getLinePairs_nodup segment hd, mem_getLinePairs segment⟩
  · have h := upperPairs_length_twice segment.front.etg.nonRelRoutes
    omega
  · intro a b ha hb hne
    rw [hmem a b, hmem b a]
    rcases Nat.lt_or_gt_of_ne hne with hlt | hlt
    · left
      exact ⟨⟨ha, hb, hlt⟩, fun h => by omega⟩
    · right
      exact ⟨⟨hb, ha, hlt⟩, fun h => by omega⟩

theorem getLinePairs_unique_and_ordered_witness :
    (chainSeg.front.etg.nonRelRoutes.map (fun r => r.addr)).Nodup ∧
    chainSeg.front.etg.nonRelRoutes = [lineA, lineB, lineC] ∧
    getLinePairsU chainSeg true = [(lineA, lineB), (lineA, lineC), (lineB, lineC)] ∧
    (getLinePairsU chainSeg true).length = 3 * (3 - 1) / 2 ∧
    (getLinePairs chainSeg).length = 3 * (3 - 1) :=
  ⟨by decide, by decide, by decide,
    (getLinePairs_unique_and_ordered chainSeg (by decide)).1,
    (getLinePairs_unique_and_ordered chainSeg (by decide)).2.2.2.2.1⟩

theorem sameLineCols_eq_map {P : Type} (env : Env P) (node : OptNode) (processed : List Nat)
    (segmentA : OptEdge) (linepair : LinePair) :
    sameLineCols env node processed segmentA linepair
      = ((((getEdgePartners env node segmentA linepair).getD []).filter
          (fun segmentB => !processed.contains segmentB.addr)).map
            (fun segmentB => (segmentA, segmentB, linepair))).map
              (fun j => sameDecCol env node j.1 j.2.1 j.2.2) := by
  unfold sameLineCols
  induction (getEdgePartners env node segmentA linepair).getD [] with
  | nil => rfl
  | cons x xs ih =>
    rw [List.flatMap_cons, ih]
    by_cases hp : x.addr ∈ processed <;> simp [List.filter_cons, hp]

theorem sameSegStep_processed {P : Type} (env : Env P) (node : OptNode) (st : List Nat × Bld)
    (segmentA : OptEdge) (st2 : List Nat × Bld)
    (h : sameSegStep env node st segmentA = some st2) : st2.1 = segmentA.addr :: st.1 := by
  unfold sameSegStep at h
  cases hp : (getLinePairs segmentA).foldlM
      (sameSegLineStep env node (segmentA.addr :: st.1) segmentA) st.2 with
  | none => simp [hp] at h
  | some c =>
    simp only [hp, Option.bind_eq_bind, Option.some_bind, Option.some.injEq] at h
    subst h
    rfl

/-- Columns added by the loop over the adjacency list: the decision columns of the jobs. -/
theorem sameSegStep_fold_jobs {P : Type} (env : Env P) (node : OptNode) (l : List OptEdge) :
    ∀ (st st2 : List Nat × Bld), l.foldlM (sameSegStep env node) st = some st2 →
      st2.2.lp.cols = st.2.lp.cols ++ (sameJobs env node st.1 l).map
        (fun j => sameDecCol env node j.1 j.2.1 j.2.2) := by
  induction l with
  | nil =>
    intro st st2 h
    simp only [List.foldlM_nil, pure, Option.some.injEq] at h
    subst h
    simp [sameJobs]
  | cons x l ih =>
    intro st st2 h
    rw [List.foldlM_cons] at h
    cases hx : sameSegStep env node st x with
    | none => rw [hx] at h; exact absurd h (by simp)
    | some s1 =>
      rw [hx] at h
      simp only [Option.bind_eq_bind, Option.some_bind] at h
      rw [ih s1 st2 h, sameSegStep_cols env node st x s1 hx,
        sameSegStep_processed env node st x s1 hx]
      simp only [sameJobs]
      rw [List.map_append, List.map_flatMap, List.append_assoc]
      congr 2
      apply List.flatMap_congr
      intro lp _
      exact sameLineCols_eq_map env node _ x lp

theorem getEdgePartners_subset {P : Type} (env : Env P) (node : OptNode) (segmentA : OptEdge)
    (linepair : LinePair) (x : OptEdge)
    (h : x ∈ (getEdgePartners env node segmentA linepair).getD []) : x ∈ node.adjList := by
  unfold getEdgePartners at h
  cases hA : (env.getAdjacentEdge segmentA node).getRouteOcc linepair.1 with
  | none => simp [hA] at h
  | some a =>
    cases hB : (env.getAdjacentEdge segmentA node).getRouteOcc linepair.2 with
    | none => simp [hA, hB] at h
    | some b =>
      simp only [hA, hB, Option.bind_eq_bind, Option.some_bind, Option.getD_some] at h
      exact (List.mem_filter.1 h).1

/-- Position of a job in the list walked: `segmentA` is an element of the list and the
partner is a segment of the node whose address is neither in `processed` nor that of
`segmentA` or of an element before it. -/
theorem sameJobs_position {P : Type} (env : Env P) (node : OptNode) (l : List OptEdge) :
    ∀ (processed : List Nat) (segmentA segmentB : OptEdge) (linepair : LinePair),
      (segmentA, segmentB, linepair) ∈ sameJobs env node processed l →
      ∃ pre post, l = pre ++ segmentA :: post ∧ segmentB ∈ node.adjList ∧
        linepair ∈ getLinePairs segmentA ∧
        segmentB ∈ (getEdgePartners env node segmentA linepair).getD [] ∧
        segmentB.addr ≠ segmentA.addr ∧ (∀ x ∈ pre, segmentB.addr ≠ x.addr) ∧
        segmentB.addr ∉ processed := by
  induction l with
  | nil => intro processed A B lp h; simp [sameJobs] at h
  | cons s more ih =>
    intro processed A B lp h
    unfold sameJobs at h
    rcases List.mem_append.1 h with h1 | h1
    · obtain ⟨lp2, hlp2, h2⟩ := List.mem_flatMap.1 h1
      obtain ⟨B2, hB2, heq⟩ := List.mem_map.1 h2
      obtain ⟨rfl, rfl, rfl⟩ : s = A ∧ B2 = B ∧ lp2 = lp := by
        simpa [Prod.ext_iff] using heq
      obtain ⟨hmem, hnot⟩ := List.mem_filter.1 hB2
      have hnot2 : B2.addr ∉ s.addr :: processed := by simpa using hnot
      refine ⟨[], more, rfl, getEdgePartners_subset env node s lp2 B2 hmem, hlp2, hmem,
        fun h => hnot2 (h ▸ List.mem_cons_self _ _), fun x hx => by simp at hx,
        fun h => hnot2 (List.mem_cons_of_mem _ h)⟩
    · obtain ⟨pre, post, hl, hB, hlp, hpart, hne, hpre, hproc⟩ := ih _ A B lp h1
      refine ⟨s :: pre, post, by rw [hl]; rfl, hB, hlp, hpart, hne, ?_,
        fun h => hproc (List.mem_cons_of_mem _ h)⟩
      intro x hx
      rcases List.mem_cons.1 hx with rfl | hx
      · exact fun h => hproc (h ▸ List.mem_cons_self _ _)
      · exact hpre x hx

/-- C22: when the same-segment pass over a node succeeds, the decision columns it adds
are those of the triples `(segA, segB, linepair)` listed by `sameJobs`; for every such
triple `segB` is another segment that stands after `segA` in the node's adjacency list,
and the pass never has triples both for `(segA, segB)` and for `(segB, segA)`. -/
theorem sameSeg_pairs_once {P : Type} (env : Env P) (node : OptNode) (b c : Bld)
    (h : sameSegNodeStep env b node = some c) :
    c.lp.cols = b.lp.cols ++ (sameJobs env node [] node.adjList).map
      (fun j => sameDecCol env node j.1 j.2.1 j.2.2) ∧
    (∀ (segA segB : OptEdge) (linepair : LinePair),
      (segA, segB, linepair) ∈ sameJobs env node [] node.adjList →
        segB.addr ≠ segA.addr ∧
        ∃ pre mid post, node.adjList = pre ++ segA :: (mid ++ segB :: post)) ∧
    (∀ (segA segB : OptEdge) (linepair linepair2 : LinePair),
      (segA, segB, linepair) ∈ sameJobs env node [] node.adjList →
        (segB, segA, linepair2) ∉ sameJobs env node [] node.adjList) := by
  refine ⟨?_, ?_, ?_⟩
  · unfold sameSegNodeStep at h
    cases hfold : node.adjList.foldlM (sameSegStep env node) ([], b) with
    | none => simp [hfold] at h
    | some st =>
      simp only [hfold, Option.bind_eq_bind, Option.some_bind, Option.some.injEq] at h
      subst h
      exact sameSegStep_fold_jobs env node node.adjList ([], b) st hfold
  · intro segA segB lp hj
    obtain ⟨pre, post, hl, hB, _, _, hne, hpre, _⟩ :=
      sameJobs_position env node node.adjList [] segA segB lp hj
    refine ⟨hne, ?_⟩
    rw [hl] at hB
    rcases List.mem_append.1 hB with hB1 | hB1
    · exact absurd rfl (hpre segB hB1)
    · rcases List.mem_cons.1 hB1 with hB2 | hB2
      · exact absurd (congrArg (fun e => e.addr) hB2) hne
      · obtain ⟨mid, post2, hpost⟩ := List.append_of_mem hB2
        exact ⟨pre, mid, post2, by rw [hl, hpost]⟩
  · intro segA segB lp lp2 hj hj2
    obtain ⟨pre, post, hl, _, _, _, hne, hpre, _⟩ :=
      sameJobs_position env node node.adjList [] segA segB lp hj
    obtain ⟨pre2, post2, hl2, _, _, _, _, hpre2, _⟩ :=
      sameJobs_position env node node.adjList [] segB segA lp2 hj2
    rw [hl] at hl2
    rcases List.append_eq_append_iff.1 hl2 with ⟨a, h1, h2⟩ | ⟨a, h1, h2⟩
    · cases a with
      | nil =>
        simp only [List.nil_append, List.cons.injEq] at h2
        exact hne (congrArg (fun e => e.addr) h2.1.symm)
      | cons x xs =>
        simp only [List.cons_append, List.cons.injEq] at h2
        exact hpre2 segA (by rw [h1, h2.1]; simp) rfl
    · cases a with
      | nil =>
        simp only [List.nil_append, List.cons.injEq] at h2
        exact hne (congrArg (fun e => e.addr) h2.1)
      | cons x xs =>
        simp only [List.cons_append, List.cons.injEq] at h2
        exact hpre segB (by rw [h1, h2.1]; simp) rfl

theorem sameSeg_pairs_once_witness :
    sameSegNodeStep sampleEnv (addSegments sampleEnv crossGraph Bld.init) crossNodeX
      = some crossAfterSame ∧
    crossNodeX.adjList = [crossSegA, crossSegB] ∧
    sameJobs sampleEnv crossNodeX [] crossNodeX.adjList
      = [(crossSegA, crossSegB, (lineA, lineB)), (crossSegA, crossSegB, (lineB, lineA))] ∧
    crossAfterSame.lp.cols = (addSegments sampleEnv crossGraph Bld.init).lp.cols
      ++ (sameJobs sampleEnv crossNodeX [] crossNodeX.adjList).map
        (fun j => sameDecCol sampleEnv crossNodeX j.1 j.2.1 j.2.2) ∧
    (crossSegB, crossSegA, (lineA, lineB)) ∉ sameJobs sampleEnv crossNodeX [] crossNodeX.adjList :=
  ⟨by rfl, rfl, by decide,
    (sameSeg_pairs_once sampleEnv crossNodeX (addSegments sampleEnv crossGraph Bld.init)
      crossAfterSame (by rfl)).1,
    (sameSeg_pairs_once sampleEnv crossNodeX (addSegments sampleEnv crossGraph Bld.init)
      crossAfterSame (by rfl)).2.2
      crossSegA crossSegB (lineA, lineB) (lineA, lineB) (by decide)⟩

/-- With at most two rows the row loop of `printHumanReadable` has no turn: the file
holds the objective line alone. -/
theorem printHumanReadable_two_rows (b : Bld) (h : b.lp.rows.length ≤ 2) :
    printHumanReadable b = some ("min " ++ objectiveText b.lp ++ "\n") := by
  unfold printHumanReadable glp_get_num_rows
  have h0 : b.lp.rows.length - 2 = 0 := by omega
  rw [h0]
  rfl

/-- With at most two columns the column loop of a row has no turn: the linear form of
every row is empty. -/
theorem rowText_two_cols (b : Bld) (h : b.lp.cols.length ≤ 2) (j : Nat) :
    rowText b j = some "" := by
  unfold rowText glp_get_num_cols
  have h0 : b.lp.cols.length - 2 = 0 := by omega
  rw [h0]
  rfl

/-- C21: `printHumanReadable` leaves rows and columns out. For the model of two separate
one-line segments (two columns, four rows, row 1 with coefficient 1 in column 1) the
file holds the objective line and the renderings of the rows 1 and 2 only, both with an
empty linear form; for the model of one such segment (one column, two rows) it holds
the objective line alone. -/
theorem printHumanReadable_leaves_out_rows :
    createProblem sampleEnv duoGraph = some (modelOf duoGraph) ∧
    (modelOf duoGraph).lp.rows.length = 4 ∧ (modelOf duoGraph).lp.cols.length = 2 ∧
    (modelOf duoGraph).lp.rows.map (fun r => r.typ)
      = [RowType.FX, RowType.FX, RowType.FX, RowType.FX] ∧
    ({ row := 1, col := 1, val := 1 } : Entry) ∈ (modelOf duoGraph).vm.entries ∧
    ({ row := 4, col := 2, val := 1 } : Entry) ∈ (modelOf duoGraph).vm.entries ∧
    printHumanReadable (modelOf duoGraph) = some "min \n\n = 1\n = 1" ∧
    createProblem sampleEnv soloGraph = some (modelOf soloGraph) ∧
    (modelOf soloGraph).lp.rows.length = 2 ∧
    (modelOf soloGraph).lp.rows.map (fun r => r.typ) = [RowType.FX, RowType.FX] ∧
    printHumanReadable (modelOf soloGraph) = some "min \n" := by
  refine ⟨by rfl, by decide, by decide, by decide, by decide, by decide, by decide, by rfl,
    by decide, by decide, by decide⟩

theorem insertPos_self (e : OptEdge) (etgp : EtgPart) (c : OrderingConfig) (q : Nat) :
    insertPos e etgp c q etgp.etg.addr
      = if etgp.dir = e.front.dir then q :: c etgp.etg.addr else c etgp.etg.addr ++ [q] := by
  unfold insertPos OrderingConfig.set
  cases etgp.dir <;> cases e.front.dir <;> simp

theorem flatMap_eq_map_headD (l : List Nat) (f : Nat → List Nat)
    (h : ∀ x ∈ l, ∃ q, f x = [q]) : l.flatMap f = l.map (fun x => (f x).headD 0) := by
  induction l with
  | nil => rfl
  | cons x xs ih =>
    obtain ⟨q, hq⟩ := h x (List.mem_cons_self _ _)
    rw [List.flatMap_cons, List.map_cons, ih (fun y hy => h y (List.mem_cons_of_mem _ hy)), hq]
    rfl

/-- Loop over positions for one underlying edge, exact form: the hits are put in front
one by one when the direction flags agree, else appended one by one. -/
theorem DecodeOk.fold_tp_exact {P : Type} {env : Env P} {g : OptGraph} {m : Bld}
    {v : Nat → Int} {pre post : List OptEdge} {e : OptEdge} {etgp : EtgPart}
    (ok : DecodeOk env g m v pre post e etgp) (l : List Nat) :
    ∀ c : OrderingConfig, (∀ tp ∈ l, tp < e.front.etg.getCardinality true) →
      ∃ c2, l.foldlM (decodeTp env m.lp v e etgp) c = some c2 ∧
        c2 etgp.etg.addr =
          if etgp.dir = e.front.dir then
            (l.flatMap (fun tp => scanHits env m.lp v e tp 0 etgp.etg.trips)).reverse
              ++ c etgp.etg.addr
          else
            c etgp.etg.addr ++ l.flatMap (fun tp => scanHits env m.lp v e tp 0 etgp.etg.trips) := by
  induction l with
  | nil => intro c _; exact ⟨c, rfl, by simp⟩
  | cons tp l ih =>
    intro c hl
    have htp := hl tp (List.mem_cons_self _ _)
    obtain ⟨q, hq⟩ := ok.one_hit tp htp
    obtain ⟨c2, hf, hp⟩ := ih (insertPos e etgp c q)
      (fun t ht => hl t (List.mem_cons_of_mem _ ht))
    refine ⟨c2, ?_, ?_⟩
    · rw [List.foldlM_cons, ok.decodeTp_eq c tp q htp hq]
      exact hf
    · rw [hp, insertPos_self, List.flatMap_cons, hq]
      by_cases hd : etgp.dir = e.front.dir
      · simp [hd]
      · simp [hd]

/-- Ordering the decoder leaves for an underlying edge whose entry was empty: the hits
of the positions `0` to `k - 1`, reversed when the direction flags agree. -/
theorem DecodeOk.decodeEtg_exact {P : Type} {env : Env P} {g : OptGraph} {m : Bld}
    {v : Nat → Int} {pre post : List OptEdge} {e : OptEdge} {etgp : EtgPart}
    (ok : DecodeOk env g m v pre post e etgp) (c : OrderingConfig)
    (hc : c etgp.etg.addr = []) :
    ∃ c2, decodeEtg env m.lp v e c etgp = some c2 ∧
      c2 etgp.etg.addr =
        if etgp.dir = e.front.dir then
          ((List.range (e.front.etg.getCardinality true)).map
            (fun tp => (scanHits env m.lp v e tp 0 etgp.etg.trips).headD 0)).reverse
        else
          (List.range (e.front.etg.getCardinality true)).map
            (fun tp => (scanHits env m.lp v e tp 0 etgp.etg.trips).headD 0) := by
  obtain ⟨c2, hf, hp⟩ := ok.fold_tp_exact (List.range (e.front.etg.getCardinality true)) c
    (fun tp htp => List.mem_range.1 htp)
  refine ⟨c2, ?_, ?_⟩
  · unfold decodeEtg
    rw [ok.card_eq]
    exact hf
  · rw [hp, hc, flatMap_eq_map_headD _ _
      (fun tp htp => ok.one_hit tp (List.mem_range.1 htp))]
    simp

/-- Route hit at a position: it is, by address, the route of the reference edge whose
column at that position has the value one. -/
theorem DecodeOk.hit_index {P : Type} {env : Env P} {g : OptGraph} {m : Bld}
    {v : Nat → Int} {pre post : List OptEdge} {e : OptEdge} {etgp : EtgPart}
    (ok : DecodeOk env g m v pre post e etgp) (tp q : Nat)
    (htp : tp < e.front.etg.getCardinality true)
    (hq : q ∈ scanHits env m.lp v e tp 0 etgp.etg.trips) :
    ∃ i r r3, i < e.front.etg.getCardinality true ∧ etgp.etg.trips[q]? = some r ∧
      e.front.etg.nonRelRoutes[i]? = some r3 ∧ r3.addr = r.route.addr ∧
      v (numAssignCols pre + 1 + i * e.front.etg.getCardinality true + tp) = 1 := by
  obtain ⟨_, r, hget, hrel, hv⟩ := scanHits_mem env m.lp v e tp _ _ _ hq
  have hmem : r.route ∈ etgp.etg.nonRelRoutes :=
    (mem_nonRelRoutes_iff _ _).2 ⟨r, List.getElem?_mem hget, rfl, hrel⟩
  obtain ⟨i, r3, hi, hget3, ha⟩ := ok.route_index r.route hmem
  rw [getILPVarName_congr env e r.route r3 tp ha.symm,
    assign_find_col env g m pre post e i tp r3 ok.built ok.segs ok.names hget3 htp] at hv
  refine ⟨i, r, r3, hi, hget, hget3, ha, ?_⟩
  rcases ok.bin (numAssignCols pre + 1 + i * e.front.etg.getCardinality true + tp) with h | h
  · rw [h] at hv; omega
  · exact h

/-- Two underlying edges of one segment hit, at the same position, routes of the same
address. -/
theorem DecodeOk.hit_addr {P : Type} {env : Env P} {g : OptGraph} {m : Bld}
    {v : Nat → Int} {pre post : List OptEdge} {e : OptEdge} {etgp1 etgp2 : EtgPart}
    (ok1 : DecodeOk env g m v pre post e etgp1) (ok2 : DecodeOk env g m v pre post e etgp2)
    (tp : Nat) (htp : tp < e.front.etg.getCardinality true) :
    (etgp1.etg.trips[(scanHits env m.lp v e tp 0 etgp1.etg.trips).headD 0]?).map
        (fun r => r.route.addr)
      = (etgp2.etg.trips[(scanHits env m.lp v e tp 0 etgp2.etg.trips).headD 0]?).map
        (fun r => r.route.addr) := by
  obtain ⟨q1, hq1⟩ := ok1.one_hit tp htp
  obtain ⟨q2, hq2⟩ := ok2.one_hit tp htp
  obtain ⟨i1, r1, s1, hi1, hg1, hs1, ha1, hv1⟩ := ok1.hit_index tp q1 htp (by rw [hq1]; simp)
  obtain ⟨i2, r2, s2, hi2, hg2, hs2, ha2, hv2⟩ := ok2.hit_index tp q2 htp (by rw [hq2]; simp)
  have hsum := (uniqueness_sums env g m pre post e v ok1.built ok1.segs ok1.sat).1 tp htp
  obtain ⟨p0, _, _, hu⟩ := sum_range_one _ _ (fun p _ => ok1.bin _) hsum
  have hi : i1 = i2 := by rw [hu i1 hi1 hv1, hu i2 hi2 hv2]
  subst hi
  rw [hs1] at hs2
  simp only [Option.some.injEq] at hs2
  subst hs2
  rw [hq1, hq2]
  simp only [List.headD_cons, hg1, hg2, Option.map_some']
  rw [← ha1, ← ha2]

theorem zig_decodeOk (etgp : EtgPart) (h : etgp ∈ zigSeg.etgs) :
    DecodeOk sampleEnv zigGraph (modelOf zigGraph) bundleValuation [] [] zigSeg etgp where
  built := by rfl
  segs := by rfl
  sameRoutes := by
    have h2 : etgp = ⟨zigEdge1, true⟩ ∨ etgp = ⟨zigEdge2, false⟩ := by
      simpa [OptEdge.etgs, zigSeg] using h
    rcases h2 with rfl | rfl
    · exact List.Perm.refl _
    · exact List.Perm.swap _ _ _
  distinct := by decide
  names := by decide
  bin := by
    intro j
    unfold IsBin bundleValuation
    split <;> simp
  sat := by
    have hk : zigSeg.front.etg.getCardinality true = 2 := by decide
    have hn : numSumRows [] = 0 := by decide
    intro j h1 h2
    rw [hk, hn] at h2
    rw [hn] at h1
    interval_cases j <;> decide

/-- C26: for two underlying edges of one segment that the decoder can read, each with
an empty entry before, the decoder leaves orderings of `k` entries in which the route
hit at ILP position `tp` stands at list index `k - 1 - tp` when the edge's direction
flag equals that of the reference entry and at list index `tp` when it differs; the
route addresses listed for the two edges are the same sequence when their flags are
equal and reversed sequences when they differ. -/
theorem decoder_direction_order {P : Type} (env : Env P) (g : OptGraph) (m : Bld)
    (v : Nat → Int) (pre post : List OptEdge) (e : OptEdge) (etgp1 etgp2 : EtgPart)
    (ok1 : DecodeOk env g m v pre post e etgp1) (ok2 : DecodeOk env g m v pre post e etgp2)
    (c c' : OrderingConfig) (h1 : c etgp1.etg.addr = []) (h2 : c' etgp2.etg.addr = []) :
    ∃ c1 c2, decodeEtg env m.lp v e c etgp1 = some c1 ∧
      decodeEtg env m.lp v e c' etgp2 = some c2 ∧
      (c1 etgp1.etg.addr).length = e.front.etg.getCardinality true ∧
      (∀ tp q, tp < e.front.etg.getCardinality true →
        scanHits env m.lp v e tp 0 etgp1.etg.trips = [q] →
        (etgp1.dir = e.front.dir →
          (c1 etgp1.etg.addr)[e.front.etg.getCardinality true - 1 - tp]? = some q) ∧
        (etgp1.dir ≠ e.front.dir → (c1 etgp1.etg.addr)[tp]? = some q)) ∧
      (etgp1.dir = etgp2.dir →
        (c1 etgp1.etg.addr).map (fun q => (etgp1.etg.trips[q]?).map (fun r => r.route.addr))
          = (c2 etgp2.etg.addr).map
              (fun q => (etgp2.etg.trips[q]?).map (fun r => r.route.addr))) ∧
      (etgp1.dir ≠ etgp2.dir →
        (c1 etgp1.etg.addr).map (fun q => (etgp1.etg.trips[q]?).map (fun r => r.route.addr))
          = ((c2 etgp2.etg.addr).map
              (fun q => (etgp2.etg.trips[q]?).map (fun r => r.route.addr))).reverse) := by
  obtain ⟨c1, hf1, hp1⟩ := ok1.decodeEtg_exact c h1
  obtain ⟨c2, hf2, hp2⟩ := ok2.decodeEtg_exact c' h2
  have hmap : ((List.range (e.front.etg.getCardinality true)).map
        (fun tp => (scanHits env m.lp v e tp 0 etgp1.etg.trips).headD 0)).map
          (fun q => (etgp1.etg.trips[q]?).map (fun r => r.route.addr))
      = ((List.range (e.front.etg.getCardinality true)).map
        (fun tp => (scanHits env m.lp v e tp 0 etgp2.etg.trips).headD 0)).map
          (fun q => (etgp2.etg.trips[q]?).map (fun r => r.route.addr)) := by
    rw [List.map_map, List.map_map]
    apply List.map_congr_left
    intro tp htp
    exact ok1.hit_addr ok2 tp (List.mem_range.1 htp)
  refine ⟨c1, c2, hf1, hf2, ?_, ?_, ?_, ?_⟩
  · rw [hp1]
    split <;> simp
  · intro tp q htp hq
    have hget : ((List.range (e.front.etg.getCardinality true)).map
        (fun tp => (scanHits env m.lp v e tp 0 etgp1.etg.trips).headD 0))[tp]? = some q := by
      rw [List.getElem?_map, List.getElem?_range htp, Option.map_some', hq]
      rfl
    constructor
    · intro hd
      rw [hp1, if_pos hd, List.getElem?_reverse (by simp; omega)]
      simp only [List.length_map, List.length_range]
      have : e.front.etg.getCardinality true - 1
          - (e.front.etg.getCardinality true - 1 - tp) = tp := by omega
      rw [this]
      exact hget
    · intro hd
      rw [hp1, if_neg hd]
      exact hget
  · intro hd
    rw [hp1, hp2]
    by_cases hd1 : etgp1.dir = e.front.dir
    · have hd2 : etgp2.dir = e.front.dir := by rw [← hd]; exact hd1
      rw [if_pos hd1, if_pos hd2, List.map_reverse, List.map_reverse, hmap]
    · have hd2 : ¬ etgp2.dir = e.front.dir := by rw [← hd]; exact hd1
      rw [if_neg hd1, if_neg hd2, hmap]
  · intro hd
    rw [hp1, hp2]
    by_cases hd1 : etgp1.dir = e.front.dir
    · have hd2 : ¬ etgp2.dir = e.front.dir := fun h => hd (hd1.trans h.symm)
      rw [if_pos hd1, if_neg hd2, List.map_reverse, hmap]
    · have hd2 : etgp2.dir = e.front.dir := by
        revert hd hd1
        cases etgp1.dir <;> cases etgp2.dir <;> cases e.front.dir <;> simp
      rw [if_neg hd1, if_pos hd2, List.map_reverse, List.reverse_reverse, hmap]

theorem decoder_direction_order_witness :
    zigSeg.etgs = [⟨zigEdge1, true⟩, ⟨zigEdge2, false⟩] ∧
    zigSeg.front.etg.getCardinality true = 2 ∧
    scanHits sampleEnv (modelOf zigGraph).lp bundleValuation zigSeg 0 0 zigEdge1.trips = [0] ∧
    ∃ c1 c2,
      decodeEtg sampleEnv (modelOf zigGraph).lp bundleValuation zigSeg (fun _ => [])
        ⟨zigEdge1, true⟩ = some c1 ∧
      decodeEtg sampleEnv (modelOf zigGraph).lp bundleValuation zigSeg (fun _ => [])
        ⟨zigEdge2, false⟩ = some c2 ∧
      (c1 61)[2 - 1 - 0]? = some 0 ∧
      (c1 61).map (fun q => (zigEdge1.trips[q]?).map (fun r => r.route.addr))
        = ((c2 62).map (fun q => (zigEdge2.trips[q]?).map (fun r => r.route.addr))).reverse := by
  obtain ⟨c1, c2, hf1, hf2, _, hidx, _, hrev⟩ := decoder_direction_order sampleEnv zigGraph
    (modelOf zigGraph) bundleValuation [] [] zigSeg ⟨zigEdge1, true⟩ ⟨zigEdge2, false⟩
    (zig_decodeOk _ (by decide)) (zig_decodeOk _ (by decide)) (fun _ => []) (fun _ => [])
    rfl rfl
  exact ⟨rfl, by decide, by decide, c1, c2, hf1, hf2,
    (hidx 0 0 (by decide) (by decide)).1 rfl, hrev (by decide)⟩

theorem firstIdxFrom_append_first {α : Type} (f : α → Bool) (A B : List α) (y : α)
    (hA : ∀ x ∈ A, f x = false) (hy : f y = true) :
    ∀ n, firstIdxFrom f n (A ++ y :: B) = some (n + A.length) := by
  induction A with
  | nil => intro n; simp [firstIdxFrom, hy]
  | cons a A ih =>
    intro n
    rw [List.cons_append]
    unfold firstIdxFrom
    rw [hA a (List.mem_cons_self _ _)]
    simp only [Bool.false_eq_true, if_false]
    rw [ih (fun x hx => hA x (List.mem_cons_of_mem _ hx)) (n + 1), List.length_cons]
    congr 1
    omega

theorem firstIdxFrom_getElem {α : Type} (f : α → Bool) (l : List α) :
    ∀ n, l.any f = true → ∃ i x, firstIdxFrom f n l = some (n + i) ∧ l[i]? = some x ∧
      f x = true := by
  induction l with
  | nil => intro n h; simp at h
  | cons a l ih =>
    intro n h
    unfold firstIdxFrom
    by_cases ha : f a = true
    · exact ⟨0, a, by simp [ha], by simp, ha⟩
    · have h2 : l.any f = true := by simpa [ha] using h
      obtain ⟨i, x, h1, h3, h4⟩ := ih (n + 1) h2
      refine ⟨i + 1, x, ?_, by simpa using h3, h4⟩
      rw [if_neg ha, h1]
      congr 1
      omega

/-- Trip at the index `getRouteOccWithPos` gives for a route the edge carries. -/
theorem getRouteOccWithPos_occ (e : Edge) (r : Nat) (h : e.containsRoute r = true) :
    ∃ o, e.trips[e.getRouteOccWithPos r]? = some o ∧ o.route.addr = r := by
  unfold Edge.containsRoute at h
  obtain ⟨i, x, h1, h2, h3⟩ := firstIdxFrom_getElem _ e.trips 0 h
  refine ⟨x, ?_, by simpa using h3⟩
  unfold Edge.getRouteOccWithPos
  rw [h1]
  simpa using h2

/-- Place of a route in an ordering whose first index of an occurrence of it is known. -/
theorem getRouteOccWithPosUnder_append (e : Edge) (r : Nat) (A B : List Nat) (y : Nat)
    (o : RouteOccurrence)
    (hA : ∀ x ∈ A, ∀ t, e.trips[x]? = some t → t.route.addr ≠ r)
    (hy : e.trips[y]? = some o) (ho : o.route.addr = r) :
    e.getRouteOccWithPosUnder r (A ++ y :: B) = A.length := by
  unfold Edge.getRouteOccWithPosUnder
  rw [firstIdxFrom_append_first _ A B y ?_ ?_ 0]
  · simp
  · intro x hx
    cases ht : e.trips[x]? with
    | none => rfl
    | some t => simpa using hA x hx t ht
  · simp [hy, ho]

theorem expandRelativesFor_first_turn (g : TransitGraph) (fuel : Nat) (c : OrderingConfig)
    (ref : Nat) (start : Edge) (rs : List Nat) :
    expandRelativesFor g (fuel + 1) c ref start rs
      = (rs.foldlM (insertRelative ref none start) c).bind (fun c2 =>
          (expandLoop g ref rs fuel
            { c := c2, visited := [start.addr],
              todo := ((pushedEdges g ref none start [start.addr]).map
                (fun e => (some start, e))).reverse }).map (fun st => st.c)) := by
  unfold expandRelativesFor
  rw [expandLoop]
  simp only [List.contains_nil, Bool.false_eq_true, if_false]
  cases rs.foldlM (insertRelative ref none start) c with
  | none => rfl
  | some c2 => simp

theorem insertRelative_start (ref r : Nat) (cur : Edge) (c : OrderingConfig) (A B : List Nat)
    (hc : c cur.addr = A ++ cur.getRouteOccWithPos ref :: B)
    (hA : cur.getRouteOccWithPos ref ∉ A) :
    insertRelative ref none cur c r = some (c.set cur.addr
      (A ++ cur.getRouteOccWithPos r :: cur.getRouteOccWithPos ref :: B)) := by
  unfold insertRelative
  simp only [hc, firstIdxFrom_eq_append _ A B hA 0, Nat.zero_add]
  rw [insertAt_append_before]
  simp

theorem insertRelative_later (ref r : Nat) (first cur : Edge) (c : OrderingConfig)
    (A B : List Nat)
    (hc : c cur.addr = A ++ cur.getRouteOccWithPos ref :: B)
    (hA : cur.getRouteOccWithPos ref ∉ A) :
    insertRelative ref (some first) cur c r = some (c.set cur.addr
      (if xor (decide (first.getTo = cur.getTo) || decide (first.getFrom = cur.getFrom))
          (liesAfter first ref r (c first.addr)) then
        A ++ cur.getRouteOccWithPos ref :: cur.getRouteOccWithPos r :: B
      else A ++ cur.getRouteOccWithPos r :: cur.getRouteOccWithPos ref :: B)) := by
  unfold insertRelative liesAfter
  simp only [hc, firstIdxFrom_eq_append _ A B hA 0, Nat.zero_add]
  split
  · rw [insertAt_append_after]
  · rw [insertAt_append_before]
    simp

/-- Side of `r` in an ordering where the indices of `ref` and `r` stand together behind
entries that are occurrences of neither. -/
theorem liesAfter_after (cur : Edge) (ref r : Nat) (A B : List Nat)
    (href : cur.containsRoute ref = true) (hr : cur.containsRoute r = true) (hne : r ≠ ref)
    (hfree : ∀ x ∈ A, ∀ t, cur.trips[x]? = some t → t.route.addr ≠ r ∧ t.route.addr ≠ ref) :
    liesAfter cur ref r (A ++ cur.getRouteOccWithPos ref :: cur.getRouteOccWithPos r :: B)
        = true ∧
      liesAfter cur ref r (A ++ cur.getRouteOccWithPos r :: cur.getRouteOccWithPos ref :: B)
        = false := by
  obtain ⟨o1, ho1, ha1⟩ := getRouteOccWithPos_occ cur ref href
  obtain ⟨o2, ho2, ha2⟩ := getRouteOccWithPos_occ cur r hr
  have e1 : cur.getRouteOccWithPosUnder ref
      (A ++ cur.getRouteOccWithPos ref :: cur.getRouteOccWithPos r :: B) = A.length :=
    getRouteOccWithPosUnder_append cur ref A _ _ o1 (fun x hx t ht => (hfree x hx t ht).2)
      ho1 ha1
  have e2 : cur.getRouteOccWithPosUnder r
      (A ++ cur.getRouteOccWithPos ref :: cur.getRouteOccWithPos r :: B) = A.length + 1 := by
    have h := getRouteOccWithPosUnder_append cur r (A ++ [cur.getRouteOccWithPos ref]) B
      (cur.getRouteOccWithPos r) o2 ?_ ho2 ha2
    · simpa using h
    · intro x hx t ht
      rcases List.mem_append.1 hx with hx | hx
      · exact (hfree x hx t ht).1
      · rw [List.mem_singleton.1 hx, ho1] at ht
        simp only [Option.some.injEq] at ht
        rw [← ht, ha1]
        exact fun h => hne h.symm
  have e3 : cur.getRouteOccWithPosUnder r
      (A ++ cur.getRouteOccWithPos r :: cur.getRouteOccWithPos ref :: B) = A.length :=
    getRouteOccWithPosUnder_append cur r A _ _ o2 (fun x hx t ht => (hfree x hx t ht).1)
      ho2 ha2
  have e4 : cur.getRouteOccWithPosUnder ref
      (A ++ cur.getRouteOccWithPos r :: cur.getRouteOccWithPos ref :: B) = A.length + 1 := by
    have h := getRouteOccWithPosUnder_append cur ref (A ++ [cur.getRouteOccWithPos r]) B
      (cur.getRouteOccWithPos ref) o1 ?_ ho1 ha1
    · simpa using h
    · intro x hx t ht
      rcases List.mem_append.1 hx with hx | hx
      · exact (hfree x hx t ht).2
      · rw [List.mem_singleton.1 hx, ho2] at ht
        simp only [Option.some.injEq] at ht
        rw [← ht, ha2]
        exact hne
  unfold liesAfter
  rw [e1, e2, e3, e4]
  simp

/-- C27: with the index of `ref` in the ordering of `cur`, one turn of the insertion loop
puts the index of the relative route `r` immediately before the index of `ref` on the
start edge, which the traversal handles with no previous edge; on an edge reached from
`first` it puts it immediately after the index of `ref` when exactly one of
`first.to = cur.to or first.from = cur.from` and `r lies after ref in the ordering of
first` holds, else immediately before.
When `cur` carries both routes and no earlier entry is an occurrence of either, `r`
is afterwards on the same side of `ref` in both orderings if neither the heads nor the
tails of the two edges coincide, and on opposite sides if the heads or the tails do. -/
theorem insertRelative_side (ref r : Nat) (cur : Edge) (c : OrderingConfig) (A B : List Nat)
    (hc : c cur.addr = A ++ cur.getRouteOccWithPos ref :: B)
    (hA : cur.getRouteOccWithPos ref ∉ A) :
    (∃ c2, insertRelative ref none cur c r = some c2 ∧ (∀ x, x ≠ cur.addr → c2 x = c x) ∧
      c2 cur.addr = A ++ cur.getRouteOccWithPos r :: cur.getRouteOccWithPos ref :: B) ∧
    (∀ (g : TransitGraph) (fuel : Nat) (rs : List Nat),
      expandRelativesFor g (fuel + 1) c ref cur rs
        = (rs.foldlM (insertRelative ref none cur) c).bind (fun c2 =>
            (expandLoop g ref rs fuel
              { c := c2, visited := [cur.addr],
                todo := ((pushedEdges g ref none cur [cur.addr]).map
                  (fun e => (some cur, e))).reverse }).map (fun st => st.c))) ∧
    ∀ first : Edge, ∃ c2, insertRelative ref (some first) cur c r = some c2 ∧
      (∀ x, x ≠ cur.addr → c2 x = c x) ∧
      (xor (decide (first.getTo = cur.getTo) || decide (first.getFrom = cur.getFrom))
          (liesAfter first ref r (c first.addr)) = true →
        c2 cur.addr = A ++ cur.getRouteOccWithPos ref :: cur.getRouteOccWithPos r :: B) ∧
      (xor (decide (first.getTo = cur.getTo) || decide (first.getFrom = cur.getFrom))
          (liesAfter first ref r (c first.addr)) = false →
        c2 cur.addr = A ++ cur.getRouteOccWithPos r :: cur.getRouteOccWithPos ref :: B) ∧
      (cur.containsRoute ref = true → cur.containsRoute r = true → r ≠ ref →
        (∀ x ∈ A, ∀ t, cur.trips[x]? = some t → t.route.addr ≠ r ∧ t.route.addr ≠ ref) →
        first.addr ≠ cur.addr →
        (first.getTo ≠ cur.getTo → first.getFrom ≠ cur.getFrom →
          liesAfter cur ref r (c2 cur.addr) = liesAfter first ref r (c2 first.addr)) ∧
        (first.getTo = cur.getTo ∨ first.getFrom = cur.getFrom →
          liesAfter cur ref r (c2 cur.addr) = !liesAfter first ref r (c2 first.addr))) := by
  refine ⟨⟨_, insertRelative_start ref r cur c A B hc hA,
    fun x hx => set_other _ _ _ _ hx, set_same _ _ _⟩,
    fun g fuel rs => expandRelativesFor_first_turn g fuel c ref cur rs, ?_⟩
  intro first
  refine ⟨_, insertRelative_later ref r first cur c A B hc hA,
    fun x hx => set_other _ _ _ _ hx, ?_, ?_, ?_⟩
  · intro h
    rw [set_same, if_pos h]
  · intro h
    rw [set_same, if_neg (by simp [h])]
  · intro href hr hne hfree hfc
    obtain ⟨s1, s2⟩ := liesAfter_after cur ref r A B href hr hne hfree
    rw [set_same, set_other _ _ _ _ hfc]
    constructor
    · intro h1 h2
      cases hl : liesAfter first ref r (c first.addr) <;> simp [h1, h2, s1, s2]
    · intro h
      have hj : (decide (first.getTo = cur.getTo) || decide (first.getFrom = cur.getFrom))
          = true := by simpa using h
      cases hl : liesAfter first ref r (c first.addr) <;> simp [hj, s1, s2]

theorem insertRelative_side_witness :
    pairMidConfig pairEdge2.addr = [1] ++ pairEdge2.getRouteOccWithPos 16 :: [] ∧
    pairEdge2.getRouteOccWithPos 16 ∉ [1] ∧
    pairEdge1.getTo ≠ pairEdge2.getTo ∧ pairEdge1.getFrom ≠ pairEdge2.getFrom ∧
    liesAfter pairEdge1 16 64 (pairMidConfig pairEdge1.addr) = false ∧
    ∃ c2, insertRelative 16 (some pairEdge1) pairEdge2 pairMidConfig 64 = some c2 ∧
      c2 42 = [1, 0, 2] ∧
      liesAfter pairEdge2 16 64 (c2 pairEdge2.addr)
        = liesAfter pairEdge1 16 64 (c2 pairEdge1.addr) := by
  obtain ⟨c2, h1, _, _, h3, h4⟩ := (insertRelative_side 16 64 pairEdge2 pairMidConfig [1] []
    (by decide) (by decide)).2.2 pairEdge1
  exact ⟨by decide, by decide, by decide, by decide, by decide, c2, h1, h3 (by decide),
    (h4 (by decide) (by decide) (by decide) (by decide) (by decide)).1 (by decide) (by decide)⟩

theorem nodeAt_addr (g : TransitGraph) (a : Nat) : (g.nodeAt a).addr = a := by
  unfold TransitGraph.nodeAt
  cases h : g.getNodes.find? (fun n => n.addr = a) with
  | none => rfl
  | some n =>
    have := List.find?_some h
    simpa using this

theorem mem_edges_of_adj (g : TransitGraph) (n : Node) (e : Edge) (hn : n ∈ g.getNodes)
    (he : e ∈ n.adjListIn ∨ e ∈ n.adjListOut) : e ∈ g.edges := by
  unfold TransitGraph.edges
  exact List.mem_flatMap.2 ⟨n, hn, List.mem_append.2 he⟩

/-- Edge in an adjacency list of the node found for an address ends or starts at that
address. -/
theorem nodeAt_adj_end (g : TransitGraph) (start : Edge) (wf : WellFormed g start) (a : Nat)
    (e : Edge) (he : e ∈ (g.nodeAt a).adjListIn ∨ e ∈ (g.nodeAt a).adjListOut) :
    e ∈ g.edges ∧ (e.getTo = a ∨ e.getFrom = a) := by
  rcases nodeAt_cases g a with h | ⟨h1, h2⟩
  · refine ⟨mem_edges_of_adj g _ e h he, ?_⟩
    rcases he with he | he
    · left
      rw [(wf.ends _ h).1 e he, nodeAt_addr]
    · right
      rw [(wf.ends _ h).2 e he, nodeAt_addr]
  · rw [h1, h2] at he
    simp at he

theorem pushedEdges_shares (g : TransitGraph) (start : Edge) (wf : WellFormed g start)
    (ref : Nat) (prev : Option Edge) (cur : Edge) (visited : List Nat) (e : Edge)
    (he : e ∈ pushedEdges g ref prev cur visited) : e ∈ g.edges ∧ sharesNode cur e := by
  unfold pushedEdges at he
  obtain ⟨a, ha, he⟩ := List.mem_flatMap.1 he
  split at he
  · simp at he
  · have hadj : e ∈ (g.nodeAt a).adjListIn ∨ e ∈ (g.nodeAt a).adjListOut := by
      rcases List.mem_append.1 he with h | h
      · exact Or.inl (List.mem_filter.1 h).1
      · exact Or.inr (List.mem_filter.1 h).1
    obtain ⟨hE, hend⟩ := nodeAt_adj_end g start wf a e hadj
    refine ⟨hE, ?_⟩
    simp only [List.mem_cons, List.mem_singleton, List.not_mem_nil, or_false] at ha
    unfold sharesNode
    rcases ha with rfl | rfl <;> rcases hend with h | h
    · exact Or.inr (Or.inl h.symm)
    · exact Or.inl h.symm
    · exact Or.inr (Or.inr (Or.inr h.symm))
    · exact Or.inr (Or.inr (Or.inl h.symm))

/-- Edge with `ref` at an end node of `cur` that the walk does not skip is pushed unless
it was visited. -/
theorem mem_pushedEdges (g : TransitGraph) (ref : Nat) (prev : Option Edge) (cur : Edge)
    (visited : List Nat) (n : Nat) (e : Edge) (hn : n = cur.getFrom ∨ n = cur.getTo)
    (hskip : (match prev with
        | none => false
        | some first => decide (first.getTo = n) || decide (first.getFrom = n)) = false)
    (he : e ∈ (g.nodeAt n).adjListIn ∨ e ∈ (g.nodeAt n).adjListOut)
    (hr : e.containsRoute ref = true) (hv : e.addr ∉ visited) :
    e ∈ pushedEdges g ref prev cur visited := by
  unfold pushedEdges
  refine List.mem_flatMap.2 ⟨n, by rcases hn with rfl | rfl <;> simp, ?_⟩
  rw [if_neg (by rw [hskip]; simp)]
  have hp : (e.containsRoute ref && !visited.contains e.addr) = true := by
    simp [hr, hv]
  rcases he with he | he
  · exact List.mem_append.2 (Or.inl (List.mem_filter.2 ⟨he, hp⟩))
  · exact List.mem_append.2 (Or.inr (List.mem_filter.2 ⟨he, hp⟩))

theorem WalkInv.skip {g : TransitGraph} {ref : Nat} {start : Edge} {st : ExpandState}
    {done : List Edge} (inv : WalkInv g ref start st done) (cur : Option Edge × Edge)
    (rest : List (Option Edge × Edge)) (htodo : st.todo = cur :: rest)
    (hv : cur.2.addr ∈ st.visited) :
    WalkInv g ref start { st with todo := rest } done := by
  refine ⟨inv.nodup, inv.sound, ?_, ?_⟩
  · intro x hx
    exact inv.origin x (by rw [htodo]; exact List.mem_cons_of_mem _ hx)
  · intro e he n hn e2 he2 hr
    rcases inv.covered e he n hn e2 he2 hr with h | ⟨p, h⟩
    · exact Or.inl h
    · rw [htodo] at h
      rcases List.mem_cons.1 h with h | h
      · left
        rw [← h] at hv
        exact hv
      · exact Or.inr ⟨p, h⟩

theorem WalkInv.expand {g : TransitGraph} {ref : Nat} {start : Edge} {st : ExpandState}
    {done : List Edge} (inv : WalkInv g ref start st done) (wf : WellFormed g start)
    (cur : Option Edge × Edge) (rest : List (Option Edge × Edge)) (c2 : OrderingConfig)
    (htodo : st.todo = cur :: rest) (hv : cur.2.addr ∉ st.visited) :
    WalkInv g ref start
      { c := c2, visited := cur.2.addr :: st.visited,
        todo := ((pushedEdges g ref cur.1 cur.2 (cur.2.addr :: st.visited)).map
          (fun e => (some cur.2, e))).reverse ++ rest } (cur.2 :: done) := by
  have hcur := inv.origin cur (by rw [htodo]; exact List.mem_cons_self _ _)
  have hold : ∀ e2 : Edge, (e2.addr ∈ st.visited ∨ ∃ p, (p, e2) ∈ st.todo) →
      e2.addr ∈ cur.2.addr :: st.visited ∨ ∃ p, (p, e2) ∈
        ((pushedEdges g ref cur.1 cur.2 (cur.2.addr :: st.visited)).map
          (fun e => (some cur.2, e))).reverse ++ rest := by
    intro e2 h
    rcases h with h | ⟨p, h⟩
    · exact Or.inl (List.mem_cons_of_mem _ h)
    · rw [htodo] at h
      rcases List.mem_cons.1 h with h | h
      · left
        rw [← h]
        exact List.mem_cons_self _ _
      · exact Or.inr ⟨p, List.mem_append.2 (Or.inr h)⟩
  refine ⟨List.nodup_cons.2 ⟨hv, inv.nodup⟩, ?_, ?_, ?_⟩
  · intro e he
    rcases List.mem_cons.1 he with rfl | he
    · rcases hcur with ⟨_, h⟩ | ⟨prev, _, hp, hE, hr, hs⟩
      · rw [h]
        exact RefReach.start
      · exact RefReach.step prev _ (inv.sound prev hp) hE hr hs
    · exact inv.sound e he
  · intro x hx
    rcases List.mem_append.1 hx with hx | hx
    · obtain ⟨e, he, rfl⟩ := List.mem_map.1 (List.mem_reverse.1 hx)
      obtain ⟨hr, _, _⟩ := pushedEdges_mem g ref _ _ _ e he
      obtain ⟨hE, hs⟩ := pushedEdges_shares g start wf ref _ _ _ e he
      exact Or.inr ⟨cur.2, rfl, List.mem_cons_self _ _, hE, hr, hs⟩
    · rcases inv.origin x (by rw [htodo]; exact List.mem_cons_of_mem _ hx) with h | h
      · exact Or.inl h
      · obtain ⟨prev, h1, h2, h3⟩ := h
        exact Or.inr ⟨prev, h1, List.mem_cons_of_mem _ h2, h3⟩
  · intro e he n hn e2 he2 hr
    rcases List.mem_cons.1 he with rfl | he
    · by_cases hvis : e2.addr ∈ cur.2.addr :: st.visited
      · exact Or.inl hvis
      · cases hsk : (match cur.1 with
            | none => false
            | some first => decide (first.getTo = n) || decide (first.getFrom = n)) with
        | false =>
          right
          refine ⟨some cur.2, List.mem_append.2 (Or.inl (List.mem_reverse.2
            (List.mem_map.2 ⟨e2, ?_, rfl⟩)))⟩
          exact mem_pushedEdges g ref cur.1 cur.2 _ n e2 hn hsk he2 hr hvis
        | true =>
          rcases hcur with ⟨h, _⟩ | ⟨prev, h1, hp, _⟩
          · rw [h] at hsk
            simp at hsk
          · rw [h1] at hsk
            simp only [Bool.or_eq_true, decide_eq_true_eq] at hsk
            have hn2 : n = prev.getFrom ∨ n = prev.getTo := by
              rcases hsk with h | h
              · exact Or.inr h.symm
              · exact Or.inl h.symm
            exact hold e2 (inv.covered prev hp n hn2 e2 he2 hr)
    · exact hold e2 (inv.covered e he n hn e2 he2 hr)

/-- Traversal loop with both invariants: with fuel above the measure it runs to an empty
stack and keeps, besides the form of the orderings, the invariant on the edges met. -/
theorem expandLoop_walk (g : TransitGraph) (ref : Nat) (rs : List Nat) (c0 : OrderingConfig)
    (start : Edge) (wf : WellFormed g start)
    (hcand : ∀ e n, n ∈ g.getNodes → (e ∈ n.adjListIn ∨ e ∈ n.adjListOut) →
      e.containsRoute ref = true → Expandable ref rs c0 e) :
    ∀ (fuel : Nat) (st : ExpandState) (done : List Edge),
      ExpandInv g ref rs c0 start st done → WalkInv g ref start st done →
      expandMeasure g start st < fuel →
      ∃ final done2, expandLoop g ref rs fuel st = some final ∧
        ExpandInv g ref rs c0 start final done2 ∧ WalkInv g ref start final done2 ∧
        final.todo = [] ∧
        (∀ e ∈ done, e ∈ done2) ∧
        (∀ x rest, st.todo = x :: rest → x.2.addr ∉ st.visited → x.2 ∈ done2) := by
  intro fuel
  induction fuel with
  | zero => intro st done _ _ hm; omega
  | succ fuel ih =>
    intro st done inv winv hm
    unfold expandLoop
    cases htodo : st.todo with
    | nil => exact ⟨st, done, rfl, inv, winv, htodo, fun e he => he, fun x rest h => by simp at h⟩
    | cons cur rest =>
      simp only []
      have hcur := inv.todo_ok cur (by rw [htodo]; exact List.mem_cons_self _ _)
      by_cases hv : st.visited.contains cur.2.addr = true
      · rw [if_pos hv]
        have inv2 : ExpandInv g ref rs c0 start { st with todo := rest } done :=
          ⟨inv.visited_eq, inv.form, inv.frame,
            fun x hx => inv.todo_ok x (by rw [htodo]; exact List.mem_cons_of_mem _ hx)⟩
        have hm2 : expandMeasure g start { st with todo := rest } < fuel := by
          unfold expandMeasure at hm ⊢
          rw [htodo] at hm
          simp only [List.length_cons] at hm ⊢
          omega
        obtain ⟨final, done2, hl, hinv, hw, ht, hsub, _⟩ := ih _ done inv2
          (winv.skip cur rest htodo (by simpa using hv)) hm2
        refine ⟨final, done2, hl, hinv, hw, ht, hsub, ?_⟩
        intro x rest2 hx hxv
        simp only [List.cons.injEq] at hx
        rw [← hx.1] at hxv
        exact absurd (by simpa using hv) hxv
      · rw [if_neg hv]
        have hnv : cur.2.addr ∉ st.visited := by simpa using hv
        obtain ⟨A, B, hAB, hA⟩ := exists_first_split _ _ hcur.2.1
        have hc : st.c cur.2.addr = A ++ cur.2.getRouteOccWithPos ref :: B := by
          rw [inv.frame _ hnv]; exact hAB
        obtain ⟨c2, bef, aft, hf, ho, hform, hperm⟩ :=
          expandEdge_spec ref cur.1 cur.2 rs st.c A B hc hA hcur.2.2
        rw [hf]
        simp only []
        have inv2 : ExpandInv g ref rs c0 start
            { c := c2, visited := cur.2.addr :: st.visited,
              todo := ((pushedEdges g ref cur.1 cur.2 (cur.2.addr :: st.visited)).map
                (fun e => (some cur.2, e))).reverse ++ rest } (cur.2 :: done) := by
          refine ⟨by simp [inv.visited_eq], ?_, ?_, ?_⟩
          · intro e he
            rcases List.mem_cons.1 he with rfl | he
            · exact ⟨A, B, bef, aft, hAB, hA, hform, hperm⟩
            · have hne : e.addr ≠ cur.2.addr := by
                intro heq
                apply hnv
                rw [← inv.visited_eq, ← heq]
                exact List.mem_map.2 ⟨e, he, rfl⟩
              obtain ⟨A2, B2, bef2, aft2, h1, h2, h3, h4⟩ := inv.form e he
              exact ⟨A2, B2, bef2, aft2, h1, h2, (ho _ hne).trans h3, h4⟩
          · intro a ha
            simp only [List.mem_cons, not_or] at ha
            exact (ho a ha.1).trans (inv.frame a ha.2)
          · intro x hx
            rcases List.mem_append.1 hx with hx | hx
            · obtain ⟨e, he, rfl⟩ := List.mem_map.1 (List.mem_reverse.1 hx)
              obtain ⟨hcr, _, n, hn, hadj⟩ := pushedEdges_mem g ref _ _ _ e he
              exact ⟨mem_edgeUniverse g start e n hn hadj, hcand e n hn hadj hcr⟩
            · exact inv.todo_ok x (by rw [htodo]; exact List.mem_cons_of_mem _ hx)
        have hm2 : expandMeasure g start
            { c := c2, visited := cur.2.addr :: st.visited,
              todo := ((pushedEdges g ref cur.1 cur.2 (cur.2.addr :: st.visited)).map
                (fun e => (some cur.2, e))).reverse ++ rest } < fuel := by
          unfold expandMeasure at hm ⊢
          rw [htodo] at hm
          simp only [List.length_cons, List.length_append, List.length_reverse,
            List.length_map] at hm ⊢
          have hp := pushedEdges_length g ref cur.1 cur.2 (cur.2.addr :: st.visited)
          have hlt := unvisited_card_lt (edgeUniverse g start) st.visited cur.2.addr hcur.1 hnv
          have hmul : (2 * adjTotal g + 1)
              * ((edgeUniverse g start).toFinset \ (cur.2.addr :: st.visited).toFinset).card
              + (2 * adjTotal g + 1)
              ≤ (2 * adjTotal g + 1)
                * ((edgeUniverse g start).toFinset \ st.visited.toFinset).card := by
            rw [← Nat.mul_succ]
            exact Nat.mul_le_mul_left _ hlt
          omega
        obtain ⟨final, done2, hl, hinv, hw, ht, hsub, _⟩ := ih _ (cur.2 :: done) inv2
          (winv.expand wf cur rest c2 htodo hnv) hm2
        refine ⟨final, done2, hl, hinv, hw, ht,
          fun e he => hsub e (List.mem_cons_of_mem _ he), ?_⟩
        intro x rest2 hx _
        simp only [List.cons.injEq] at hx
        rw [← hx.1]
        exact hsub _ (List.mem_cons_self _ _)

theorem refReach_edge (g : TransitGraph) (ref : Nat) (start e : Edge)
    (h : RefReach g ref start e) :
    e = start ∨ (e ∈ g.edges ∧ e.containsRoute ref = true) := by
  cases h with
  | start => exact Or.inl rfl
  | step e1 _ _ hE hr _ => exact Or.inr ⟨hE, hr⟩

/-- C28: on a well-formed graph, when the insertion can run on the start edge and on
every edge with `ref`, `expandRelativesFor` returns with fuel `expandFuel g` or more, with
an empty stack; no edge is expanded twice, and the expanded edges are exactly the edges
joined to the start edge by a chain of edges of the graph that carry `ref`, each sharing
an end node with the one before; all of them carry `ref` when the start edge does. -/
theorem expandRelativesFor_visits_component (g : TransitGraph) (ref : Nat)
    (rs : List Nat) (c0 : OrderingConfig) (start : Edge) (fuel : Nat)
    (wf : WellFormed g start)
    (hstart : Expandable ref rs c0 start)
    (hcand : ∀ e n, n ∈ g.getNodes → (e ∈ n.adjListIn ∨ e ∈ n.adjListOut) →
      e.containsRoute ref = true → Expandable ref rs c0 e)
    (hfuel : expandFuel g ≤ fuel) :
    ∃ (final : ExpandState) (done : List Edge),
      expandLoop g ref rs fuel { c := c0, visited := [], todo := [(none, start)] }
        = some final ∧
      expandRelativesFor g fuel c0 ref start rs = some final.c ∧
      final.todo = [] ∧
      done.map (fun e => e.addr) = final.visited ∧ final.visited.Nodup ∧ done.Nodup ∧
      (∀ e, e ∈ done ↔ RefReach g ref start e) ∧
      (start.containsRoute ref = true → ∀ e ∈ done, e.containsRoute ref = true) := by
  have inv0 : ExpandInv g ref rs c0 start { c := c0, visited := [], todo := [(none, start)] }
      [] := by
    refine ⟨rfl, by simp, fun _ _ => rfl, ?_⟩
    intro x hx
    simp only [List.mem_singleton] at hx
    subst hx
    exact ⟨by simp [edgeUniverse], hstart⟩
  have winv0 : WalkInv g ref start { c := c0, visited := [], todo := [(none, start)] } [] := by
    refine ⟨List.nodup_nil, by simp, ?_, by simp⟩
    intro x hx
    simp only [List.mem_singleton] at hx
    subst hx
    exact Or.inl ⟨rfl, rfl⟩
  obtain ⟨final, done, hl, hinv, hw, ht, _, htop⟩ := expandLoop_walk g ref rs c0 start wf hcand
    fuel _ [] inv0 winv0 (Nat.lt_of_lt_of_le (expandMeasure_init g start c0) hfuel)
  have hs : start ∈ done := htop (none, start) [] rfl (by simp)
  have hnd : (done.map (fun e => e.addr)).Nodup := by rw [hinv.visited_eq]; exact hw.nodup
  have hcomplete : ∀ e, RefReach g ref start e → e ∈ done := by
    intro e h
    induction h with
    | start => exact hs
    | step e1 e2 hreach hE hr hsh ih =>
      have hl2 := wf.listed e2 hE
      have hcov : ∃ n, (n = e1.getFrom ∨ n = e1.getTo) ∧
          (e2 ∈ (g.nodeAt n).adjListIn ∨ e2 ∈ (g.nodeAt n).adjListOut) := by
        rcases hsh with h | h | h | h
        · exact ⟨e1.getFrom, Or.inl rfl, Or.inr (by rw [h]; exact hl2.1)⟩
        · exact ⟨e1.getFrom, Or.inl rfl, Or.inl (by rw [h]; exact hl2.2)⟩
        · exact ⟨e1.getTo, Or.inr rfl, Or.inr (by rw [h]; exact hl2.1)⟩
        · exact ⟨e1.getTo, Or.inr rfl, Or.inl (by rw [h]; exact hl2.2)⟩
      obtain ⟨n, hn, hadj⟩ := hcov
      rcases hw.covered e1 ih n hn e2 hadj hr with h | ⟨p, h⟩
      · rw [← hinv.visited_eq] at h
        obtain ⟨e3, he3, ha⟩ := List.mem_map.1 h
        have h3 : e3 = start ∨ e3 ∈ g.edges := by
          rcases refReach_edge g ref start e3 (hw.sound e3 he3) with h | h
          · exact Or.inl h
          · exact Or.inr h.1
        rw [← wf.ident e3 e2 h3 (Or.inr hE) ha]
        exact he3
      · rw [ht] at h
        simp at h
  refine ⟨final, done, hl, by simp [expandRelativesFor, hl], ht, hinv.visited_eq, hw.nodup,
    List.Nodup.of_map _ hnd, fun e => ⟨hw.sound e, hcomplete e⟩, ?_⟩
  intro hsr e he
  rcases refReach_edge g ref start e (hw.sound e he) with h | h
  · rw [h]; exact hsr
  · exact h.2


theorem pairGraph_wellFormed : WellFormed pairGraph pairEdge1 where
  ends := by decide
  listed := by decide
  ident := by
    have h : ∀ e ∈ pairEdge1 :: pairGraph.edges, ∀ e2 ∈ pairEdge1 :: pairGraph.edges,
        e.addr = e2.addr → e = e2 := by decide
    intro e e2 he he2
    exact h e (List.mem_cons.2 he) e2 (List.mem_cons.2 he2)

theorem expandRelativesFor_visits_component_witness :
    WellFormed pairGraph pairEdge1 ∧ Expandable 16 [64] pairConfig pairEdge1 ∧
    expandFuel pairGraph ≤ 47 ∧
    ∃ (final : ExpandState) (done : List Edge),
      expandLoop pairGraph 16 [64] 47
        { c := pairConfig, visited := [], todo := [(none, pairEdge1)] } = some final ∧
      final.todo = [] ∧ final.visited.Nodup ∧ pairEdge1 ∈ done ∧ pairEdge2 ∈ done ∧
      ∀ e ∈ done, e.containsRoute 16 = true := by
  have hcand : ∀ e n, n ∈ pairGraph.getNodes → (e ∈ n.adjListIn ∨ e ∈ n.adjListOut) →
      e.containsRoute 16 = true → Expandable 16 [64] pairConfig e := by
    intro e n hn he _
    simp only [pairGraph, List.mem_cons, List.mem_singleton, List.not_mem_nil, or_false] at hn
    rcases hn with rfl | rfl | rfl <;>
      simp only [List.mem_singleton, List.not_mem_nil, or_false, false_or] at he <;>
      first
        | (subst he; unfold Expandable; decide)
        | (rcases he with rfl | rfl <;> (unfold Expandable; decide))
  obtain ⟨final, done, h1, _, h3, _, h5, _, h7, h8⟩ := expandRelativesFor_visits_component
    pairGraph 16 [64] pairConfig pairEdge1 47 pairGraph_wellFormed
    (by unfold Expandable; decide) hcand (by decide)
  refine ⟨pairGraph_wellFormed, by unfold Expandable; decide, by decide, final, done, h1, h3,
    h5, (h7 _).2 RefReach.start, (h7 _).2 ?_, h8 (by decide)⟩
  exact RefReach.step pairEdge1 pairEdge2 RefReach.start (by decide) (by decide)
    (Or.inr (Or.inr (Or.inl (by decide))))

theorem call_counters (s : GurobiSolver) (c : GrbCall) :
    (s.call c).1.numVars = s.numVars + countCols [c] ∧
      (s.call c).1.numRows = s.numRows + countRows [c] := by
  cases c with
  | col ok name t o =>
    cases ok <;> simp [GurobiSolver.call, GurobiSolver.addCol, GRBaddvar, countCols, countRows]
  | row ok name b t =>
    cases ok <;> simp [GurobiSolver.call, GurobiSolver.addRow, GRBaddconstr, countCols, countRows]

theorem countCols_append (a b : List GrbCall) : countCols (a ++ b) = countCols a + countCols b := by
  simp [countCols]

theorem countRows_append (a b : List GrbCall) : countRows (a ++ b) = countRows a + countRows b := by
  simp [countRows]

theorem run_counters (calls : List GrbCall) : ∀ s : GurobiSolver,
    (s.run calls).numVars = s.numVars + countCols calls ∧
      (s.run calls).numRows = s.numRows + countRows calls := by
  induction calls with
  | nil => intro s; simp [GurobiSolver.run, countCols, countRows]
  | cons c cs ih =>
    intro s
    have h1 := call_counters s c
    have h2 := ih (s.call c).1
    have e1 := countCols_append [c] cs
    have e2 := countRows_append [c] cs
    simp only [List.singleton_append] at e1 e2
    unfold GurobiSolver.run at h2 ⊢
    rw [List.foldl_cons, h2.1, h2.2, h1.1, h1.2, e1, e2]
    omega

/-- C33: after any sequence of `addCol` and `addRow` calls on a fresh solver,
`getNumVars()` is the number of `addCol` calls without library error and
`getNumConstrs()` the number of such `addRow` calls; a further `addCol` without error
returns the number of earlier successful `addCol` calls (the n-th returns n-1), raises
the column counter by one and leaves the row counter, and likewise for `addRow`; a call
whose library call reports an error throws and leaves both counters as they were. -/
theorem addCol_addRow_counters (calls : List GrbCall) :
    (GurobiSolver.create.run calls).getNumVars = countCols calls ∧
    (GurobiSolver.create.run calls).getNumConstrs = countRows calls ∧
    (∀ (name : String) (t : GrbColType) (c : Int),
      ((GurobiSolver.create.run calls).addCol true name t c).2
          = some ((countCols calls + 1 : Nat) - 1 : Int) ∧
        ((GurobiSolver.create.run calls).addCol true name t c).1.getNumVars
          = countCols calls + 1 ∧
        ((GurobiSolver.create.run calls).addCol true name t c).1.getNumConstrs
          = countRows calls ∧
        ((GurobiSolver.create.run calls).addCol false name t c).2 = none ∧
        ((GurobiSolver.create.run calls).addCol false name t c).1.getNumVars
          = countCols calls ∧
        ((GurobiSolver.create.run calls).addCol false name t c).1.getNumConstrs
          = countRows calls) ∧
    (∀ (name : String) (b : Int) (t : GrbRowType),
      ((GurobiSolver.create.run calls).addRow true name b t).2
          = some ((countRows calls + 1 : Nat) - 1 : Int) ∧
        ((GurobiSolver.create.run calls).addRow true name b t).1.getNumConstrs
          = countRows calls + 1 ∧
        ((GurobiSolver.create.run calls).addRow true name b t).1.getNumVars
          = countCols calls ∧
        ((GurobiSolver.create.run calls).addRow false name b t).2 = none ∧
        ((GurobiSolver.create.run calls).addRow false name b t).1.getNumConstrs
          = countRows calls ∧
        ((GurobiSolver.create.run calls).addRow false name b t).1.getNumVars
          = countCols calls) := by
  obtain ⟨h1, h2⟩ := run_counters calls GurobiSolver.create
  have z1 : GurobiSolver.create.numVars = 0 := rfl
  have z2 : GurobiSolver.create.numRows = 0 := rfl
  rw [z1, Nat.zero_add] at h1
  rw [z2, Nat.zero_add] at h2
  refine ⟨h1, h2, ?_, ?_⟩
  · intro name t c
    simp [GurobiSolver.addCol, GRBaddvar, GurobiSolver.getNumVars,
      GurobiSolver.getNumConstrs, h1, h2]
  · intro name b t
    simp [GurobiSolver.addRow, GRBaddconstr, GurobiSolver.getNumVars,
      GurobiSolver.getNumConstrs, h1, h2]

theorem mem_nonRelIdxFrom (rs : List RouteOccurrence) : ∀ p q,
    q ∈ nonRelIdxFrom p rs ↔
      p ≤ q ∧ ∃ r, rs[q - p]? = some r ∧ r.route.relativeTo = none := by
  induction rs with
  | nil => intro p q; simp [nonRelIdxFrom]
  | cons r rs ih =>
    intro p q
    unfold nonRelIdxFrom
    by_cases hq : q = p
    · subst hq
      cases hrel : r.route.relativeTo with
      | some x =>
        simp only [Option.isSome_some, if_true, ih, Nat.sub_self, List.getElem?_cons_zero,
          Option.some.injEq, exists_eq_left', hrel]
        constructor
        · intro h; omega
        · intro h; simp at h
      | none => simp [hrel]
    · have hstep : p ≤ q → (r :: rs)[q - p]? = rs[q - (p + 1)]? := by
        intro hle
        have : q - p = (q - (p + 1)) + 1 := by omega
        rw [this, List.getElem?_cons_succ]
      constructor
      · intro h
        have h2 : q ∈ nonRelIdxFrom (p + 1) rs := by
          split at h
          · exact h
          · rcases List.mem_cons.1 h with h | h
            · exact absurd h hq
            · exact h
        obtain ⟨hle, r2, hr2, hrel⟩ := (ih _ _).1 h2
        exact ⟨by omega, r2, by rw [hstep (by omega)]; exact hr2, hrel⟩
      · rintro ⟨hle, r2, hr2, hrel⟩
        have h2 : q ∈ nonRelIdxFrom (p + 1) rs :=
          (ih _ _).2 ⟨by omega, r2, by rw [← hstep hle]; exact hr2, hrel⟩
        split
        · exact h2
        · exact List.mem_cons_of_mem _ h2

/-- Loop over positions for one underlying edge that the decoder can read: the
trip-list indices of the non-relative occurrences are added to the entry of the edge. -/
theorem DecodeOk.decodeEtg_perm {P : Type} {env : Env P} {g : OptGraph} {m : Bld}
    {v : Nat → Int} {pre post : List OptEdge} {e : OptEdge} {etgp : EtgPart}
    (ok : DecodeOk env g m v pre post e etgp) (c : OrderingConfig) :
    ∃ c2, decodeEtg env m.lp v e c etgp = some c2 ∧
      (∀ x, x ≠ etgp.etg.addr → c2 x = c x) ∧
      (c2 etgp.etg.addr).Perm (etgp.etg.nonRelIdx ++ c etgp.etg.addr) := by
  obtain ⟨c2, hf, ho, hp⟩ := ok.fold_tp (List.range (etgp.etg.getCardinality true)) c
    (fun tp htp => by rw [← ok.card_eq]; exact List.mem_range.1 htp)
  exact ⟨c2, hf, ho, hp.trans (ok.hits_perm.append_right _)⟩

/-- Fold of steps that each add to the entry of their own key: every entry gets what
its step adds, the other entries stay. -/
theorem foldlM_keyed {α : Type} (key : α → Nat) (target : α → List Nat)
    (step : OrderingConfig → α → Option OrderingConfig) (l : List α) :
    (l.map key).Nodup →
    (∀ x ∈ l, ∀ c, ∃ c2, step c x = some c2 ∧ (∀ a, a ≠ key x → c2 a = c a) ∧
      (c2 (key x)).Perm (target x ++ c (key x))) →
    ∀ c, ∃ c2, l.foldlM step c = some c2 ∧ (∀ a, a ∉ l.map key → c2 a = c a) ∧
      ∀ x ∈ l, (c2 (key x)).Perm (target x ++ c (key x)) := by
  induction l with
  | nil => intro _ _ c; exact ⟨c, rfl, fun _ _ => rfl, by simp⟩
  | cons x l ih =>
    intro hnd hstep c
    rw [List.map_cons, List.nodup_cons] at hnd
    obtain ⟨c1, h1, ho1, hp1⟩ := hstep x (List.mem_cons_self _ _) c
    obtain ⟨c2, h2, ho2, hp2⟩ := ih hnd.2
      (fun y hy => hstep y (List.mem_cons_of_mem _ hy)) c1
    refine ⟨c2, by rw [List.foldlM_cons, h1]; exact h2, ?_, ?_⟩
    · intro a ha
      simp only [List.map_cons, List.mem_cons, not_or] at ha
      rw [ho2 a ha.2, ho1 a ha.1]
    · intro y hy
      rcases List.mem_cons.1 hy with rfl | hy
      · rw [ho2 _ hnd.1]
        exact hp1
      · have hne : key y ≠ key x := fun h => hnd.1 (h ▸ List.mem_map_of_mem key hy)
        rw [← ho1 _ hne]
        exact hp2 y hy

theorem foldlM_map_pair {α β γ : Type} (f : β → γ) (g : α → γ → Option α) (l : List β) :
    ∀ c, (l.map f).foldlM g c = l.foldlM (fun c y => g c (f y)) c := by
  induction l with
  | nil => intro c; rfl
  | cons y l ih =>
    intro c
    rw [List.map_cons, List.foldlM_cons, List.foldlM_cons]
    cases g c (f y) with
    | none => rfl
    | some c1 => exact ih c1

theorem decodeSegments_flat {P : Type} (env : Env P) (lp : Lp) (v : Nat → Int)
    (S : List OptEdge) : ∀ c : OrderingConfig,
    S.foldlM (decodeSegment env lp v) c
      = (S.flatMap (fun e => e.etgs.map (fun p => (e, p)))).foldlM
          (fun c x => decodeEtg env lp v x.1 c x.2) c := by
  induction S with
  | nil => intro c; rfl
  | cons e S ih =>
    intro c
    rw [List.foldlM_cons, List.flatMap_cons, List.foldlM_append, foldlM_map_pair]
    unfold decodeSegment
    cases e.etgs.foldlM (decodeEtg env lp v e) c with
    | none => rfl
    | some c1 => exact ih c1

/-- C31: when every underlying edge of every segment carries the pairwise distinct
non-relative routes of the reference edge, the zero-one solution satisfies the
uniqueness rows, every underlying edge occurs once and has an empty entry before, the
loop nest of `getConfigurationFromSolution` runs through and leaves for every underlying
edge a list of length `k` without repetition that holds the trip-list index of every
non-relative occurrence of the edge exactly once and no index of a relative occurrence. -/
theorem decoder_lists_nonrelative_indices {P : Type} (env : Env P) (g : OptGraph) (m : Bld)
    (v : Nat → Int) (c : OrderingConfig)
    (ok : ∀ pre e post etgp, g.segments = pre ++ e :: post → etgp ∈ e.etgs →
      DecodeOk env g m v pre post e etgp)
    (hnd : ((g.segments.flatMap (fun e => e.etgs)).map (fun p => p.etg.addr)).Nodup)
    (hc : ∀ e ∈ g.segments, ∀ etgp ∈ e.etgs, c etgp.etg.addr = []) :
    ∃ c2, decodePositions env m.lp v g c = some c2 ∧
      ∀ e ∈ g.segments, ∀ etgp ∈ e.etgs,
        (c2 etgp.etg.addr).length = e.front.etg.getCardinality true ∧
        (c2 etgp.etg.addr).Nodup ∧
        (∀ i r, etgp.etg.trips[i]? = some r → r.route.relativeTo = none →
          (c2 etgp.etg.addr).count i = 1) ∧
        (∀ i r, etgp.etg.trips[i]? = some r → r.route.relativeTo.isSome →
          i ∉ c2 etgp.etg.addr) ∧
        (∀ i ∈ c2 etgp.etg.addr, i < etgp.etg.trips.length) := by
  have hkey : (g.segments.flatMap (fun e => e.etgs.map (fun p => (e, p)))).map
      (fun x => x.2.etg.addr) = (g.segments.flatMap (fun e => e.etgs)).map
        (fun p => p.etg.addr) := by
    rw [List.map_flatMap, List.map_flatMap]
    apply List.flatMap_congr
    intro e _
    rw [List.map_map]
    rfl
  have hok : ∀ x ∈ g.segments.flatMap (fun e => e.etgs.map (fun p => (e, p))),
      x.1 ∈ g.segments ∧ x.2 ∈ x.1.etgs := by
    intro x hx
    obtain ⟨e, he, hx⟩ := List.mem_flatMap.1 hx
    obtain ⟨p, hp, rfl⟩ := List.mem_map.1 hx
    exact ⟨he, hp⟩
  obtain ⟨c2, hf, _, hp⟩ := foldlM_keyed (fun x : OptEdge × EtgPart => x.2.etg.addr)
    (fun x => x.2.etg.nonRelIdx) (fun c x => decodeEtg env m.lp v x.1 c x.2)
    (g.segments.flatMap (fun e => e.etgs.map (fun p => (e, p)))) (by rw [hkey]; exact hnd)
    (fun x hx c1 => by
      obtain ⟨pre, post, hs⟩ := List.append_of_mem (hok x hx).1
      exact (ok pre x.1 post x.2 hs (hok x hx).2).decodeEtg_perm c1) c
  refine ⟨c2, by rw [decodePositions_eq, decodeSegments_flat]; exact hf, ?_⟩
  intro e he etgp hetgp
  have hperm : (c2 etgp.etg.addr).Perm etgp.etg.nonRelIdx := by
    have := hp (e, etgp) (List.mem_flatMap.2 ⟨e, he, List.mem_map.2 ⟨etgp, hetgp, rfl⟩⟩)
    simpa [hc e he etgp hetgp] using this
  obtain ⟨pre, post, hs⟩ := List.append_of_mem he
  have ok1 := ok pre e post etgp hs hetgp
  have hndI : etgp.etg.nonRelIdx.Nodup := nonRelIdxFrom_nodup _ _
  have hmem : ∀ i, i ∈ etgp.etg.nonRelIdx ↔
      ∃ r, etgp.etg.trips[i]? = some r ∧ r.route.relativeTo = none := by
    intro i
    unfold Edge.nonRelIdx
    rw [mem_nonRelIdxFrom]
    simp
  refine ⟨?_, hperm.nodup_iff.2 hndI, ?_, ?_, ?_⟩
  · rw [hperm.length_eq, ← ok1.card_eq]
    unfold Edge.nonRelIdx
    rw [nonRelIdxFrom_length]
    simp [Edge.getCardinality]
  · intro i r hi hrel
    rw [hperm.count_eq]
    exact List.count_eq_one_of_mem hndI ((hmem i).2 ⟨r, hi, hrel⟩)
  · intro i r hi hrel hin
    obtain ⟨r2, hi2, hrel2⟩ := (hmem i).1 (hperm.subset hin)
    rw [hi] at hi2
    simp only [Option.some.injEq] at hi2
    subst hi2
    rw [hrel2] at hrel
    simp at hrel
  · intro i hin
    obtain ⟨r2, hi2, _⟩ := (hmem i).1 (hperm.subset hin)
    by_contra hge
    rw [List.getElem?_eq_none (by omega)] at hi2
    exact absurd hi2 (by simp)

theorem decoder_lists_nonrelative_indices_witness :
    ((chainGraph.segments.flatMap (fun e => e.etgs)).map (fun p => p.etg.addr)).Nodup ∧
    chainSeg ∈ chainGraph.segments ∧ chainSeg.etgs.length = 3 ∧
    chainSeg.front.etg.getCardinality true = 3 ∧
    ∃ c2, decodePositions sampleEnv (modelOf chainGraph).lp chainValuation chainGraph
        (fun _ => []) = some c2 ∧
      ∀ etgp ∈ chainSeg.etgs, (c2 etgp.etg.addr).length = 3 ∧ (c2 etgp.etg.addr).Nodup := by
  obtain ⟨c2, h1, h2⟩ := decoder_lists_nonrelative_indices sampleEnv chainGraph
    (modelOf chainGraph) chainValuation (fun _ => []) chain_decodeOk_all (by decide)
    (fun _ _ _ _ => rfl)
  refine ⟨by decide, by decide, by decide, by decide, c2, h1, ?_⟩
  intro etgp hetgp
  obtain ⟨h3, h4, _⟩ := h2 chainSeg (by decide) etgp hetgp
  exact ⟨h3, h4⟩

theorem block_lt (k i p : Nat) (hi : i < k) (hp : p < k) : i * k + p < k * k := by
  have h : (i + 1) * k ≤ k * k := Nat.mul_le_mul_right k hi
  rw [Nat.add_mul, Nat.one_mul] at h
  omega

theorem block_inj (k i p i2 p2 : Nat) (hp : p < k) (hp2 : p2 < k)
    (h : i * k + p = i2 * k + p2) : i = i2 ∧ p = p2 := by
  rcases Nat.lt_trichotomy i i2 with hlt | heq | hgt
  · have h1 : (i + 1) * k ≤ i2 * k := Nat.mul_le_mul_right k hlt
    rw [Nat.add_mul, Nat.one_mul] at h1
    omega
  · subst heq
    exact ⟨rfl, by omega⟩
  · have h1 : (i2 + 1) * k ≤ i * k := Nat.mul_le_mul_right k hgt
    rw [Nat.add_mul, Nat.one_mul] at h1
    omega

theorem numAssignCols_append (a b : List OptEdge) :
    numAssignCols (a ++ b) = numAssignCols a + numAssignCols b := by
  simp [numAssignCols]

theorem numSumRows_append (a b : List OptEdge) :
    numSumRows (a ++ b) = numSumRows a + numSumRows b := by
  simp [numSumRows]

theorem numAssignCols_cons (e : OptEdge) (b : List OptEdge) :
    numAssignCols (e :: b)
      = e.front.etg.getCardinality true * e.front.etg.getCardinality true
        + numAssignCols b := by
  simp [numAssignCols]

theorem numSumRows_cons (e : OptEdge) (b : List OptEdge) :
    numSumRows (e :: b) = 2 * e.front.etg.getCardinality true + numSumRows b := by
  simp [numSumRows]

/-- Ordinal of an assignment column determines the segment, the line and the position. -/
theorem assign_index_inj (pre post pre2 post2 : List OptEdge) (e e2 : OptEdge)
    (i p i2 p2 : Nat) (hs : pre ++ e :: post = pre2 ++ e2 :: post2)
    (hi : i < e.front.etg.getCardinality true) (hp : p < e.front.etg.getCardinality true)
    (hi2 : i2 < e2.front.etg.getCardinality true) (hp2 : p2 < e2.front.etg.getCardinality true)
    (h : numAssignCols pre + 1 + i * e.front.etg.getCardinality true + p
      = numAssignCols pre2 + 1 + i2 * e2.front.etg.getCardinality true + p2) :
    pre = pre2 ∧ e = e2 ∧ i = i2 ∧ p = p2 := by
  have b1 := block_lt _ i p hi hp
  have b2 := block_lt _ i2 p2 hi2 hp2
  rcases List.append_eq_append_iff.1 hs with ⟨a, h1, h2⟩ | ⟨a, h1, h2⟩
  · cases a with
    | nil =>
      simp only [List.nil_append, List.cons.injEq] at h2
      simp only [List.append_nil] at h1
      obtain ⟨he, _⟩ := h2
      subst h1 he
      have := block_inj _ i p i2 p2 hp hp2 (by omega)
      exact ⟨rfl, rfl, this.1, this.2⟩
    | cons x xs =>
      simp only [List.cons_append, List.cons.injEq] at h2
      obtain ⟨he, _⟩ := h2
      subst he
      rw [h1, numAssignCols_append, numAssignCols_cons] at h
      omega
  · cases a with
    | nil =>
      simp only [List.nil_append, List.cons.injEq] at h2
      simp only [List.append_nil] at h1
      obtain ⟨he, _⟩ := h2
      subst h1 he
      have := block_inj _ i p i2 p2 hp hp2 (by omega)
      exact ⟨rfl, rfl, this.1, this.2⟩
    | cons x xs =>
      simp only [List.cons_append, List.cons.injEq] at h2
      obtain ⟨he, _⟩ := h2
      subst he
      rw [h1, numAssignCols_append, numAssignCols_cons] at h
      omega

/-- Ordinal of an assignment column is at most the number of assignment columns. -/
theorem assign_index_le (pre post : List OptEdge) (e : OptEdge) (i p : Nat)
    (hi : i < e.front.etg.getCardinality true) (hp : p < e.front.etg.getCardinality true) :
    numAssignCols pre + 1 + i * e.front.etg.getCardinality true + p
      ≤ numAssignCols (pre ++ e :: post) := by
  have b1 := block_lt _ i p hi hp
  rw [numAssignCols_append, numAssignCols_cons]
  omega

/-- Column found for an assignment name in a state that grew from the segments' model. -/
theorem assign_find_col_ext {P : Type} (env : Env P) (g : OptGraph) (b : Bld)
    (pre post : List OptEdge) (e : OptEdge) (i p : Nat) (r : Route)
    (hext : Ext (addSegments env g Bld.init) b) (hs : g.segments = pre ++ e :: post)
    (hnames : ((g.segments.flatMap (assignCols env)).map (fun c => c.name)).Nodup)
    (hr : e.front.etg.nonRelRoutes[i]? = some r) (hp : p < e.front.etg.getCardinality true) :
    glp_find_col b.lp (getILPVarName env e r p)
      = numAssignCols pre + 1 + i * e.front.etg.getCardinality true + p := by
  obtain ⟨dec, hd, _⟩ := hext.cols
  rw [(addSegments_spec env g).1] at hd
  have hget : (g.segments.flatMap (assignCols env))[numAssignCols pre
      + (i * e.front.etg.getCardinality true + p)]? = some (assignCol env e r p) := by
    rw [hs, List.flatMap_append, List.flatMap_cons, ← numAssignCols_eq env pre,
      ← List.append_assoc]
    exact getElem_append_mid _ _ _ _ _ (assignCols_getElem env e i p r hr hp)
  unfold glp_find_col
  rw [hd]
  have := findNameFrom_of_nodup _ dec 0 _ _ hnames hget
  simp only [assignCol] at this
  rw [this]
  omega

/-- Column found for a route that the reference edge carries by address. -/
theorem find_col_by_addr {P : Type} (env : Env P) (g : OptGraph) (b : Bld)
    (pre post : List OptEdge) (e : OptEdge) (p : Nat) (r : Route)
    (hext : Ext (addSegments env g Bld.init) b) (hs : g.segments = pre ++ e :: post)
    (hnames : ((g.segments.flatMap (assignCols env)).map (fun c => c.name)).Nodup)
    (ha : r.addr ∈ e.front.etg.nonRelRoutes.map (fun r => r.addr))
    (hp : p < e.front.etg.getCardinality true) :
    ∃ i r2, i < e.front.etg.getCardinality true ∧ e.front.etg.nonRelRoutes[i]? = some r2 ∧
      r2.addr = r.addr ∧
      glp_find_col b.lp (getILPVarName env e r p)
        = numAssignCols pre + 1 + i * e.front.etg.getCardinality true + p := by
  obtain ⟨r2, hr2, ha2⟩ := List.mem_map.1 ha
  obtain ⟨i, hi, hget⟩ := List.getElem_of_mem hr2
  have hg : e.front.etg.nonRelRoutes[i]? = some r2 := by
    rw [List.getElem?_eq_getElem hi, hget]
  refine ⟨i, r2, by rw [← nonRel_length]; exact hi, hg, ha2, ?_⟩
  rw [getILPVarName_congr env e r r2 p ha2.symm]
  exact assign_find_col_ext env g b pre post e i p r2 hext hs hnames hg hp

/-- Entries of the uniqueness rows of a list of segments: the two entries of every
assignment column of every segment. -/
theorem mem_segsEntries (es : List OptEdge) : ∀ (c r : Nat) (en : Entry),
    en ∈ segsEntries c r es ↔ ∃ pre e post i p, es = pre ++ e :: post ∧
      i < e.front.etg.getCardinality true ∧ p < e.front.etg.getCardinality true ∧
      (en = { row := r + numSumRows pre + e.front.etg.getCardinality true + 1 + i,
              col := c + numAssignCols pre + 1 + i * e.front.etg.getCardinality true + p,
              val := 1 } ∨
        en = { row := r + numSumRows pre + 1 + p,
               col := c + numAssignCols pre + 1 + i * e.front.etg.getCardinality true + p,
               val := 1 }) := by
  induction es with
  | nil => intro c r en; simp [segsEntries]
  | cons x xs ih =>
    intro c r en
    simp only [segsEntries, List.mem_append, mem_sumEntries, ih]
    constructor
    · rintro (⟨i, p, hi, hp, h⟩ | ⟨pre, e, post, i, p, hs, hi, hp, h⟩)
      · refine ⟨[], x, xs, i, p, rfl, hi, hp, ?_⟩
        simp only [numSumRows, numAssignCols, List.map_nil, List.sum_nil, Nat.add_zero]
        rcases h with h | h
        · left; rw [h]
        · right; rw [h]
      · refine ⟨x :: pre, e, post, i, p, by rw [hs]; rfl, hi, hp, ?_⟩
        rw [numSumRows_cons, numAssignCols_cons]
        rcases h with h | h
        · left; rw [h]; try (simp only [Entry.mk.injEq, and_true]; try (constructor <;> omega))
        · right; rw [h]; try (simp only [Entry.mk.injEq, and_true]; try (constructor <;> omega))
    · rintro ⟨pre, e, post, i, p, hs, hi, hp, h⟩
      cases pre with
      | nil =>
        simp only [List.nil_append, List.cons.injEq] at hs
        obtain ⟨rfl, rfl⟩ := hs
        left
        refine ⟨i, p, hi, hp, ?_⟩
        simp only [numSumRows, numAssignCols, List.map_nil, List.sum_nil, Nat.add_zero] at h
        rcases h with h | h
        · left; rw [h]
        · right; rw [h]
      | cons y ys =>
        simp only [List.cons_append, List.cons.injEq] at hs
        obtain ⟨rfl, rfl⟩ := hs
        right
        refine ⟨ys, e, post, i, p, rfl, hi, hp, ?_⟩
        rw [numSumRows_cons, numAssignCols_cons] at h
        rcases h with h | h
        · left; rw [h]; try (simp only [Entry.mk.injEq, and_true]; try (constructor <;> omega))
        · right; rw [h]; try (simp only [Entry.mk.injEq, and_true]; try (constructor <;> omega))

/-- Pairs of the entries of one segment's uniqueness rows are pairwise different. -/
theorem sumEntries_pairs_nodup (rowA c0 r0 k n : Nat) (hr : rowA + k ≤ r0) :
    ((sumEntries rowA c0 r0 k n).map (fun en => (en.row, en.col))).Nodup := by
  unfold sumEntries
  rw [List.map_flatMap, List.nodup_flatMap]
  constructor
  · intro m _
    rw [List.map_flatMap, List.nodup_flatMap]
    constructor
    · intro p hp
      have hp := List.mem_range.1 hp
      simp only [List.map_cons, List.map_nil, List.nodup_cons, List.mem_singleton,
        Prod.mk.injEq, List.not_mem_nil, not_false_eq_true, List.nodup_nil, and_true]
      omega
    · refine (List.nodup_range k).pairwise_of_forall_ne ?_
      intro p hp p2 hp2 hne x hx hx2
      simp only [List.map_cons, List.map_nil, List.mem_cons, List.mem_singleton,
        List.not_mem_nil, or_false] at hx hx2
      rcases hx with rfl | rfl <;> rcases hx2 with h | h <;>
        simp only [Prod.mk.injEq] at h <;> omega
  · refine (List.nodup_range n).pairwise_of_forall_ne ?_
    intro m hm m2 hm2 hne x hx hx2
    simp only [List.map_flatMap, List.mem_flatMap, List.mem_range, List.map_cons, List.map_nil,
      List.mem_cons, List.mem_singleton, List.not_mem_nil, or_false] at hx hx2
    obtain ⟨p, hp, hx⟩ := hx
    obtain ⟨p2, hp2, hx2⟩ := hx2
    have hcol : c0 + m * k + p = c0 + m2 * k + p2 := by
      rcases hx with rfl | rfl <;> rcases hx2 with h | h <;>
        simp only [Prod.mk.injEq] at h <;> omega
    exact hne (block_inj k m p m2 p2 hp hp2 (by omega)).1

theorem segsEntries_pairs_nodup (es : List OptEdge) : ∀ (c r : Nat),
    ((segsEntries c r es).map (fun en => (en.row, en.col))).Nodup := by
  induction es with
  | nil => intro c r; simp [segsEntries]
  | cons e es ih =>
    intro c r
    simp only [segsEntries, List.map_append]
    rw [List.nodup_append]
    refine ⟨sumEntries_pairs_nodup _ _ _ _ _ (by omega), ih _ _, ?_⟩
    intro x hx hx2
    obtain ⟨en, hen, rfl⟩ := List.mem_map.1 hx
    obtain ⟨en2, hen2, heq⟩ := List.mem_map.1 hx2
    have h1 := segsEntries_row_bounds es _ _ en2 hen2
    obtain ⟨m, p, hm, hp, h | h⟩ := (mem_sumEntries _ _ _ _ _ _).1 hen <;>
      subst h <;> simp only [Prod.mk.injEq] at heq <;> omega

theorem mem_getPositionCombinations2 (a b : OptEdge) (x : PosComPair)
    (h : x ∈ getPositionCombinations2 a b) :
    x.1.1 < a.front.etg.getCardinality true ∧ x.2.1 < a.front.etg.getCardinality true ∧
      x.1.2 < b.front.etg.getCardinality true ∧ x.2.2 < b.front.etg.getCardinality true := by
  rw [getPositionCombinations2_eq] at h
  obtain ⟨p, hp, h⟩ := List.mem_flatMap.1 h
  obtain ⟨q, hq, rfl⟩ := List.mem_map.1 h
  obtain ⟨p1, p2⟩ := p
  obtain ⟨q1, q2⟩ := q
  obtain ⟨h1, h2, _⟩ := (mem_getPositionCombinations a p1 p2).1 hp
  obtain ⟨h3, h4, _⟩ := (mem_getPositionCombinations b q1 q2).1 hq
  exact ⟨h1, h2, h3, h4⟩

theorem getEdgePartners_ne {P : Type} (env : Env P) (node : OptNode) (segmentA : OptEdge)
    (linepair : LinePair) (x : OptEdge)
    (h : x ∈ (getEdgePartners env node segmentA linepair).getD []) : x.addr ≠ segmentA.addr := by
  unfold getEdgePartners at h
  cases hA : (env.getAdjacentEdge segmentA node).getRouteOcc linepair.1 with
  | none => simp [hA] at h
  | some a =>
    cases hB : (env.getAdjacentEdge segmentA node).getRouteOcc linepair.2 with
    | none => simp [hA, hB] at h
    | some b =>
      simp only [hA, hB, Option.bind_eq_bind, Option.some_bind, Option.getD_some] at h
      have := (List.mem_filter.1 h).2
      intro heq
      simp [heq] at this

/-- Pairs stay pairwise different when a step appends entries of pairwise different
columns in a new row. -/
theorem pairs_append_new (b c : Bld) (ne : List Entry) (hb : b.Inv)
    (he : c.vm.entries = b.vm.entries ++ ne)
    (hn : ∀ en ∈ ne, en.row = b.lp.rows.length + 1)
    (hq : b.pairs.Nodup) (hcols : (ne.map (fun en => en.col)).Nodup) : c.pairs.Nodup := by
  unfold Bld.pairs at hq ⊢
  rw [he, List.map_append, List.nodup_append]
  refine ⟨hq, ?_, ?_⟩
  · refine List.Nodup.of_map (fun x : Nat × Nat => x.2) ?_
    rw [List.map_map]
    exact hcols
  · intro x hx hx2
    obtain ⟨en, hen, rfl⟩ := List.mem_map.1 hx
    obtain ⟨en2, hen2, heq⟩ := List.mem_map.1 hx2
    have h1 := hb.2.2 en hen
    have h2 := hn en2 hen2
    simp only [Prod.mk.injEq] at heq
    omega

/-- Columns of a same-segment crossing row: the four assignment columns and the decision
column are five different columns. -/
theorem sameEntries_cols_nodup {P : Type} (env : Env P) (g : OptGraph) (ok : CrossOk env g)
    (node : OptNode) (segA segB : OptEdge) (lp : LinePair) (poscomb : PosComPair)
    (row d : Nat) (b : Bld)
    (hn : node ∈ g.getNodes) (hA : segA ∈ node.adjList) (hl : lp ∈ getLinePairs segA)
    (hB : segB ∈ (getEdgePartners env node segA lp).getD [])
    (hc : poscomb ∈ getPositionCombinations2 segA segB)
    (hd : (addSegments env g Bld.init).lp.cols.length < d)
    (hext : Ext (addSegments env g Bld.init) b) :
    ((sameEntries env b.lp segA segB lp poscomb row d).map (fun en => en.col)).Nodup ∧
      ∀ x ∈ (sameEntries env b.lp segA segB lp poscomb row d).map (fun en => en.col),
        x = d ∨ (0 < x ∧ x ≤ numAssignCols g.segments) := by
  obtain ⟨p1, p2, p3, p4⟩ := mem_getPositionCombinations2 segA segB poscomb hc
  obtain ⟨hrA, hrB, hne⟩ := (mem_getLinePairs segA lp.1 lp.2).1 hl
  obtain ⟨preA, postA, hsA⟩ := List.append_of_mem (ok.segs node hn segA hA)
  have hBadj := getEdgePartners_subset env node segA lp segB hB
  obtain ⟨preB, postB, hsB⟩ := List.append_of_mem (ok.segs node hn segB hBadj)
  have hBne := getEdgePartners_ne env node segA lp segB hB
  obtain ⟨hpA, hpB⟩ := ok.partners node hn segA hA lp hl segB hB
  obtain ⟨i1, r1, hi1, hg1, ha1, f1⟩ := find_col_by_addr env g b preA postA segA
    poscomb.1.1 lp.1 hext hsA ok.names (List.mem_map_of_mem _ hrA) p1
  obtain ⟨i2, r2, hi2, hg2, ha2, f2⟩ := find_col_by_addr env g b preA postA segA
    poscomb.2.1 lp.2 hext hsA ok.names (List.mem_map_of_mem _ hrB) p2
  obtain ⟨i3, r3, hi3, hg3, ha3, f3⟩ := find_col_by_addr env g b preB postB segB
    poscomb.1.2 lp.1 hext hsB ok.names hpA p3
  obtain ⟨i4, r4, hi4, hg4, ha4, f4⟩ := find_col_by_addr env g b preB postB segB
    poscomb.2.2 lp.2 hext hsB ok.names hpB p4
  have hcols : (addSegments env g Bld.init).lp.cols.length = numAssignCols g.segments := by
    rw [(addSegments_spec env g).1, numAssignCols_eq]
  have l1 := assign_index_le preA postA segA i1 _ hi1 p1
  have l2 := assign_index_le preA postA segA i2 _ hi2 p2
  have l3 := assign_index_le preB postB segB i3 _ hi3 p3
  have l4 := assign_index_le preB postB segB i4 _ hi4 p4
  rw [← hsA] at l1 l2
  rw [← hsB] at l3 l4
  have hAB : segA ≠ segB := fun h => hBne (by rw [h])
  have hs2 : preA ++ segA :: postA = preB ++ segB :: postB := by rw [← hsA, ← hsB]
  have n12 : i1 ≠ i2 := by
    intro h
    rw [h, hg2] at hg1
    simp only [Option.some.injEq] at hg1
    rw [hg1] at ha2
    exact hne (ha1.symm.trans ha2)
  have n34 : i3 ≠ i4 := by
    intro h
    rw [h, hg4] at hg3
    simp only [Option.some.injEq] at hg3
    rw [hg3] at ha4
    exact hne (ha3.symm.trans ha4)
  have d12 := fun h => n12 (assign_index_inj preA postA preA postA segA segA i1 _ i2 _ rfl
    hi1 p1 hi2 p2 h).2.2.1
  have d34 := fun h => n34 (assign_index_inj preB postB preB postB segB segB i3 _ i4 _ rfl
    hi3 p3 hi4 p4 h).2.2.1
  have d13 := fun h => hAB (assign_index_inj preA postA preB postB segA segB i1 _ i3 _ hs2
    hi1 p1 hi3 p3 h).2.1
  have d14 := fun h => hAB (assign_index_inj preA postA preB postB segA segB i1 _ i4 _ hs2
    hi1 p1 hi4 p4 h).2.1
  have d23 := fun h => hAB (assign_index_inj preA postA preB postB segA segB i2 _ i3 _ hs2
    hi2 p2 hi3 p3 h).2.1
  have d24 := fun h => hAB (assign_index_inj preA postA preB postB segA segB i2 _ i4 _ hs2
    hi2 p2 hi4 p4 h).2.1
  simp only [sameEntries, List.map_cons, List.map_nil, f1, f2, f3, f4]
  constructor
  · simp only [List.nodup_cons, List.mem_cons, List.mem_singleton, List.not_mem_nil,
      not_or, not_false_eq_true, List.nodup_nil, and_true, or_false]
    refine ⟨⟨d12, d13, d14, by omega⟩, ⟨d23, d24, by omega⟩, ⟨d34, by omega⟩, by omega⟩
  · intro x hx
    simp only [List.mem_cons, List.mem_singleton, List.not_mem_nil, or_false] at hx
    rcases hx with rfl | rfl | rfl | rfl | rfl
    · right; omega
    · right; omega
    · right; omega
    · right; omega
    · left; rfl

/-- Columns of a different-segment crossing row: the two assignment columns and the
decision column are three different columns. -/
theorem diffEntries_cols_nodup {P : Type} (env : Env P) (g : OptGraph) (ok : CrossOk env g)
    (node : OptNode) (segA : OptEdge) (lp : LinePair) (poscomb : PosCom)
    (row d : Nat) (b : Bld)
    (hn : node ∈ g.getNodes) (hA : segA ∈ node.adjList) (hl : lp ∈ getLinePairs segA)
    (hc : poscomb ∈ getPositionCombinations segA)
    (hd : (addSegments env g Bld.init).lp.cols.length < d)
    (hext : Ext (addSegments env g Bld.init) b) :
    ((diffEntries env b.lp segA lp poscomb row d).map (fun en => en.col)).Nodup ∧
      ∀ x ∈ (diffEntries env b.lp segA lp poscomb row d).map (fun en => en.col),
        x = d ∨ (0 < x ∧ x ≤ numAssignCols g.segments) := by
  obtain ⟨q1, q2⟩ := poscomb
  obtain ⟨p1, p2, _⟩ := (mem_getPositionCombinations segA q1 q2).1 hc
  obtain ⟨hrA, hrB, hne⟩ := (mem_getLinePairs segA lp.1 lp.2).1 hl
  obtain ⟨preA, postA, hsA⟩ := List.append_of_mem (ok.segs node hn segA hA)
  obtain ⟨i1, r1, hi1, hg1, ha1, f1⟩ := find_col_by_addr env g b preA postA segA
    q1 lp.1 hext hsA ok.names (List.mem_map_of_mem _ hrA) p1
  obtain ⟨i2, r2, hi2, hg2, ha2, f2⟩ := find_col_by_addr env g b preA postA segA
    q2 lp.2 hext hsA ok.names (List.mem_map_of_mem _ hrB) p2
  have hcols : (addSegments env g Bld.init).lp.cols.length = numAssignCols g.segments := by
    rw [(addSegments_spec env g).1, numAssignCols_eq]
  have l1 := assign_index_le preA postA segA i1 _ hi1 p1
  have l2 := assign_index_le preA postA segA i2 _ hi2 p2
  rw [← hsA] at l1 l2
  have n12 : i1 ≠ i2 := by
    intro h
    rw [h, hg2] at hg1
    simp only [Option.some.injEq] at hg1
    rw [hg1] at ha2
    exact hne (ha1.symm.trans ha2)
  have d12 := fun h => n12 (assign_index_inj preA postA preA postA segA segA i1 _ i2 _ rfl
    hi1 p1 hi2 p2 h).2.2.1
  simp only [diffEntries, List.map_cons, List.map_nil, f1, f2]
  constructor
  · simp only [List.nodup_cons, List.mem_cons, List.mem_singleton, List.not_mem_nil,
      not_or, not_false_eq_true, List.nodup_nil, and_true, or_false]
    refine ⟨⟨d12, by omega⟩, by omega⟩
  · intro x hx
    simp only [List.mem_cons, List.mem_singleton, List.not_mem_nil, or_false] at hx
    rcases hx with rfl | rfl | rfl
    · right; omega
    · right; omega
    · left; rfl

theorem foldlM_inv_mem {α β : Type} (Q : β → Prop) (f : β → α → Option β) (l : List α) :
    (∀ x ∈ l, ∀ b c, Q b → f b x = some c → Q c) →
    ∀ b c, Q b → l.foldlM f b = some c → Q c := by
  induction l with
  | nil =>
    intro _ b c hb h
    simp only [List.foldlM_nil, pure, Option.some.injEq] at h
    subst h; exact hb
  | cons x l ih =>
    intro hf b c hb h
    rw [List.foldlM_cons] at h
    cases hx : f b x with
    | none => rw [hx] at h; exact absurd h (by simp)
    | some b1 =>
      rw [hx] at h
      exact ih (fun y hy => hf y (List.mem_cons_of_mem _ hy)) b1 c
        (hf x (List.mem_cons_self _ _) b b1 hb hx) h

theorem ext_cols_length {b c : Bld} (h : Ext b c) : b.lp.cols.length ≤ c.lp.cols.length := by
  obtain ⟨nc, hc, _⟩ := h.cols
  rw [hc, List.length_append]
  omega

theorem sameSegPosStep_stage {P : Type} (env : Env P) (g : OptGraph) (ok : CrossOk env g)
    (node : OptNode) (segA segB : OptEdge) (lp : LinePair) (poscomb : PosComPair)
    (d : Nat) (b c : Bld)
    (hn : node ∈ g.getNodes) (hA : segA ∈ node.adjList) (hl : lp ∈ getLinePairs segA)
    (hB : segB ∈ (getEdgePartners env node segA lp).getD [])
    (hc : poscomb ∈ getPositionCombinations2 segA segB)
    (hd : (addSegments env g Bld.init).lp.cols.length < d)
    (hq : Ext (addSegments env g Bld.init) b ∧ b.pairs.Nodup)
    (h : sameSegPosStep env node segA segB lp d b poscomb = some c) :
    Ext (addSegments env g Bld.init) c ∧ c.pairs.Nodup := by
  refine ⟨hq.1.trans (sameSegPosStep_ext env node segA segB lp d b poscomb c hq.1.inv h), ?_⟩
  cases hx : crosses env node segA segB poscomb with
  | none => simp [sameSegPosStep, hx] at h
  | some t =>
    cases t with
    | false =>
      rw [sameSegPosStep_false env node segA segB lp d b poscomb hx] at h
      simp only [Option.some.injEq] at h
      subst h; exact hq.2
    | true =>
      obtain ⟨_, _, _, _, _, he⟩ := sameSegPosStep_true env node segA segB
        lp d b c poscomb hx hq.1.inv.1 hq.1.inv.2.1 h
      refine pairs_append_new b c _ hq.1.inv he ?_ hq.2
        (sameEntries_cols_nodup env g ok node segA segB lp poscomb _ d b hn hA hl hB hc hd
          hq.1).1
      intro en hen
      simp only [sameEntries, List.mem_cons, List.mem_singleton, List.not_mem_nil,
        or_false] at hen
      rcases hen with rfl | rfl | rfl | rfl | rfl <;> rfl

theorem diffSegPosStep_stage {P : Type} (env : Env P) (g : OptGraph) (ok : CrossOk env g)
    (node : OptNode) (segA : OptEdge) (segments : EdgePair) (lp : LinePair)
    (poscomb : PosCom) (d : Nat) (b c : Bld)
    (hn : node ∈ g.getNodes) (hA : segA ∈ node.adjList) (hl : lp ∈ getLinePairs segA)
    (hc : poscomb ∈ getPositionCombinations segA)
    (hd : (addSegments env g Bld.init).lp.cols.length < d)
    (hq : Ext (addSegments env g Bld.init) b ∧ b.pairs.Nodup)
    (h : diffSegPosStep env node segA segments lp d b poscomb = some c) :
    Ext (addSegments env g Bld.init) c ∧ c.pairs.Nodup := by
  refine ⟨hq.1.trans (diffSegPosStep_ext env node segA segments lp d b poscomb c hq.1.inv h),
    ?_⟩
  cases hx : crossesDiff env node segA segments poscomb with
  | none => simp [diffSegPosStep, hx] at h
  | some t =>
    cases t with
    | false =>
      rw [diffSegPosStep_false env node segA segments lp d b poscomb hx] at h
      simp only [Option.some.injEq] at h
      subst h; exact hq.2
    | true =>
      obtain ⟨_, _, _, _, _, he⟩ := diffSegPosStep_true env node segA segments
        lp d b c poscomb hx hq.1.inv.1 hq.1.inv.2.1 h
      refine pairs_append_new b c _ hq.1.inv he ?_ hq.2
        (diffEntries_cols_nodup env g ok node segA lp poscomb _ d b hn hA hl hc hd hq.1).1
      intro en hen
      simp only [diffEntries, List.mem_cons, List.mem_singleton, List.not_mem_nil,
        or_false] at hen
      rcases hen with rfl | rfl | rfl <;> rfl

theorem sameSegPartnerStep_stage {P : Type} (env : Env P) (g : OptGraph) (ok : CrossOk env g)
    (node : OptNode) (processed : List Nat) (segA segB : OptEdge) (lp : LinePair) (b c : Bld)
    (hn : node ∈ g.getNodes) (hA : segA ∈ node.adjList) (hl : lp ∈ getLinePairs segA)
    (hB : segB ∈ (getEdgePartners env node segA lp).getD [])
    (hq : Ext (addSegments env g Bld.init) b ∧ b.pairs.Nodup)
    (h : sameSegPartnerStep env node processed segA lp b segB = some c) :
    Ext (addSegments env g Bld.init) c ∧ c.pairs.Nodup := by
  cases hp : processed.contains segB.addr with
  | true =>
    simp only [sameSegPartnerStep, hp, if_true, Option.some.injEq] at h
    subst h; exact hq
  | false =>
    rw [sameSegPartnerStep_eq env node processed segA lp b segB hp] at h
    have e1 := addDec_ext b (sameDecCol env node segA segB lp) hq.1.inv
      (sameDecCol_isDec env node segA segB lp)
    have hd := ext_cols_length hq.1
    exact foldlM_inv_mem (fun b => Ext (addSegments env g Bld.init) b ∧ b.pairs.Nodup) _ _
      (fun x hx b1 c1 hb1 h1 => sameSegPosStep_stage env g ok node segA segB lp x _ b1 c1
        hn hA hl hB hx (by omega) hb1 h1) _ c ⟨hq.1.trans e1, hq.2⟩ h

theorem diffSegPartnerStep_stage {P : Type} (env : Env P) (g : OptGraph) (ok : CrossOk env g)
    (node : OptNode) (segA : OptEdge) (segments : EdgePair) (lp : LinePair) (b c : Bld)
    (hn : node ∈ g.getNodes) (hA : segA ∈ node.adjList) (hl : lp ∈ getLinePairs segA)
    (hq : Ext (addSegments env g Bld.init) b ∧ b.pairs.Nodup)
    (h : diffSegPartnerStep env node segA lp b segments = some c) :
    Ext (addSegments env g Bld.init) c ∧ c.pairs.Nodup := by
  rw [diffSegPartnerStep_eq] at h
  have e1 := addDec_ext b (diffDecCol env node segA segments lp) hq.1.inv
    (diffDecCol_isDec env node segA segments lp)
  have hd := ext_cols_length hq.1
  exact foldlM_inv_mem (fun b => Ext (addSegments env g Bld.init) b ∧ b.pairs.Nodup) _ _
    (fun x hx b1 c1 hb1 h1 => diffSegPosStep_stage env g ok node segA segments lp x _ b1 c1
      hn hA hl hx (by omega) hb1 h1) _ c ⟨hq.1.trans e1, hq.2⟩ h

theorem sameSegLineStep_stage {P : Type} (env : Env P) (g : OptGraph) (ok : CrossOk env g)
    (node : OptNode) (processed : List Nat) (segA : OptEdge) (lp : LinePair) (b c : Bld)
    (hn : node ∈ g.getNodes) (hA : segA ∈ node.adjList) (hl : lp ∈ getLinePairs segA)
    (hq : Ext (addSegments env g Bld.init) b ∧ b.pairs.Nodup)
    (h : sameSegLineStep env node processed segA b lp = some c) :
    Ext (addSegments env g Bld.init) c ∧ c.pairs.Nodup := by
  unfold sameSegLineStep at h
  cases hp : getEdgePartners env node segA lp with
  | none => simp [hp] at h
  | some ps =>
    simp only [hp, Option.bind_eq_bind, Option.some_bind] at h
    exact foldlM_inv_mem (fun b => Ext (addSegments env g Bld.init) b ∧ b.pairs.Nodup) _ _
      (fun x hx b1 c1 hb1 h1 => sameSegPartnerStep_stage env g ok node processed segA x lp
        b1 c1 hn hA hl (by rw [hp]; exact hx) hb1 h1) _ c hq h

theorem diffSegLineStep_stage {P : Type} (env : Env P) (g : OptGraph) (ok : CrossOk env g)
    (node : OptNode) (segA : OptEdge) (lp : LinePair) (b c : Bld)
    (hn : node ∈ g.getNodes) (hA : segA ∈ node.adjList) (hl : lp ∈ getLinePairs segA)
    (hq : Ext (addSegments env g Bld.init) b ∧ b.pairs.Nodup)
    (h : diffSegLineStep env node segA b lp = some c) :
    Ext (addSegments env g Bld.init) c ∧ c.pairs.Nodup := by
  unfold diffSegLineStep at h
  cases hp : getEdgePartnerPairs env node segA lp with
  | none => simp [hp] at h
  | some ps =>
    simp only [hp, Option.bind_eq_bind, Option.some_bind] at h
    exact foldlM_inv_mem (fun b => Ext (addSegments env g Bld.init) b ∧ b.pairs.Nodup) _ _
      (fun x _ b1 c1 hb1 h1 => diffSegPartnerStep_stage env g ok node segA x lp
        b1 c1 hn hA hl hb1 h1) _ c hq h

theorem sameSegStep_stage {P : Type} (env : Env P) (g : OptGraph) (ok : CrossOk env g)
    (node : OptNode) (segA : OptEdge) (st st2 : List Nat × Bld)
    (hn : node ∈ g.getNodes) (hA : segA ∈ node.adjList)
    (hq : Ext (addSegments env g Bld.init) st.2 ∧ st.2.pairs.Nodup)
    (h : sameSegStep env node st segA = some st2) :
    Ext (addSegments env g Bld.init) st2.2 ∧ st2.2.pairs.Nodup := by
  unfold sameSegStep at h
  cases hp : (getLinePairs segA).foldlM
      (sameSegLineStep env node (segA.addr :: st.1) segA) st.2 with
  | none => simp [hp] at h
  | some c =>
    simp only [hp, Option.bind_eq_bind, Option.some_bind, Option.some.injEq] at h
    subst h
    exact foldlM_inv_mem (fun b => Ext (addSegments env g Bld.init) b ∧ b.pairs.Nodup) _ _
      (fun x hx b1 c1 hb1 h1 => sameSegLineStep_stage env g ok node _ segA x b1 c1
        hn hA hx hb1 h1) _ c hq hp

/-- Same-segment pass: the pairs stay pairwise different. -/
theorem writeSameSegConstraints_stage {P : Type} (env : Env P) (g : OptGraph)
    (ok : CrossOk env g) (b c : Bld)
    (hq : Ext (addSegments env g Bld.init) b ∧ b.pairs.Nodup)
    (h : writeSameSegConstraints env g b = some c) :
    Ext (addSegments env g Bld.init) c ∧ c.pairs.Nodup := by
  unfold writeSameSegConstraints at h
  refine foldlM_inv_mem (fun b => Ext (addSegments env g Bld.init) b ∧ b.pairs.Nodup) _ _
    ?_ _ c hq h
  intro node hn b1 c1 hb1 h1
  unfold sameSegNodeStep at h1
  cases hp : node.adjList.foldlM (sameSegStep env node) ([], b1) with
  | none => simp [hp] at h1
  | some st =>
    simp only [hp, Option.bind_eq_bind, Option.some_bind, Option.some.injEq] at h1
    subst h1
    exact foldlM_inv_mem
      (fun st : List Nat × Bld => Ext (addSegments env g Bld.init) st.2 ∧ st.2.pairs.Nodup)
      _ _ (fun x hx s1 s2 hs1 hs => sameSegStep_stage env g ok node x s1 s2 hn hx hs1 hs)
      _ st hb1 hp

/-- Different-segment pass: the pairs stay pairwise different. -/
theorem writeDiffSegConstraints_stage {P : Type} (env : Env P) (g : OptGraph)
    (ok : CrossOk env g) (b c : Bld)
    (hq : Ext (addSegments env g Bld.init) b ∧ b.pairs.Nodup)
    (h : writeDiffSegConstraints env g b = some c) :
    Ext (addSegments env g Bld.init) c ∧ c.pairs.Nodup := by
  unfold writeDiffSegConstraints at h
  refine foldlM_inv_mem (fun b => Ext (addSegments env g Bld.init) b ∧ b.pairs.Nodup) _ _
    ?_ _ c hq h
  intro node hn b1 c1 hb1 h1
  refine foldlM_inv_mem (fun b => Ext (addSegments env g Bld.init) b ∧ b.pairs.Nodup) _ _
    ?_ _ c1 hb1 h1
  intro segA hA b2 c2 hb2 h2
  unfold diffSegStep at h2
  exact foldlM_inv_mem (fun b => Ext (addSegments env g Bld.init) b ∧ b.pairs.Nodup) _ _
    (fun x hx b3 c3 hb3 h3 => diffSegLineStep_stage env g ok node segA x b3 c3
      hn hA hx hb3 h3) _ c2 hb2 h2

/-- Buffer of the finished model: no pair (row, column) occurs twice. -/
theorem createProblem_pairs_nodup {P : Type} (env : Env P) (g : OptGraph) (m : Bld)
    (ok : CrossOk env g) (h : createProblem env g = some m) : m.pairs.Nodup := by
  obtain ⟨b1, h1, h2, _, _⟩ := createProblem_some env g m h
  have q0 : Ext (addSegments env g Bld.init) (addSegments env g Bld.init) ∧
      (addSegments env g Bld.init).pairs.Nodup := by
    refine ⟨Ext.refl (addSegments_inv env g), ?_⟩
    unfold Bld.pairs
    rw [(addSegments_spec env g).2.2.2.2]
    exact segsEntries_pairs_nodup _ _ _
  exact (writeDiffSegConstraints_stage env g ok b1 m
    (writeSameSegConstraints_stage env g ok _ b1 q0 h1) h2).2

theorem rowEntries_cols_nodup (es : List Entry) (j : Nat)
    (h : (es.map (fun en => (en.row, en.col))).Nodup) :
    ((rowEntries es j).map (fun en => en.col)).Nodup := by
  unfold rowEntries
  have h1 : ((es.filter (fun en => en.row = j)).map (fun en => (en.row, en.col))).Nodup :=
    (List.filter_sublist es).map _ |>.nodup h
  have h2 : (es.filter (fun en => decide (en.row = j))).map (fun en => (en.row, en.col))
      = ((es.filter (fun en => decide (en.row = j))).map (fun en => en.col)).map
          (fun c => (j, c)) := by
    rw [List.map_map]
    apply List.map_congr_left
    intro en hen
    have := (List.mem_filter.1 hen).2
    simp only [decide_eq_true_eq] at this
    simp [this]
  rw [h2] at h1
  exact List.Nodup.of_map _ h1

theorem filter_eq_length_one (l : List (Nat × Nat)) (x : Nat × Nat) (hnd : l.Nodup)
    (hx : x ∈ l) : (l.filter (fun y => decide (y = x))).length = 1 := by
  induction l with
  | nil => simp at hx
  | cons a l ih =>
    rw [List.nodup_cons] at hnd
    by_cases ha : a = x
    · subst ha
      have : l.filter (fun y => decide (y = a)) = [] := by
        rw [List.filter_eq_nil_iff]
        intro y hy
        have : y ≠ a := fun h => hnd.1 (h ▸ hy)
        simpa using this
      rw [List.filter_cons, if_pos (by simp), this]
      rfl
    · have hx2 : x ∈ l := by
        rcases List.mem_cons.1 hx with h | h
        · exact absurd h.symm ha
        · exact h
      rw [List.filter_cons, if_neg (by simpa using ha)]
      exact ih hnd.2 hx2

/-- C32: in the buffer of the model that `createProblem` builds for a graph whose
assignment columns have pairwise different names, whose nodes meet segments of the graph
and whose same-segment partners carry the lines of the pair, no pair (row, column) occurs
twice, so every row holds each of its columns once. The column of a line at a position
occurs once in the position-sum row and once in the line-sum row of its segment, which
differ, and in no other uniqueness row. The four assignment columns of a same-segment
combination are four different columns, the two of a different-segment combination two
different columns, and none of them is the decision column. -/
theorem triple_buffer_pairs_once {P : Type} (env : Env P) (g : OptGraph) (m : Bld)
    (ok : CrossOk env g) (h : createProblem env g = some m) :
    m.pairs.Nodup ∧
    (∀ j, ((rowEntries m.vm.entries j).map (fun en => en.col)).Nodup) ∧
    (∀ pre e post i p, g.segments = pre ++ e :: post →
      i < e.front.etg.getCardinality true → p < e.front.etg.getCardinality true →
      (m.pairs.filter (fun x => decide (x = (numSumRows pre + 1 + p,
        numAssignCols pre + 1 + i * e.front.etg.getCardinality true + p)))).length = 1 ∧
      (m.pairs.filter (fun x => decide (x =
        (numSumRows pre + e.front.etg.getCardinality true + 1 + i,
          numAssignCols pre + 1 + i * e.front.etg.getCardinality true + p)))).length = 1 ∧
      numSumRows pre + 1 + p ≠ numSumRows pre + e.front.etg.getCardinality true + 1 + i ∧
      ∀ en ∈ m.vm.entries,
        en.col = numAssignCols pre + 1 + i * e.front.etg.getCardinality true + p →
        en.row ≤ numSumRows g.segments →
        en.row = numSumRows pre + 1 + p ∨
          en.row = numSumRows pre + e.front.etg.getCardinality true + 1 + i) ∧
    (∀ node ∈ g.getNodes, ∀ segA ∈ node.adjList, ∀ lp ∈ getLinePairs segA,
      ∀ segB ∈ (getEdgePartners env node segA lp).getD [],
      ∀ poscomb ∈ getPositionCombinations2 segA segB, ∀ row d, numAssignCols g.segments < d →
        ((sameEntries env m.lp segA segB lp poscomb row d).map (fun en => en.col)).Nodup) ∧
    (∀ node ∈ g.getNodes, ∀ segA ∈ node.adjList, ∀ lp ∈ getLinePairs segA,
      ∀ poscomb ∈ getPositionCombinations segA, ∀ row d, numAssignCols g.segments < d →
        ((diffEntries env m.lp segA lp poscomb row d).map (fun en => en.col)).Nodup) := by
  have hnd := createProblem_pairs_nodup env g m ok h
  have hext := createProblem_ext env g m h
  have hcols : (addSegments env g Bld.init).lp.cols.length = numAssignCols g.segments := by
    rw [(addSegments_spec env g).1, numAssignCols_eq]
  have hrows : (addSegments env g Bld.init).lp.rows.length = numSumRows g.segments := by
    rw [(addSegments_spec env g).2.1, numSumRows_eq]
  refine ⟨hnd, fun j => rowEntries_cols_nodup _ j hnd, ?_, ?_, ?_⟩
  · intro pre e post i p hs hi hp
    obtain ⟨ne, hne, hnew⟩ := hext.ents
    rw [(addSegments_spec env g).2.2.2.2] at hne
    have hin : ∀ en, en ∈ segsEntries 0 0 g.segments → (en.row, en.col) ∈ m.pairs := by
      intro en hen
      unfold Bld.pairs
      rw [hne]
      exact List.mem_map.2 ⟨en, List.mem_append.2 (Or.inl hen), rfl⟩
    have m1 := hin _ ((mem_segsEntries g.segments 0 0 _).2
      ⟨pre, e, post, i, p, hs, hi, hp, Or.inr rfl⟩)
    have m2 := hin _ ((mem_segsEntries g.segments 0 0 _).2
      ⟨pre, e, post, i, p, hs, hi, hp, Or.inl rfl⟩)
    simp only [Nat.zero_add] at m1 m2
    refine ⟨filter_eq_length_one _ _ hnd m1, filter_eq_length_one _ _ hnd m2, by omega, ?_⟩
    intro en hen hcol hrow
    rw [hne] at hen
    rcases List.mem_append.1 hen with hen | hen
    · obtain ⟨pre2, e2, post2, i2, p2, hs2, hi2, hp2, hcase⟩ :=
        (mem_segsEntries g.segments 0 0 en).1 hen
      have hcol2 : numAssignCols pre2 + 1 + i2 * e2.front.etg.getCardinality true + p2
          = numAssignCols pre + 1 + i * e.front.etg.getCardinality true + p := by
        rcases hcase with rfl | rfl <;> simpa using hcol
      obtain ⟨rfl, rfl, rfl, rfl⟩ := assign_index_inj pre2 post2 pre post e2 e i2 p2 i p
        (by rw [← hs2, ← hs]) hi2 hp2 hi hp hcol2
      rcases hcase with rfl | rfl
      · right; simp
      · left; simp
    · have := hnew en hen
      omega
  · intro node hn segA hA lp hl segB hB poscomb hc row d hd
    exact (sameEntries_cols_nodup env g ok node segA segB lp poscomb row d m hn hA hl hB hc
      (by omega) hext).1
  · intro node hn segA hA lp hl poscomb hc row d hd
    exact (diffEntries_cols_nodup env g ok node segA lp poscomb row d m hn hA hl hc
      (by omega) hext).1

theorem triple_buffer_pairs_once_witness :
    CrossOk sampleEnv crossGraph ∧
    createProblem sampleEnv crossGraph = some (modelOf crossGraph) ∧
    (modelOf crossGraph).pairs.length = 36 ∧ (modelOf crossGraph).pairs.Nodup ∧
    ((modelOf crossGraph).pairs.filter (fun x => decide (x = (1, 1)))).length = 1 ∧
    ((modelOf crossGraph).pairs.filter (fun x => decide (x = (3, 1)))).length = 1 :=
  ⟨⟨by decide, by decide, by decide⟩, by rfl, by decide,
    (triple_buffer_pairs_once sampleEnv crossGraph (modelOf crossGraph)
      ⟨by decide, by decide, by decide⟩ (by rfl)).1,
    ((triple_buffer_pairs_once sampleEnv crossGraph (modelOf crossGraph)
      ⟨by decide, by decide, by decide⟩ (by rfl)).2.2.1 [] crossSegA [crossSegB] 0 0
      (by rfl) (by decide) (by decide)).1,
    ((triple_buffer_pairs_once sampleEnv crossGraph (modelOf crossGraph)
      ⟨by decide, by decide, by decide⟩ (by rfl)).2.2.1 [] crossSegA [crossSegB] 0 0
      (by rfl) (by decide) (by decide)).2.1⟩

end Loom
